import Mathlib

/-!
# The process subsystem of `kernel/proc.c`

A shallow embedding of the process table, the four intrusive list families
(`UNUSED`, `SLEEPING`, `ZOMBIE`, one `RUNNABLE` list per CPU), the CAS counters and
the lifecycle operations of `kernel/proc.c`.

* The process table `proc[NPROC]` is a function on `Fin NPROC`; a `struct proc *`
  is an `Option (Fin NPROC)` (`none` is the null pointer).
* `cpus[NCPU]` is a function on `Fin NCPU`; a CPU number is a C `int`, so indexing
  `cpus[i]` or `ready_list_head_locks[i]` outside the array is reported as the
  fault `out_of_bounds`.
* Every operation is run to completion on its own, no other CPU interleaving.  Under
  that reading a CAS loop runs its body once, and `acquire`/`release` never wait: the
  list-head locks and the per-process `link_lock`s are book-kept in the field `held`;
  `p->lock`, `wait_lock` and `pid_lock` guard against interleavings only and are
  not tracked.
* A list walk is cut after `NPROC + 1` nodes: a chain over `NPROC` slots that has
  not reached the null terminator by then has revisited a slot, and the C loop never
  exits.  This is reported as the fault `hang`.
* The saved kernel registers (`context`, `kstack`) belong to the context switch and
  are not modelled; no operation below reads them.
-/

namespace Xv6

/-! ## Constants and data model -/

/-- The compile-time constants: `NPROC`, `NCPU`, `NOFILE` (param.h), `CPUS` and the
balancer knob `BLNCFLG` (build flags).  None of them is declared in proc.c. -/
structure param where
  NPROC : Nat
  NCPU : Nat
  CPUS : Nat
  NOFILE : Nat
  BLNCFLG : Bool

/-- Mirror of `enum procstate`. -/
inductive procstate
  | UNUSED | USED | SLEEPING | RUNNABLE | RUNNING | ZOMBIE
  deriving DecidableEq, Repr

/-- The ways a modelled run can fail to return normally. -/
inductive fault
  /-- `panic("list type doesn't exist")` -/
  | panic_list_type
  /-- `panic("init exiting")` -/
  | panic_init_exiting
  /-- `panic("proc is not RUNNABLE")` -/
  | panic_not_runnable
  /-- `panic("sched running")` -/
  | panic_sched_running
  /-- an array indexed outside its bounds -/
  | out_of_bounds
  /-- a null pointer dereferenced -/
  | null_deref
  /-- a loop that never exits -/
  | hang
  deriving DecidableEq, Repr

/-- The trapframe page.  `struct trapframe` is declared in proc.h; proc.c names the
registers `epc`, `sp` and `a0`, all the other saved registers are kept in `regs`. -/
structure trapframe where
  epc : Nat
  sp : Nat
  a0 : Nat
  regs : List Nat
  deriving DecidableEq, Repr

/-- A wait channel (`void *chan`): the address of a process record, or any other
kernel address. -/
inductive chan_t (K : param)
  | proc_addr (p : Fin K.NPROC)
  | addr (a : Nat)
  deriving DecidableEq

/-- Mirror of `struct proc` (the fields proc.c uses).  The array `name` is the list of
its characters. -/
structure proc (K : param) where
  state : procstate
  pid : Int
  parent : Option (Fin K.NPROC)
  chan : Option (chan_t K)
  killed : Int
  xstate : Int
  cpu_num : Int
  next : Option (Fin K.NPROC)
  trapframe : Option trapframe
  pagetable : Option Nat
  sz : Nat
  ofile : Fin K.NOFILE → Option Nat
  cwd : Option Nat
  name : List Nat
  deriving DecidableEq

/-- Mirror of `struct cpu` (the fields proc.c uses). -/
structure cpu (K : param) where
  proc : Option (Fin K.NPROC)
  runnable_list_head : Option (Fin K.NPROC)
  proc_list_size : Int
  admitted_process_count : Int
  deriving DecidableEq

/-- The list-head locks and the per-process link locks. -/
inductive lock_id (K : param)
  | ready_list_head_locks (c : Fin K.CPUS)
  | zombie_list_head_lock
  | sleeping_list_head_lock
  | unused_list_head_lock
  | link_lock (p : Fin K.NPROC)
  deriving DecidableEq

/-- One word stored in user memory by `copyout`: page table, user address, value. -/
structure copyout_rec where
  pagetable : Option Nat
  addr : Nat
  value : Int
  deriving DecidableEq, Repr

/-- The globals of proc.c.  `held` lists the list-head and link locks currently held
(latest first); `copied_out` lists the words `copyout` has stored in user memory
(latest first), user memory being the VM collaborator's. -/
structure kernel (K : param) where
  procs : Fin K.NPROC → proc K
  cpus : Fin K.NCPU → cpu K
  zombie_list : Option (Fin K.NPROC)
  sleeping_list : Option (Fin K.NPROC)
  unused_list : Option (Fin K.NPROC)
  initproc : Option (Fin K.NPROC)
  nextpid : Int
  is_initialize : Int
  held : List (lock_id K)
  copied_out : List copyout_rec
  deriving DecidableEq

variable {K : param}

/-! ## Locks and array indexing -/

/-- `acquire(lk)`: the lock is now held.  The lock is recorded whether or not it was
held before; the source spins (or panics, on the same CPU) when it was, so a statement
that a call returns is about the source only from states where the locks the call
takes are free, which `held = []` says. -/
def acquire (l : lock_id K) (s : kernel K) : kernel K :=
  { s with held := l :: s.held }

/-- `release(lk)`: one holding of the lock is dropped. -/
def release (l : lock_id K) (s : kernel K) : kernel K :=
  { s with held := s.held.erase l }

/-- Index into `cpus[NCPU]`. -/
def cpus_index (K : param) (i : Int) : Option (Fin K.NCPU) :=
  if h : 0 ≤ i ∧ i < K.NCPU then some ⟨i.toNat, by omega⟩ else none

/-- Index into `ready_list_head_locks[CPUS]`. -/
def locks_index (K : param) (i : Int) : Option (Fin K.CPUS) :=
  if h : 0 ≤ i ∧ i < K.CPUS then some ⟨i.toNat, by omega⟩ else none

/-- Store to `p->next`. -/
def set_next (s : kernel K) (p : Fin K.NPROC) (nx : Option (Fin K.NPROC)) : kernel K :=
  { s with procs := Function.update s.procs p { s.procs p with next := nx } }

/-- Store to `cpus[c]`. -/
def set_cpus (s : kernel K) (c : Fin K.NCPU) (v : cpu K) : kernel K :=
  { s with cpus := Function.update s.cpus c v }

/-- Store to `*p`. -/
def set_proc (s : kernel K) (p : Fin K.NPROC) (v : proc K) : kernel K :=
  { s with procs := Function.update s.procs p v }

/-! ## List heads -/

def acquire_list (list_type : procstate) (cpu_num : Int) (s : kernel K) :
    Except fault (kernel K) :=
  match list_type with
  | .RUNNABLE =>
    match locks_index K cpu_num with
    | some c => .ok (acquire (.ready_list_head_locks c) s)
    | none => .error .out_of_bounds
  | .ZOMBIE => .ok (acquire .zombie_list_head_lock s)
  | .SLEEPING => .ok (acquire .sleeping_list_head_lock s)
  | .UNUSED => .ok (acquire .unused_list_head_lock s)
  | _ => .error .panic_list_type

def release_list (list_type : procstate) (cpu_num : Int) (s : kernel K) :
    Except fault (kernel K) :=
  match list_type with
  | .RUNNABLE =>
    match locks_index K cpu_num with
    | some c => .ok (release (.ready_list_head_locks c) s)
    | none => .error .out_of_bounds
  | .ZOMBIE => .ok (release .zombie_list_head_lock s)
  | .SLEEPING => .ok (release .sleeping_list_head_lock s)
  | .UNUSED => .ok (release .unused_list_head_lock s)
  | _ => .error .panic_list_type

def get_head (list_type : procstate) (cpu_num : Int) (s : kernel K) :
    Except fault (Option (Fin K.NPROC)) :=
  match list_type with
  | .RUNNABLE =>
    match cpus_index K cpu_num with
    | some c => .ok (s.cpus c).runnable_list_head
    | none => .error .out_of_bounds
  | .ZOMBIE => .ok s.zombie_list
  | .SLEEPING => .ok s.sleeping_list
  | .UNUSED => .ok s.unused_list
  | _ => .error .panic_list_type

def set_head (new_head : Option (Fin K.NPROC)) (list_type : procstate) (cpu_num : Int)
    (s : kernel K) : Except fault (kernel K) :=
  match list_type with
  | .RUNNABLE =>
    match cpus_index K cpu_num with
    | some c => .ok (set_cpus s c { s.cpus c with runnable_list_head := new_head })
    | none => .error .out_of_bounds
  | .ZOMBIE => .ok { s with zombie_list := new_head }
  | .SLEEPING => .ok { s with sleeping_list := new_head }
  | .UNUSED => .ok { s with unused_list := new_head }
  | _ => .error .panic_list_type

/-! ## The three list primitives -/

/-- The `while(curr)` loop of `remove_proc_from_list`; the first argument bounds the
number of nodes visited. -/
def remove_proc_from_list_loop (p : Fin K.NPROC) (list_type : procstate) :
    Nat → kernel K → Option (Fin K.NPROC) → Option (Fin K.NPROC) →
    Except fault (Int × kernel K)
  | 0, _, _, _ => .error .hang
  | _ + 1, s, _, none => .ok (0, s)
  | fuel + 1, s, prev, some curr =>
    let s1 := acquire (.link_lock curr) s
    if p = curr then
      match prev with
      | none => .error .null_deref
      | some pv =>
        let s2 := set_next s1 pv (s1.procs curr).next
        let s3 := set_next s2 curr none
        let s4 := release (.link_lock curr) s3
        let s5 := release (.link_lock pv) s4
        .ok (1, s5)
    else
      match (match prev with
             | none => release_list list_type (s1.procs p).cpu_num s1
             | some pv => Except.ok (release (.link_lock pv) s1)) with
      | .error e => .error e
      | .ok s2 => remove_proc_from_list_loop p list_type fuel s2 (some curr) (s2.procs curr).next

def remove_proc_from_list (p : Fin K.NPROC) (list_type : procstate) (s : kernel K) :
    Except fault (Int × kernel K) := do
  let s1 ← acquire_list list_type (s.procs p).cpu_num s
  let curr ← get_head list_type (s1.procs p).cpu_num s1
  match curr with
  | none =>
    let s2 ← release_list list_type (s1.procs p).cpu_num s1
    pure (0, s2)
  | some c =>
    if p = c then
      let s2 := acquire (.link_lock p) s1
      let s3 ← set_head (s2.procs c).next list_type (s2.procs p).cpu_num s2
      let s4 := set_next s3 p none
      let s5 := release (.link_lock p) s4
      let s6 ← release_list list_type (s5.procs p).cpu_num s5
      pure (1, s6)
    else
      remove_proc_from_list_loop p list_type (K.NPROC + 1) s1 none (some c)

/-- The `while(curr)` loop of `add_proc_to_list`: returns the state and the final
`prev`; the first argument bounds the number of nodes visited. -/
def add_proc_to_list_loop (list_type : procstate) (cpu_num : Int) :
    Nat → kernel K → Option (Fin K.NPROC) → Option (Fin K.NPROC) →
    Except fault (kernel K × Option (Fin K.NPROC))
  | 0, _, _, _ => .error .hang
  | _ + 1, s, prev, none => .ok (s, prev)
  | fuel + 1, s, prev, some curr =>
    let s1 := acquire (.link_lock curr) s
    match (match prev with
           | some pv => Except.ok (release (.link_lock pv) s1)
           | none => release_list list_type cpu_num s1) with
    | .error e => .error e
    | .ok s2 => add_proc_to_list_loop list_type cpu_num fuel s2 (some curr) (s2.procs curr).next

def add_proc_to_list (p : Fin K.NPROC) (list_type : procstate) (cpu_num : Int)
    (s : kernel K) : Except fault (Int × kernel K) := do
  let s1 ← acquire_list list_type cpu_num s
  let curr ← get_head list_type cpu_num s1
  match curr with
  | none =>
    let s2 ← set_head (some p) list_type cpu_num s1
    let s3 ← release_list list_type cpu_num s2
    pure (1, s3)
  | some c =>
    let (s2, prev) ← add_proc_to_list_loop list_type cpu_num (K.NPROC + 1) s1 none (some c)
    match prev with
    | none => throw fault.null_deref
    | some pv =>
      let s3 := set_next s2 pv (some p)
      let s4 := release (.link_lock pv) s3
      pure (1, s4)

def remove_head (list_type : procstate) (cpu_num : Int) (s : kernel K) :
    Except fault (Option (Fin K.NPROC) × kernel K) := do
  let s1 ← acquire_list list_type cpu_num s
  let head ← get_head list_type cpu_num s1
  match head with
  | none =>
    let s2 ← release_list list_type cpu_num s1
    pure (none, s2)
  | some h =>
    let s2 := acquire (.link_lock h) s1
    let s3 ← set_head (s2.procs h).next list_type cpu_num s2
    let s4 := set_next s3 h none
    let s5 := release (.link_lock h) s4
    let s6 ← release_list list_type cpu_num s5
    pure (some h, s6)

/-! ## CAS counters

`cas(addr, expected, newval)` returns 0 when it stored `newval`; run alone, the first
attempt of each retry loop succeeds.  `struct cpu` is declared in proc.h, so the width
of its two counters is not known here and they are kept as integers; `nextpid` is an
`int` and wraps at 32 bits.  The new value of a counter passes through the parameter
`int newval` of `cas`, so the three updates below are those of the source as long as the
counter holds an `int` and the update does not leave the range of `int`. -/

/-- The value an `int` holds after a 32-bit two's-complement store. -/
def wrap32 (x : Int) : Int := (x + 2147483648) % 4294967296 - 2147483648

def increase_admitted_process_count (cpu_num : Int) (s : kernel K) : Except fault (kernel K) :=
  match cpus_index K cpu_num with
  | none => .error .out_of_bounds
  | some c =>
    let old := (s.cpus c).admitted_process_count
    .ok (set_cpus s c { s.cpus c with admitted_process_count := old + 1 })

def decrease_runnable_list_size_of (cpu_num : Int) (s : kernel K) : Except fault (kernel K) :=
  match cpus_index K cpu_num with
  | none => .error .out_of_bounds
  | some c =>
    let old := (s.cpus c).proc_list_size
    .ok (set_cpus s c { s.cpus c with proc_list_size := old - 1 })

def increase_runnable_list_size_of (cpu_num : Int) (s : kernel K) : Except fault (kernel K) :=
  match cpus_index K cpu_num with
  | none => .error .out_of_bounds
  | some c =>
    let old := (s.cpus c).proc_list_size
    .ok (set_cpus s c { s.cpus c with proc_list_size := old + 1 })

def allocpid (s : kernel K) : Int × kernel K :=
  let pid := s.nextpid
  (pid, { s with nextpid := wrap32 (pid + 1) })

/-- `myproc()` on the CPU whose id is `c`. -/
def myproc (c : Fin K.NCPU) (s : kernel K) : Option (Fin K.NPROC) := (s.cpus c).proc

/-! ## Allocation and release -/

/-- What the VM collaborator answers to the calls one operation makes: the page
`kalloc` hands out (`none`: out of memory), the page table `proc_pagetable` builds
(`none`: failure), and the return values of `uvmcopy` and `copyout`. -/
structure vm_calls where
  kalloc : Option trapframe
  proc_pagetable : Option Nat
  uvmcopy : Int
  copyout : Int

def freeproc (p : Fin K.NPROC) (s : kernel K) : Except fault (kernel K) := do
  let s1 := set_proc s p { s.procs p with
    trapframe := none, pagetable := none, sz := 0, pid := 0, parent := none,
    name := (s.procs p).name.set 0 0, chan := none, killed := 0, xstate := 0 }
  let (_, s2) ← remove_proc_from_list p .ZOMBIE s1
  let s3 := set_proc s2 p { s2.procs p with state := .UNUSED }
  let (_, s4) ← add_proc_to_list p .UNUSED 0 s3
  pure s4

/-- The stores of `allocproc` after `found:` up to the trapframe allocation: the pid
from `allocpid`, `state = USED`, `next = 0`, and the pointer `kalloc` returned. -/
def allocproc_stores (s : kernel K) (p : Fin K.NPROC) (tf : Option trapframe) : kernel K :=
  let r := allocpid s
  let s3 := set_proc r.2 p { r.2.procs p with pid := r.1, state := .USED, next := none }
  set_proc s3 p { s3.procs p with trapframe := tf }

/-- The store `p->pagetable = proc_pagetable(p)`. -/
def store_pagetable (s : kernel K) (p : Fin K.NPROC) (pt : Option Nat) : kernel K :=
  set_proc s p { s.procs p with pagetable := pt }

/-- The part of `allocproc` after the label `found:`. -/
def allocproc_found (vm : vm_calls) (p : Fin K.NPROC) (s : kernel K) :
    Except fault (Option (Fin K.NPROC) × kernel K) :=
  match vm.kalloc with
  | none =>
    match freeproc p (allocproc_stores s p none) with
    | .error e => .error e
    | .ok t => .ok (none, t)
  | some tf =>
    match vm.proc_pagetable with
    | none =>
      match freeproc p (store_pagetable (allocproc_stores s p (some tf)) p none) with
      | .error e => .error e
      | .ok t => .ok (none, t)
    | some pt => .ok (some p, store_pagetable (allocproc_stores s p (some tf)) p (some pt))

def allocproc (vm : vm_calls) (s : kernel K) :
    Except fault (Option (Fin K.NPROC) × kernel K) :=
  match remove_head .UNUSED 0 s with
  | .error e => .error e
  | .ok (none, s1) => .ok (none, s1)
  | .ok (some p, s1) => allocproc_found vm p s1

/-! ## Fork -/

/-- The `for` loop of `find_least_used_cpu`, over the indices still to visit. -/
def find_least_used_cpu_loop (s : kernel K) : List Nat → Int → Except fault Int
  | [], least_used_cpu_num => .ok least_used_cpu_num
  | i :: rest, least_used_cpu_num =>
    match cpus_index K i, cpus_index K least_used_cpu_num with
    | some ci, some cl =>
      if (s.cpus ci).admitted_process_count < (s.cpus cl).admitted_process_count then
        find_least_used_cpu_loop s rest i
      else
        find_least_used_cpu_loop s rest least_used_cpu_num
    | _, _ => .error .out_of_bounds

def find_least_used_cpu (s : kernel K) : Except fault Int :=
  find_least_used_cpu_loop s (List.range' 1 (K.CPUS - 1)) 0

/-- Modelled from the spec: `safestrcpy` is defined in string.c, which is not among the
sources; the spec has `fork` "copy name", so the destination array takes the characters
of the source. -/
def safestrcpy (_s t : List Nat) (_n : Nat) : List Nat := t

/-- The stores of `fork` into the child `np` between the memory copy and the choice of
the CPU: `sz`, the trapframe copied from the parent (`tf`) with `a0 = 0`, the duplicated
file references and `cwd`, the name, the parent and `state = RUNNABLE`. -/
def fork_child (s : kernel K) (p np : Fin K.NPROC) (tf : trapframe) : kernel K :=
  let s2 := set_proc s np { s.procs np with sz := (s.procs p).sz }
  let s3 := set_proc s2 np { s2.procs np with trapframe := some tf }
  let s4 := set_proc s3 np { s3.procs np with trapframe := some { tf with a0 := 0 } }
  let s5 := set_proc s4 np { s4.procs np with
    ofile := fun i => if ((s4.procs p).ofile i).isSome then (s4.procs p).ofile i
                      else (s4.procs np).ofile i,
    cwd := (s4.procs p).cwd }
  let s6 := set_proc s5 np { s5.procs np with
    name := safestrcpy (s5.procs np).name (s5.procs p).name (s5.procs p).name.length }
  let s7 := set_proc s6 np { s6.procs np with parent := some p }
  set_proc s7 np { s7.procs np with state := .RUNNABLE }

/-- The statement `cpus[cpu_num].admitted_process_count++` of `fork`. -/
def bump_admitted (cpu_num : Int) (s : kernel K) : Except fault (kernel K) :=
  match cpus_index K cpu_num with
  | none => .error .out_of_bounds
  | some ci => .ok (set_cpus s ci { s.cpus ci with
      admitted_process_count := (s.cpus ci).admitted_process_count + 1 })

/-- The end of `fork`: the child is bound to `cpu_num`, appended to that CPU's runnable
list, and the counters are updated. -/
def fork_enqueue (np : Fin K.NPROC) (cpu_num : Int) (s : kernel K) :
    Except fault (kernel K) := do
  let s9 := set_proc s np { s.procs np with cpu_num := cpu_num }
  let (_, s10) ← add_proc_to_list np .RUNNABLE cpu_num s9
  let s11 ← increase_admitted_process_count cpu_num s10
  let s12 ← bump_admitted cpu_num s11
  increase_runnable_list_size_of cpu_num s12

/-- The CPU `fork` and `wakeup` pick for a process whose inherited CPU is `cpu_num`. -/
def pick_cpu (s : kernel K) (cpu_num : Int) : Except fault Int :=
  if K.BLNCFLG then find_least_used_cpu s else .ok cpu_num

/-- The part of `fork` after a successful `allocproc`, for the caller `p`. -/
def fork_found (vm : vm_calls) (p np : Fin K.NPROC) (s : kernel K) :
    Except fault (Int × kernel K) :=
  if vm.uvmcopy < 0 then
    match freeproc np s with
    | .error e => .error e
    | .ok t => .ok (-1, t)
  else
    match (s.procs np).trapframe, (s.procs p).trapframe with
    | some _, some tf =>
      match pick_cpu (fork_child s p np tf) ((fork_child s p np tf).procs p).cpu_num with
      | .error e => .error e
      | .ok cpu_num =>
        match fork_enqueue np cpu_num (fork_child s p np tf) with
        | .error e => .error e
        | .ok t => .ok (((fork_child s p np tf).procs np).pid, t)
    | _, _ => .error .null_deref

def fork (vm : vm_calls) (c : Fin K.NCPU) (s : kernel K) : Except fault (Int × kernel K) :=
  match allocproc vm s with
  | .error e => .error e
  | .ok (none, s1) => .ok (-1, s1)
  | .ok (some np, s1) =>
    match myproc c s with
    | none => .error .null_deref
    | some p => fork_found vm p np s1

/-! ## Sleep, wakeup, kill -/

/-- `sched()` as far as the switch into the scheduler, followed by the scheduler's
`c->proc = 0`.  Of the four assertions of `sched` only `p->state == RUNNING` is kept:
`p->lock` and the interrupt flag are not part of the state, and `noff != 1` (a lock
besides `p->lock` is held) cannot fire from a state with `held = []` as long as the list
operations before it release what they take. -/
def sched (c : Fin K.NCPU) (s : kernel K) : Except fault (kernel K) :=
  match myproc c s with
  | none => .error .null_deref
  | some p =>
    if (s.procs p).state = .RUNNING then .error .panic_sched_running
    else .ok (set_cpus s c { s.cpus c with proc := none })

/-- `yield()` up to the entry into the scheduler. -/
def yield (c : Fin K.NCPU) (s : kernel K) : Except fault (kernel K) := do
  match myproc c s with
  | none => throw fault.null_deref
  | some p =>
    let s1 := set_proc s p { s.procs p with state := .RUNNABLE }
    let (_, s2) ← add_proc_to_list p .RUNNABLE (s1.procs p).cpu_num s1
    sched c s2

/-- `sleep(chan, lk)` up to the entry into the scheduler; what follows the switch
back (`p->chan = 0` and the lock hand-over) runs when the process is dispatched
again. -/
def sleep (c : Fin K.NCPU) (chan : Option (chan_t K)) (s : kernel K) :
    Except fault (kernel K) := do
  match myproc c s with
  | none => throw fault.null_deref
  | some p =>
    let s1 := set_proc s p { s.procs p with chan := chan }
    let s2 := set_proc s1 p { s1.procs p with state := .SLEEPING }
    let s3 ← decrease_runnable_list_size_of (s2.procs p).cpu_num s2
    let (_, s4) ← add_proc_to_list p .SLEEPING 0 s3
    sched c s4

/-- The body of the `for` loop of `wakeup` for the slot `p`. -/
def wakeup_body (c : Fin K.NCPU) (chan : Option (chan_t K)) (p : Fin K.NPROC)
    (s : kernel K) : Except fault (kernel K) := do
  if some p ≠ myproc c s then
    if (s.procs p).state = .SLEEPING ∧ (s.procs p).chan = chan then
      let (_, s1) ← remove_proc_from_list p .SLEEPING s
      let s2 := set_proc s1 p { s1.procs p with state := .RUNNABLE }
      let cpu_num ← pick_cpu s2 (s2.procs p).cpu_num
      let (_, s3) ← add_proc_to_list p .RUNNABLE cpu_num s2
      let s4 ← increase_admitted_process_count cpu_num s3
      increase_runnable_list_size_of cpu_num s4
    else pure s
  else pure s

/-- The `for` loop of `wakeup`, over the slots still to visit. -/
def wakeup_loop (c : Fin K.NCPU) (chan : Option (chan_t K)) :
    List (Fin K.NPROC) → kernel K → Except fault (kernel K)
  | [], s => .ok s
  | p :: rest, s =>
    match wakeup_body c chan p s with
    | .error e => .error e
    | .ok s1 => wakeup_loop c chan rest s1

def wakeup (c : Fin K.NCPU) (chan : Option (chan_t K)) (s : kernel K) :
    Except fault (kernel K) :=
  wakeup_loop c chan (List.finRange K.NPROC) s

/-- The branch `if(p->pid == pid)` of the loop of `kill`, which returns 0. -/
def kill_found (p : Fin K.NPROC) (s : kernel K) : Except fault (Int × kernel K) := do
  let s1 := set_proc s p { s.procs p with killed := 1 }
  if (s1.procs p).state = .SLEEPING then
    let (_, s2) ← remove_proc_from_list p .SLEEPING s1
    let s3 := set_proc s2 p { s2.procs p with state := .RUNNABLE }
    let (_, s4) ← add_proc_to_list p .RUNNABLE (s3.procs p).cpu_num s3
    let s5 ← increase_runnable_list_size_of (s4.procs p).cpu_num s4
    pure (0, s5)
  else pure (0, s1)

/-- The `for` loop of `kill`, over the slots still to visit. -/
def kill_loop (pid : Int) : List (Fin K.NPROC) → kernel K → Except fault (Int × kernel K)
  | [], s => .ok (-1, s)
  | p :: rest, s =>
    if (s.procs p).pid = pid then kill_found p s
    else kill_loop pid rest s

def kill (pid : Int) (s : kernel K) : Except fault (Int × kernel K) :=
  kill_loop pid (List.finRange K.NPROC) s

/-! ## Exit and wait -/

/-- The `for` loop of `reparent`, over the slots still to visit. -/
def reparent_loop (c : Fin K.NCPU) (p : Fin K.NPROC) :
    List (Fin K.NPROC) → kernel K → Except fault (kernel K)
  | [], s => .ok s
  | pp :: rest, s =>
    if (s.procs pp).parent = some p then
      let s1 := set_proc s pp { s.procs pp with parent := s.initproc }
      match wakeup c (s1.initproc.map chan_t.proc_addr) s1 with
      | .error e => .error e
      | .ok s2 => reparent_loop c p rest s2
    else reparent_loop c p rest s

def reparent (c : Fin K.NCPU) (p : Fin K.NPROC) (s : kernel K) : Except fault (kernel K) :=
  reparent_loop c p (List.finRange K.NPROC) s

/-- `exit(status)` up to the entry into the scheduler (it never returns). -/
def exit (c : Fin K.NCPU) (status : Int) (s : kernel K) : Except fault (kernel K) := do
  let p := myproc c s
  if p = s.initproc then throw fault.panic_init_exiting
  match p with
  | none => throw fault.null_deref
  | some p =>
    let s1 := set_proc s p { s.procs p with ofile := fun _ => none }
    let s2 := set_proc s1 p { s1.procs p with cwd := none }
    let s3 ← reparent c p s2
    let s4 ← wakeup c ((s3.procs p).parent.map chan_t.proc_addr) s3
    let s5 := set_proc s4 p { s4.procs p with xstate := status }
    let s6 := set_proc s5 p { s5.procs p with state := .ZOMBIE }
    let (_, s7) ← add_proc_to_list p .ZOMBIE 0 s6
    let s8 ← decrease_runnable_list_size_of (s7.procs p).cpu_num s7
    sched c s8

/-- How one pass of the `for(;;)` loop of `wait` ends: with a return value, or with
the caller asleep in `sleep(p, &wait_lock)` (the loop starts over once it is woken
and dispatched again). -/
inductive wait_result
  | returned (v : Int)
  | asleep
  deriving DecidableEq, Repr

/-- The store `copyout` makes in the user memory of `pp`: the `xstate` of `np` at `addr`. -/
def copyout_xstate (s : kernel K) (pp np : Fin K.NPROC) (addr : Nat) : kernel K :=
  { s with copied_out :=
      { pagetable := (s.procs pp).pagetable, addr := addr, value := (s.procs np).xstate }
        :: s.copied_out }

/-- The branch `if(np->state == ZOMBIE)` of the scan of `wait`, for the caller `p` and
its child `np`: the value `wait` returns and the state. -/
def wait_found (vm : vm_calls) (p : Option (Fin K.NPROC)) (np : Fin K.NPROC) (addr : Nat)
    (s : kernel K) : Except fault (Int × kernel K) :=
  if addr ≠ 0 then
    match p with
    | none => .error .null_deref
    | some pp =>
      if vm.copyout < 0 then .ok (-1, s)
      else
        match freeproc np (copyout_xstate s pp np addr) with
        | .error e => .error e
        | .ok t => .ok ((s.procs np).pid, t)
  else
    match freeproc np s with
    | .error e => .error e
    | .ok t => .ok ((s.procs np).pid, t)

/-- The table scan of `wait`, over the slots still to visit, with the current value of
`havekids`: the value `wait` returns from inside the scan (if it does), `havekids`,
and the state. -/
def wait_scan (vm : vm_calls) (p : Option (Fin K.NPROC)) (addr : Nat) :
    List (Fin K.NPROC) → Int → kernel K → Except fault (Option Int × Int × kernel K)
  | [], havekids, s => .ok (none, havekids, s)
  | np :: rest, havekids, s =>
    if (s.procs np).parent = p then
      if (s.procs np).state = .ZOMBIE then
        match wait_found vm p np addr s with
        | .error e => .error e
        | .ok r => .ok (some r.1, 1, r.2)
      else wait_scan vm p addr rest 1 s
    else wait_scan vm p addr rest havekids s

/-- One pass of the `for(;;)` loop of `wait(addr)`. -/
def wait (vm : vm_calls) (c : Fin K.NCPU) (addr : Nat) (s : kernel K) :
    Except fault (wait_result × kernel K) := do
  let p := myproc c s
  let (r, havekids, s1) ← wait_scan vm p addr (List.finRange K.NPROC) 0 s
  match r with
  | some v => pure (.returned v, s1)
  | none =>
    if havekids = 0 then pure (.returned (-1), s1)
    else
      match p with
      | none => throw fault.null_deref
      | some pp =>
        if (s1.procs pp).killed ≠ 0 then pure (.returned (-1), s1)
        else
          let s2 ← sleep c (some (.proc_addr pp)) s1
          pure (.asleep, s2)

/-! ## Affinity -/

def range_check (num min max : Int) : Int :=
  if ¬ (num ≥ min ∧ num ≤ max) then -1 else 0

/-- `set_cpu(cpu_num)`: the value it returns once the caller runs again, and the state
at the entry into the scheduler. -/
def set_cpu (c : Fin K.NCPU) (cpu_num : Int) (s : kernel K) : Except fault (Int × kernel K) := do
  if range_check cpu_num 0 K.NCPU < 0 then pure (-1, s)
  else
    match myproc c s with
    | none => throw fault.null_deref
    | some p =>
      let s1 ← decrease_runnable_list_size_of (s.procs p).cpu_num s
      let s2 := set_proc s1 p { s1.procs p with cpu_num := cpu_num }
      let s3 ← increase_runnable_list_size_of cpu_num s2
      let s4 ← yield c s3
      pure (cpu_num, s4)

def get_cpu (c : Fin K.NCPU) (s : kernel K) : Except fault Int :=
  match myproc c s with
  | none => .error .null_deref
  | some p => .ok (s.procs p).cpu_num

def cpu_process_count (cpu_num : Int) (s : kernel K) : Except fault Int :=
  match cpus_index K cpu_num with
  | none => .error .out_of_bounds
  | some c => .ok (s.cpus c).admitted_process_count

/-! ## Boot and dispatch -/

/-- The `for` loop of `procinit`, over the slots still to visit. -/
def procinit_loop : List (Fin K.NPROC) → kernel K → Except fault (kernel K)
  | [], s => .ok s
  | p :: rest, s =>
    let s1 := set_proc s p { s.procs p with cpu_num := -1 }
    let s2 := set_proc s1 p { s1.procs p with next := none }
    match add_proc_to_list p .UNUSED 0 s2 with
    | .error e => .error e
    | .ok (_, s3) => procinit_loop rest s3

def procinit (s : kernel K) : Except fault (kernel K) :=
  procinit_loop (List.finRange K.NPROC) s

/-- The `for` loop of `userinit` that clears `cpus[0 .. CPUS)`. -/
def userinit_clear : List Nat → kernel K → Except fault (kernel K)
  | [], s => .ok s
  | i :: rest, s =>
    match cpus_index K i with
    | none => .error .out_of_bounds
    | some c =>
      userinit_clear rest (set_cpus s c { s.cpus c with
        runnable_list_head := none, proc_list_size := 0, admitted_process_count := 0 })

/-- `userinit()`; `sz` is `PGSIZE` and `name` the characters of "initcode", both given
by the caller, as is the inode `namei("/")` returns. -/
def userinit (vm : vm_calls) (PGSIZE : Nat) (initcode_name : List Nat) (root : Option Nat)
    (s : kernel K) : Except fault (kernel K) := do
  let s0 ← if kernel.is_initialize s = 0 then
      (userinit_clear (List.range K.CPUS) s).map (fun t => { t with is_initialize := 1 })
    else pure s
  let (p, s1) ← allocproc vm s0
  let s2 := { s1 with initproc := p }
  match p with
  | none => throw fault.null_deref
  | some p =>
    let s3 := set_proc s2 p { s2.procs p with sz := PGSIZE }
    match (s3.procs p).trapframe with
    | none => throw fault.null_deref
    | some tf =>
      let s4 := set_proc s3 p { s3.procs p with trapframe := some { tf with epc := 0 } }
      let s5 := set_proc s4 p { s4.procs p with trapframe := some { tf with epc := 0, sp := PGSIZE } }
      let s6 := set_proc s5 p { s5.procs p with
        name := safestrcpy (s5.procs p).name initcode_name (s5.procs p).name.length }
      let s7 := set_proc s6 p { s6.procs p with cwd := root }
      let s8 := set_proc s7 p { s7.procs p with state := .RUNNABLE }
      let s9 := set_proc s8 p { s8.procs p with cpu_num := 0 }
      let (_, s10) ← add_proc_to_list p .RUNNABLE (s9.procs p).cpu_num s9
      let s11 ← increase_runnable_list_size_of (s10.procs p).cpu_num s10
      set_head (some p) .RUNNABLE (s11.procs p).cpu_num s11

/-- One round of the `for(;;)` loop of `scheduler()` on CPU `c`, up to the switch into
the chosen process (no change when the runnable list is empty). -/
def scheduler (c : Fin K.NCPU) (s : kernel K) : Except fault (kernel K) := do
  let (curr, s1) ← remove_head .RUNNABLE c s
  match curr with
  | none => pure s1
  | some curr =>
    if (s1.procs curr).state ≠ .RUNNABLE then throw fault.panic_not_runnable
    else
      let s2 := set_proc s1 curr { s1.procs curr with state := .RUNNING }
      pure (set_cpus s2 c { s2.cpus c with proc := some curr })

/-! ## The state at boot -/

/-- A zero-initialised `struct proc` (static storage). -/
def proc.zero (K : param) : proc K :=
  { state := .UNUSED, pid := 0, parent := none, chan := none, killed := 0, xstate := 0,
    cpu_num := 0, next := none, trapframe := none, pagetable := none, sz := 0,
    ofile := fun _ => none, cwd := none, name := List.replicate 16 0 }

/-- A zero-initialised `struct cpu`. -/
def cpu.zero (K : param) : cpu K :=
  { proc := none, runnable_list_head := none, proc_list_size := 0,
    admitted_process_count := 0 }

/-- The globals as the loader leaves them: everything zero, `nextpid = 1`. -/
def kernel.zero (K : param) : kernel K :=
  { procs := fun _ => proc.zero K, cpus := fun _ => cpu.zero K, zombie_list := none,
    sleeping_list := none, unused_list := none, initproc := none, nextpid := 1,
    is_initialize := 0, held := [], copied_out := [] }

/-! ## Specification vocabulary: node sequences and the states the primitives leave -/

/-- The chain that starts at `h` and follows `nxt` visits exactly the nodes `l`, in
this order, and then reaches the null terminator. -/
def is_list {α : Type} (nxt : α → Option α) : Option α → List α → Prop
  | h, [] => h = none
  | h, q :: qs => h = some q ∧ is_list nxt (nxt q) qs

instance is_list.decide {α : Type} [DecidableEq α] (nxt : α → Option α) :
    (h : Option α) → (l : List α) → Decidable (is_list nxt h l)
  | h, [] => inferInstanceAs (Decidable (h = none))
  | h, q :: qs =>
    match is_list.decide nxt (nxt q) qs with
    | isTrue ht => if hh : h = some q then isTrue ⟨hh, ht⟩ else isFalse (fun hc => hh hc.1)
    | isFalse hf => isFalse (fun hc => hf hc.2)

/-- The `next` field of every slot. -/
def next_of (s : kernel K) (i : Fin K.NPROC) : Option (Fin K.NPROC) := (s.procs i).next

/-- The pair names a list the code can address: one of the four families and, for
`RUNNABLE`, a CPU number inside both `cpus` and `ready_list_head_locks`. -/
def list_ok (K : param) (list_type : procstate) (cpu_num : Int) : Prop :=
  match list_type with
  | .RUNNABLE => 0 ≤ cpu_num ∧ cpu_num < K.CPUS ∧ cpu_num < K.NCPU
  | .ZOMBIE | .SLEEPING | .UNUSED => True
  | _ => False

instance list_ok.decide (K : param) (list_type : procstate) (cpu_num : Int) :
    Decidable (list_ok K list_type cpu_num) := by
  unfold list_ok; cases list_type <;> exact inferInstance

/-- Two pairs name the same list. -/
def same_list (list_type : procstate) (cpu_num : Int) (list_type2 : procstate)
    (cpu_num2 : Int) : Prop :=
  list_type = list_type2 ∧ (list_type = .RUNNABLE → cpu_num = cpu_num2)

/-- The list `(list_type, cpu_num)` is well formed with node sequence `qs`: the chain
from its head visits `qs` and ends in the null terminator (so it has no cycle). -/
def has_nodes (s : kernel K) (list_type : procstate) (cpu_num : Int)
    (qs : List (Fin K.NPROC)) : Prop :=
  match get_head list_type cpu_num s with
  | .ok h => is_list (next_of s) h qs
  | .error _ => False

instance has_nodes.decide (s : kernel K) (list_type : procstate) (cpu_num : Int)
    (qs : List (Fin K.NPROC)) : Decidable (has_nodes s list_type cpu_num qs) := by
  unfold has_nodes; split <;> exact inferInstance

/-- The head lock of the list `(list_type, cpu_num)`, when the pair names a list. -/
def list_lock (K : param) (list_type : procstate) (cpu_num : Int) : Option (lock_id K) :=
  match list_type with
  | .RUNNABLE => (locks_index K cpu_num).map lock_id.ready_list_head_locks
  | .ZOMBIE => some .zombie_list_head_lock
  | .SLEEPING => some .sleeping_list_head_lock
  | .UNUSED => some .unused_list_head_lock
  | _ => none

/-- The head of the list `(list_type, cpu_num)` (null when the pair names no list). -/
def head_of (s : kernel K) (list_type : procstate) (cpu_num : Int) : Option (Fin K.NPROC) :=
  match get_head list_type cpu_num s with
  | .ok h => h
  | .error _ => none

/-- The state with the head of the list `(list_type, cpu_num)` replaced (unchanged when
the pair names no list). -/
def with_head (s : kernel K) (list_type : procstate) (cpu_num : Int)
    (v : Option (Fin K.NPROC)) : kernel K :=
  match set_head v list_type cpu_num s with
  | .ok t => t
  | .error _ => s

/-- The state `add_proc_to_list(p, list_type, cpu_num)` leaves when the list has the
nodes `qs`: `p` becomes the head of an empty list, else the `next` of the last node. -/
def add_result (s : kernel K) (p : Fin K.NPROC) (list_type : procstate) (cpu_num : Int)
    (qs : List (Fin K.NPROC)) : kernel K :=
  match qs.getLast? with
  | none => with_head s list_type cpu_num (some p)
  | some last => set_next s last (some p)

/-- The state `remove_head(list_type, cpu_num)` leaves when it pops the node `q`. -/
def remove_head_result (s : kernel K) (list_type : procstate) (cpu_num : Int)
    (q : Fin K.NPROC) : kernel K :=
  set_next (with_head s list_type cpu_num (s.procs q).next) q none

/-- The node right before the first occurrence of `p` in a sequence, if there is one. -/
def pred_of {α : Type} [DecidableEq α] (p : α) : List α → Option α
  | a :: b :: l => if b = p then some a else pred_of p (b :: l)
  | _ => none

/-- The state `remove_proc_from_list(p, list_type)` leaves when `p` is found on a list
with node sequence `qs`: the head moves on when `p` is the head, else the predecessor of
`p` takes over `p->next`; `p->next` is cleared. -/
def remove_result (s : kernel K) (p : Fin K.NPROC) (list_type : procstate)
    (qs : List (Fin K.NPROC)) : kernel K :=
  match pred_of p qs with
  | none => set_next (with_head s list_type (s.procs p).cpu_num (s.procs p).next) p none
  | some pd => set_next (set_next s pd (s.procs p).next) p none

/-- The state `remove_proc_from_list(p, list_type)` leaves when `p` is not on the list
with node sequence `qs`: nothing changes, except that the walk of a non-empty list
returns with the last node's `link_lock` still held. -/
def remove_miss_result (s : kernel K) (qs : List (Fin K.NPROC)) : kernel K :=
  match qs.getLast? with
  | none => s
  | some last => acquire (.link_lock last) s

/-- The pids returned by `n` successive calls of `allocpid`, in call order, and the
state they leave. -/
def allocpid_calls : Nat → kernel K → List Int × kernel K
  | 0, s => ([], s)
  | n + 1, s =>
    let r := allocpid s
    let rest := allocpid_calls n r.2
    (r.1 :: rest.1, rest.2)

/-- The CPU records after the counter updates at the end of `fork` for the CPU `ci`:
`increase_admitted_process_count`, then `admitted_process_count++`, then
`increase_runnable_list_size_of`. -/
def fork_counted (s : kernel K) (ci : Fin K.NCPU) : kernel K :=
  set_cpus s ci { s.cpus ci with
    admitted_process_count := (s.cpus ci).admitted_process_count + 1 + 1,
    proc_list_size := (s.cpus ci).proc_list_size + 1 }

/-! ## Postconditions used by the theorems -/

/-- What a list primitive working on the list `(list_type, cpu_num)` leaves alone: every
field of every process but `next`, the globals that are not list heads, the heads of
the other lists, and every CPU field but the runnable head. -/
structure list_op_post (s : kernel K) (list_type : procstate) (cpu_num : Int)
    (t : kernel K) : Prop where
  fields : ∀ i, t.procs i = { s.procs i with next := (t.procs i).next }
  initproc : t.initproc = s.initproc
  nextpid : t.nextpid = s.nextpid
  is_init : kernel.is_initialize t = kernel.is_initialize s
  copied_out : t.copied_out = s.copied_out
  heads : ∀ (list_type2 : procstate) (cpu_num2 : Int),
    ¬ same_list list_type cpu_num list_type2 cpu_num2 →
    get_head list_type2 cpu_num2 t = get_head list_type2 cpu_num2 s
  cpus : ∀ i, t.cpus i = { s.cpus i with runnable_list_head := (t.cpus i).runnable_list_head }
  cpus_eq : list_type ≠ .RUNNABLE → t.cpus = s.cpus

/-- The record `freeproc` leaves in the slot it frees. -/
def freed (v : proc K) : proc K :=
  { v with
    trapframe := none, pagetable := none, sz := 0, pid := 0, parent := none,
    name := v.name.set 0 0, chan := none, killed := 0, xstate := 0,
    state := .UNUSED, next := none }

/-- What `freeproc(p)` has done, for a `ZOMBIE` list with node sequence `zs` and an
`UNUSED` list with node sequence `us`. -/
structure freeproc_post (s : kernel K) (p : Fin K.NPROC) (zs us : List (Fin K.NPROC))
    (t : kernel K) : Prop where
  self : t.procs p = freed (s.procs p)
  others : ∀ i, i ≠ p → t.procs i = { s.procs i with next := (t.procs i).next }
  zombie : has_nodes t .ZOMBIE 0 (zs.erase p)
  unused : has_nodes t .UNUSED 0 (us ++ [p])
  cpus : t.cpus = s.cpus
  sleeping : t.sleeping_list = s.sleeping_list
  initproc : t.initproc = s.initproc
  nextpid : t.nextpid = s.nextpid
  is_init : kernel.is_initialize t = kernel.is_initialize s
  copied_out : t.copied_out = s.copied_out
  frame : ∀ (list_type2 : procstate) (cpu_num2 : Int) (ms : List (Fin K.NPROC)),
    list_type2 ≠ .ZOMBIE → list_type2 ≠ .UNUSED → p ∉ ms → (∀ u ∈ us, u ∉ ms) →
    (p ∈ zs → ∀ z ∈ zs, z ∉ ms) →
    has_nodes s list_type2 cpu_num2 ms → has_nodes t list_type2 cpu_num2 ms

/-- What a failed `fork` has done after it had popped the slot `q` off an `UNUSED` list
with node sequence `q :: rest` (`zs` is the node sequence of `ZOMBIE`): the slot is
freed again and sits at the tail of `UNUSED`, one pid is used up, and nothing else but
`next` fields and locks has changed. -/
structure alloc_undone (s : kernel K) (q : Fin K.NPROC) (zs rest : List (Fin K.NPROC))
    (t : kernel K) : Prop where
  self : t.procs q = freed (s.procs q)
  others : ∀ i, i ≠ q → t.procs i = { s.procs i with next := (t.procs i).next }
  unused : has_nodes t .UNUSED 0 (rest ++ [q])
  zombie : has_nodes t .ZOMBIE 0 zs
  cpus : t.cpus = s.cpus
  sleeping : t.sleeping_list = s.sleeping_list
  initproc : t.initproc = s.initproc
  nextpid : t.nextpid = wrap32 (s.nextpid + 1)
  copied_out : t.copied_out = s.copied_out
  frame : ∀ (list_type2 : procstate) (cpu_num2 : Int) (ms : List (Fin K.NPROC)),
    list_type2 ≠ .ZOMBIE → list_type2 ≠ .UNUSED → (∀ u ∈ q :: rest, u ∉ ms) →
    has_nodes s list_type2 cpu_num2 ms → has_nodes t list_type2 cpu_num2 ms

/-- The state `t` differs from `s`, in the process table, at most in `next` fields. -/
def next_only (s t : kernel K) : Prop :=
  ∀ i, t.procs i = { s.procs i with next := (t.procs i).next }

/-- No slot has changed its pid between `s` and `t`. -/
def same_pids (s t : kernel K) : Prop :=
  ∀ i, (t.procs i).pid = (s.procs i).pid

/-! ## Concrete configurations used to exercise the theorems -/

/-- Three process slots, two CPUs, one file slot, balancing off. -/
abbrev K0 : param := { NPROC := 3, NCPU := 2, CPUS := 2, NOFILE := 1, BLNCFLG := false }

/-- A table in which `UNUSED` is the list `[0, 1]` and slot 2 is on no list. -/
def ex_two_unused : kernel K0 :=
  { kernel.zero K0 with
    procs := fun i => if i = 0 then { proc.zero K0 with next := some 1 } else proc.zero K0
    unused_list := some 0 }

/-- The state `procinit` leaves on `K0`, started from the zeroed globals: every slot
`UNUSED`, bound to no CPU, on the `UNUSED` list in table order. -/
def ex_boot : kernel K0 :=
  match procinit (kernel.zero K0) with
  | .ok t => t
  | .error _ => kernel.zero K0

/-- The VM collaborator granting every request. -/
def vm_ok : vm_calls :=
  { kalloc := some { epc := 0, sp := 0, a0 := 5, regs := [] }, proc_pagetable := some 7,
    uvmcopy := 0, copyout := 0 }

/-- The VM collaborator out of memory: no page from `kalloc`. -/
def vm_no_page : vm_calls :=
  { kalloc := none, proc_pagetable := none, uvmcopy := -1, copyout := -1 }

/-- The state on `K0` once `userinit` has set up the first process in slot 0 and CPU 0
has dispatched it: slot 0 is `RUNNING` on CPU 0, slots 1 and 2 are `UNUSED`. -/
def ex_init : kernel K0 :=
  match userinit vm_ok 4096 [105, 110, 105, 116] (some 1) ex_boot with
  | .error _ => ex_boot
  | .ok s =>
    match scheduler 0 s with
    | .error _ => ex_boot
    | .ok t => t

/-- The state `ex_init` with the pid counter at the largest `int`, as it stands once
`2^31 - 2` pids have been handed out since boot. -/
def ex_init_last_pid : kernel K0 := { ex_init with nextpid := 2147483647 }

/-- A parent and its exited child on `K0`: slot 0 (pid 1) is `RUNNING` on CPU 0,
slot 1 (pid 2) is its child, a `ZOMBIE` with exit status 42, slot 2 is `UNUSED`.  It is
the state reached from boot by `userinit`, a `fork`, and the child's `exit(42)`. -/
def ex_zombie : kernel K0 :=
  { procs := fun i =>
      if i = 0 then
        { proc.zero K0 with
          state := .RUNNING, pid := 1, cpu_num := 0, sz := 4096, pagetable := some 7,
          trapframe := some { epc := 0, sp := 4096, a0 := 5, regs := [] }, cwd := some 1 }
      else if i = 1 then
        { proc.zero K0 with
          state := .ZOMBIE, pid := 2, parent := some 0, xstate := 42, cpu_num := 0,
          sz := 4096, pagetable := some 7,
          trapframe := some { epc := 0, sp := 4096, a0 := 0, regs := [] } }
      else { proc.zero K0 with cpu_num := -1 }
    cpus := fun c =>
      if c = 0 then
        { proc := some 0, runnable_list_head := none, proc_list_size := 1,
          admitted_process_count := 2 }
      else cpu.zero K0
    zombie_list := some 1
    sleeping_list := none
    unused_list := some 2
    initproc := some 0
    nextpid := 3
    is_initialize := 1
    held := []
    copied_out := [] }

/-- A parent and one running child on `K0`: slot 0 (pid 1, the init process) is
`RUNNING` on CPU 0, its child in slot 1 (pid 2) is `RUNNING` on CPU 1, slot 2 is
`UNUSED`. -/
def ex_two_running : kernel K0 :=
  { procs := fun i =>
      if i = 0 then
        { proc.zero K0 with
          state := .RUNNING, pid := 1, cpu_num := 0, sz := 4096, pagetable := some 7,
          trapframe := some { epc := 0, sp := 4096, a0 := 5, regs := [] }, cwd := some 1 }
      else if i = 1 then
        { proc.zero K0 with
          state := .RUNNING, pid := 2, parent := some 0, cpu_num := 1,
          sz := 4096, pagetable := some 8, cwd := some 1,
          trapframe := some { epc := 0, sp := 4096, a0 := 0, regs := [] } }
      else { proc.zero K0 with cpu_num := -1 }
    cpus := fun c =>
      if c = 0 then
        { proc := some 0, runnable_list_head := none, proc_list_size := 1,
          admitted_process_count := 0 }
      else
        { proc := some 1, runnable_list_head := none, proc_list_size := 1,
          admitted_process_count := 2 }
    zombie_list := none
    sleeping_list := none
    unused_list := some 2
    initproc := some 0
    nextpid := 3
    is_initialize := 1
    held := []
    copied_out := [] }

/-- A parent with two children on `K0`: slot 0 (pid 1, the init process) is `RUNNING`
on CPU 0; its child in slot 1 (pid 2) is a `ZOMBIE` that exited with status 7; its
child in slot 2 (pid 3) is `RUNNING` on CPU 1. -/
def ex_sibling_zombie : kernel K0 :=
  { procs := fun i =>
      if i = 0 then
        { proc.zero K0 with
          state := .RUNNING, pid := 1, cpu_num := 0, sz := 4096, pagetable := some 7,
          trapframe := some { epc := 0, sp := 4096, a0 := 5, regs := [] }, cwd := some 1 }
      else if i = 1 then
        { proc.zero K0 with
          state := .ZOMBIE, pid := 2, parent := some 0, xstate := 7, cpu_num := 0,
          sz := 4096, pagetable := some 8,
          trapframe := some { epc := 0, sp := 4096, a0 := 0, regs := [] } }
      else
        { proc.zero K0 with
          state := .RUNNING, pid := 3, parent := some 0, cpu_num := 1,
          sz := 4096, pagetable := some 9, cwd := some 1,
          trapframe := some { epc := 0, sp := 4096, a0 := 0, regs := [] } }
    cpus := fun c =>
      if c = 0 then
        { proc := some 0, runnable_list_head := none, proc_list_size := 1,
          admitted_process_count := 2 }
      else
        { proc := some 2, runnable_list_head := none, proc_list_size := 1,
          admitted_process_count := 2 }
    zombie_list := some 1
    sleeping_list := none
    unused_list := none
    initproc := some 0
    nextpid := 4
    is_initialize := 1
    held := []
    copied_out := [] }

/-- The state an example run ends in (`ex_boot` if it faults). -/
def ex_run (r : Except fault (kernel K0)) : kernel K0 :=
  match r with
  | .ok t => t
  | .error _ => ex_boot





/-- Three process slots, two CPUs, one file slot, balancing on. -/
abbrev K1 : param := { NPROC := 3, NCPU := 2, CPUS := 2, NOFILE := 1, BLNCFLG := true }

/-- The state on `K1` (balancing on) once `procinit` and `userinit` have run and CPU 0
has dispatched the first process: slot 0 is `RUNNING` on CPU 0, slots 1 and 2 are
`UNUSED`, and every counter `admitted_process_count` is zero. -/
def ex_init_balanced : kernel K1 :=
  match procinit (kernel.zero K1) with
  | .error _ => kernel.zero K1
  | .ok s0 =>
    match userinit vm_ok 4096 [105, 110, 105, 116] (some 1) s0 with
    | .error _ => kernel.zero K1
    | .ok s =>
      match scheduler 0 s with
      | .error _ => kernel.zero K1
      | .ok t => t



/-! ## The lists as a family, and the consistency of states with lists -/

/-- The lists of proc.c: the three global ones and the runnable list of each CPU. -/
inductive list_id (K : param)
  | unused
  | sleeping
  | zombie
  | runnable (c : Fin K.NCPU)
  deriving DecidableEq, Fintype

/-- The state a process on this list is in. -/
def list_id.type : list_id K → procstate
  | .unused => .UNUSED
  | .sleeping => .SLEEPING
  | .zombie => .ZOMBIE
  | .runnable _ => .RUNNABLE

/-- The CPU number under which the code addresses this list (0 for the global lists,
as `freeproc`, `sleep` and `exit` pass it). -/
def list_id.cpu_num : list_id K → Int
  | .runnable c => ((c : Nat) : Int)
  | _ => 0

/-- The head pointer of this list. -/
def list_id.head (s : kernel K) : list_id K → Option (Fin K.NPROC)
  | .unused => s.unused_list
  | .sleeping => s.sleeping_list
  | .zombie => s.zombie_list
  | .runnable c => (s.cpus c).runnable_list_head

/-- The list the pair `(list_type, cpu_num)` addresses in `get_head` and `set_head`. -/
def list_id.of (K : param) (list_type : procstate) (cpu_num : Int) : Option (list_id K) :=
  match list_type with
  | .UNUSED => some .unused
  | .SLEEPING => some .sleeping
  | .ZOMBIE => some .zombie
  | .RUNNABLE => (cpus_index K cpu_num).map list_id.runnable
  | _ => none

/-- The first `n` nodes of the chain that starts at `h` and follows `nxt`. -/
def walk {α : Type} (nxt : α → Option α) : Nat → Option α → List α
  | 0, _ => []
  | _ + 1, none => []
  | n + 1, some q => q :: walk nxt n (nxt q)

/-- The nodes of a list, from its head along `next` (a chain over `NPROC` slots that
ends in the null terminator has at most `NPROC` nodes). -/
def nodes_of (s : kernel K) (l : list_id K) : List (Fin K.NPROC) :=
  walk (next_of s) K.NPROC (l.head s)

/-- State/list consistency: every list ends in the null terminator; a process whose
state is `UNUSED`, `SLEEPING`, `ZOMBIE` or `RUNNABLE` occurs exactly once on a list of
that state (for `RUNNABLE`: the runnable list of one CPU) and on no other list; a
process whose state is `USED` or `RUNNING` occurs on no list. -/
structure consistent (s : kernel K) : Prop where
  lists : ∀ l : list_id K, is_list (next_of s) (l.head s) (nodes_of s l)
  on_list : ∀ p : Fin K.NPROC,
    (s.procs p).state ≠ .USED → (s.procs p).state ≠ .RUNNING →
    ∃ l : list_id K, l.type = (s.procs p).state ∧ (nodes_of s l).count p = 1
      ∧ ∀ l2 : list_id K, l2 ≠ l → p ∉ nodes_of s l2
  off_list : ∀ p : Fin K.NPROC,
    (s.procs p).state = .USED ∨ (s.procs p).state = .RUNNING →
    ∀ l : list_id K, p ∉ nodes_of s l

/-- The lists have the node sequences `L`: every list is well formed with the nodes
`L l`, no process is on two lists, and a process on no list has a null `next`, the
processes `O` apart.  `O` are the processes that a later run of `userinit` has cut off
the runnable list of CPU 0 (its closing `set_head` makes the new process the head); `O`
is empty as long as `userinit` has run once. -/
structure lists_wf (O : Finset (Fin K.NPROC)) (s : kernel K)
    (L : list_id K → List (Fin K.NPROC)) : Prop where
  nodes : ∀ l, has_nodes s l.type l.cpu_num (L l)
  disj : ∀ l l2 p, p ∈ L l → p ∈ L l2 → l = l2
  off : ∀ p, (∀ l, p ∉ L l) → p ∉ O → (s.procs p).next = none


/-- What the process record `v` adds to the number of processes that are bound to the
CPU `c` and `RUNNABLE` or `RUNNING`. -/
def counted (v : proc K) (c : Fin K.NCPU) : Int :=
  if v.cpu_num = ((c : Nat) : Int) ∧ (v.state = .RUNNABLE ∨ v.state = .RUNNING) then 1 else 0

/-- The number of processes bound to the CPU `c` (`cpu_num = c`) that are `RUNNABLE` or
`RUNNING`, the process `x` (if any) left out. -/
def bound_but (x : Option (Fin K.NPROC)) (s : kernel K) (c : Fin K.NCPU) : Int :=
  Finset.univ.sum (fun p : Fin K.NPROC => if some p = x then 0 else counted (s.procs p) c)

/-- The invariant of the process table, with the process `x` (if any) in transit between
two lists and left out of account.  `L` are the node sequences of the lists and `O` the
processes cut off the runnable list of CPU 0 by a later run of `userinit`: they stay
`RUNNABLE` and on no list.  For every process but `x` and those of `O`: it is on a list
exactly when its state is one of `UNUSED`, `SLEEPING`, `ZOMBIE`, `RUNNABLE`, and then on a
list of its state; the current process of a CPU is `RUNNING`, and of one CPU only.  With
balancing off, moreover, a process on the runnable list of the CPU `c` has `cpu_num = c`,
and `proc_list_size` of `c` is the number of processes bound to `c` that are `RUNNABLE`
or `RUNNING`, plus `d c` on account of `x`. -/
structure inv_but (O : Finset (Fin K.NPROC)) (x : Option (Fin K.NPROC))
    (d : Fin K.NCPU → Int) (s : kernel K) (L : list_id K → List (Fin K.NPROC)) : Prop where
  wf : lists_wf O s L
  onl : ∀ l p, p ∈ L l → some p ≠ x → (s.procs p).state = l.type
  cover : ∀ p, some p ≠ x → p ∉ O →
    (s.procs p).state ≠ .USED → (s.procs p).state ≠ .RUNNING → ∃ l, p ∈ L l
  cur : ∀ c p, (s.cpus c).proc = some p → some p ≠ x → (s.procs p).state = .RUNNING
  cur_inj : ∀ c c2 p, (s.cpus c).proc = some p → (s.cpus c2).proc = some p → c = c2
  bind : K.BLNCFLG = false → ∀ c p, p ∈ L (.runnable c) → some p ≠ x →
    (s.procs p).cpu_num = ((c : Nat) : Int)
  count : K.BLNCFLG = false → ∀ c, (s.cpus c).proc_list_size = bound_but x s c + d c
  orph : ∀ p, p ∈ O → (s.procs p).state = .RUNNABLE ∧ (∀ l, p ∉ L l) ∧ some p ≠ x

/-- The invariant of the process table at rest (no process in transit), with the
processes `O` cut off the runnable list of CPU 0. -/
def inv_with (O : Finset (Fin K.NPROC)) (s : kernel K)
    (L : list_id K → List (Fin K.NPROC)) : Prop :=
  inv_but O none (fun _ => 0) s L

/-- The invariant of the process table at rest, in a system in which `userinit` has run
once: no process is cut off. -/
def inv (s : kernel K) (L : list_id K → List (Fin K.NPROC)) : Prop :=
  inv_with ∅ s L

/-- One operation of the process subsystem, run to completion on its own, takes the
state `s` to the state `t`.  `userinit` is not among them: it runs once, at boot. -/
inductive step : kernel K → kernel K → Prop
  | fork (vm : vm_calls) (c : Fin K.NCPU) (r : Int) {s t : kernel K} :
      fork vm c s = .ok (r, t) → step s t
  | scheduler (c : Fin K.NCPU) {s t : kernel K} : scheduler c s = .ok t → step s t
  | yield (c : Fin K.NCPU) {s t : kernel K} : yield c s = .ok t → step s t
  | sleep (c : Fin K.NCPU) (chan : Option (chan_t K)) {s t : kernel K} :
      sleep c chan s = .ok t → step s t
  | wakeup (c : Fin K.NCPU) (chan : Option (chan_t K)) {s t : kernel K} :
      wakeup c chan s = .ok t → step s t
  | kill (pid r : Int) {s t : kernel K} : kill pid s = .ok (r, t) → step s t
  | exit (c : Fin K.NCPU) (status : Int) {s t : kernel K} : exit c status s = .ok t → step s t
  | wait (vm : vm_calls) (c : Fin K.NCPU) (addr : Nat) (r : wait_result) {s t : kernel K} :
      wait vm c addr s = .ok (r, t) → step s t
  | set_cpu (c : Fin K.NCPU) (cpu_num r : Int) {s t : kernel K} :
      set_cpu c cpu_num s = .ok (r, t) → step s t

/-- The states reachable from boot: `procinit` on the zeroed globals, then `userinit`,
then any number of operations, none interleaved with another. -/
inductive reachable : kernel K → Prop
  | boot (vm : vm_calls) (PGSIZE : Nat) (initcode_name : List Nat) (root : Option Nat)
      {s0 s : kernel K} :
      procinit (kernel.zero K) = .ok s0 → userinit vm PGSIZE initcode_name root s0 = .ok s →
      reachable s
  | step {s t : kernel K} : reachable s → step s t → reachable t

/-- The states reachable from the state after `procinit` when `userinit` is an operation
like the others, free to run again. -/
inductive reachable_userinit : kernel K → Prop
  | procinit {s : kernel K} : procinit (kernel.zero K) = .ok s → reachable_userinit s
  | userinit (vm : vm_calls) (PGSIZE : Nat) (initcode_name : List Nat) (root : Option Nat)
      {s t : kernel K} :
      reachable_userinit s → userinit vm PGSIZE initcode_name root s = .ok t →
      reachable_userinit t
  | step {s t : kernel K} : reachable_userinit s → step s t → reachable_userinit t



/-- A parent and two sleeping children on `K0`: slot 0 (pid 1, the init process) is
`RUNNING` on CPU 0; its children in slots 1 and 2 (pids 2 and 3), both bound to CPU 0,
sleep on the channel at address 9 and form the `SLEEPING` list `[1, 2]`. -/
def ex_two_sleeping : kernel K0 :=
  { procs := fun i =>
      if i = 0 then
        { proc.zero K0 with
          state := .RUNNING, pid := 1, cpu_num := 0, sz := 4096, pagetable := some 7,
          trapframe := some { epc := 0, sp := 4096, a0 := 5, regs := [] }, cwd := some 1 }
      else if i = 1 then
        { proc.zero K0 with
          state := .SLEEPING, pid := 2, parent := some 0, chan := some (.addr 9), cpu_num := 0,
          next := some 2, sz := 4096, pagetable := some 8, cwd := some 1,
          trapframe := some { epc := 0, sp := 4096, a0 := 0, regs := [] } }
      else
        { proc.zero K0 with
          state := .SLEEPING, pid := 3, parent := some 0, chan := some (.addr 9), cpu_num := 0,
          sz := 4096, pagetable := some 9, cwd := some 1,
          trapframe := some { epc := 0, sp := 4096, a0 := 0, regs := [] } }
    cpus := fun c =>
      if c = 0 then
        { proc := some 0, runnable_list_head := none, proc_list_size := 1,
          admitted_process_count := 4 }
      else cpu.zero K0
    zombie_list := none
    sleeping_list := some 1
    unused_list := none
    initproc := some 0
    nextpid := 4
    is_initialize := 1
    held := []
    copied_out := [] }

/-- The node sequences of the lists of `ex_two_sleeping`. -/
def ex_two_sleeping_lists : list_id K0 → List (Fin K0.NPROC)
  | .sleeping => [1, 2]
  | _ => []


/-- The process `p` is one that `wakeup(chan)`, called on the CPU `c`, wakes: it is not
the caller, it is `SLEEPING`, and its channel is `chan`. -/
def woken (c : Fin K.NCPU) (chan : Option (chan_t K)) (s : kernel K) (p : Fin K.NPROC) : Prop :=
  some p ≠ myproc c s ∧ (s.procs p).state = .SLEEPING ∧ (s.procs p).chan = chan

instance woken.decide (c : Fin K.NCPU) (chan : Option (chan_t K)) (s : kernel K)
    (p : Fin K.NPROC) : Decidable (woken c chan s p) := by
  unfold woken; exact inferInstance




/-- The node sequences right after `procinit` has visited the slots `done`: they form
the `UNUSED` list, every other list is empty. -/
def unused_only (done : List (Fin K.NPROC)) : list_id K → List (Fin K.NPROC)
  | .unused => done
  | _ => []

/-- The state on `K0` after `procinit` and `userinit` (no dispatch yet): slot 0 is the
init process, `RUNNABLE` on the runnable list of CPU 0. -/
def ex_userinit : kernel K0 :=
  ex_run (userinit vm_ok 4096 [105, 110, 105, 116] (some 1) ex_boot)

/-- The state on `K0` after `procinit` and two runs of `userinit`. -/
def ex_userinit_twice : kernel K0 :=
  ex_run (userinit vm_ok 4096 [105, 110, 105, 116] (some 1) ex_userinit)

/-- The number of `RUNNING` processes bound to the CPU `c` (`cpu_num = c`). -/
def running_bound (s : kernel K) (c : Fin K.NCPU) : Nat :=
  (Finset.univ.filter (fun p : Fin K.NPROC =>
    (s.procs p).state = .RUNNING ∧ (s.procs p).cpu_num = ((c : Nat) : Int))).card

/-- The state of a run on `K1` that succeeded (the zeroed globals otherwise). -/
def ex_run_balanced (r : Except fault (kernel K1)) : kernel K1 :=
  match r with
  | .ok t => t
  | .error _ => kernel.zero K1

/-- On `K1` (balancing on), after boot: the init process (slot 0, bound to CPU 0) sleeps
on the channel at address 9 and is woken from CPU 1; all counters being equal, `wakeup`
puts it on the runnable list of CPU 0. -/
def ex_balanced_woken : kernel K1 :=
  ex_run_balanced (wakeup 1 (some (.addr 9))
    (ex_run_balanced (sleep 0 (some (.addr 9)) ex_init_balanced)))

/-- From `ex_balanced_woken`: CPU 0 dispatches the init process, which sleeps on the
channel at address 9 again and is woken from CPU 1 again.  CPU 1 is now the least used
one, and `wakeup` puts the process, still bound to CPU 0, on the runnable list of
CPU 1. -/
def ex_balanced_moved : kernel K1 :=
  ex_run_balanced (wakeup 1 (some (.addr 9))
    (ex_run_balanced (sleep 0 (some (.addr 9))
      (ex_run_balanced (scheduler 0 ex_balanced_woken)))))

/-- From `ex_balanced_moved`: CPU 1 dispatches the init process. -/
def ex_balanced_dispatched : kernel K1 :=
  ex_run_balanced (scheduler 1 ex_balanced_moved)



/-- The number of processes bound to the CPU `c` (`cpu_num = c`) whose state is
`RUNNABLE` or `RUNNING`. -/
def bound_count (s : kernel K) (c : Fin K.NCPU) : Nat :=
  (Finset.univ.filter (fun p : Fin K.NPROC =>
    (s.procs p).cpu_num = ((c : Nat) : Int)
      ∧ ((s.procs p).state = .RUNNABLE ∨ (s.procs p).state = .RUNNING))).card

/-- Rounds of the `for(;;)` loop of `scheduler()`, on any CPUs and one after the other,
take the state `s` to the state `t`. -/
inductive dispatched : kernel K → kernel K → Prop
  | refl (s : kernel K) : dispatched s s
  | round (c : Fin K.NCPU) {s t u : kernel K} :
      dispatched s t → scheduler c t = .ok u → dispatched s u

/-- A child running on the only CPU in use, on `K0`: the state reached from `ex_init`
when the init process (slot 0, pid 1) forks, calls `wait` and goes to sleep on its own
record, and CPU 0 dispatches the child (slot 1, pid 2).  CPU 1 is idle. -/
def ex_child_running : kernel K0 :=
  { procs := fun i =>
      if i = 0 then
        { proc.zero K0 with
          state := .SLEEPING, pid := 1, chan := some (.proc_addr 0), cpu_num := 0,
          sz := 4096, pagetable := some 7, cwd := some 1, name := [105, 110, 105, 116],
          trapframe := some { epc := 0, sp := 4096, a0 := 5, regs := [] } }
      else if i = 1 then
        { proc.zero K0 with
          state := .RUNNING, pid := 2, parent := some 0, cpu_num := 0,
          sz := 4096, pagetable := some 7, cwd := some 1, name := [105, 110, 105, 116],
          trapframe := some { epc := 0, sp := 4096, a0 := 0, regs := [] } }
      else { proc.zero K0 with cpu_num := -1 }
    cpus := fun c =>
      if c = 0 then
        { proc := some 1, runnable_list_head := none, proc_list_size := 1,
          admitted_process_count := 2 }
      else
        { proc := none, runnable_list_head := none, proc_list_size := 0,
          admitted_process_count := 0 }
    zombie_list := none
    sleeping_list := some 0
    unused_list := some 2
    initproc := some 0
    nextpid := 3
    is_initialize := 1
    held := []
    copied_out := [] }

/-- The state `exit(42)` of the child leaves from `ex_child_running`: the child is a
`ZOMBIE`, its parent is `RUNNABLE` again, CPU 0 runs nobody. -/
def ex_child_exited : kernel K0 := ex_run (exit 0 42 ex_child_running)

/-- The state after CPU 0 has dispatched the parent from `ex_child_exited`. -/
def ex_parent_dispatched : kernel K0 := ex_run (scheduler 0 ex_child_exited)
/-! ## Chains of `next` pointers -/

theorem is_list_congr {α : Type} {nxt nxt2 : α → Option α} :
    ∀ (l : List α) (h : Option α), (∀ q ∈ l, nxt q = nxt2 q) → is_list nxt h l →
      is_list nxt2 h l
  | [], _, _, hl => hl
  | q :: qs, h, hq, hl => by
    refine ⟨hl.1, ?_⟩
    rw [← hq q (List.mem_cons_self _ _)]
    exact is_list_congr qs _ (fun x hx => hq x (List.mem_cons_of_mem _ hx)) hl.2

theorem is_list_unique {α : Type} {nxt : α → Option α} :
    ∀ (l1 l2 : List α) (h : Option α), is_list nxt h l1 → is_list nxt h l2 → l1 = l2
  | [], [], _, _, _ => rfl
  | [], _ :: _, h, h1, h2 => by
    have e1 : h = none := h1
    rw [e1] at h2
    exact absurd h2.1 (by simp)
  | _ :: _, [], h, h1, h2 => by
    have e2 : h = none := h2
    rw [e2] at h1
    exact absurd h1.1 (by simp)
  | a :: l1, b :: l2, h, h1, h2 => by
    have hab : a = b := Option.some.inj (h1.1.symm.trans h2.1)
    subst hab
    rw [is_list_unique l1 l2 _ h1.2 h2.2]

theorem is_list_suffix {α : Type} {nxt : α → Option α} :
    ∀ (a : List α) (x : α) (b : List α) (h : Option α), is_list nxt h (a ++ x :: b) →
      is_list nxt (some x) (x :: b)
  | [], _, _, _, hl => ⟨rfl, hl.2⟩
  | _ :: a, x, b, _, hl => is_list_suffix a x b _ hl.2

/-- A chain that reaches the null terminator visits no node twice. -/
theorem is_list_nodup {α : Type} {nxt : α → Option α} :
    ∀ (l : List α) (h : Option α), is_list nxt h l → l.Nodup
  | [], _, _ => List.nodup_nil
  | q :: qs, h, hl => by
    refine List.nodup_cons.mpr ⟨?_, is_list_nodup qs _ hl.2⟩
    intro hmem
    obtain ⟨a, b, hab⟩ := List.append_of_mem hmem
    have h1 : is_list nxt (some q) (q :: b) := by
      have := hl.2
      rw [hab] at this
      exact is_list_suffix a q b _ this
    have h2 : is_list nxt (some q) (q :: qs) := ⟨rfl, hl.2⟩
    have := is_list_unique _ _ _ h1 h2
    have hlen := congrArg List.length this
    rw [hab] at hlen
    simp at hlen
    omega

theorem is_list_length_le {n : Nat} {nxt : Fin n → Option (Fin n)} (l : List (Fin n))
    (h : Option (Fin n)) (hl : is_list nxt h l) : l.length ≤ n := by
  have := (is_list_nodup l h hl).length_le_card
  simpa using this

/-- Appending at the tail: storing `p` in the `next` of the last node. -/
theorem is_list_snoc {α : Type} [DecidableEq α] {nxt : α → Option α} (p : α)
    (hp : nxt p = none) :
    ∀ (l : List α) (h : Option α) (last : α), is_list nxt h l → l.getLast? = some last →
      p ∉ l → is_list (Function.update nxt last (some p)) h (l ++ [p])
  | [], _, _, _, hlast, _ => by simp at hlast
  | [q], h, last, hl, hlast, hpl => by
    simp at hlast
    subst hlast
    have hne : p ≠ q := by simpa using hpl
    refine ⟨hl.1, ?_, ?_⟩
    · simp
    · show Function.update nxt q (some p) p = none
      rw [Function.update_noteq hne]; exact hp
  | q :: q2 :: qs, h, last, hl, hlast, hpl => by
    have hnd := is_list_nodup _ _ hl
    have hlast2 : (q2 :: qs).getLast? = some last := by
      simpa [List.getLast?_cons_cons] using hlast
    have hmem : last ∈ q2 :: qs := List.mem_of_getLast?_eq_some hlast2
    have hq : q ≠ last := by
      intro e; subst e
      exact (List.nodup_cons.mp hnd).1 hmem
    refine ⟨hl.1, ?_⟩
    show is_list _ _ ((q2 :: qs) ++ [p])
    rw [Function.update_noteq hq]
    exact is_list_snoc p hp (q2 :: qs) _ last hl.2 hlast2
      (fun hc => hpl (List.mem_cons_of_mem _ hc))

/-- Splicing out a node that is not the head: the predecessor takes over its `next`,
its own `next` is cleared. -/
theorem is_list_splice {α : Type} [DecidableEq α] {nxt : α → Option α} (p : α)
    (b : List α) :
    ∀ (a : List α) (q : α) (pd : α), is_list nxt (some q) (q :: a ++ p :: b) →
      (q :: a).getLast? = some pd →
      is_list (Function.update (Function.update nxt pd (nxt p)) p none) (some q)
        (q :: a ++ b)
  | [], q, pd, hl, hlast => by
    simp at hlast
    subst hlast
    have hnd := is_list_nodup _ _ hl
    have hqp : q ≠ p := by
      intro e; subst e
      exact (List.nodup_cons.mp hnd).1 (by simp)
    have hb : is_list nxt (nxt p) b := hl.2.2
    have hpb : p ∉ b := (List.nodup_cons.mp (List.nodup_cons.mp hnd).2).1
    have hqb : q ∉ b := fun hc => (List.nodup_cons.mp hnd).1 (by simp [hc])
    refine ⟨rfl, ?_⟩
    rw [Function.update_noteq hqp, Function.update_same]
    refine is_list_congr b _ (fun x hx => ?_) hb
    have hxp : x ≠ p := fun e => hpb (e ▸ hx)
    have hxq : x ≠ q := fun e => hqb (e ▸ hx)
    rw [Function.update_noteq hxp, Function.update_noteq hxq]
  | a1 :: a, q, pd, hl, hlast => by
    have hnd := is_list_nodup _ _ hl
    have hlast2 : (a1 :: a).getLast? = some pd := by
      simpa [List.getLast?_cons_cons] using hlast
    have hmem : pd ∈ a1 :: a := List.mem_of_getLast?_eq_some hlast2
    have hqpd : q ≠ pd := by
      intro e; subst e
      exact (List.nodup_cons.mp hnd).1 (List.mem_append_left _ hmem)
    have hqp : q ≠ p := by
      intro e; subst e
      exact (List.nodup_cons.mp hnd).1 (by simp)
    have hq1 : nxt q = some a1 := hl.2.1
    refine ⟨rfl, ?_⟩
    rw [Function.update_noteq hqp, Function.update_noteq hqpd, hq1]
    have h2 : is_list nxt (some a1) (a1 :: a ++ p :: b) := ⟨rfl, hl.2.2⟩
    exact is_list_splice p b a a1 pd h2 hlast2

/-! ## Stores, locks and list heads -/

@[simp] theorem acquire_procs (l : lock_id K) (s : kernel K) :
    (acquire l s).procs = s.procs := rfl

@[simp] theorem release_procs (l : lock_id K) (s : kernel K) :
    (release l s).procs = s.procs := rfl

@[simp] theorem acquire_cpus (l : lock_id K) (s : kernel K) :
    (acquire l s).cpus = s.cpus := rfl

@[simp] theorem release_cpus (l : lock_id K) (s : kernel K) :
    (release l s).cpus = s.cpus := rfl

@[simp] theorem acquire_held (l : lock_id K) (s : kernel K) :
    (acquire l s).held = l :: s.held := rfl

@[simp] theorem release_held (l : lock_id K) (s : kernel K) :
    (release l s).held = s.held.erase l := rfl

@[simp] theorem set_next_held (s : kernel K) (p : Fin K.NPROC) (nx : Option (Fin K.NPROC)) :
    (set_next s p nx).held = s.held := rfl

@[simp] theorem set_next_cpus (s : kernel K) (p : Fin K.NPROC) (nx : Option (Fin K.NPROC)) :
    (set_next s p nx).cpus = s.cpus := rfl

@[simp] theorem set_proc_held (s : kernel K) (p : Fin K.NPROC) (v : proc K) :
    (set_proc s p v).held = s.held := rfl

@[simp] theorem set_proc_cpus (s : kernel K) (p : Fin K.NPROC) (v : proc K) :
    (set_proc s p v).cpus = s.cpus := rfl

@[simp] theorem set_proc_procs (s : kernel K) (p : Fin K.NPROC) (v : proc K) :
    (set_proc s p v).procs = Function.update s.procs p v := rfl

@[simp] theorem set_cpus_procs (s : kernel K) (c : Fin K.NCPU) (v : cpu K) :
    (set_cpus s c v).procs = s.procs := rfl

@[simp] theorem set_cpus_held (s : kernel K) (c : Fin K.NCPU) (v : cpu K) :
    (set_cpus s c v).held = s.held := rfl

@[simp] theorem set_cpus_cpus (s : kernel K) (c : Fin K.NCPU) (v : cpu K) :
    (set_cpus s c v).cpus = Function.update s.cpus c v := rfl

theorem set_next_procs (s : kernel K) (p : Fin K.NPROC) (nx : Option (Fin K.NPROC)) :
    (set_next s p nx).procs = Function.update s.procs p { s.procs p with next := nx } := rfl

theorem next_of_set_next (s : kernel K) (p : Fin K.NPROC) (nx : Option (Fin K.NPROC)) :
    next_of (set_next s p nx) = Function.update (next_of s) p nx := by
  funext i
  by_cases h : i = p
  · subst h; simp [next_of, set_next]
  · simp [next_of, set_next, Function.update_noteq h]

@[simp] theorem next_of_acquire (l : lock_id K) (s : kernel K) :
    next_of (acquire l s) = next_of s := rfl

@[simp] theorem next_of_release (l : lock_id K) (s : kernel K) :
    next_of (release l s) = next_of s := rfl

theorem release_acquire (l : lock_id K) (s : kernel K) : release l (acquire l s) = s := by
  cases s; simp [release, acquire]

theorem set_next_acquire (l : lock_id K) (s : kernel K) (p : Fin K.NPROC)
    (nx : Option (Fin K.NPROC)) : set_next (acquire l s) p nx = acquire l (set_next s p nx) := rfl

theorem set_next_release (l : lock_id K) (s : kernel K) (p : Fin K.NPROC)
    (nx : Option (Fin K.NPROC)) : set_next (release l s) p nx = release l (set_next s p nx) := rfl

/-! ### Heads -/

theorem list_lock_of_ok {list_type : procstate} {cpu_num : Int}
    (h : list_ok K list_type cpu_num) : ∃ L, list_lock K list_type cpu_num = some L := by
  cases list_type <;> simp [list_ok] at h <;> simp [list_lock]
  simp [locks_index, h.1, h.2.1]

theorem list_lock_not_link {list_type : procstate} {cpu_num : Int} {L : lock_id K}
    (h : list_lock K list_type cpu_num = some L) (q : Fin K.NPROC) : lock_id.link_lock q ≠ L := by
  cases list_type <;> simp [list_lock] at h
  all_goals first
    | (subst h; simp)
    | (obtain ⟨i, -, rfl⟩ := h; simp)

theorem acquire_list_eq {list_type : procstate} {cpu_num : Int} {L : lock_id K}
    (h : list_lock K list_type cpu_num = some L) (s : kernel K) :
    acquire_list list_type cpu_num s = .ok (acquire L s) := by
  cases list_type <;> simp [list_lock] at h <;> simp [acquire_list, h]
  obtain ⟨i, hi, rfl⟩ := h
  simp [hi]

theorem release_list_eq {list_type : procstate} {cpu_num : Int} {L : lock_id K}
    (h : list_lock K list_type cpu_num = some L) (s : kernel K) :
    release_list list_type cpu_num s = .ok (release L s) := by
  cases list_type <;> simp [list_lock] at h <;> simp [release_list, h]
  obtain ⟨i, hi, rfl⟩ := h
  simp [hi]

theorem cpus_index_of_ok {cpu_num : Int} (h : list_ok K .RUNNABLE cpu_num) :
    ∃ c, cpus_index K cpu_num = some c := by
  simp [list_ok] at h
  simp [cpus_index, h.1, h.2.2]

theorem get_head_eq {list_type : procstate} {cpu_num : Int}
    (h : list_ok K list_type cpu_num) (s : kernel K) :
    get_head list_type cpu_num s = .ok (head_of s list_type cpu_num) := by
  cases list_type
  case RUNNABLE =>
    obtain ⟨c, hc⟩ := cpus_index_of_ok h
    simp [head_of, get_head, hc]
  all_goals simp [list_ok] at h
  all_goals simp [head_of, get_head]

theorem set_head_eq {list_type : procstate} {cpu_num : Int}
    (h : list_ok K list_type cpu_num) (v : Option (Fin K.NPROC)) (s : kernel K) :
    set_head v list_type cpu_num s = .ok (with_head s list_type cpu_num v) := by
  cases list_type
  case RUNNABLE =>
    obtain ⟨c, hc⟩ := cpus_index_of_ok h
    simp [with_head, set_head, hc]
  all_goals simp [list_ok] at h
  all_goals simp [with_head, set_head]

theorem has_nodes_iff {list_type : procstate} {cpu_num : Int}
    (h : list_ok K list_type cpu_num) (s : kernel K) (qs : List (Fin K.NPROC)) :
    has_nodes s list_type cpu_num qs ↔ is_list (next_of s) (head_of s list_type cpu_num) qs := by
  simp [has_nodes, get_head_eq h]

@[simp] theorem with_head_procs (s : kernel K) (list_type : procstate) (cpu_num : Int)
    (v : Option (Fin K.NPROC)) : (with_head s list_type cpu_num v).procs = s.procs := by
  cases list_type
  case RUNNABLE =>
    unfold with_head set_head
    cases cpus_index K cpu_num <;> rfl
  all_goals rfl

@[simp] theorem with_head_held (s : kernel K) (list_type : procstate) (cpu_num : Int)
    (v : Option (Fin K.NPROC)) : (with_head s list_type cpu_num v).held = s.held := by
  cases list_type
  case RUNNABLE =>
    unfold with_head set_head
    cases cpus_index K cpu_num <;> rfl
  all_goals rfl

@[simp] theorem next_of_with_head (s : kernel K) (list_type : procstate) (cpu_num : Int)
    (v : Option (Fin K.NPROC)) : next_of (with_head s list_type cpu_num v) = next_of s := by
  funext i; simp [next_of]

theorem with_head_acquire (l : lock_id K) (s : kernel K) (list_type : procstate)
    (cpu_num : Int) (v : Option (Fin K.NPROC)) :
    with_head (acquire l s) list_type cpu_num v = acquire l (with_head s list_type cpu_num v) := by
  cases list_type
  case RUNNABLE =>
    unfold with_head set_head
    cases cpus_index K cpu_num <;> rfl
  all_goals rfl

theorem with_head_release (l : lock_id K) (s : kernel K) (list_type : procstate)
    (cpu_num : Int) (v : Option (Fin K.NPROC)) :
    with_head (release l s) list_type cpu_num v = release l (with_head s list_type cpu_num v) := by
  cases list_type
  case RUNNABLE =>
    unfold with_head set_head
    cases cpus_index K cpu_num <;> rfl
  all_goals rfl

theorem set_next_with_head (s : kernel K) (list_type : procstate) (cpu_num : Int)
    (v : Option (Fin K.NPROC)) (p : Fin K.NPROC) (nx : Option (Fin K.NPROC)) :
    set_next (with_head s list_type cpu_num v) p nx
      = with_head (set_next s p nx) list_type cpu_num v := by
  cases list_type
  case RUNNABLE =>
    unfold with_head set_head
    cases cpus_index K cpu_num <;> rfl
  all_goals rfl

/-- The head of a list depends on `cpus` and the three global heads only. -/
theorem head_of_congr {s t : kernel K} (hc : s.cpus = t.cpus)
    (hz : s.zombie_list = t.zombie_list) (hs : s.sleeping_list = t.sleeping_list)
    (hu : s.unused_list = t.unused_list) (list_type : procstate) (cpu_num : Int) :
    head_of s list_type cpu_num = head_of t list_type cpu_num := by
  unfold head_of get_head
  cases list_type <;> simp [hc, hz, hs, hu]

@[simp] theorem head_of_acquire (l : lock_id K) (s : kernel K) (list_type : procstate)
    (cpu_num : Int) : head_of (acquire l s) list_type cpu_num = head_of s list_type cpu_num :=
  head_of_congr rfl rfl rfl rfl _ _

@[simp] theorem head_of_release (l : lock_id K) (s : kernel K) (list_type : procstate)
    (cpu_num : Int) : head_of (release l s) list_type cpu_num = head_of s list_type cpu_num :=
  head_of_congr rfl rfl rfl rfl _ _

@[simp] theorem head_of_set_next (s : kernel K) (p : Fin K.NPROC) (nx : Option (Fin K.NPROC))
    (list_type : procstate) (cpu_num : Int) :
    head_of (set_next s p nx) list_type cpu_num = head_of s list_type cpu_num :=
  head_of_congr rfl rfl rfl rfl _ _

@[simp] theorem head_of_set_proc (s : kernel K) (p : Fin K.NPROC) (v : proc K)
    (list_type : procstate) (cpu_num : Int) :
    head_of (set_proc s p v) list_type cpu_num = head_of s list_type cpu_num :=
  head_of_congr rfl rfl rfl rfl _ _

theorem cpus_index_inj {a b : Int} {c : Fin K.NCPU} (ha : cpus_index K a = some c)
    (hb : cpus_index K b = some c) : a = b := by
  unfold cpus_index at ha hb
  split at ha <;> split at hb <;> simp at ha hb
  subst ha
  have := congrArg Fin.val hb
  simp at this
  omega

theorem head_of_with_head_same {list_type : procstate} {cpu_num : Int}
    (h : list_ok K list_type cpu_num) (s : kernel K) (v : Option (Fin K.NPROC)) :
    head_of (with_head s list_type cpu_num v) list_type cpu_num = v := by
  cases list_type
  case RUNNABLE =>
    obtain ⟨c, hc⟩ := cpus_index_of_ok h
    simp [head_of, get_head, with_head, set_head, hc]
  all_goals simp [list_ok] at h
  all_goals simp [head_of, get_head, with_head, set_head]

theorem head_of_with_head_other {list_type : procstate} {cpu_num : Int}
    {list_type2 : procstate} {cpu_num2 : Int}
    (hne : ¬ same_list list_type cpu_num list_type2 cpu_num2) (s : kernel K)
    (v : Option (Fin K.NPROC)) :
    head_of (with_head s list_type cpu_num v) list_type2 cpu_num2
      = head_of s list_type2 cpu_num2 := by
  cases list_type <;> cases list_type2
  case RUNNABLE.RUNNABLE =>
    have hne2 : cpu_num ≠ cpu_num2 := by simpa [same_list] using hne
    unfold head_of get_head with_head set_head
    cases h1 : cpus_index K cpu_num with
    | none => simp
    | some c1 =>
      cases h2 : cpus_index K cpu_num2 with
      | none => simp
      | some c2 =>
        have hc : c2 ≠ c1 := by
          intro e; subst e
          exact hne2 (cpus_index_inj h1 h2)
        simp [Function.update_noteq hc]
  all_goals (try simp [same_list] at hne)
  all_goals
    unfold head_of get_head with_head set_head
    cases cpus_index K cpu_num <;> cases cpus_index K cpu_num2 <;> rfl

/-! ## `add_proc_to_list` -/

theorem erase_other_cons {α : Type} [DecidableEq α] {a b : α} (hab : a ≠ b) (l : List α) :
    (a :: b :: l).erase b = a :: l := by
  rw [List.erase_cons_tail (by simpa using hab), List.erase_cons_head]

theorem add_proc_to_list_loop_spec (list_type : procstate) (cpu_num : Int) :
    ∀ (qs : List (Fin K.NPROC)) (fuel : Nat) (s : kernel K)
      (prev curr : Option (Fin K.NPROC)) (lk : lock_id K) (h : List (lock_id K)),
      is_list (next_of s) curr qs → s.held = lk :: h →
      (match prev with
        | some pv => lk = lock_id.link_lock pv ∧ pv ∉ qs
        | none => list_lock K list_type cpu_num = some lk) →
      qs.length < fuel →
      add_proc_to_list_loop list_type cpu_num fuel s prev curr
        = .ok ({ s with held := (qs.getLast?.map lock_id.link_lock).getD lk :: h },
               qs.getLast?.or prev)
  | [], fuel, s, prev, curr, lk, h, hl, hh, _, hf => by
    have hc : curr = none := hl
    subst hc
    obtain ⟨f, rfl⟩ : ∃ f, fuel = f + 1 := ⟨fuel - 1, by simp at hf; omega⟩
    cases s
    simp at hh
    subst hh
    simp [add_proc_to_list_loop]
  | q :: qs, fuel, s, prev, curr, lk, h, hl, hh, hprev, hf => by
    have hc : curr = some q := hl.1
    subst hc
    obtain ⟨f, rfl⟩ : ∃ f, fuel = f + 1 := ⟨fuel - 1, by simp at hf; omega⟩
    have hnd := is_list_nodup _ _ hl
    have hne : lock_id.link_lock q ≠ lk := by
      cases prev with
      | none => exact list_lock_not_link hprev q
      | some pv =>
        obtain ⟨rfl, hpv⟩ := hprev
        intro e
        injection e with e
        exact hpv (e ▸ List.mem_cons_self _ _)
    have hstep : (match prev with
           | some pv => Except.ok (release (.link_lock pv) (acquire (.link_lock q) s))
           | none => release_list list_type cpu_num (acquire (.link_lock q) s))
        = .ok (release lk (acquire (.link_lock q) s)) := by
      cases prev with
      | none => exact release_list_eq hprev _
      | some pv => rw [hprev.1]
    have ih := add_proc_to_list_loop_spec list_type cpu_num qs f
      (release lk (acquire (.link_lock q) s)) (some q)
      ((release lk (acquire (.link_lock q) s)).procs q).next (.link_lock q) h
      hl.2 (by simp [hh, erase_other_cons hne]) ⟨rfl, (List.nodup_cons.mp hnd).1⟩
      (by simp at hf; omega)
    unfold add_proc_to_list_loop
    simp only [hstep]
    rw [ih, List.getLast?_cons]
    cases qs.getLast? <;> rfl

theorem add_proc_to_list_eq {list_type : procstate} {cpu_num : Int}
    (hok : list_ok K list_type cpu_num) (s : kernel K) (p : Fin K.NPROC)
    (qs : List (Fin K.NPROC)) (hn : has_nodes s list_type cpu_num qs) :
    add_proc_to_list p list_type cpu_num s = .ok (1, add_result s p list_type cpu_num qs) := by
  obtain ⟨L, hL⟩ := list_lock_of_ok hok
  have hl := (has_nodes_iff hok s qs).mp hn
  unfold add_proc_to_list
  simp only [acquire_list_eq hL, get_head_eq hok, bind, Except.bind, head_of_acquire]
  cases qs with
  | nil =>
    have h0 : head_of s list_type cpu_num = none := hl
    simp only [h0, set_head_eq hok, release_list_eq hL, with_head_acquire, release_acquire,
      add_result, List.getLast?_nil]
    rfl
  | cons q qs =>
    have h0 : head_of s list_type cpu_num = some q := hl.1
    have hlen := is_list_length_le _ _ hl
    have hloop := add_proc_to_list_loop_spec list_type cpu_num (q :: qs) (K.NPROC + 1)
      (acquire L s) none (some q) L s.held (⟨rfl, hl.2⟩) rfl hL (by omega)
    simp only [h0, hloop, List.getLast?_cons, Option.map_some', Option.getD_some,
      Option.or_some, add_result]
    cases s
    simp [set_next, release, acquire, pure, Except.pure]

theorem get_head_congr {s t : kernel K} (hc : s.cpus = t.cpus)
    (hz : s.zombie_list = t.zombie_list) (hs : s.sleeping_list = t.sleeping_list)
    (hu : s.unused_list = t.unused_list) (list_type : procstate) (cpu_num : Int) :
    get_head list_type cpu_num s = get_head list_type cpu_num t := by
  unfold get_head
  cases list_type <;> simp [hc, hz, hs, hu]

theorem get_head_with_head_other {list_type : procstate} {cpu_num : Int}
    {list_type2 : procstate} {cpu_num2 : Int}
    (hne : ¬ same_list list_type cpu_num list_type2 cpu_num2) (s : kernel K)
    (v : Option (Fin K.NPROC)) :
    get_head list_type2 cpu_num2 (with_head s list_type cpu_num v)
      = get_head list_type2 cpu_num2 s := by
  cases list_type <;> cases list_type2
  case RUNNABLE.RUNNABLE =>
    have hne2 : cpu_num ≠ cpu_num2 := by simpa [same_list] using hne
    unfold get_head with_head set_head
    cases h1 : cpus_index K cpu_num with
    | none => simp
    | some c1 =>
      cases h2 : cpus_index K cpu_num2 with
      | none => simp
      | some c2 =>
        have hc : c2 ≠ c1 := by
          intro e; subst e
          exact hne2 (cpus_index_inj h1 h2)
        simp [Function.update_noteq hc]
  all_goals (try simp [same_list] at hne)
  all_goals
    unfold get_head with_head set_head
    cases cpus_index K cpu_num <;> cases cpus_index K cpu_num2 <;> rfl

/-- A list keeps its node sequence when its head and the `next` of its nodes are not
touched. -/
theorem has_nodes_congr {s t : kernel K} {list_type : procstate} {cpu_num : Int}
    {ms : List (Fin K.NPROC)}
    (hg : get_head list_type cpu_num t = get_head list_type cpu_num s)
    (hnx : ∀ q ∈ ms, (s.procs q).next = (t.procs q).next)
    (hm : has_nodes s list_type cpu_num ms) : has_nodes t list_type cpu_num ms := by
  unfold has_nodes at hm ⊢
  rw [hg]
  cases hh : get_head list_type cpu_num s with
  | error e => simp [hh] at hm
  | ok h2 =>
    simp only [hh] at hm ⊢
    exact is_list_congr ms h2 hnx hm

theorem has_nodes_add_result {list_type : procstate} {cpu_num : Int}
    (hok : list_ok K list_type cpu_num) (s : kernel K) (p : Fin K.NPROC)
    (qs : List (Fin K.NPROC)) (hn : has_nodes s list_type cpu_num qs) (hp : p ∉ qs)
    (hnx : (s.procs p).next = none) :
    has_nodes (add_result s p list_type cpu_num qs) list_type cpu_num (qs ++ [p]) := by
  have hl := (has_nodes_iff hok s qs).mp hn
  rw [has_nodes_iff hok]
  unfold add_result
  cases hlast : qs.getLast? with
  | none =>
    have : qs = [] := List.getLast?_eq_none_iff.mp hlast
    subst this
    simp only [head_of_with_head_same hok, next_of_with_head, List.nil_append]
    exact ⟨rfl, hnx⟩
  | some last =>
    simp only [head_of_set_next, next_of_set_next]
    exact is_list_snoc p hnx qs _ last hl hlast hp

theorem has_nodes_add_result_other {list_type : procstate} {cpu_num : Int}
    {list_type2 : procstate} {cpu_num2 : Int}
    (hne : ¬ same_list list_type cpu_num list_type2 cpu_num2)
    (s : kernel K) (p : Fin K.NPROC) (qs ms : List (Fin K.NPROC))
    (hm : has_nodes s list_type2 cpu_num2 ms) (hdisj : ∀ q ∈ qs, q ∉ ms) :
    has_nodes (add_result s p list_type cpu_num qs) list_type2 cpu_num2 ms := by
  unfold add_result
  cases hlast : qs.getLast? with
  | none =>
    exact has_nodes_congr (get_head_with_head_other hne s (some p))
      (fun q _ => by simp) hm
  | some last =>
    have hmem : last ∈ qs := List.mem_of_getLast?_eq_some hlast
    show has_nodes (set_next s last (some p)) list_type2 cpu_num2 ms
    refine has_nodes_congr (s := s) (get_head_congr rfl rfl rfl rfl _ _) (fun q hq => ?_) hm
    have hql : q ≠ last := fun e => hdisj last hmem (e ▸ hq)
    simp [set_next, Function.update_noteq hql]

theorem add_result_next_self (s : kernel K) (p : Fin K.NPROC) (list_type : procstate)
    (cpu_num : Int) (qs : List (Fin K.NPROC)) (hp : p ∉ qs) (hnx : (s.procs p).next = none) :
    ((add_result s p list_type cpu_num qs).procs p).next = none := by
  unfold add_result
  cases hlast : qs.getLast? with
  | none => simpa using hnx
  | some last =>
    have hmem : last ∈ qs := List.mem_of_getLast?_eq_some hlast
    have hpl : p ≠ last := fun e => hp (e ▸ hmem)
    simpa [set_next, Function.update_noteq hpl] using hnx

theorem add_result_held (s : kernel K) (p : Fin K.NPROC) (list_type : procstate)
    (cpu_num : Int) (qs : List (Fin K.NPROC)) :
    (add_result s p list_type cpu_num qs).held = s.held := by
  unfold add_result
  cases qs.getLast? with
  | none => exact with_head_held s list_type cpu_num _
  | some last => rfl

theorem remove_head_result_held (s : kernel K) (list_type : procstate) (cpu_num : Int)
    (q : Fin K.NPROC) : (remove_head_result s list_type cpu_num q).held = s.held :=
  with_head_held s list_type cpu_num _

theorem remove_result_held (s : kernel K) (p : Fin K.NPROC) (list_type : procstate)
    (qs : List (Fin K.NPROC)) : (remove_result s p list_type qs).held = s.held := by
  unfold remove_result
  cases pred_of p qs with
  | none => exact with_head_held s list_type _ _
  | some pd => rfl

/-- C4. `add_proc_to_list(p, list, cpu)`, called with no list-head lock and no link lock
held, on a well-formed list with node sequence `qs` that does not contain `p`, with
`p->next` null, returns 1 with every lock released again and leaves the list with node
sequence `qs ++ [p]` (`p` at the tail, `p->next` still null); every other list, sharing
no node with this one, keeps its node sequence. -/
theorem add_proc_to_list_appends (s : kernel K) (p : Fin K.NPROC) (list_type : procstate)
    (cpu_num : Int) (qs : List (Fin K.NPROC)) (hfree : s.held = [])
    (hok : list_ok K list_type cpu_num)
    (hn : has_nodes s list_type cpu_num qs) (hp : p ∉ qs) (hnx : (s.procs p).next = none) :
    ∃ t, add_proc_to_list p list_type cpu_num s = .ok (1, t)
      ∧ t.held = []
      ∧ has_nodes t list_type cpu_num (qs ++ [p])
      ∧ (t.procs p).next = none
      ∧ ∀ (list_type2 : procstate) (cpu_num2 : Int) (ms : List (Fin K.NPROC)),
          ¬ same_list list_type cpu_num list_type2 cpu_num2 → (∀ q ∈ qs, q ∉ ms) →
          has_nodes s list_type2 cpu_num2 ms → has_nodes t list_type2 cpu_num2 ms :=
  ⟨add_result s p list_type cpu_num qs, add_proc_to_list_eq hok s p qs hn,
    (add_result_held s p list_type cpu_num qs).trans hfree,
    has_nodes_add_result hok s p qs hn hp hnx,
    add_result_next_self s p list_type cpu_num qs hp hnx,
    fun _ _ ms hne hdisj hm => has_nodes_add_result_other hne s p qs ms hm hdisj⟩

theorem add_proc_to_list_appends_witness :
    ex_two_unused.held = [] ∧
    ∃ t, add_proc_to_list (2 : Fin K0.NPROC) .UNUSED 0 ex_two_unused = .ok (1, t)
      ∧ t.held = []
      ∧ has_nodes t .UNUSED 0 ([0, 1] ++ [2])
      ∧ (t.procs 2).next = none
      ∧ ∀ (list_type2 : procstate) (cpu_num2 : Int) (ms : List (Fin K0.NPROC)),
          ¬ same_list .UNUSED 0 list_type2 cpu_num2 → (∀ q ∈ [0, 1], q ∉ ms) →
          has_nodes ex_two_unused list_type2 cpu_num2 ms → has_nodes t list_type2 cpu_num2 ms :=
  ⟨rfl, add_proc_to_list_appends ex_two_unused 2 .UNUSED 0 [0, 1] rfl (by decide) (by decide)
    (by decide) (by decide)⟩

/-! ## `remove_head` -/

theorem remove_head_nil {list_type : procstate} {cpu_num : Int}
    (hok : list_ok K list_type cpu_num) (s : kernel K)
    (hn : has_nodes s list_type cpu_num []) :
    remove_head list_type cpu_num s = .ok (none, s) := by
  obtain ⟨L, hL⟩ := list_lock_of_ok hok
  have h0 : head_of s list_type cpu_num = none := (has_nodes_iff hok s []).mp hn
  unfold remove_head
  simp only [acquire_list_eq hL, get_head_eq hok, bind, Except.bind, head_of_acquire, h0,
    release_list_eq hL, release_acquire]
  rfl

theorem remove_head_cons {list_type : procstate} {cpu_num : Int}
    (hok : list_ok K list_type cpu_num) (s : kernel K) (q : Fin K.NPROC)
    (qs : List (Fin K.NPROC)) (hn : has_nodes s list_type cpu_num (q :: qs)) :
    remove_head list_type cpu_num s
      = .ok (some q, remove_head_result s list_type cpu_num q) := by
  obtain ⟨L, hL⟩ := list_lock_of_ok hok
  have h0 : head_of s list_type cpu_num = some q := ((has_nodes_iff hok s _).mp hn).1
  unfold remove_head
  simp only [acquire_list_eq hL, get_head_eq hok, bind, Except.bind, head_of_acquire, h0,
    set_head_eq hok, release_list_eq hL, acquire_procs, with_head_acquire, set_next_acquire,
    release_acquire, remove_head_result]
  rfl

theorem has_nodes_remove_head_result {list_type : procstate} {cpu_num : Int}
    (hok : list_ok K list_type cpu_num) (s : kernel K) (q : Fin K.NPROC)
    (qs : List (Fin K.NPROC)) (hn : has_nodes s list_type cpu_num (q :: qs)) :
    has_nodes (remove_head_result s list_type cpu_num q) list_type cpu_num qs := by
  have hl := (has_nodes_iff hok s _).mp hn
  have hnd := is_list_nodup _ _ hl
  rw [has_nodes_iff hok]
  unfold remove_head_result
  rw [head_of_set_next, head_of_with_head_same hok, next_of_set_next, next_of_with_head]
  refine is_list_congr qs _ (fun x hx => ?_) hl.2
  have hxq : x ≠ q := fun e => (List.nodup_cons.mp hnd).1 (e ▸ hx)
  rw [Function.update_noteq hxq]

theorem has_nodes_remove_head_result_other {list_type : procstate} {cpu_num : Int}
    {list_type2 : procstate} {cpu_num2 : Int}
    (hne : ¬ same_list list_type cpu_num list_type2 cpu_num2)
    (s : kernel K) (q : Fin K.NPROC) (ms : List (Fin K.NPROC))
    (hm : has_nodes s list_type2 cpu_num2 ms) (hq : q ∉ ms) :
    has_nodes (remove_head_result s list_type cpu_num q) list_type2 cpu_num2 ms := by
  refine has_nodes_congr (s := s) ?_ (fun x hx => ?_) hm
  · unfold remove_head_result
    rw [← get_head_with_head_other hne s (s.procs q).next]
    exact get_head_congr rfl rfl rfl rfl _ _
  · have hxq : x ≠ q := fun e => hq (e ▸ hx)
    simp [remove_head_result, set_next, Function.update_noteq hxq]

theorem remove_head_result_procs (s : kernel K) (list_type : procstate) (cpu_num : Int)
    (q : Fin K.NPROC) :
    (remove_head_result s list_type cpu_num q).procs
      = Function.update s.procs q { s.procs q with next := none } := by
  simp [remove_head_result, set_next]

/-- C5. `remove_head`, called with no list-head lock and no link lock held, on an empty
list returns null and changes nothing; on a well-formed list with node sequence
`q :: rest` it returns `q` with every lock released again, leaves the list as `rest`,
clears `q->next`, changes no other field of any process and no list that does not
contain `q`. -/
theorem remove_head_pops (s : kernel K) (list_type : procstate) (cpu_num : Int)
    (qs : List (Fin K.NPROC)) (hfree : s.held = []) (hok : list_ok K list_type cpu_num)
    (hn : has_nodes s list_type cpu_num qs) :
    match qs with
    | [] => remove_head list_type cpu_num s = .ok (none, s)
    | q :: rest =>
      ∃ t, remove_head list_type cpu_num s = .ok (some q, t)
        ∧ t.held = []
        ∧ has_nodes t list_type cpu_num rest
        ∧ t.procs q = { s.procs q with next := none }
        ∧ (∀ i, i ≠ q → t.procs i = s.procs i)
        ∧ ∀ (list_type2 : procstate) (cpu_num2 : Int) (ms : List (Fin K.NPROC)),
            ¬ same_list list_type cpu_num list_type2 cpu_num2 → q ∉ ms →
            has_nodes s list_type2 cpu_num2 ms → has_nodes t list_type2 cpu_num2 ms := by
  cases qs with
  | nil => exact remove_head_nil hok s hn
  | cons q rest =>
    refine ⟨remove_head_result s list_type cpu_num q, remove_head_cons hok s q rest hn,
      (remove_head_result_held s list_type cpu_num q).trans hfree,
      has_nodes_remove_head_result hok s q rest hn, ?_, ?_, ?_⟩
    · simp [remove_head_result_procs]
    · intro i hi
      simp [remove_head_result_procs, Function.update_noteq hi]
    · intro lt2 c2 ms hne hq hm
      exact has_nodes_remove_head_result_other hne s q ms hm hq

theorem remove_head_pops_witness :
    ex_two_unused.held = [] ∧
    (remove_head .ZOMBIE 0 ex_two_unused = .ok (none, ex_two_unused)) ∧
    ∃ t, remove_head .UNUSED 0 ex_two_unused = .ok (some (0 : Fin K0.NPROC), t)
        ∧ t.held = []
        ∧ has_nodes t .UNUSED 0 [1]
        ∧ t.procs 0 = { ex_two_unused.procs 0 with next := none }
        ∧ (∀ i, i ≠ 0 → t.procs i = ex_two_unused.procs i)
        ∧ ∀ (list_type2 : procstate) (cpu_num2 : Int) (ms : List (Fin K0.NPROC)),
            ¬ same_list .UNUSED 0 list_type2 cpu_num2 → (0 : Fin K0.NPROC) ∉ ms →
            has_nodes ex_two_unused list_type2 cpu_num2 ms →
            has_nodes t list_type2 cpu_num2 ms :=
  ⟨rfl, remove_head_pops ex_two_unused .ZOMBIE 0 [] rfl (by decide) (by decide),
   remove_head_pops ex_two_unused .UNUSED 0 [0, 1] rfl (by decide) (by decide)⟩

/-! ## `remove_proc_from_list` -/

theorem remove_loop_absent (p : Fin K.NPROC) (list_type : procstate) :
    ∀ (qs : List (Fin K.NPROC)) (fuel : Nat) (s : kernel K)
      (prev curr : Option (Fin K.NPROC)) (lk : lock_id K) (h : List (lock_id K)),
      is_list (next_of s) curr qs → p ∉ qs → s.held = lk :: h →
      (match prev with
        | some pv => lk = lock_id.link_lock pv ∧ pv ∉ qs
        | none => list_lock K list_type (s.procs p).cpu_num = some lk) →
      qs.length < fuel →
      remove_proc_from_list_loop p list_type fuel s prev curr
        = .ok (0, { s with held := (qs.getLast?.map lock_id.link_lock).getD lk :: h })
  | [], fuel, s, prev, curr, lk, h, hl, _, hh, _, hf => by
    have hc : curr = none := hl
    subst hc
    obtain ⟨f, rfl⟩ : ∃ f, fuel = f + 1 := ⟨fuel - 1, by simp at hf; omega⟩
    cases s
    simp at hh
    subst hh
    simp [remove_proc_from_list_loop]
  | q :: qs, fuel, s, prev, curr, lk, h, hl, hp, hh, hprev, hf => by
    have hc : curr = some q := hl.1
    subst hc
    obtain ⟨f, rfl⟩ : ∃ f, fuel = f + 1 := ⟨fuel - 1, by simp at hf; omega⟩
    have hnd := is_list_nodup _ _ hl
    have hpq : p ≠ q := fun e => hp (e ▸ List.mem_cons_self _ _)
    have hne : lock_id.link_lock q ≠ lk := by
      cases prev with
      | none => exact list_lock_not_link hprev q
      | some pv =>
        obtain ⟨rfl, hpv⟩ := hprev
        intro e
        injection e with e
        exact hpv (e ▸ List.mem_cons_self _ _)
    have hstep : (match prev with
           | none => release_list list_type ((acquire (.link_lock q) s).procs p).cpu_num
               (acquire (.link_lock q) s)
           | some pv => Except.ok (release (.link_lock pv) (acquire (.link_lock q) s)))
        = .ok (release lk (acquire (.link_lock q) s)) := by
      cases prev with
      | none => exact release_list_eq hprev _
      | some pv => rw [hprev.1]
    have ih := remove_loop_absent p list_type qs f
      (release lk (acquire (.link_lock q) s)) (some q)
      ((release lk (acquire (.link_lock q) s)).procs q).next (.link_lock q) h
      hl.2 (fun hc => hp (List.mem_cons_of_mem _ hc))
      (by simp [hh, erase_other_cons hne]) ⟨rfl, (List.nodup_cons.mp hnd).1⟩
      (by simp at hf; omega)
    unfold remove_proc_from_list_loop
    simp only [hpq, if_false, hstep]
    rw [ih, List.getLast?_cons]
    cases qs.getLast? <;> rfl

theorem remove_loop_present (p : Fin K.NPROC) (list_type : procstate)
    (b : List (Fin K.NPROC)) :
    ∀ (a : List (Fin K.NPROC)) (fuel : Nat) (s : kernel K)
      (prev curr : Option (Fin K.NPROC)) (lk : lock_id K) (h : List (lock_id K))
      (pd : Fin K.NPROC),
      is_list (next_of s) curr (a ++ p :: b) → p ∉ a → s.held = lk :: h →
      (match prev with
        | some pv => lk = lock_id.link_lock pv ∧ pv ∉ a ++ p :: b
        | none => list_lock K list_type (s.procs p).cpu_num = some lk) →
      a.getLast?.or prev = some pd →
      a.length < fuel →
      remove_proc_from_list_loop p list_type fuel s prev curr
        = .ok (1, set_next (set_next { s with held := h } pd (s.procs p).next) p none)
  | [], fuel, s, prev, curr, lk, h, pd, hl, _, hh, hprev, hpd, hf => by
    have hc : curr = some p := hl.1
    subst hc
    obtain ⟨f, rfl⟩ : ∃ f, fuel = f + 1 := ⟨fuel - 1, by simp at hf; omega⟩
    simp at hpd
    subst hpd
    obtain ⟨rfl, hpv⟩ := hprev
    have hne : pd ≠ p := fun e => hpv (by simp [e])
    have hne2 : lock_id.link_lock p ≠ (lock_id.link_lock pd : lock_id K) := by
      intro e; injection e with e; exact hne e.symm
    unfold remove_proc_from_list_loop
    cases s
    simp at hh
    subst hh
    simp [set_next, release, acquire, List.erase_cons_tail, hne2.symm]
  | q :: a, fuel, s, prev, curr, lk, h, pd, hl, hp, hh, hprev, hpd, hf => by
    have hc : curr = some q := hl.1
    subst hc
    obtain ⟨f, rfl⟩ : ∃ f, fuel = f + 1 := ⟨fuel - 1, by simp at hf; omega⟩
    have hnd := is_list_nodup _ _ hl
    have hpq : p ≠ q := fun e => hp (e ▸ List.mem_cons_self _ _)
    have hne : lock_id.link_lock q ≠ lk := by
      cases prev with
      | none => exact list_lock_not_link hprev q
      | some pv =>
        obtain ⟨rfl, hpv⟩ := hprev
        intro e
        injection e with e
        exact hpv (e ▸ List.mem_cons_self _ _)
    have hstep : (match prev with
           | none => release_list list_type ((acquire (.link_lock q) s).procs p).cpu_num
               (acquire (.link_lock q) s)
           | some pv => Except.ok (release (.link_lock pv) (acquire (.link_lock q) s)))
        = .ok (release lk (acquire (.link_lock q) s)) := by
      cases prev with
      | none => exact release_list_eq hprev _
      | some pv => rw [hprev.1]
    have hpd2 : a.getLast?.or (some q) = some pd := by
      rw [List.getLast?_cons] at hpd
      cases hg : a.getLast? <;> simp [hg] at hpd ⊢ <;> exact hpd
    have ih := remove_loop_present p list_type b a f
      (release lk (acquire (.link_lock q) s)) (some q)
      ((release lk (acquire (.link_lock q) s)).procs q).next (.link_lock q) h pd
      hl.2 (fun hc => hp (List.mem_cons_of_mem _ hc))
      (by simp [hh, erase_other_cons hne]) ⟨rfl, (List.nodup_cons.mp hnd).1⟩ hpd2
      (by simp at hf; omega)
    unfold remove_proc_from_list_loop
    simp only [hpq, if_false, hstep]
    rw [ih]
    rfl

@[simp] theorem set_next_cpu_num (s : kernel K) (q : Fin K.NPROC) (nx : Option (Fin K.NPROC))
    (i : Fin K.NPROC) : ((set_next s q nx).procs i).cpu_num = (s.procs i).cpu_num := by
  by_cases h : i = q
  · subst h; simp [set_next]
  · simp [set_next, Function.update_noteq h]

theorem pred_of_head {α : Type} [DecidableEq α] (p : α) (rest : List α) (hp : p ∉ rest) :
    pred_of p (p :: rest) = none := by
  induction rest generalizing p with
  | nil => rfl
  | cons b l ih =>
    have hb : b ≠ p := fun e => hp (by simp [e])
    have hl : p ∉ l := fun hc => hp (List.mem_cons_of_mem _ hc)
    unfold pred_of
    simp only [hb, if_false]
    cases l with
    | nil => rfl
    | cons c l2 =>
      have hc : c ≠ p := fun e => hl (by simp [e])
      unfold pred_of
      simp only [hc, if_false]
      have := ih p (fun hx => hl hx)
      unfold pred_of at this
      simp only [hc, if_false] at this
      exact this

theorem pred_of_mid {α : Type} [DecidableEq α] (p : α) (b : List α) :
    ∀ (a : List α) (q pd : α), p ∉ q :: a → (q :: a).getLast? = some pd →
      pred_of p (q :: a ++ p :: b) = some pd
  | [], q, pd, _, hlast => by
    simp at hlast
    subst hlast
    simp [pred_of]
  | a1 :: a, q, pd, hp, hlast => by
    have h1 : a1 ≠ p := fun e => hp (by simp [e])
    have hlast2 : (a1 :: a).getLast? = some pd := by
      simpa [List.getLast?_cons_cons] using hlast
    show pred_of p (q :: a1 :: (a ++ p :: b)) = some pd
    unfold pred_of
    simp only [h1, if_false]
    exact pred_of_mid p b a a1 pd (fun hc => hp (List.mem_cons_of_mem _ hc)) hlast2

theorem remove_proc_from_list_miss {list_type : procstate} (s : kernel K) (p : Fin K.NPROC)
    (qs : List (Fin K.NPROC)) (hok : list_ok K list_type (s.procs p).cpu_num)
    (hn : has_nodes s list_type (s.procs p).cpu_num qs) (hp : p ∉ qs) :
    remove_proc_from_list p list_type s = .ok (0, remove_miss_result s qs) := by
  obtain ⟨L, hL⟩ := list_lock_of_ok hok
  have hl := (has_nodes_iff hok s qs).mp hn
  unfold remove_proc_from_list
  simp only [acquire_list_eq hL, get_head_eq hok, bind, Except.bind, head_of_acquire,
    acquire_procs]
  cases qs with
  | nil =>
    have h0 : head_of s list_type (s.procs p).cpu_num = none := hl
    simp only [h0, release_list_eq hL, release_acquire, remove_miss_result, List.getLast?_nil]
    rfl
  | cons q qs =>
    have h0 : head_of s list_type (s.procs p).cpu_num = some q := hl.1
    have hpq : p ≠ q := fun e => hp (e ▸ List.mem_cons_self _ _)
    have hlen := is_list_length_le _ _ hl
    have hloop := remove_loop_absent p list_type (q :: qs) (K.NPROC + 1)
      (acquire L s) none (some q) L s.held (⟨rfl, hl.2⟩) hp rfl hL (by omega)
    simp only [h0, hpq, if_false, hloop, remove_miss_result, List.getLast?_cons,
      Option.map_some', Option.getD_some]
    rfl

theorem remove_proc_from_list_hit {list_type : procstate} (s : kernel K) (p : Fin K.NPROC)
    (qs : List (Fin K.NPROC)) (hok : list_ok K list_type (s.procs p).cpu_num)
    (hn : has_nodes s list_type (s.procs p).cpu_num qs) (hp : p ∈ qs) :
    remove_proc_from_list p list_type s = .ok (1, remove_result s p list_type qs) := by
  obtain ⟨L, hL⟩ := list_lock_of_ok hok
  have hl := (has_nodes_iff hok s qs).mp hn
  have hnd := is_list_nodup _ _ hl
  unfold remove_proc_from_list
  simp only [acquire_list_eq hL, get_head_eq hok, bind, Except.bind, head_of_acquire,
    acquire_procs]
  cases qs with
  | nil => simp at hp
  | cons q rest =>
    have h0 : head_of s list_type (s.procs p).cpu_num = some q := hl.1
    by_cases hpq : p = q
    · subst hpq
      have hpr : p ∉ rest := (List.nodup_cons.mp hnd).1
      simp only [h0, if_true, set_head_eq hok, set_next_cpu_num, release_list_eq hL,
        acquire_procs, with_head_procs, with_head_acquire, set_next_acquire, release_acquire,
        remove_result, pred_of_head p rest hpr]
      rfl
    · have hpr : p ∈ rest := by
        rcases List.mem_cons.mp hp with h | h
        · exact absurd h hpq
        · exact h
      obtain ⟨a, b, hab⟩ := List.append_of_mem hpr
      subst hab
      have hpa : p ∉ a := by
        intro hc
        have h2 := (List.nodup_cons.mp hnd).2
        have := (List.nodup_append.mp h2).2.2
        exact this hc (List.mem_cons_self _ _)
      have hpqa : p ∉ q :: a := by
        intro hc
        rcases List.mem_cons.mp hc with h | h
        · exact hpq h
        · exact hpa h
      have hlen := is_list_length_le _ _ hl
      have hlen2 : (q :: a).length < K.NPROC + 1 := by
        simp at hlen ⊢; omega
      obtain ⟨pd, hpd⟩ : ∃ pd, (q :: a).getLast? = some pd := by
        rw [List.getLast?_cons]; exact ⟨_, rfl⟩
      have hloop := remove_loop_present p list_type b (q :: a) (K.NPROC + 1)
        (acquire L s) none (some q) L s.held pd (⟨rfl, hl.2⟩) hpqa rfl hL
        (by simp [hpd]) hlen2
      have hpred : pred_of p (q :: (a ++ p :: b)) = some pd := pred_of_mid p b a q pd hpqa hpd
      simp only [h0, hpq, if_false, remove_result]
      rw [hloop, hpred]
      rfl

theorem has_nodes_remove_result {list_type : procstate} (s : kernel K) (p : Fin K.NPROC)
    (qs : List (Fin K.NPROC)) (hok : list_ok K list_type (s.procs p).cpu_num)
    (hn : has_nodes s list_type (s.procs p).cpu_num qs) (hp : p ∈ qs) :
    has_nodes (remove_result s p list_type qs) list_type (s.procs p).cpu_num (qs.erase p) := by
  have hl := (has_nodes_iff hok s qs).mp hn
  have hnd := is_list_nodup _ _ hl
  rw [has_nodes_iff hok]
  cases qs with
  | nil => simp at hp
  | cons q rest =>
    by_cases hpq : p = q
    · subst hpq
      have hpr : p ∉ rest := (List.nodup_cons.mp hnd).1
      simp only [remove_result, pred_of_head p rest hpr, List.erase_cons_head,
        head_of_set_next, head_of_with_head_same hok, next_of_set_next, next_of_with_head]
      refine is_list_congr rest _ (fun x hx => ?_) hl.2
      have hxp : x ≠ p := fun e => hpr (e ▸ hx)
      rw [Function.update_noteq hxp]
    · have hpr : p ∈ rest := by
        rcases List.mem_cons.mp hp with h | h
        · exact absurd h hpq
        · exact h
      obtain ⟨a, b, hab⟩ := List.append_of_mem hpr
      subst hab
      have hpa : p ∉ a := by
        intro hc
        have h2 := (List.nodup_cons.mp hnd).2
        exact (List.nodup_append.mp h2).2.2 hc (List.mem_cons_self _ _)
      have hpqa : p ∉ q :: a := by
        intro hc
        rcases List.mem_cons.mp hc with h | h
        · exact hpq h
        · exact hpa h
      obtain ⟨pd, hpd⟩ : ∃ pd, (q :: a).getLast? = some pd := by
        rw [List.getLast?_cons]; exact ⟨_, rfl⟩
      have hpred : pred_of p (q :: (a ++ p :: b)) = some pd := pred_of_mid p b a q pd hpqa hpd
      have herase : (q :: (a ++ p :: b)).erase p = q :: a ++ b := by
        rw [List.erase_cons_tail (by simpa using fun e : q = p => hpq e.symm),
          List.erase_append_right _ hpa, List.erase_cons_head]
        rfl
      have h0 : head_of s list_type (s.procs p).cpu_num = some q := hl.1
      simp only [remove_result, hpred, herase, head_of_set_next, next_of_set_next, h0]
      exact is_list_splice p b a q pd (by rw [← h0]; exact hl) hpd

theorem remove_result_next_self (s : kernel K) (p : Fin K.NPROC) (list_type : procstate)
    (qs : List (Fin K.NPROC)) : ((remove_result s p list_type qs).procs p).next = none := by
  unfold remove_result
  cases pred_of p qs <;> simp [set_next]

theorem mem_of_pred_of {α : Type} [DecidableEq α] (p pd : α) :
    ∀ (l : List α), pred_of p l = some pd → pd ∈ l
  | [], h => by simp [pred_of] at h
  | [_], h => by simp [pred_of] at h
  | a :: b :: l, h => by
    unfold pred_of at h
    by_cases hb : b = p
    · simp [hb] at h
      simp [h]
    · simp only [hb, if_false] at h
      exact List.mem_cons_of_mem _ (mem_of_pred_of p pd (b :: l) h)

theorem has_nodes_remove_result_other {list_type : procstate} (s : kernel K)
    (p : Fin K.NPROC) (qs : List (Fin K.NPROC)) {list_type2 : procstate} {cpu_num2 : Int}
    (hne : ¬ same_list list_type (s.procs p).cpu_num list_type2 cpu_num2)
    (ms : List (Fin K.NPROC)) (hm : has_nodes s list_type2 cpu_num2 ms)
    (hpm : p ∉ ms) (hdisj : ∀ q ∈ qs, q ∉ ms) :
    has_nodes (remove_result s p list_type qs) list_type2 cpu_num2 ms := by
  unfold remove_result
  cases hpred : pred_of p qs with
  | none =>
    refine has_nodes_congr (s := s) ?_ (fun x hx => ?_) hm
    · rw [← get_head_with_head_other hne s (s.procs p).next]
      exact get_head_congr rfl rfl rfl rfl _ _
    · have hxp : x ≠ p := fun e => hpm (e ▸ hx)
      simp [set_next, Function.update_noteq hxp]
  | some pd =>
    have hpdq : pd ∈ qs := mem_of_pred_of p pd qs hpred
    refine has_nodes_congr (s := s) (get_head_congr rfl rfl rfl rfl _ _) (fun x hx => ?_) hm
    have hxp : x ≠ p := fun e => hpm (e ▸ hx)
    have hxpd : x ≠ pd := fun e => hdisj pd hpdq (e ▸ hx)
    simp [set_next, Function.update_noteq hxp, Function.update_noteq hxpd]

theorem has_nodes_remove_miss_result (s : kernel K) (qs : List (Fin K.NPROC))
    (list_type : procstate) (cpu_num : Int) (ms : List (Fin K.NPROC))
    (hm : has_nodes s list_type cpu_num ms) :
    has_nodes (remove_miss_result s qs) list_type cpu_num ms := by
  unfold remove_miss_result
  cases qs.getLast? with
  | none => exact hm
  | some last =>
    exact has_nodes_congr (s := s) (get_head_congr rfl rfl rfl rfl _ _) (fun _ _ => rfl) hm

/-- C6. Called with no list-head lock and no link lock held, on a well-formed list with
node sequence `qs`, `remove_proc_from_list(p, list)` returns 1 when `p` occurs in it, and
the list is then `qs` with `p` erased (the other nodes in their old order), `p->next` is
null and every lock is released again; it returns 0 when `p` does not occur, and the
node sequence is unchanged.  In both cases the resulting list is terminated by null and
has no repeated node.  The list is the one the call addresses: the family `list_type`,
on the CPU `p->cpu_num` for `RUNNABLE`. -/
theorem remove_proc_from_list_erases (s : kernel K) (p : Fin K.NPROC)
    (list_type : procstate) (qs : List (Fin K.NPROC)) (hfree : s.held = [])
    (hok : list_ok K list_type (s.procs p).cpu_num)
    (hn : has_nodes s list_type (s.procs p).cpu_num qs) :
    ∃ t, remove_proc_from_list p list_type s = .ok (if p ∈ qs then 1 else 0, t)
      ∧ has_nodes t list_type (s.procs p).cpu_num (qs.erase p)
      ∧ (qs.erase p).Nodup
      ∧ (p ∈ qs → (t.procs p).next = none ∧ t.held = []) := by
  have hl := (has_nodes_iff hok s qs).mp hn
  have hnd := is_list_nodup _ _ hl
  by_cases hp : p ∈ qs
  · refine ⟨remove_result s p list_type qs, ?_, has_nodes_remove_result s p qs hok hn hp,
      hnd.erase p, fun _ => ⟨remove_result_next_self s p list_type qs,
        (remove_result_held s p list_type qs).trans hfree⟩⟩
    simp only [hp, if_true]
    exact remove_proc_from_list_hit s p qs hok hn hp
  · refine ⟨remove_miss_result s qs, ?_, ?_, hnd.erase p, fun h => absurd h hp⟩
    · simp only [hp, if_false]
      exact remove_proc_from_list_miss s p qs hok hn hp
    · rw [List.erase_of_not_mem hp]
      exact has_nodes_remove_miss_result s qs _ _ qs hn

theorem remove_proc_from_list_erases_witness :
    ex_two_unused.held = [] ∧
    (∃ t, remove_proc_from_list (1 : Fin K0.NPROC) .UNUSED ex_two_unused
        = .ok (if (1 : Fin K0.NPROC) ∈ [0, 1] then 1 else 0, t)
      ∧ has_nodes t .UNUSED (ex_two_unused.procs 1).cpu_num ([0, 1].erase 1)
      ∧ ([0, 1].erase (1 : Fin K0.NPROC)).Nodup
      ∧ ((1 : Fin K0.NPROC) ∈ [0, 1] → (t.procs 1).next = none ∧ t.held = [])) ∧
    (∃ t, remove_proc_from_list (2 : Fin K0.NPROC) .UNUSED ex_two_unused
        = .ok (if (2 : Fin K0.NPROC) ∈ [0, 1] then 1 else 0, t)
      ∧ has_nodes t .UNUSED (ex_two_unused.procs 2).cpu_num ([0, 1].erase 2)
      ∧ ([0, 1].erase (2 : Fin K0.NPROC)).Nodup
      ∧ ((2 : Fin K0.NPROC) ∈ [0, 1] → (t.procs 2).next = none ∧ t.held = [])) :=
  ⟨rfl,
   remove_proc_from_list_erases ex_two_unused 1 .UNUSED [0, 1] rfl (by decide) (by decide),
   remove_proc_from_list_erases ex_two_unused 2 .UNUSED [0, 1] rfl (by decide) (by decide)⟩

/-! ## `allocpid` -/

theorem wrap32_of_lt {x : Int} (h1 : -2147483648 ≤ x) (h2 : x < 2147483648) : wrap32 x = x := by
  unfold wrap32; omega

theorem allocpid_fst (s : kernel K) : (allocpid s).1 = s.nextpid := rfl

theorem allocpid_nextpid (s : kernel K) : (allocpid s).2.nextpid = wrap32 (s.nextpid + 1) := rfl

/-- As long as the counter stays below `2^31`, `n` calls leave it `n` larger. -/
theorem allocpid_calls_nextpid :
    ∀ (n : Nat) (s : kernel K), -2147483648 ≤ s.nextpid → s.nextpid + n ≤ 2147483647 →
      (allocpid_calls n s).2.nextpid = s.nextpid + n
  | 0, s, _, _ => by
    show s.nextpid = s.nextpid + ((0 : Nat) : Int)
    simp
  | n + 1, s, h0, h1 => by
    push_cast at h1
    have hw : (allocpid s).2.nextpid = s.nextpid + 1 := by
      rw [allocpid_nextpid]
      exact wrap32_of_lt (by omega) (by omega)
    have ih := allocpid_calls_nextpid n (allocpid s).2 (by rw [hw]; omega) (by rw [hw]; omega)
    show (allocpid_calls n (allocpid s).2).2.nextpid = _
    rw [ih, hw]
    push_cast
    omega

/-- The pids of `n` calls, none of which starts at a value above `2^31 - 1`. -/
theorem allocpid_calls_pids :
    ∀ (n : Nat) (s : kernel K), -2147483648 ≤ s.nextpid → s.nextpid + n ≤ 2147483648 →
      (allocpid_calls n s).1 = (List.range n).map (fun i : Nat => s.nextpid + (i : Int))
  | 0, _, _, _ => rfl
  | n + 1, s, h0, h1 => by
    push_cast at h1
    show (allocpid s).1 :: (allocpid_calls n (allocpid s).2).1 = _
    rw [allocpid_fst, List.range_succ_eq_map]
    simp only [List.map_cons, List.map_map, Nat.cast_zero, add_zero]
    congr 1
    cases n with
    | zero => rfl
    | succ m =>
      push_cast at h1
      have hw : (allocpid s).2.nextpid = s.nextpid + 1 := by
        rw [allocpid_nextpid]
        exact wrap32_of_lt (by omega) (by omega)
      rw [allocpid_calls_pids (m + 1) (allocpid s).2 (by rw [hw]; omega)
        (by rw [hw]; push_cast; omega), hw]
      apply List.map_congr_left
      intro i _
      simp only [Function.comp, Nat.cast_succ]
      omega

/-- C3, as the code has it.  `allocpid` returns the value `nextpid` had on entry and
leaves `nextpid` one larger as long as that value is below `2^31 - 1`; the pids returned
by the first `n <= 2^31 - 1` calls after boot are `1, 2, ..., n`: positive, strictly
increasing in call order, pairwise distinct. -/
theorem allocpid_calls_from_boot (n : Nat) (hn : n ≤ 2147483647) :
    (∀ s : kernel K, -2147483648 ≤ s.nextpid → s.nextpid < 2147483647 →
      (allocpid s).1 = s.nextpid ∧ (allocpid s).2.nextpid = s.nextpid + 1)
    ∧ (allocpid_calls n (kernel.zero K)).1 = (List.range n).map (fun i : Nat => (i : Int) + 1)
    ∧ (∀ pid ∈ (allocpid_calls n (kernel.zero K)).1, 0 < pid)
    ∧ (allocpid_calls n (kernel.zero K)).1.Pairwise (· < ·)
    ∧ (allocpid_calls n (kernel.zero K)).1.Nodup := by
  have hspec := allocpid_calls_pids n (kernel.zero K) (by show (-2147483648 : Int) ≤ 1; omega)
    (by show (1 : Int) + n ≤ 2147483648; omega)
  have hlist : (allocpid_calls n (kernel.zero K)).1
      = (List.range n).map (fun i : Nat => (i : Int) + 1) := by
    rw [hspec]
    apply List.map_congr_left
    intro i _
    show (1 : Int) + i = i + 1
    omega
  have hpw : ((List.range n).map (fun i : Nat => (i : Int) + 1)).Pairwise (· < ·) := by
    rw [List.pairwise_map]
    refine (List.pairwise_lt_range n).imp ?_
    intro a b hab
    show (a : Int) + 1 < (b : Int) + 1
    omega
  refine ⟨fun s h1 h2 => ⟨rfl, ?_⟩, hlist, ?_, ?_, ?_⟩
  · rw [allocpid_nextpid]
    exact wrap32_of_lt (by omega) (by omega)
  · rw [hlist]
    intro pid hpid
    obtain ⟨i, -, rfl⟩ := List.mem_map.mp hpid
    show (0 : Int) < (i : Int) + 1
    omega
  · rw [hlist]; exact hpw
  · rw [hlist]; exact hpw.imp (fun h => ne_of_lt h)

theorem allocpid_calls_from_boot_witness :
    (3 ≤ 2147483647) ∧
    (∀ s : kernel K0, -2147483648 ≤ s.nextpid → s.nextpid < 2147483647 →
      (allocpid s).1 = s.nextpid ∧ (allocpid s).2.nextpid = s.nextpid + 1)
    ∧ (allocpid_calls 3 (kernel.zero K0)).1 = (List.range 3).map (fun i : Nat => (i : Int) + 1)
    ∧ (∀ pid ∈ (allocpid_calls 3 (kernel.zero K0)).1, 0 < pid)
    ∧ (allocpid_calls 3 (kernel.zero K0)).1.Pairwise (· < ·)
    ∧ (allocpid_calls 3 (kernel.zero K0)).1.Nodup :=
  ⟨by decide, allocpid_calls_from_boot 3 (by decide)⟩

/-- C3, counterexample.  At `nextpid = 2^31 - 1` the call does not leave `nextpid` one
larger: the `int` wraps to `-2^31`.  That state is the one `2^31 - 2` calls after boot
leave, and the call after it returns `-2^31`, which is not positive. -/
theorem allocpid_wraps_at_int_max :
    (allocpid ({ kernel.zero K0 with nextpid := 2147483647 })).1 = 2147483647
    ∧ (allocpid ({ kernel.zero K0 with nextpid := 2147483647 })).2.nextpid = -2147483648
    ∧ (allocpid ({ kernel.zero K0 with nextpid := 2147483647 })).2.nextpid ≠ 2147483647 + 1
    ∧ (allocpid_calls 2147483646 (kernel.zero K0)).2.nextpid = 2147483647
    ∧ (allocpid (allocpid (allocpid_calls 2147483646 (kernel.zero K0)).2).2).1 = -2147483648 := by
  have h1 : (allocpid_calls 2147483646 (kernel.zero K0)).2.nextpid = 2147483647 := by
    rw [allocpid_calls_nextpid 2147483646 (kernel.zero K0) (by decide) (by decide)]
    decide
  refine ⟨rfl, by decide, by decide, h1, ?_⟩
  rw [allocpid_fst, allocpid_nextpid, h1]
  decide

/-! ## `set_cpu` -/

theorem cpus_index_NCPU : cpus_index K (K.NCPU : Int) = none := by
  unfold cpus_index
  rw [dif_neg]
  omega

/-- Every argument below 0 or above `NCPU` is rejected, with no change. -/
theorem set_cpu_out_of_range (c : Fin K.NCPU) (n : Int) (s : kernel K)
    (hn : n < 0 ∨ (K.NCPU : Int) < n) : set_cpu c n s = .ok (-1, s) := by
  have hr : range_check n 0 K.NCPU = -1 := by
    unfold range_check
    rw [if_pos]
    omega
  unfold set_cpu
  simp [hr]
  rfl

/-- C1, the failing input.  `set_cpu(NCPU)` passes `range_check(cpu_num, 0, NCPU)`, whose
upper bound is inclusive, and never gets to return -1: the call ends in a fault, at the
latest when `increase_runnable_list_size_of(NCPU)` indexes `cpus[NCPU]`, one past the
end of the array. -/
theorem set_cpu_accepts_NCPU (c : Fin K.NCPU) (s : kernel K) :
    range_check (K.NCPU : Int) 0 K.NCPU = 0
    ∧ (∀ t : kernel K, increase_runnable_list_size_of (K.NCPU : Int) t = .error .out_of_bounds)
    ∧ ∃ e, set_cpu c (K.NCPU : Int) s = .error e := by
  have hr : range_check (K.NCPU : Int) 0 K.NCPU = 0 := by
    unfold range_check
    rw [if_neg]
    omega
  have hinc : ∀ t : kernel K,
      increase_runnable_list_size_of (K.NCPU : Int) t = .error .out_of_bounds := by
    intro t
    simp [increase_runnable_list_size_of, cpus_index_NCPU]
  refine ⟨hr, hinc, ?_⟩
  unfold set_cpu
  simp only [hr]
  cases hp : myproc c s with
  | none => exact ⟨_, rfl⟩
  | some p =>
    cases hd : decrease_runnable_list_size_of (s.procs p).cpu_num s with
    | error e => exact ⟨e, by simp [hd, bind, Except.bind]⟩
    | ok s1 => exact ⟨.out_of_bounds, by simp [hd, hinc, bind, Except.bind]⟩

/-! ## Frames: what the list primitives leave alone -/

theorem has_nodes_set_proc {s : kernel K} {list_type : procstate} {cpu_num : Int}
    {ms : List (Fin K.NPROC)} (p : Fin K.NPROC) (v : proc K)
    (hv : p ∈ ms → v.next = (s.procs p).next)
    (hm : has_nodes s list_type cpu_num ms) : has_nodes (set_proc s p v) list_type cpu_num ms := by
  refine has_nodes_congr (s := s) (get_head_congr rfl rfl rfl rfl _ _) (fun q hq => ?_) hm
  by_cases h : q = p
  · subst h; simp [hv hq]
  · simp [Function.update_noteq h]

theorem has_nodes_cpu_irrel {s : kernel K} {list_type : procstate} (h : list_type ≠ .RUNNABLE)
    (c1 c2 : Int) (ms : List (Fin K.NPROC)) (hm : has_nodes s list_type c1 ms) :
    has_nodes s list_type c2 ms := by
  cases list_type <;> first | exact absurd rfl h | exact hm

theorem remove_result_field (s : kernel K) (p : Fin K.NPROC) (list_type : procstate)
    (qs : List (Fin K.NPROC)) (i : Fin K.NPROC) :
    (remove_result s p list_type qs).procs i
      = { s.procs i with next := ((remove_result s p list_type qs).procs i).next } := by
  unfold remove_result
  cases pred_of p qs with
  | none =>
    by_cases h : i = p
    · subst h; simp [set_next]
    · simp [set_next, Function.update_noteq h]
  | some pd =>
    by_cases h : i = p
    · subst h
      by_cases h2 : i = pd
      · subst h2; simp [set_next]
      · simp [set_next, Function.update_noteq h2]
    · by_cases h2 : i = pd
      · subst h2; simp [set_next, Function.update_noteq h]
      · simp [set_next, Function.update_noteq h, Function.update_noteq h2]

theorem remove_miss_result_procs (s : kernel K) (qs : List (Fin K.NPROC)) :
    (remove_miss_result s qs).procs = s.procs := by
  unfold remove_miss_result
  cases qs.getLast? <;> rfl

theorem add_result_field (s : kernel K) (p : Fin K.NPROC) (list_type : procstate)
    (cpu_num : Int) (qs : List (Fin K.NPROC)) (i : Fin K.NPROC) :
    (add_result s p list_type cpu_num qs).procs i
      = { s.procs i with next := ((add_result s p list_type cpu_num qs).procs i).next } := by
  unfold add_result
  cases qs.getLast? with
  | none => simp
  | some last =>
    by_cases h : i = last
    · subst h; simp [set_next]
    · simp [set_next, Function.update_noteq h]

/-- `remove_proc_from_list` returns on every well-formed list, found or not, and changes
nothing but `next` fields, the head of this list and the locks held; a list that
contains neither `p` nor a node of this list is left as it is. -/
theorem remove_proc_from_list_ok {list_type : procstate} (s : kernel K) (p : Fin K.NPROC)
    (qs : List (Fin K.NPROC)) (hok : list_ok K list_type (s.procs p).cpu_num)
    (hn : has_nodes s list_type (s.procs p).cpu_num qs) :
    ∃ r t, remove_proc_from_list p list_type s = .ok (r, t)
      ∧ (∀ i, t.procs i = { s.procs i with next := (t.procs i).next })
      ∧ (p ∈ qs → (t.procs p).next = none)
      ∧ (p ∉ qs → t.procs = s.procs)
      ∧ has_nodes t list_type (s.procs p).cpu_num (qs.erase p)
      ∧ ∀ (list_type2 : procstate) (cpu_num2 : Int) (ms : List (Fin K.NPROC)),
          ¬ same_list list_type (s.procs p).cpu_num list_type2 cpu_num2 → p ∉ ms →
          (∀ q ∈ qs, q ∉ ms) →
          has_nodes s list_type2 cpu_num2 ms → has_nodes t list_type2 cpu_num2 ms := by
  by_cases hp : p ∈ qs
  · exact ⟨1, remove_result s p list_type qs, remove_proc_from_list_hit s p qs hok hn hp,
      remove_result_field s p list_type qs, fun _ => remove_result_next_self s p list_type qs,
      fun h => absurd hp h, has_nodes_remove_result s p qs hok hn hp,
      fun _ _ ms hne hpm hd hm => has_nodes_remove_result_other s p qs hne ms hm hpm hd⟩
  · refine ⟨0, remove_miss_result s qs, remove_proc_from_list_miss s p qs hok hn hp,
      fun i => by rw [remove_miss_result_procs], fun h => absurd h hp,
      fun _ => remove_miss_result_procs s qs, ?_,
      fun _ _ ms _ _ _ hm => has_nodes_remove_miss_result s qs _ _ ms hm⟩
    rw [List.erase_of_not_mem hp]
    exact has_nodes_remove_miss_result s qs _ _ qs hn

/-! ## `kill` -/

theorem kill_loop_miss (pid : Int) :
    ∀ (l : List (Fin K.NPROC)) (s : kernel K), (∀ i ∈ l, (s.procs i).pid ≠ pid) →
      kill_loop pid l s = .ok (-1, s)
  | [], _, _ => rfl
  | p :: rest, s, h => by
    unfold kill_loop
    rw [if_neg (h p (List.mem_cons_self _ _))]
    exact kill_loop_miss pid rest s (fun i hi => h i (List.mem_cons_of_mem _ hi))

/-- The loop of `kill` runs the found branch on the first slot, in table order, whose
pid matches. -/
theorem kill_loop_hit (pid : Int) :
    ∀ (l : List (Fin K.NPROC)) (s : kernel K), (∃ i ∈ l, (s.procs i).pid = pid) →
      ∃ i, l.find? (fun j => decide ((s.procs j).pid = pid)) = some i
        ∧ (s.procs i).pid = pid ∧ kill_loop pid l s = kill_found i s
  | [], _, h => by simp at h
  | p :: rest, s, h => by
    by_cases hp : (s.procs p).pid = pid
    · refine ⟨p, by simp [List.find?, hp], hp, ?_⟩
      unfold kill_loop
      rw [if_pos hp]
    · obtain ⟨i, hi, hpi⟩ := h
      have hi2 : i ∈ rest := by
        rcases List.mem_cons.mp hi with e | e
        · exact absurd (e ▸ hpi) hp
        · exact e
      obtain ⟨j, hj1, hj2, hj3⟩ := kill_loop_hit pid rest s ⟨i, hi2, hpi⟩
      refine ⟨j, by simp [List.find?, hp, hj1], hj2, ?_⟩
      unfold kill_loop
      rw [if_neg hp]
      exact hj3

theorem increase_runnable_list_size_of_ok {cpu_num : Int}
    (hok : list_ok K .RUNNABLE cpu_num) (s : kernel K) :
    ∃ t, increase_runnable_list_size_of cpu_num s = .ok t := by
  obtain ⟨c, hc⟩ := cpus_index_of_ok hok
  unfold increase_runnable_list_size_of
  rw [hc]
  exact ⟨_, rfl⟩

theorem kill_found_ok (p : Fin K.NPROC) (s : kernel K) (qs : List (Fin K.NPROC))
    (hsl : has_nodes s .SLEEPING 0 qs)
    (hrun : (s.procs p).state = .SLEEPING →
      list_ok K .RUNNABLE (s.procs p).cpu_num
      ∧ ∃ rs, has_nodes s .RUNNABLE (s.procs p).cpu_num rs ∧ p ∉ rs ∧ ∀ q ∈ qs, q ∉ rs) :
    ∃ t, kill_found p s = .ok (0, t) := by
  unfold kill_found
  by_cases hst : (s.procs p).state = .SLEEPING
  · obtain ⟨hok, rs, hrs, hprs, hdisj⟩ := hrun hst
    have hsl1 : has_nodes (set_proc s p { s.procs p with killed := 1 }) .SLEEPING
        ((set_proc s p { s.procs p with killed := 1 }).procs p).cpu_num qs :=
      has_nodes_cpu_irrel (by decide) 0 _ qs (has_nodes_set_proc p _ (fun _ => rfl) hsl)
    have hrs1 : has_nodes (set_proc s p { s.procs p with killed := 1 }) .RUNNABLE
        (s.procs p).cpu_num rs := has_nodes_set_proc p _ (fun _ => rfl) hrs
    obtain ⟨r, s2, hrem, hfield, -, -, -, hframe⟩ :=
      remove_proc_from_list_ok (set_proc s p { s.procs p with killed := 1 }) p qs
        (by simp [list_ok]) hsl1
    have hcpu2 : (s2.procs p).cpu_num = (s.procs p).cpu_num := by
      rw [hfield p]; simp
    have hrs2 : has_nodes s2 .RUNNABLE (s.procs p).cpu_num rs :=
      hframe .RUNNABLE _ rs (by simp [same_list]) hprs hdisj hrs1
    have hrs3 : has_nodes (set_proc s2 p { s2.procs p with state := .RUNNABLE }) .RUNNABLE
        (s.procs p).cpu_num rs := has_nodes_set_proc p _ (fun _ => rfl) hrs2
    have hadd := add_proc_to_list_eq hok _ p rs hrs3
    obtain ⟨s5, hs5⟩ := increase_runnable_list_size_of_ok hok
      (add_result (set_proc s2 p { s2.procs p with state := .RUNNABLE }) p .RUNNABLE
        (s.procs p).cpu_num rs)
    have hcpu4 : ((add_result (set_proc s2 p { s2.procs p with state := .RUNNABLE }) p
        .RUNNABLE (s.procs p).cpu_num rs).procs p).cpu_num = (s.procs p).cpu_num := by
      rw [add_result_field]; simp [hcpu2]
    have hst1 : ((set_proc s p { s.procs p with killed := 1 }).procs p).state = .SLEEPING := by
      simp [hst]
    have hcpu3 : ((set_proc s2 p { s2.procs p with state := .RUNNABLE }).procs p).cpu_num
        = (s.procs p).cpu_num := by simp [hcpu2]
    refine ⟨s5, ?_⟩
    simp only [hst1, if_true, bind, Except.bind, hrem, hcpu3, hadd, hcpu4, hs5]
    rfl
  · have hst1 : ¬ ((set_proc s p { s.procs p with killed := 1 }).procs p).state = .SLEEPING := by
      simpa using hst
    refine ⟨set_proc s p { s.procs p with killed := 1 }, ?_⟩
    simp only [hst1, if_false]
    rfl

theorem procinit_zero_K0 :
    procinit (kernel.zero K0) = .ok ex_boot ∧ has_nodes ex_boot .UNUSED 0 [0, 1, 2]
    ∧ ∀ i, (ex_boot.procs i).state = .UNUSED ∧ (ex_boot.procs i).pid = 0 :=
  ⟨rfl, by decide, by decide⟩

/-- What `kill` returns.  In a state whose `SLEEPING` list is well formed and whose
sleeping processes with this pid sit on a valid CPU with a well-formed runnable list
apart from the `SLEEPING` list, `kill(pid)` returns 0 if some slot of the table,
whatever its state, holds that pid (an `UNUSED` slot holds pid 0), and otherwise
returns -1 and leaves the whole state unchanged. -/
theorem kill_returns (pid : Int) (s : kernel K) (qs : List (Fin K.NPROC))
    (hsl : has_nodes s .SLEEPING 0 qs)
    (hrun : ∀ p, (s.procs p).pid = pid → (s.procs p).state = .SLEEPING →
      list_ok K .RUNNABLE (s.procs p).cpu_num
      ∧ ∃ rs, has_nodes s .RUNNABLE (s.procs p).cpu_num rs ∧ p ∉ rs ∧ ∀ q ∈ qs, q ∉ rs) :
    ((∃ i, (s.procs i).pid = pid) → ∃ t, kill pid s = .ok (0, t))
    ∧ ((¬ ∃ i, (s.procs i).pid = pid) → kill pid s = .ok (-1, s)) := by
  constructor
  · rintro ⟨i, hi⟩
    obtain ⟨j, -, hj, hkill⟩ := kill_loop_hit pid (List.finRange K.NPROC) s
      ⟨i, List.mem_finRange i, hi⟩
    obtain ⟨t, ht⟩ := kill_found_ok j s qs hsl (hrun j hj)
    exact ⟨t, by unfold kill; rw [hkill, ht]⟩
  · intro h
    exact kill_loop_miss pid _ s (fun i _ hi => h ⟨i, hi⟩)

/-- C2.  `kill` compares `p->pid` only, never `p->state`, and a free slot holds pid 0.
On `ex_init` (the init process, pid 1, running in slot 0; slots 1 and 2 free) no live
process has pid 0, yet `kill(0)` returns 0, not -1, and sets `killed` in the free slot
1.  `allocproc` does not clear the flag, so the next `fork` hands out that slot and its
child (pid 2) is `RUNNABLE` with `killed` already set. -/
theorem kill_zero_marks_free_slot :
    (∀ i, (ex_init.procs i).state ≠ .UNUSED → (ex_init.procs i).pid ≠ 0)
    ∧ (ex_init.procs 1).state = .UNUSED ∧ (ex_init.procs 1).pid = 0
    ∧ (ex_init.procs 1).killed = 0
    ∧ kill 0 ex_init = .ok (0, set_proc ex_init 1 { ex_init.procs 1 with killed := 1 })
    ∧ ∃ t, fork vm_ok 0 (set_proc ex_init 1 { ex_init.procs 1 with killed := 1 }) = .ok (2, t)
        ∧ (t.procs 1).pid = 2 ∧ (t.procs 1).state = .RUNNABLE ∧ (t.procs 1).killed = 1 := by
  refine ⟨by decide, by decide, by decide, by decide, by with_unfolding_all rfl, ?_⟩
  refine ⟨_, by with_unfolding_all rfl, ?_, ?_, ?_⟩
  · decide
  · decide
  · decide

/-! ## Postconditions of the list primitives -/

theorem list_op_post_refl (s : kernel K) (list_type : procstate) (cpu_num : Int) :
    list_op_post s list_type cpu_num s :=
  ⟨fun _ => rfl, rfl, rfl, rfl, rfl, fun _ _ _ => rfl, fun _ => rfl, fun _ => rfl⟩

theorem list_op_post_trans {s t u : kernel K} {list_type : procstate} {cpu_num : Int}
    (h1 : list_op_post s list_type cpu_num t) (h2 : list_op_post t list_type cpu_num u) :
    list_op_post s list_type cpu_num u where
  fields i := by rw [h2.fields i, h1.fields i]
  initproc := h2.initproc.trans h1.initproc
  nextpid := h2.nextpid.trans h1.nextpid
  is_init := h2.is_init.trans h1.is_init
  copied_out := h2.copied_out.trans h1.copied_out
  heads lt2 c2 hne := (h2.heads lt2 c2 hne).trans (h1.heads lt2 c2 hne)
  cpus i := by rw [h2.cpus i, h1.cpus i]
  cpus_eq hne := (h2.cpus_eq hne).trans (h1.cpus_eq hne)

theorem list_op_post_with_head (s : kernel K) (list_type : procstate) (cpu_num : Int)
    (v : Option (Fin K.NPROC)) :
    list_op_post s list_type cpu_num (with_head s list_type cpu_num v) where
  fields i := by simp
  initproc := by cases list_type <;> first | rfl | (unfold with_head set_head; cases cpus_index K cpu_num <;> rfl)
  nextpid := by cases list_type <;> first | rfl | (unfold with_head set_head; cases cpus_index K cpu_num <;> rfl)
  is_init := by cases list_type <;> first | rfl | (unfold with_head set_head; cases cpus_index K cpu_num <;> rfl)
  copied_out := by cases list_type <;> first | rfl | (unfold with_head set_head; cases cpus_index K cpu_num <;> rfl)
  heads lt2 c2 hne := get_head_with_head_other hne s v
  cpus i := by
    cases list_type
    case RUNNABLE =>
      unfold with_head set_head
      cases cpus_index K cpu_num with
      | none => rfl
      | some c =>
        by_cases h : i = c
        · subst h; simp
        · simp [Function.update_noteq h]
    all_goals rfl
  cpus_eq hne := by cases list_type <;> first | rfl | exact absurd rfl hne

theorem list_op_post_set_next (s : kernel K) (list_type : procstate) (cpu_num : Int)
    (p : Fin K.NPROC) (nx : Option (Fin K.NPROC)) :
    list_op_post s list_type cpu_num (set_next s p nx) where
  fields i := by
    by_cases h : i = p
    · subst h; simp [set_next]
    · simp [set_next, Function.update_noteq h]
  initproc := rfl
  nextpid := rfl
  is_init := rfl
  copied_out := rfl
  heads _ _ _ := get_head_congr rfl rfl rfl rfl _ _
  cpus _ := rfl
  cpus_eq _ := rfl

theorem list_op_post_acquire (s : kernel K) (list_type : procstate) (cpu_num : Int)
    (l : lock_id K) : list_op_post s list_type cpu_num (acquire l s) :=
  ⟨fun _ => rfl, rfl, rfl, rfl, rfl, fun _ _ _ => rfl, fun _ => rfl, fun _ => rfl⟩

theorem list_op_post_add_result (s : kernel K) (p : Fin K.NPROC) (list_type : procstate)
    (cpu_num : Int) (qs : List (Fin K.NPROC)) :
    list_op_post s list_type cpu_num (add_result s p list_type cpu_num qs) := by
  unfold add_result
  cases qs.getLast? with
  | none => exact list_op_post_with_head s list_type cpu_num _
  | some last => exact list_op_post_set_next s list_type cpu_num _ _

theorem list_op_post_remove_head_result (s : kernel K) (list_type : procstate)
    (cpu_num : Int) (q : Fin K.NPROC) :
    list_op_post s list_type cpu_num (remove_head_result s list_type cpu_num q) :=
  list_op_post_trans (list_op_post_with_head s list_type cpu_num _)
    (list_op_post_set_next _ list_type cpu_num _ _)

theorem list_op_post_remove_result (s : kernel K) (p : Fin K.NPROC) (list_type : procstate)
    (qs : List (Fin K.NPROC)) :
    list_op_post s list_type (s.procs p).cpu_num (remove_result s p list_type qs) := by
  unfold remove_result
  cases pred_of p qs with
  | none =>
    exact list_op_post_trans (list_op_post_with_head s list_type _ _)
      (list_op_post_set_next _ list_type _ _ _)
  | some pd =>
    exact list_op_post_trans (list_op_post_set_next s list_type _ _ _)
      (list_op_post_set_next _ list_type _ _ _)

theorem list_op_post_remove_miss_result (s : kernel K) (list_type : procstate)
    (cpu_num : Int) (qs : List (Fin K.NPROC)) :
    list_op_post s list_type cpu_num (remove_miss_result s qs) := by
  unfold remove_miss_result
  cases qs.getLast? with
  | none => exact list_op_post_refl s _ _
  | some last => exact list_op_post_acquire s _ _ _

/-- `remove_proc_from_list` on a well-formed list: it returns, with the postcondition of
a list primitive, the list without `p`, `p->next` cleared when `p` was found and no
store at all when it was not, and every list apart from `p` and this list as before. -/
theorem remove_proc_from_list_full {list_type : procstate} (s : kernel K) (p : Fin K.NPROC)
    (qs : List (Fin K.NPROC)) (hok : list_ok K list_type (s.procs p).cpu_num)
    (hn : has_nodes s list_type (s.procs p).cpu_num qs) :
    ∃ r t, remove_proc_from_list p list_type s = .ok (r, t)
      ∧ list_op_post s list_type (s.procs p).cpu_num t
      ∧ (p ∈ qs → (t.procs p).next = none)
      ∧ (p ∉ qs → t.procs = s.procs)
      ∧ has_nodes t list_type (s.procs p).cpu_num (qs.erase p)
      ∧ ∀ (list_type2 : procstate) (cpu_num2 : Int) (ms : List (Fin K.NPROC)),
          ¬ same_list list_type (s.procs p).cpu_num list_type2 cpu_num2 → p ∉ ms →
          (p ∈ qs → ∀ q ∈ qs, q ∉ ms) →
          has_nodes s list_type2 cpu_num2 ms → has_nodes t list_type2 cpu_num2 ms := by
  by_cases hp : p ∈ qs
  · exact ⟨1, remove_result s p list_type qs, remove_proc_from_list_hit s p qs hok hn hp,
      list_op_post_remove_result s p list_type qs,
      fun _ => remove_result_next_self s p list_type qs,
      fun h => absurd hp h, has_nodes_remove_result s p qs hok hn hp,
      fun _ _ ms hne hpm hd hm => has_nodes_remove_result_other s p qs hne ms hm hpm (hd hp)⟩
  · refine ⟨0, remove_miss_result s qs, remove_proc_from_list_miss s p qs hok hn hp,
      list_op_post_remove_miss_result s _ _ qs, fun h => absurd h hp,
      fun _ => remove_miss_result_procs s qs, ?_,
      fun _ _ ms _ _ _ hm => has_nodes_remove_miss_result s qs _ _ ms hm⟩
    rw [List.erase_of_not_mem hp]
    exact has_nodes_remove_miss_result s qs _ _ qs hn

/-! ## `freeproc` -/

theorem get_head_ok_inj {s t : kernel K} (list_type : procstate) (cpu_num : Int)
    (hok : list_ok K list_type cpu_num)
    (h : get_head list_type cpu_num t = get_head list_type cpu_num s) :
    head_of t list_type cpu_num = head_of s list_type cpu_num := by
  rw [get_head_eq hok, get_head_eq hok] at h
  exact Except.ok.inj h

theorem freeproc_ok (s : kernel K) (p : Fin K.NPROC) (zs us : List (Fin K.NPROC))
    (hz : has_nodes s .ZOMBIE 0 zs) (hu : has_nodes s .UNUSED 0 us) (hpu : p ∉ us)
    (hzu : ∀ z ∈ zs, z ∉ us) (hnx : p ∉ zs → (s.procs p).next = none) :
    ∃ t, freeproc p s = .ok t ∧ freeproc_post s p zs us t := by
  -- the zeroing stores
  let v1 : proc K := { s.procs p with
    trapframe := none, pagetable := none, sz := 0, pid := 0, parent := none,
    name := (s.procs p).name.set 0 0, chan := none, killed := 0, xstate := 0 }
  have hz1 : has_nodes (set_proc s p v1) .ZOMBIE ((set_proc s p v1).procs p).cpu_num zs :=
    has_nodes_cpu_irrel (by decide) 0 _ zs (has_nodes_set_proc p v1 (fun _ => rfl) hz)
  have hu1 : has_nodes (set_proc s p v1) .UNUSED 0 us :=
    has_nodes_set_proc p v1 (fun _ => rfl) hu
  -- the removal from ZOMBIE
  obtain ⟨r, s2, hrem, hpost2, hnx2, hmiss2, hz2, hframe2⟩ :=
    remove_proc_from_list_full (set_proc s p v1) p zs (by simp [list_ok]) hz1
  have hu2 : has_nodes s2 .UNUSED 0 us :=
    hframe2 .UNUSED 0 us (by simp [same_list]) hpu (fun _ => hzu) hu1
  have hnext2 : (s2.procs p).next = none := by
    by_cases hpz : p ∈ zs
    · exact hnx2 hpz
    · rw [hmiss2 hpz]; simpa [v1] using hnx hpz
  -- the state store and the append to UNUSED
  let v3 : proc K := { s2.procs p with state := .UNUSED }
  have hu3 : has_nodes (set_proc s2 p v3) .UNUSED 0 us :=
    has_nodes_set_proc p v3 (fun _ => rfl) hu2
  have hadd := add_proc_to_list_eq (K := K) (by simp [list_ok]) (set_proc s2 p v3) p us hu3
  have hpost4 := list_op_post_add_result (set_proc s2 p v3) p .UNUSED 0 us
  refine ⟨add_result (set_proc s2 p v3) p .UNUSED 0 us, ?_, ?_⟩
  · unfold freeproc
    simp only [bind, Except.bind, hrem, hadd]
    rfl
  · have hself3 : ((set_proc s2 p v3).procs p).next = none := by simpa [v3] using hnext2
    have hv2 : s2.procs p = { v1 with next := none } := by
      have := hpost2.fields p
      rw [this, hnext2]
      simp [v1]
    constructor
    · -- self
      rw [hpost4.fields p, add_result_next_self _ p .UNUSED 0 us hpu hself3]
      simp [v3, hv2, freed, v1]
    · -- others
      intro i hi
      rw [hpost4.fields i]
      simp only [set_proc_procs, Function.update_noteq hi]
      rw [hpost2.fields i]
      simp [Function.update_noteq hi]
    · -- zombie
      have hz2' : has_nodes s2 .ZOMBIE 0 (zs.erase p) := has_nodes_cpu_irrel (by decide) _ 0 _ hz2
      have hz3 : has_nodes (set_proc s2 p v3) .ZOMBIE 0 (zs.erase p) :=
        has_nodes_set_proc p v3 (fun _ => rfl) hz2'
      refine has_nodes_add_result_other (by simp [same_list]) _ p us _ hz3 ?_
      intro u hu' hc
      exact hzu u (List.mem_of_mem_erase hc) hu'
    · exact has_nodes_add_result (by simp [list_ok]) _ p us hu3 hpu hself3
    · rw [hpost4.cpus_eq (by decide)]
      show s2.cpus = s.cpus
      rw [hpost2.cpus_eq (by decide)]
      rfl
    · have h4 := get_head_ok_inj .SLEEPING 0
        (by simp [list_ok]) (hpost4.heads .SLEEPING 0 (by simp [same_list]))
      have h2 := get_head_ok_inj .SLEEPING 0
        (by simp [list_ok]) (hpost2.heads .SLEEPING 0 (by simp [same_list]))
      simpa [head_of, get_head] using h4.trans h2
    · exact hpost4.initproc.trans hpost2.initproc
    · exact hpost4.nextpid.trans hpost2.nextpid
    · exact hpost4.is_init.trans hpost2.is_init
    · exact hpost4.copied_out.trans hpost2.copied_out
    · intro lt2 c2 ms hnz hnu hpm hum hzm hm
      have h1 : has_nodes (set_proc s p v1) lt2 c2 ms := has_nodes_set_proc p v1 (fun _ => rfl) hm
      have h2 : has_nodes s2 lt2 c2 ms :=
        hframe2 lt2 c2 ms (by simp [same_list]; exact fun e => absurd e.symm hnz) hpm hzm h1
      have h3 : has_nodes (set_proc s2 p v3) lt2 c2 ms := has_nodes_set_proc p v3 (fun _ => rfl) h2
      exact has_nodes_add_result_other (by simp [same_list]; exact fun e => absurd e.symm hnu)
        _ p us ms h3 hum

/-- When `p` is on the `ZOMBIE` list, `freeproc(p)` releases every lock it takes. -/
theorem freeproc_held (s : kernel K) (p : Fin K.NPROC) (zs us : List (Fin K.NPROC))
    (hz : has_nodes s .ZOMBIE 0 zs) (hu : has_nodes s .UNUSED 0 us) (hpu : p ∉ us)
    (hzu : ∀ z ∈ zs, z ∉ us) (hp : p ∈ zs) {t : kernel K} (h : freeproc p s = .ok t) :
    t.held = s.held := by
  let v1 : proc K := { s.procs p with
    trapframe := none, pagetable := none, sz := 0, pid := 0, parent := none,
    name := (s.procs p).name.set 0 0, chan := none, killed := 0, xstate := 0 }
  have hz1 : has_nodes (set_proc s p v1) .ZOMBIE ((set_proc s p v1).procs p).cpu_num zs :=
    has_nodes_cpu_irrel (by decide) 0 _ zs (has_nodes_set_proc p v1 (fun _ => rfl) hz)
  have hu1 : has_nodes (set_proc s p v1) .UNUSED 0 us :=
    has_nodes_set_proc p v1 (fun _ => rfl) hu
  have hrem := remove_proc_from_list_hit (set_proc s p v1) p zs (by simp [list_ok]) hz1 hp
  have hu2 : has_nodes (remove_result (set_proc s p v1) p .ZOMBIE zs) .UNUSED 0 us :=
    has_nodes_remove_result_other (set_proc s p v1) p zs (by simp [same_list]) us hu1 hpu hzu
  have hu3 := has_nodes_set_proc p
    { (remove_result (set_proc s p v1) p .ZOMBIE zs).procs p with state := .UNUSED }
    (fun _ => rfl) hu2
  have hadd := add_proc_to_list_eq (K := K) (by simp [list_ok]) _ p us hu3
  unfold freeproc at h
  simp only [bind, Except.bind, hrem, hadd] at h
  cases h
  rw [add_result_held, set_proc_held, remove_result_held, set_proc_held]

/-! ## `allocproc` -/

theorem allocproc_nil (vm : vm_calls) (s : kernel K) (hu : has_nodes s .UNUSED 0 []) :
    allocproc vm s = .ok (none, s) := by
  unfold allocproc
  rw [remove_head_nil (by simp [list_ok]) s hu]

theorem allocproc_cons (vm : vm_calls) (s : kernel K) (q : Fin K.NPROC)
    (rest : List (Fin K.NPROC)) (hu : has_nodes s .UNUSED 0 (q :: rest)) :
    allocproc vm s = allocproc_found vm q (remove_head_result s .UNUSED 0 q) := by
  unfold allocproc
  rw [remove_head_cons (by simp [list_ok]) s q rest hu]

theorem allocproc_stores_self (s : kernel K) (p : Fin K.NPROC) (tf : Option trapframe) :
    (allocproc_stores s p tf).procs p
      = { s.procs p with pid := s.nextpid, state := .USED, next := none, trapframe := tf } := by
  simp [allocproc_stores, allocpid]

theorem allocproc_stores_other (s : kernel K) (p : Fin K.NPROC) (tf : Option trapframe)
    (i : Fin K.NPROC) (h : i ≠ p) : (allocproc_stores s p tf).procs i = s.procs i := by
  simp [allocproc_stores, allocpid, Function.update_noteq h]

theorem store_pagetable_self (s : kernel K) (p : Fin K.NPROC) (pt : Option Nat) :
    (store_pagetable s p pt).procs p = { s.procs p with pagetable := pt } := by
  simp [store_pagetable]

theorem store_pagetable_other (s : kernel K) (p : Fin K.NPROC) (pt : Option Nat)
    (i : Fin K.NPROC) (h : i ≠ p) : (store_pagetable s p pt).procs i = s.procs i := by
  simp [store_pagetable, Function.update_noteq h]

/-- The state after the stores of `allocproc` into the popped slot `q`. -/
theorem allocated_facts (s : kernel K) (q : Fin K.NPROC) (tf : Option trapframe)
    (pt : Option Nat) :
    let a := store_pagetable (allocproc_stores (remove_head_result s .UNUSED 0 q) q tf) q pt
    a.procs q = { s.procs q with
        pid := s.nextpid, state := .USED, next := none, trapframe := tf, pagetable := pt }
    ∧ (∀ i, i ≠ q → a.procs i = s.procs i)
    ∧ a.cpus = s.cpus ∧ a.zombie_list = s.zombie_list ∧ a.sleeping_list = s.sleeping_list
    ∧ a.unused_list = (s.procs q).next
    ∧ a.initproc = s.initproc ∧ a.nextpid = wrap32 (s.nextpid + 1)
    ∧ kernel.is_initialize a = kernel.is_initialize s ∧ a.copied_out = s.copied_out := by
  intro a
  refine ⟨?_, ?_, rfl, rfl, rfl, rfl, rfl, rfl, rfl, rfl⟩
  · show (store_pagetable _ q pt).procs q = _
    rw [store_pagetable_self, allocproc_stores_self, remove_head_result_procs]
    simp
    rfl
  · intro i hi
    show (store_pagetable _ q pt).procs i = _
    rw [store_pagetable_other _ _ _ _ hi, allocproc_stores_other _ _ _ _ hi,
      remove_head_result_procs, Function.update_noteq hi]

theorem store_pagetable_same (s : kernel K) (p : Fin K.NPROC) :
    store_pagetable s p (s.procs p).pagetable = s := by
  cases s
  simp [store_pagetable, set_proc]

theorem freed_allocated (v : proc K) (pid : Int) (tf : Option trapframe) (pt : Option Nat) :
    freed { v with pid := pid, state := .USED, next := none, trapframe := tf, pagetable := pt }
      = freed v := rfl

theorem free_allocated (s : kernel K) (q : Fin K.NPROC) (zs rest : List (Fin K.NPROC))
    (tf : Option trapframe) (pt : Option Nat)
    (hu : has_nodes s .UNUSED 0 (q :: rest)) (hz : has_nodes s .ZOMBIE 0 zs)
    (hzu : ∀ z ∈ zs, z ∉ q :: rest) :
    ∃ t, freeproc q (store_pagetable (allocproc_stores (remove_head_result s .UNUSED 0 q) q tf)
        q pt) = .ok t ∧ alloc_undone s q zs rest t := by
  obtain ⟨hself, hother, hcpus, hzl, hsl, hul, hinit, hpid, hisinit, hco⟩ :=
    allocated_facts s q tf pt
  generalize store_pagetable (allocproc_stores (remove_head_result s .UNUSED 0 q) q tf) q pt
    = a at hself hother hcpus hzl hsl hul hinit hpid hisinit hco ⊢
  have hok : list_ok K .UNUSED 0 := by simp [list_ok]
  have hl := (has_nodes_iff hok s _).mp hu
  have hnd := is_list_nodup _ _ hl
  have hq_rest : q ∉ rest := (List.nodup_cons.mp hnd).1
  have hq_zs : q ∉ zs := fun hc => hzu q hc (List.mem_cons_self _ _)
  -- every list that avoids `q` is the same in `a` as in `s`, up to the `UNUSED` head
  have hkeep : ∀ (lt2 : procstate) (c2 : Int) (ms : List (Fin K.NPROC)), lt2 ≠ .UNUSED →
      q ∉ ms → has_nodes s lt2 c2 ms → has_nodes a lt2 c2 ms := by
    intro lt2 c2 ms hne hqm hm
    refine has_nodes_congr (s := s) ?_ (fun x hx => ?_) hm
    · unfold get_head
      cases lt2 <;> simp [hcpus, hzl, hsl]
      exact absurd rfl hne
    · have hxq : x ≠ q := fun e => hqm (e ▸ hx)
      rw [hother x hxq]
  have hua : has_nodes a .UNUSED 0 rest := by
    rw [has_nodes_iff hok]
    have h1 : head_of a .UNUSED 0 = (s.procs q).next := by simp [head_of, get_head, hul]
    rw [h1]
    refine is_list_congr rest _ (fun x hx => ?_) hl.2
    have hxq : x ≠ q := fun e => hq_rest (e ▸ hx)
    show (s.procs x).next = (a.procs x).next
    rw [hother x hxq]
  have hza : has_nodes a .ZOMBIE 0 zs := hkeep .ZOMBIE 0 zs (by decide) hq_zs hz
  obtain ⟨t, ht, hpost⟩ := freeproc_ok a q zs rest hza hua hq_rest
    (fun z hz' hc => hzu z hz' (List.mem_cons_of_mem _ hc))
    (fun _ => by rw [hself])
  refine ⟨t, ht, ?_⟩
  constructor
  · rw [hpost.self, hself]; rfl
  · intro i hi
    rw [hpost.others i hi, hother i hi]
  · exact hpost.unused
  · have := hpost.zombie
    rwa [List.erase_of_not_mem hq_zs] at this
  · exact hpost.cpus.trans hcpus
  · exact hpost.sleeping.trans hsl
  · exact hpost.initproc.trans hinit
  · exact hpost.nextpid.trans hpid
  · exact hpost.copied_out.trans hco
  · intro lt2 c2 ms hnz hnu hdisj hm
    have hqm : q ∉ ms := hdisj q (List.mem_cons_self _ _)
    exact hpost.frame lt2 c2 ms hnz hnu hqm
      (fun u hu' => hdisj u (List.mem_cons_of_mem _ hu'))
      (fun h => absurd h hq_zs) (hkeep lt2 c2 ms hnu hqm hm)

/-- `allocproc` on an empty `UNUSED` list, or with the trapframe page or the page table
refused: it returns null. -/
theorem allocproc_fails (vm : vm_calls) (s : kernel K) (q : Fin K.NPROC)
    (zs rest : List (Fin K.NPROC))
    (hu : has_nodes s .UNUSED 0 (q :: rest)) (hz : has_nodes s .ZOMBIE 0 zs)
    (hzu : ∀ z ∈ zs, z ∉ q :: rest)
    (hfail : vm.kalloc = none ∨ vm.proc_pagetable = none) :
    ∃ t, allocproc vm s = .ok (none, t) ∧ alloc_undone s q zs rest t := by
  rw [allocproc_cons vm s q rest hu]
  unfold allocproc_found
  cases hk : vm.kalloc with
  | none =>
    obtain ⟨t, ht, hpost⟩ := free_allocated s q zs rest none (s.procs q).pagetable hu hz hzu
    have hsame : store_pagetable (allocproc_stores (remove_head_result s .UNUSED 0 q) q none) q
        (s.procs q).pagetable = allocproc_stores (remove_head_result s .UNUSED 0 q) q none := by
      have := store_pagetable_same (allocproc_stores (remove_head_result s .UNUSED 0 q) q none) q
      rw [allocproc_stores_self, remove_head_result_procs] at this
      simpa using this
    rw [hsame] at ht
    exact ⟨t, by simp only [ht], hpost⟩
  | some tf =>
    have hp : vm.proc_pagetable = none := by
      rcases hfail with h | h
      · rw [hk] at h; cases h
      · exact h
    obtain ⟨t, ht, hpost⟩ := free_allocated s q zs rest (some tf) none hu hz hzu
    exact ⟨t, by simp only [hp, ht], hpost⟩

theorem allocproc_succeeds (vm : vm_calls) (s : kernel K) (q : Fin K.NPROC)
    (rest : List (Fin K.NPROC)) (tf : trapframe) (pt : Nat)
    (hu : has_nodes s .UNUSED 0 (q :: rest))
    (hk : vm.kalloc = some tf) (hp : vm.proc_pagetable = some pt) :
    allocproc vm s = .ok (some q,
      store_pagetable (allocproc_stores (remove_head_result s .UNUSED 0 q) q (some tf)) q
        (some pt)) := by
  rw [allocproc_cons vm s q rest hu]
  unfold allocproc_found
  simp only [hk, hp]

/-! ## `fork`: the failure paths -/

/-- C7. Called with no list-head lock and no link lock held, `fork` returns -1 when
`allocproc` fails (empty `UNUSED` list, no trapframe page, no page table) or the copy of
user memory fails.  Then no process becomes `RUNNABLE`, no CPU record changes (runnable
heads and counters), every runnable list keeps its node sequence, and every slot that
was `UNUSED` (on the `UNUSED` list, with pid 0) is `UNUSED` with pid 0 and on the
`UNUSED` list afterwards.  When the `UNUSED` list is empty the state is unchanged
altogether, `nextpid` included. -/
theorem fork_fails (vm : vm_calls) (c : Fin K.NCPU) (s : kernel K) (p : Fin K.NPROC)
    (us zs : List (Fin K.NPROC)) (_hfree : s.held = []) (hp : myproc c s = some p)
    (hu : has_nodes s .UNUSED 0 us) (hz : has_nodes s .ZOMBIE 0 zs)
    (hzu : ∀ z ∈ zs, z ∉ us)
    (hinv : ∀ i, (s.procs i).state = .UNUSED → i ∈ us ∧ (s.procs i).pid = 0)
    (hfail : us = [] ∨ vm.kalloc = none ∨ vm.proc_pagetable = none ∨ vm.uvmcopy < 0) :
    ∃ t, fork vm c s = .ok (-1, t)
      ∧ (∀ i, (t.procs i).state = .RUNNABLE → (s.procs i).state = .RUNNABLE)
      ∧ t.cpus = s.cpus
      ∧ (∀ (cpu_num : Int) (rs : List (Fin K.NPROC)), has_nodes s .RUNNABLE cpu_num rs →
          (∀ u ∈ us, u ∉ rs) → has_nodes t .RUNNABLE cpu_num rs)
      ∧ (∃ us2, has_nodes t .UNUSED 0 us2 ∧ ∀ i, (s.procs i).state = .UNUSED →
          (t.procs i).state = .UNUSED ∧ (t.procs i).pid = 0 ∧ i ∈ us2)
      ∧ (us = [] → t = s ∧ t.nextpid = s.nextpid) := by
  cases us with
  | nil =>
    refine ⟨s, ?_, fun _ h => h, rfl, fun _ _ h _ => h, ⟨[], hu, ?_⟩, fun _ => ⟨rfl, rfl⟩⟩
    · unfold fork
      rw [allocproc_nil vm s hu]
    · intro i hi
      exact absurd (hinv i hi).1 (by simp)
  | cons q rest =>
    -- in every failing case the popped slot is freed again
    have hundone : ∃ t, fork vm c s = .ok (-1, t) ∧ alloc_undone s q zs rest t := by
      by_cases ha : vm.kalloc = none ∨ vm.proc_pagetable = none
      · obtain ⟨t, ht, hpost⟩ := allocproc_fails vm s q zs rest hu hz hzu ha
        exact ⟨t, by unfold fork; rw [ht], hpost⟩
      · have hcopy : vm.uvmcopy < 0 := by
          rcases hfail with h | h | h | h
          · cases h
          · exact absurd (Or.inl h) ha
          · exact absurd (Or.inr h) ha
          · exact h
        obtain ⟨tf, hk⟩ : ∃ tf, vm.kalloc = some tf := by
          cases hk : vm.kalloc with
          | none => exact absurd (Or.inl hk) ha
          | some tf => exact ⟨tf, rfl⟩
        obtain ⟨pt, hpt⟩ : ∃ pt, vm.proc_pagetable = some pt := by
          cases hk : vm.proc_pagetable with
          | none => exact absurd (Or.inr hk) ha
          | some pt => exact ⟨pt, rfl⟩
        obtain ⟨t, ht, hpost⟩ := free_allocated s q zs rest (some tf) (some pt) hu hz hzu
        refine ⟨t, ?_, hpost⟩
        unfold fork
        rw [allocproc_succeeds vm s q rest tf pt hu hk hpt]
        simp only [hp]
        unfold fork_found
        rw [if_pos hcopy, ht]
    obtain ⟨t, ht, hpost⟩ := hundone
    have hstate : ∀ i, i ≠ q → (t.procs i).state = (s.procs i).state
        ∧ (t.procs i).pid = (s.procs i).pid := by
      intro i hi
      rw [hpost.others i hi]
      exact ⟨rfl, rfl⟩
    have hq : (t.procs q).state = .UNUSED ∧ (t.procs q).pid = 0 := by
      rw [hpost.self]
      exact ⟨rfl, rfl⟩
    refine ⟨t, ht, ?_, hpost.cpus, ?_, ⟨rest ++ [q], hpost.unused, ?_⟩, fun h => by cases h⟩
    · intro i hi
      by_cases hiq : i = q
      · subst hiq
        rw [hq.1] at hi
        cases hi
      · rw [← (hstate i hiq).1]; exact hi
    · intro cpu_num rs hrs hdisj
      exact hpost.frame .RUNNABLE cpu_num rs (by decide) (by decide) hdisj hrs
    · intro i hi
      by_cases hiq : i = q
      · subst hiq
        exact ⟨hq.1, hq.2, by simp⟩
      · refine ⟨(hstate i hiq).1.trans hi, (hstate i hiq).2.trans (hinv i hi).2, ?_⟩
        rcases List.mem_cons.mp (hinv i hi).1 with h | h
        · exact absurd h hiq
        · exact List.mem_append_left _ h

theorem fork_fails_witness :
    ex_init.held = []
    ∧ myproc 0 ex_init = some 0
    ∧ has_nodes ex_init .UNUSED 0 [1, 2]
    ∧ ∃ t, fork vm_no_page 0 ex_init = .ok (-1, t)
      ∧ (∀ i, (t.procs i).state = .RUNNABLE → (ex_init.procs i).state = .RUNNABLE)
      ∧ t.cpus = ex_init.cpus
      ∧ (∀ (cpu_num : Int) (rs : List (Fin K0.NPROC)), has_nodes ex_init .RUNNABLE cpu_num rs →
          (∀ u ∈ [1, 2], u ∉ rs) → has_nodes t .RUNNABLE cpu_num rs)
      ∧ (∃ us2, has_nodes t .UNUSED 0 us2 ∧ ∀ i, (ex_init.procs i).state = .UNUSED →
          (t.procs i).state = .UNUSED ∧ (t.procs i).pid = 0 ∧ i ∈ us2)
      ∧ (([1, 2] : List (Fin K0.NPROC)) = [] → t = ex_init ∧ t.nextpid = ex_init.nextpid) :=
  ⟨by decide, by decide, by decide,
    fork_fails vm_no_page 0 ex_init 0 [1, 2] [] (by decide) (by decide) (by decide) (by decide)
      (by simp) (by decide) (Or.inr (Or.inl rfl))⟩

/-! ## `fork`: the success path -/

theorem fork_child_self (s : kernel K) (p np : Fin K.NPROC) (tf : trapframe) (h : p ≠ np) :
    (fork_child s p np tf).procs np
      = { s.procs np with
          sz := (s.procs p).sz, trapframe := some { tf with a0 := 0 },
          ofile := fun i => if ((s.procs p).ofile i).isSome then (s.procs p).ofile i
                            else (s.procs np).ofile i,
          cwd := (s.procs p).cwd,
          name := safestrcpy (s.procs np).name (s.procs p).name (s.procs p).name.length,
          parent := some p, state := .RUNNABLE } := by
  simp [fork_child, Function.update_noteq h]

theorem fork_child_other (s : kernel K) (p np : Fin K.NPROC) (tf : trapframe)
    (i : Fin K.NPROC) (h : i ≠ np) : (fork_child s p np tf).procs i = s.procs i := by
  simp [fork_child, Function.update_noteq h]

theorem fork_child_next (s : kernel K) (p np : Fin K.NPROC) (tf : trapframe)
    (i : Fin K.NPROC) : ((fork_child s p np tf).procs i).next = (s.procs i).next := by
  by_cases h : i = np
  · subst h; simp [fork_child]
  · rw [fork_child_other s p np tf i h]

theorem fork_child_pid (s : kernel K) (p np : Fin K.NPROC) (tf : trapframe) :
    ((fork_child s p np tf).procs np).pid = (s.procs np).pid := by
  simp [fork_child]

theorem fork_child_cpu_num (s : kernel K) (p np : Fin K.NPROC) (tf : trapframe)
    (i : Fin K.NPROC) : ((fork_child s p np tf).procs i).cpu_num = (s.procs i).cpu_num := by
  by_cases h : i = np
  · subst h; simp [fork_child]
  · rw [fork_child_other s p np tf i h]

theorem find_least_used_cpu_loop_congr {s t : kernel K} (h : s.cpus = t.cpus) :
    ∀ (l : List Nat) (least : Int),
      find_least_used_cpu_loop s l least = find_least_used_cpu_loop t l least
  | [], _ => rfl
  | i :: rest, least => by
    unfold find_least_used_cpu_loop
    rw [h]
    cases cpus_index K i <;> cases cpus_index K least <;> simp only []
    split
    · exact find_least_used_cpu_loop_congr h rest _
    · exact find_least_used_cpu_loop_congr h rest _

theorem pick_cpu_congr {s t : kernel K} (h : s.cpus = t.cpus) (cpu_num : Int) :
    pick_cpu s cpu_num = pick_cpu t cpu_num := by
  unfold pick_cpu find_least_used_cpu
  rw [find_least_used_cpu_loop_congr h]

theorem has_nodes_set_cpus {s : kernel K} {list_type : procstate} {cpu_num : Int}
    {ms : List (Fin K.NPROC)} (c : Fin K.NCPU) (v : cpu K)
    (hv : v.runnable_list_head = (s.cpus c).runnable_list_head)
    (hm : has_nodes s list_type cpu_num ms) : has_nodes (set_cpus s c v) list_type cpu_num ms := by
  refine has_nodes_congr (s := s) ?_ (fun _ _ => rfl) hm
  unfold get_head
  cases list_type <;> try rfl
  cases cpus_index K cpu_num with
  | none => rfl
  | some c2 =>
    by_cases h : c2 = c
    · subst h; simp [hv]
    · simp [Function.update_noteq h]

/-- The three counter updates at the end of `fork`. -/
theorem fork_counters (cpu_num : Int) (s : kernel K) (ci : Fin K.NCPU)
    (hc : cpus_index K cpu_num = some ci) :
    (do
        let s11 ← increase_admitted_process_count cpu_num s
        let s12 ← bump_admitted cpu_num s11
        increase_runnable_list_size_of cpu_num s12) = Except.ok (fork_counted s ci) := by
  simp only [increase_admitted_process_count, bump_admitted, increase_runnable_list_size_of,
    hc, bind, Except.bind]
  cases s
  simp [fork_counted, set_cpus]

theorem has_nodes_fork_counted {s : kernel K} {list_type : procstate} {cpu_num : Int}
    {ms : List (Fin K.NPROC)} (ci : Fin K.NCPU) (hm : has_nodes s list_type cpu_num ms) :
    has_nodes (fork_counted s ci) list_type cpu_num ms :=
  has_nodes_set_cpus ci _ rfl hm

theorem fork_enqueue_eq (np : Fin K.NPROC) (cpu_num : Int) (s : kernel K) (ci : Fin K.NCPU)
    (rs : List (Fin K.NPROC)) (hok : list_ok K .RUNNABLE cpu_num)
    (hc : cpus_index K cpu_num = some ci) (hr : has_nodes s .RUNNABLE cpu_num rs) :
    fork_enqueue np cpu_num s
      = .ok (fork_counted (add_result (set_proc s np { s.procs np with cpu_num := cpu_num })
          np .RUNNABLE cpu_num rs) ci) := by
  have hr9 : has_nodes (set_proc s np { s.procs np with cpu_num := cpu_num }) .RUNNABLE cpu_num rs :=
    has_nodes_set_proc np _ (fun _ => rfl) hr
  have hadd := add_proc_to_list_eq hok _ np rs hr9
  have hcount := fork_counters cpu_num
    (add_result (set_proc s np { s.procs np with cpu_num := cpu_num }) np .RUNNABLE cpu_num rs)
    ci hc
  unfold fork_enqueue
  simp only [bind, Except.bind, hadd] at hcount ⊢
  exact hcount

/-- C8, as amended.  When `allocproc` and the memory copy succeed, `fork` returns the
child's pid, which is the value `nextpid` had before the call (positive exactly when
`nextpid` was, which a wrapping `int` does not guarantee), and afterwards the child's trapframe is the parent's with `a0 = 0`, `child.sz = parent.sz`,
the child's parent is the caller, its state is `RUNNABLE`, its `cpu_num` is the target
CPU and it is the last node of that CPU's runnable list; the target is the parent's
`cpu_num` when balancing is off and the result of `find_least_used_cpu` when it is
on. -/
theorem fork_succeeds (vm : vm_calls) (c : Fin K.NCPU) (s : kernel K) (p q : Fin K.NPROC)
    (rest rs : List (Fin K.NPROC)) (tf0 tf : trapframe) (pt : Nat) (target : Int)
    (hp : myproc c s = some p) (hu : has_nodes s .UNUSED 0 (q :: rest))
    (hk : vm.kalloc = some tf0) (hpt : vm.proc_pagetable = some pt)
    (hcopy : ¬ vm.uvmcopy < 0) (hpq : p ≠ q) (htf : (s.procs p).trapframe = some tf)
    (htarget : pick_cpu s (s.procs p).cpu_num = .ok target)
    (hok : list_ok K .RUNNABLE target) (hr : has_nodes s .RUNNABLE target rs)
    (hqr : q ∉ rs) :
    ∃ t, fork vm c s = .ok (s.nextpid, t)
      ∧ (0 < (t.procs q).pid ↔ 0 < s.nextpid)
      ∧ (t.procs q).pid = s.nextpid
      ∧ (t.procs q).trapframe = some { tf with a0 := 0 }
      ∧ (t.procs p).trapframe = some tf
      ∧ (t.procs q).sz = (s.procs p).sz
      ∧ (t.procs p).sz = (s.procs p).sz
      ∧ (t.procs q).parent = some p
      ∧ (t.procs q).state = .RUNNABLE
      ∧ (t.procs q).cpu_num = target
      ∧ has_nodes t .RUNNABLE target (rs ++ [q])
      ∧ (t.procs q).next = none
      ∧ (K.BLNCFLG = false → target = (s.procs p).cpu_num)
      ∧ (K.BLNCFLG = true → find_least_used_cpu s = .ok target) := by
  obtain ⟨ci, hci⟩ := cpus_index_of_ok hok
  -- the state `allocproc` returns
  obtain ⟨hself, hother, hcpus, hzl, hsl, hul, hinit, hnp, hisinit, hco⟩ :=
    allocated_facts s q (some tf0) (some pt)
  have halloc := allocproc_succeeds vm s q rest tf0 pt hu hk hpt
  generalize store_pagetable (allocproc_stores (remove_head_result s .UNUSED 0 q) q (some tf0))
    q (some pt) = a at hself hother hcpus hzl hsl hul hinit hnp hisinit hco halloc
  have hap : a.procs p = s.procs p := hother p hpq
  have hra : has_nodes a .RUNNABLE target rs := by
    refine has_nodes_congr (s := s) ?_ (fun x hx => ?_) hr
    · unfold get_head; simp [hcpus]
    · have hxq : x ≠ q := fun e => hqr (e ▸ hx)
      rw [hother x hxq]
  -- the child record
  have hbq := fork_child_self a p q tf hpq
  have hrb : has_nodes (fork_child a p q tf) .RUNNABLE target rs :=
    has_nodes_congr (s := a) (get_head_congr rfl rfl rfl rfl _ _)
      (fun x _ => (fork_child_next a p q tf x).symm) hra
  have hpick : pick_cpu (fork_child a p q tf) ((fork_child a p q tf).procs p).cpu_num
      = .ok target := by
    rw [fork_child_cpu_num, hap, ← htarget]
    exact pick_cpu_congr (show (fork_child a p q tf).cpus = s.cpus from hcpus) _
  have henq := fork_enqueue_eq q target (fork_child a p q tf) ci rs hok hci hrb
  have hpidq : ((fork_child a p q tf).procs q).pid = s.nextpid := by
    rw [fork_child_pid, hself]
  have hnextq : ((set_proc (fork_child a p q tf) q
      { (fork_child a p q tf).procs q with cpu_num := target }).procs q).next = none := by
    simp [fork_child_next, hself]
  -- the state `fork` leaves
  have hs9q : (set_proc (fork_child a p q tf) q
      { (fork_child a p q tf).procs q with cpu_num := target }).procs q
      = { (fork_child a p q tf).procs q with cpu_num := target } := by simp
  have hs9p : (set_proc (fork_child a p q tf) q
      { (fork_child a p q tf).procs q with cpu_num := target }).procs p = s.procs p := by
    rw [set_proc_procs, Function.update_noteq hpq, fork_child_other a p q tf p hpq, hap]
  have hr9 : has_nodes (set_proc (fork_child a p q tf) q
      { (fork_child a p q tf).procs q with cpu_num := target }) .RUNNABLE target rs :=
    has_nodes_set_proc q _ (fun _ => rfl) hrb
  generalize set_proc (fork_child a p q tf) q
      { (fork_child a p q tf).procs q with cpu_num := target } = s9
    at henq hnextq hs9q hs9p hr9
  have htq : ∀ i, (fork_counted (add_result s9 q .RUNNABLE target rs) ci).procs i
      = { s9.procs i with next := ((add_result s9 q .RUNNABLE target rs).procs i).next } :=
    fun i => add_result_field s9 q .RUNNABLE target rs i
  refine ⟨fork_counted (add_result s9 q .RUNNABLE target rs) ci, ?_, ?_, ?_, ?_, ?_, ?_, ?_,
    ?_, ?_, ?_, ?_, ?_, ?_, ?_⟩
  · unfold fork
    rw [halloc]
    simp only [hp]
    unfold fork_found
    rw [if_neg hcopy]
    simp only [hself, hap, htf, hpick, henq, hpidq]
  · rw [htq q, hs9q, hbq, hself]
  · rw [htq q, hs9q, hbq, hself]
  · rw [htq q, hs9q, hbq]
  · rw [htq p, hs9p]; exact htf
  · rw [htq q, hs9q, hbq, hap]
  · rw [htq p, hs9p]
  · rw [htq q, hs9q, hbq]
  · rw [htq q, hs9q, hbq]
  · rw [htq q, hs9q]
  · exact has_nodes_fork_counted ci (has_nodes_add_result hok s9 q rs hr9 hqr hnextq)
  · exact add_result_next_self s9 q .RUNNABLE target rs hqr hnextq
  · intro hb
    unfold pick_cpu at htarget
    rw [hb] at htarget
    simpa using htarget.symm
  · intro hb
    unfold pick_cpu at htarget
    rw [hb] at htarget
    simpa using htarget

theorem fork_succeeds_witness :
    myproc 0 ex_init = some 0
    ∧ has_nodes ex_init .UNUSED 0 [1, 2]
    ∧ has_nodes ex_init .RUNNABLE 0 []
    ∧ ex_init.nextpid = 2
    ∧ ∃ t, fork vm_ok 0 ex_init = .ok (2, t)
      ∧ 0 < (t.procs 1).pid
      ∧ (t.procs 1).pid = 2
      ∧ (t.procs 1).trapframe = some { epc := 0, sp := 4096, a0 := 0, regs := [] }
      ∧ (t.procs 0).trapframe = some { epc := 0, sp := 4096, a0 := 5, regs := [] }
      ∧ (t.procs 1).sz = 4096
      ∧ (t.procs 1).parent = some 0
      ∧ (t.procs 1).state = .RUNNABLE
      ∧ (t.procs 1).cpu_num = 0
      ∧ has_nodes t .RUNNABLE 0 [1] := by
  refine ⟨by decide, by decide, by decide, by decide, ?_⟩
  obtain ⟨t, h1, h2, h3, h4, h5, h6, -, h8, h9, h10, h11, -, -, -⟩ :=
    fork_succeeds vm_ok 0 ex_init 0 1 [2] [] { epc := 0, sp := 0, a0 := 5, regs := [] }
      { epc := 0, sp := 4096, a0 := 5, regs := [] } 7 0
      (by decide) (by decide) rfl rfl (by decide) (by decide) (by decide) rfl
      (by decide) (by decide) (by simp)
  exact ⟨t, h1, h2.mpr (by decide), h3, h4, h5, h6, h8, h9, h10, h11⟩

/-- C8, the counterexample.  In `ex_init_last_pid` the init process runs as in `ex_init`
and `nextpid` is `2^31 - 1`, the value `2^31 - 3` calls of `allocpid` from `ex_init`
leave.  Its first `fork` succeeds and returns `2^31 - 1`, leaving
`nextpid` wrapped to `-2^31`; its second `fork` succeeds as well, with a `RUNNABLE`
child in slot 2 whose parent is the caller, and returns that child's pid, `-2^31`,
which is not positive. -/
theorem fork_returns_negative_pid :
    (allocpid_calls 2147483645 ex_init).2.nextpid = ex_init_last_pid.nextpid
    ∧ myproc 0 ex_init_last_pid = some 0
    ∧ ∃ t1 t2, fork vm_ok 0 ex_init_last_pid = .ok (2147483647, t1)
      ∧ t1.nextpid = -2147483648
      ∧ fork vm_ok 0 t1 = .ok (-2147483648, t2)
      ∧ (t2.procs 2).pid = -2147483648
      ∧ (t2.procs 2).state = .RUNNABLE
      ∧ (t2.procs 2).parent = some 0
      ∧ has_nodes t2 .RUNNABLE 0 [1, 2]
      ∧ ¬ 0 < (t2.procs 2).pid := by
  have h1 : (allocpid_calls 2147483645 ex_init).2.nextpid = ex_init_last_pid.nextpid := by
    rw [allocpid_calls_nextpid 2147483645 ex_init (by decide) (by decide)]
    decide
  refine ⟨h1, by decide, _, _, by with_unfolding_all rfl, ?_, by with_unfolding_all rfl,
    ?_, ?_, ?_, ?_, ?_⟩
  all_goals decide

/-! ## `wait` -/

/-- The scan of `wait` stops at the first slot, in table order, that is a `ZOMBIE` child
of the caller. -/
theorem wait_scan_finds (vm : vm_calls) (p : Option (Fin K.NPROC)) (addr : Nat)
    (k : Fin K.NPROC) (s : kernel K) :
    ∀ (l : List (Fin K.NPROC)) (havekids : Int),
      l.find? (fun i => decide ((s.procs i).parent = p ∧ (s.procs i).state = .ZOMBIE)) = some k →
      wait_scan vm p addr l havekids s =
        match wait_found vm p k addr s with
        | .error e => .error e
        | .ok r => .ok (some r.1, 1, r.2)
  | [], _, h => by simp at h
  | np :: rest, havekids, h => by
    unfold wait_scan
    by_cases h1 : (s.procs np).parent = p
    · by_cases h2 : (s.procs np).state = .ZOMBIE
      · have : np = k := by simpa [List.find?, h1, h2] using h
        subst this
        rw [if_pos h1, if_pos h2]
      · rw [if_pos h1, if_neg h2]
        exact wait_scan_finds vm p addr k s rest 1 (by simpa [List.find?, h1, h2] using h)
    · rw [if_neg h1]
      exact wait_scan_finds vm p addr k s rest havekids (by simpa [List.find?, h1] using h)

theorem has_nodes_copyout_xstate {s : kernel K} {list_type : procstate} {cpu_num : Int}
    {ms : List (Fin K.NPROC)} (pp np : Fin K.NPROC) (addr : Nat)
    (hm : has_nodes s list_type cpu_num ms) :
    has_nodes (copyout_xstate s pp np addr) list_type cpu_num ms :=
  has_nodes_congr (s := s) (get_head_congr rfl rfl rfl rfl _ _) (fun _ _ => rfl) hm

/-- C9. When `wait` is called with no list-head lock and no link lock held and the
caller has a `ZOMBIE` child (and the copy-out, if asked for, succeeds), `wait` returns
the pid of the first such child `k` in table order; afterwards the slot `k` is `UNUSED`,
at the tail of the `UNUSED` list and off the `ZOMBIE` list, with `sz`, `pid`, `parent`,
`name[0]`, `chan`, `killed`, `xstate` zero and `trapframe`, `pagetable` null; every
other slot keeps its state (and every field but `next`), the other zombies stay on
`ZOMBIE` in their order, every other list keeps its node sequence, and every lock taken
is released again. -/
theorem wait_reaps (vm : vm_calls) (c : Fin K.NCPU) (addr : Nat) (s : kernel K)
    (p k : Fin K.NPROC) (zs us : List (Fin K.NPROC))
    (hfree : s.held = [])
    (hp : myproc c s = some p)
    (hk : (List.finRange K.NPROC).find?
      (fun i => decide ((s.procs i).parent = some p ∧ (s.procs i).state = .ZOMBIE)) = some k)
    (hcopy : addr ≠ 0 → ¬ vm.copyout < 0)
    (hz : has_nodes s .ZOMBIE 0 zs) (hkz : k ∈ zs)
    (hu : has_nodes s .UNUSED 0 us) (hku : k ∉ us) (hzu : ∀ z ∈ zs, z ∉ us) :
    ∃ t, wait vm c addr s = .ok (.returned (s.procs k).pid, t)
      ∧ (s.procs k).parent = some p ∧ (s.procs k).state = .ZOMBIE
      ∧ t.procs k = freed (s.procs k)
      ∧ (t.procs k).state = .UNUSED
      ∧ (t.procs k).sz = 0 ∧ (t.procs k).pid = 0 ∧ (t.procs k).parent = none
      ∧ (t.procs k).name.getD 0 0 = 0 ∧ (t.procs k).chan = none
      ∧ (t.procs k).killed = 0 ∧ (t.procs k).xstate = 0
      ∧ (t.procs k).trapframe = none ∧ (t.procs k).pagetable = none
      ∧ has_nodes t .UNUSED 0 (us ++ [k])
      ∧ has_nodes t .ZOMBIE 0 (zs.erase k) ∧ k ∉ zs.erase k
      ∧ (∀ i, i ≠ k → t.procs i = { s.procs i with next := (t.procs i).next })
      ∧ (∀ i, i ≠ k → (t.procs i).state = (s.procs i).state)
      ∧ (∀ (list_type2 : procstate) (cpu_num2 : Int) (ms : List (Fin K.NPROC)),
          list_type2 ≠ .ZOMBIE → list_type2 ≠ .UNUSED → k ∉ ms → (∀ u ∈ us, u ∉ ms) →
          (∀ z ∈ zs, z ∉ ms) →
          has_nodes s list_type2 cpu_num2 ms → has_nodes t list_type2 cpu_num2 ms)
      ∧ t.copied_out = (if addr ≠ 0 then
          [{ pagetable := (s.procs p).pagetable, addr := addr, value := (s.procs k).xstate }]
          else []) ++ s.copied_out
      ∧ t.held = [] := by
  have hkprop := List.find?_some hk
  simp only [decide_eq_true_eq] at hkprop
  have hnd : zs.Nodup := is_list_nodup _ _ ((has_nodes_iff (by simp [list_ok]) s zs).mp hz)
  -- the state `freeproc` works on
  obtain ⟨s1, hs1, hfound⟩ : ∃ s1 : kernel K,
      ((addr = 0 ∧ s1 = s) ∨ (addr ≠ 0 ∧ s1 = copyout_xstate s p k addr))
      ∧ wait_found vm (some p) k addr s
        = match freeproc k s1 with
          | .error e => .error e
          | .ok t => .ok ((s.procs k).pid, t) := by
    unfold wait_found
    by_cases ha : addr ≠ 0
    · exact ⟨copyout_xstate s p k addr, Or.inr ⟨ha, rfl⟩, by
        rw [if_pos ha]; simp only []; rw [if_neg (hcopy ha)]⟩
    · exact ⟨s, Or.inl ⟨not_not.mp ha, rfl⟩, by rw [if_neg ha]⟩
  have hprocs : s1.procs = s.procs := by
    rcases hs1 with ⟨-, h⟩ | ⟨-, h⟩ <;> subst h <;> rfl
  have hz1 : has_nodes s1 .ZOMBIE 0 zs := by
    rcases hs1 with ⟨-, h⟩ | ⟨-, h⟩ <;> rw [h]
    · exact hz
    · exact has_nodes_copyout_xstate p k addr hz
  have hu1 : has_nodes s1 .UNUSED 0 us := by
    rcases hs1 with ⟨-, h⟩ | ⟨-, h⟩ <;> rw [h]
    · exact hu
    · exact has_nodes_copyout_xstate p k addr hu
  obtain ⟨t, ht, hpost⟩ := freeproc_ok s1 k zs us hz1 hu1 hku hzu (fun h => absurd hkz h)
  have hself : t.procs k = freed (s.procs k) := by rw [hpost.self, hprocs]
  have hothers : ∀ i, i ≠ k → t.procs i = { s.procs i with next := (t.procs i).next } := by
    intro i hi
    rw [hpost.others i hi, hprocs]
  have hheld1 : s1.held = s.held := by
    rcases hs1 with ⟨-, h⟩ | ⟨-, h⟩ <;> subst h <;> rfl
  have hheld : t.held = [] :=
    (freeproc_held s1 k zs us hz1 hu1 hku hzu hkz ht).trans (hheld1.trans hfree)
  refine ⟨t, ?_, hkprop.1, hkprop.2, hself, ?_, ?_, ?_, ?_, ?_, ?_, ?_, ?_, ?_, ?_, hpost.unused,
    hpost.zombie, ?_, hothers, ?_, ?_, ?_, hheld⟩
  · unfold wait
    simp only [hp, bind, Except.bind, wait_scan_finds vm (some p) addr k s _ 0 hk, hfound, ht]
    rfl
  all_goals first
    | (rw [hself]; rfl)
    | skip
  · rw [hself]
    simp [freed]
    cases (s.procs k).name <;> simp
  · exact fun hc => (List.Nodup.mem_erase_iff hnd).mp hc |>.1 rfl
  · intro i hi
    rw [hothers i hi]
  · intro lt2 c2 ms hnz hnu hkm hum hzm hm
    have hm1 : has_nodes s1 lt2 c2 ms := by
      rcases hs1 with ⟨-, h⟩ | ⟨-, h⟩ <;> rw [h]
      · exact hm
      · exact has_nodes_copyout_xstate p k addr hm
    exact hpost.frame lt2 c2 ms hnz hnu hkm hum (fun _ => hzm) hm1
  · rw [hpost.copied_out]
    rcases hs1 with ⟨ha, h⟩ | ⟨ha, h⟩ <;> rw [h]
    · simp [ha]
    · simp [ha, copyout_xstate]

theorem wait_reaps_witness :
    ex_zombie.held = []
    ∧ myproc 0 ex_zombie = some 0
    ∧ has_nodes ex_zombie .ZOMBIE 0 [1] ∧ has_nodes ex_zombie .UNUSED 0 [2]
    ∧ ∃ t, wait vm_ok 0 64 ex_zombie = .ok (.returned 2, t)
      ∧ (t.procs 1).state = .UNUSED ∧ (t.procs 1).pid = 0
      ∧ has_nodes t .UNUSED 0 [2, 1] ∧ has_nodes t .ZOMBIE 0 []
      ∧ t.copied_out = [{ pagetable := some 7, addr := 64, value := 42 }]
      ∧ t.held = [] := by
  refine ⟨by decide, by decide, by decide, by decide, ?_⟩
  obtain ⟨t, h1, -, -, -, h5, -, h7, -, -, -, -, -, -, -, h15, h16, -, -, -, -, h21, h22⟩ :=
    wait_reaps vm_ok 0 64 ex_zombie 0 1 [1] [2] (by decide) (by decide) (by decide)
      (by decide) (by decide) (by decide) (by decide) (by decide) (by decide)
  exact ⟨t, h1, h5, h7, h15, h16, h21, h22⟩

/-! ## Frames that need no well-formedness

Whatever the shape of the lists, a list primitive that returns has stored to `next`
fields, list heads and locks only. -/

theorem bind_eq_ok {ε α β : Type} {x : Except ε α} {f : α → Except ε β} {b : β}
    (h : (x >>= f) = .ok b) : ∃ a, x = .ok a ∧ f a = .ok b := by
  cases x with
  | error e => cases h
  | ok a => exact ⟨a, rfl, h⟩

theorem match_eq_ok {ε α β : Type} {x : Except ε α} {f : α → Except ε β} {b : β}
    (h : (match x with
      | .error e => (Except.error e : Except ε β)
      | .ok a => f a) = .ok b) : ∃ a, x = .ok a ∧ f a = .ok b := by
  cases x with
  | error e => cases h
  | ok a => exact ⟨a, rfl, h⟩

theorem next_only_refl (s : kernel K) : next_only s s := fun _ => rfl

theorem next_only_trans {s t u : kernel K} (h1 : next_only s t) (h2 : next_only t u) :
    next_only s u := fun i => by rw [h2 i, h1 i]

theorem next_only_of_procs {s t : kernel K} (h : t.procs = s.procs) : next_only s t :=
  fun i => by rw [h]

theorem next_only_set_next (s : kernel K) (p : Fin K.NPROC) (nx : Option (Fin K.NPROC)) :
    next_only s (set_next s p nx) := (list_op_post_set_next s .UNUSED 0 p nx).fields

theorem acquire_list_procs {list_type : procstate} {cpu_num : Int} {s t : kernel K}
    (h : acquire_list list_type cpu_num s = .ok t) : t.procs = s.procs := by
  unfold acquire_list at h
  cases list_type <;> simp at h
  case RUNNABLE =>
    cases hl : locks_index K cpu_num <;> simp [hl] at h
    subst h; rfl
  all_goals (subst h; rfl)

theorem release_list_procs {list_type : procstate} {cpu_num : Int} {s t : kernel K}
    (h : release_list list_type cpu_num s = .ok t) : t.procs = s.procs := by
  unfold release_list at h
  cases list_type <;> simp at h
  case RUNNABLE =>
    cases hl : locks_index K cpu_num <;> simp [hl] at h
    subst h; rfl
  all_goals (subst h; rfl)

theorem set_head_procs {list_type : procstate} {cpu_num : Int} {s t : kernel K}
    {v : Option (Fin K.NPROC)} (h : set_head v list_type cpu_num s = .ok t) :
    t.procs = s.procs := by
  unfold set_head at h
  cases list_type <;> simp at h
  case RUNNABLE =>
    cases hl : cpus_index K cpu_num <;> simp [hl] at h
    subst h; rfl
  all_goals (subst h; rfl)

theorem add_proc_to_list_loop_procs (list_type : procstate) (cpu_num : Int) :
    ∀ (fuel : Nat) (s : kernel K) (prev curr : Option (Fin K.NPROC)) (t : kernel K)
      (pv : Option (Fin K.NPROC)),
      add_proc_to_list_loop list_type cpu_num fuel s prev curr = .ok (t, pv) →
      t.procs = s.procs
  | 0, _, _, _, _, _, h => by simp [add_proc_to_list_loop] at h
  | _ + 1, s, prev, none, t, pv, h => by
    simp [add_proc_to_list_loop] at h
    rw [← h.1]
  | fuel + 1, s, prev, some curr, t, pv, h => by
    unfold add_proc_to_list_loop at h
    dsimp only at h
    split at h
    · cases h
    · rename_i s2 hs2
      have h2 : s2.procs = s.procs := by
        cases prev with
        | none =>
          dsimp only at hs2
          have := release_list_procs hs2
          exact this
        | some pv0 =>
          simp at hs2
          subst hs2; rfl
      exact (add_proc_to_list_loop_procs list_type cpu_num fuel s2 _ _ t pv h).trans h2

theorem add_proc_to_list_next_only {p : Fin K.NPROC} {list_type : procstate} {cpu_num : Int}
    {s t : kernel K} {r : Int} (h : add_proc_to_list p list_type cpu_num s = .ok (r, t)) :
    next_only s t := by
  unfold add_proc_to_list at h
  obtain ⟨s1, hs1, h⟩ := bind_eq_ok h
  obtain ⟨curr, -, h⟩ := bind_eq_ok h
  have h1 := acquire_list_procs hs1
  cases curr with
  | none =>
    obtain ⟨s2, hs2, h⟩ := bind_eq_ok h
    obtain ⟨s3, hs3, h⟩ := bind_eq_ok h
    have h2 := set_head_procs hs2
    have h3 := release_list_procs hs3
    simp [pure, Except.pure] at h
    rw [← h.2]
    exact next_only_of_procs (h3.trans (h2.trans h1))
  | some c0 =>
    obtain ⟨⟨s2, prev⟩, hs2, h⟩ := bind_eq_ok h
    have h2 := add_proc_to_list_loop_procs _ _ _ _ _ _ _ _ hs2
    cases prev with
    | none => cases h
    | some pv =>
      simp [pure, Except.pure] at h
      rw [← h.2]
      intro i
      have := next_only_set_next s2 pv (some p) i
      rw [h2, h1] at this
      exact this

theorem remove_loop_next_only (p : Fin K.NPROC) (list_type : procstate) :
    ∀ (fuel : Nat) (s : kernel K) (prev curr : Option (Fin K.NPROC)) (r : Int) (t : kernel K),
      remove_proc_from_list_loop p list_type fuel s prev curr = .ok (r, t) → next_only s t
  | 0, _, _, _, _, _, h => by simp [remove_proc_from_list_loop] at h
  | _ + 1, s, prev, none, r, t, h => by
    simp [remove_proc_from_list_loop] at h
    rw [← h.2]
    exact next_only_refl s
  | fuel + 1, s, prev, some curr, r, t, h => by
    unfold remove_proc_from_list_loop at h
    dsimp only at h
    by_cases hpc : p = curr
    · rw [if_pos hpc] at h
      cases prev with
      | none => cases h
      | some pv =>
        simp at h
        rw [← h.2]
        exact next_only_trans (next_only_set_next _ pv _) (next_only_set_next _ curr none)
    · rw [if_neg hpc] at h
      split at h
      · cases h
      · rename_i s2 hs2
        have h2 : s2.procs = s.procs := by
          cases prev with
          | none =>
            dsimp only at hs2
            have := release_list_procs hs2
            exact this
          | some pv0 =>
            simp at hs2
            subst hs2; rfl
        exact next_only_trans (next_only_of_procs h2)
          (remove_loop_next_only p list_type fuel s2 _ _ r t h)

theorem remove_proc_from_list_next_only {p : Fin K.NPROC} {list_type : procstate}
    {s t : kernel K} {r : Int} (h : remove_proc_from_list p list_type s = .ok (r, t)) :
    next_only s t := by
  unfold remove_proc_from_list at h
  obtain ⟨s1, hs1, h⟩ := bind_eq_ok h
  obtain ⟨curr, -, h⟩ := bind_eq_ok h
  have h1 := acquire_list_procs hs1
  cases curr with
  | none =>
    obtain ⟨s2, hs2, h⟩ := bind_eq_ok h
    have h2 := release_list_procs hs2
    simp [pure, Except.pure] at h
    rw [← h.2]
    exact next_only_of_procs (h2.trans h1)
  | some c0 =>
    by_cases hpc : p = c0
    · simp only [hpc, if_true] at h
      obtain ⟨s3, hs3, h⟩ := bind_eq_ok h
      obtain ⟨s6, hs6, h⟩ := bind_eq_ok h
      have h3 := set_head_procs hs3
      have h6 := release_list_procs hs6
      simp [pure, Except.pure] at h
      rw [← h.2]
      intro i
      have := next_only_set_next s3 c0 none i
      rw [h6]
      have e3 : s3.procs = s.procs := h3.trans h1
      rw [e3] at this
      exact this
    · simp only [hpc, if_false] at h
      exact next_only_trans (next_only_of_procs h1) (remove_loop_next_only p list_type _ _ _ _ _ _ h)

theorem same_pids_refl (s : kernel K) : same_pids s s := fun _ => rfl

theorem same_pids_trans {s t u : kernel K} (h1 : same_pids s t) (h2 : same_pids t u) :
    same_pids s u := fun i => (h2 i).trans (h1 i)

theorem same_pids_of_next_only {s t : kernel K} (h : next_only s t) : same_pids s t :=
  fun i => by rw [h i]

theorem same_pids_of_procs {s t : kernel K} (h : t.procs = s.procs) : same_pids s t :=
  fun i => by rw [h]

theorem same_pids_set_proc (s : kernel K) (p : Fin K.NPROC) (v : proc K)
    (hv : v.pid = (s.procs p).pid) : same_pids s (set_proc s p v) := by
  intro i
  by_cases h : i = p
  · subst h; simp [hv]
  · simp [Function.update_noteq h]

theorem counter_procs {cpu_num : Int} {s t : kernel K}
    (h : increase_admitted_process_count cpu_num s = .ok t
      ∨ increase_runnable_list_size_of cpu_num s = .ok t
      ∨ decrease_runnable_list_size_of cpu_num s = .ok t) : t.procs = s.procs := by
  unfold increase_admitted_process_count increase_runnable_list_size_of
    decrease_runnable_list_size_of at h
  cases hc : cpus_index K cpu_num with
  | none => simp [hc] at h
  | some c =>
    simp only [hc] at h
    rcases h with h | h | h <;> (injection h with h; subst h; rfl)

theorem wakeup_body_same_pids {c : Fin K.NCPU} {chan : Option (chan_t K)} {p : Fin K.NPROC}
    {s t : kernel K} (h : wakeup_body c chan p s = .ok t) : same_pids s t := by
  unfold wakeup_body at h
  by_cases h1 : some p ≠ myproc c s
  · by_cases h2 : (s.procs p).state = .SLEEPING ∧ (s.procs p).chan = chan
    · rw [if_pos h1, if_pos h2] at h
      obtain ⟨⟨r1, s1⟩, hs1, h⟩ := bind_eq_ok h
      obtain ⟨cpu_num, -, h⟩ := bind_eq_ok h
      obtain ⟨⟨r3, s3⟩, hs3, h⟩ := bind_eq_ok h
      obtain ⟨s4, hs4, h⟩ := bind_eq_ok h
      have e1 := same_pids_of_next_only (remove_proc_from_list_next_only hs1)
      have e2 := same_pids_set_proc s1 p { s1.procs p with state := .RUNNABLE } rfl
      have e3 := same_pids_of_next_only (add_proc_to_list_next_only hs3)
      have e4 := same_pids_of_procs (counter_procs (Or.inl hs4))
      have e5 := same_pids_of_procs (counter_procs (Or.inr (Or.inl h)))
      exact same_pids_trans e1 (same_pids_trans e2 (same_pids_trans e3 (same_pids_trans e4 e5)))
    · rw [if_pos h1, if_neg h2] at h
      have e : s = t := by simpa [pure, Except.pure] using h
      subst e
      exact same_pids_refl s
  · rw [if_neg h1] at h
    have e : s = t := by simpa [pure, Except.pure] using h
    subst e
    exact same_pids_refl s

theorem wakeup_loop_same_pids (c : Fin K.NCPU) (chan : Option (chan_t K)) :
    ∀ (l : List (Fin K.NPROC)) (s t : kernel K), wakeup_loop c chan l s = .ok t → same_pids s t
  | [], s, t, h => by
    injection h with h
    subst h
    exact same_pids_refl s
  | p :: rest, s, t, h => by
    unfold wakeup_loop at h
    split at h
    · cases h
    · rename_i s1 hs1
      exact same_pids_trans (wakeup_body_same_pids hs1) (wakeup_loop_same_pids c chan rest s1 t h)

theorem reparent_loop_same_pids (c : Fin K.NCPU) (p : Fin K.NPROC) :
    ∀ (l : List (Fin K.NPROC)) (s t : kernel K), reparent_loop c p l s = .ok t → same_pids s t
  | [], s, t, h => by
    injection h with h
    subst h
    exact same_pids_refl s
  | pp :: rest, s, t, h => by
    unfold reparent_loop at h
    by_cases hpp : (s.procs pp).parent = some p
    · rw [if_pos hpp] at h
      dsimp only at h
      split at h
      · cases h
      · rename_i s2 hs2
        unfold wakeup at hs2
        exact same_pids_trans
          (same_pids_set_proc s pp { s.procs pp with parent := s.initproc } rfl)
          (same_pids_trans (wakeup_loop_same_pids c _ _ _ _ hs2)
            (reparent_loop_same_pids c p rest s2 t h))
    · rw [if_neg hpp] at h
      exact reparent_loop_same_pids c p rest s t h

/-! ## `exit`, then `wait` -/

theorem sched_procs {c : Fin K.NCPU} {s t : kernel K} (h : sched c s = .ok t) :
    t.procs = s.procs := by
  unfold sched at h
  cases hm : myproc c s with
  | none => simp [hm] at h
  | some p =>
    simp only [hm] at h
    split at h
    · cases h
    · injection h with h
      subst h
      rfl

/-- What `exit(status)` leaves in the slot of the caller `k`: the status in `xstate`,
the state `ZOMBIE`, the pid it had; and `k` is not the init process. -/
theorem exit_child {c : Fin K.NCPU} {status : Int} {s s1 : kernel K} {k : Fin K.NPROC}
    (hk : myproc c s = some k) (hexit : exit c status s = .ok s1) :
    some k ≠ s.initproc ∧ (s1.procs k).xstate = status ∧ (s1.procs k).state = .ZOMBIE
      ∧ (s1.procs k).pid = (s.procs k).pid := by
  unfold exit at hexit
  simp only [hk] at hexit
  by_cases hinit : some k = s.initproc
  · rw [if_pos hinit] at hexit
    cases hexit
  · rw [if_neg hinit] at hexit
    obtain ⟨u, -, hexit⟩ := bind_eq_ok hexit
    obtain ⟨s3, hs3, hexit⟩ := bind_eq_ok hexit
    obtain ⟨s4, hs4, hexit⟩ := bind_eq_ok hexit
    obtain ⟨⟨r7, s7⟩, hs7, hexit⟩ := bind_eq_ok hexit
    obtain ⟨s8, hs8, hexit⟩ := bind_eq_ok hexit
    have e8 : s1.procs = s7.procs :=
      (sched_procs hexit).trans (counter_procs (Or.inr (Or.inr hs8)))
    have e7 := add_proc_to_list_next_only hs7 k
    unfold reparent at hs3
    unfold wakeup at hs4
    have p3 := reparent_loop_same_pids c k _ _ _ hs3 k
    have p4 := wakeup_loop_same_pids c _ _ _ _ hs4 k
    refine ⟨hinit, ?_, ?_, ?_⟩
    · rw [e8, e7]; simp
    · rw [e8, e7]; simp
    · rw [e8, e7]
      simp only [set_proc_procs, Function.update_same]
      rw [p4, p3]
      simp

theorem remove_head_next_only {list_type : procstate} {cpu_num : Int} {s t : kernel K}
    {hd : Option (Fin K.NPROC)} (h : remove_head list_type cpu_num s = .ok (hd, t)) :
    next_only s t := by
  unfold remove_head at h
  obtain ⟨s1, hs1, h⟩ := bind_eq_ok h
  obtain ⟨curr, -, h⟩ := bind_eq_ok h
  have h1 := acquire_list_procs hs1
  cases curr with
  | none =>
    obtain ⟨s2, hs2, h⟩ := bind_eq_ok h
    have h2 := release_list_procs hs2
    simp [pure, Except.pure] at h
    rw [← h.2]
    exact next_only_of_procs (h2.trans h1)
  | some c0 =>
    obtain ⟨s3, hs3, h⟩ := bind_eq_ok h
    obtain ⟨s6, hs6, h⟩ := bind_eq_ok h
    have h3 := set_head_procs hs3
    have h6 := release_list_procs hs6
    simp [pure, Except.pure] at h
    rw [← h.2]
    intro i
    have := next_only_set_next s3 c0 none i
    rw [h6]
    simp only [release] at this ⊢
    rw [this, h3]
    simp only [acquire]
    rw [h1]

/-- A round of the scheduler loop leaves a `ZOMBIE` slot as it is, but for its link. -/
theorem scheduler_keeps_zombie {c : Fin K.NCPU} {s t : kernel K} {k : Fin K.NPROC}
    (h : scheduler c s = .ok t) (hk : (s.procs k).state = .ZOMBIE) :
    t.procs k = { s.procs k with next := (t.procs k).next } := by
  unfold scheduler at h
  obtain ⟨⟨curr, s1⟩, hrh, h⟩ := bind_eq_ok h
  have e1 := remove_head_next_only hrh
  cases curr with
  | none =>
    simp [pure, Except.pure] at h
    subst h
    exact e1 k
  | some q =>
    simp only [] at h
    split at h
    · cases h
    · rename_i hq
      simp [pure, Except.pure] at h
      subst h
      have hqk : k ≠ q := by
        intro e
        subst e
        rw [e1 k] at hq
        simp [hk] at hq
      simp only [set_cpus, set_proc, Function.update_noteq hqk]
      exact e1 k

theorem dispatched_keeps_zombie {s t : kernel K} {k : Fin K.NPROC} (h : dispatched s t)
    (hk : (s.procs k).state = .ZOMBIE) :
    t.procs k = { s.procs k with next := (t.procs k).next } := by
  induction h with
  | refl s => rfl
  | round c _ hs ih =>
    have ih := ih hk
    have hz : (_ : kernel K).procs k = _ := scheduler_keeps_zombie hs (by rw [ih]; exact hk)
    rw [hz, ih]

/-- C10, as the code has it.  If a child `k` runs `exit(status)` up to its entry into
the scheduler, with no list-head lock and no link lock held on entry, and its parent,
once running (at once on another CPU, or after any number of rounds of the scheduler
loop), calls `wait` with a non-zero address for which the copy-out succeeds, again
with no such lock held, and `k` is then the first `ZOMBIE` child of the parent in table
order, `wait` returns the pid of `k` and the integer copied out to the parent is
`status`. -/
theorem exit_then_wait (vm : vm_calls) (c c2 : Fin K.NCPU) (status : Int) (addr : Nat)
    (s s1 s2 : kernel K) (p k : Fin K.NPROC) (zs us : List (Fin K.NPROC))
    (_hfree : s.held = [])
    (hk : myproc c s = some k) (hexit : exit c status s = .ok s1)
    (hdisp : dispatched s1 s2) (_hfree2 : s2.held = [])
    (hp : myproc c2 s2 = some p)
    (hfirst : (List.finRange K.NPROC).find?
      (fun i => decide ((s2.procs i).parent = some p ∧ (s2.procs i).state = .ZOMBIE)) = some k)
    (haddr : addr ≠ 0) (hcopy : ¬ vm.copyout < 0)
    (hz : has_nodes s2 .ZOMBIE 0 zs) (hkz : k ∈ zs)
    (hu : has_nodes s2 .UNUSED 0 us) (hku : k ∉ us) (hzu : ∀ z ∈ zs, z ∉ us) :
    some k ≠ s.initproc
    ∧ ∃ t, wait vm c2 addr s2 = .ok (.returned (s.procs k).pid, t)
      ∧ t.copied_out
          = { pagetable := (s2.procs p).pagetable, addr := addr, value := status }
            :: s2.copied_out := by
  obtain ⟨hinit, hx1, hst1, hpid1⟩ := exit_child hk hexit
  have hkeep := dispatched_keeps_zombie hdisp hst1
  have hx : (s2.procs k).xstate = status := by rw [hkeep]; exact hx1
  have hpid : (s2.procs k).pid = (s.procs k).pid := by rw [hkeep]; exact hpid1
  refine ⟨hinit, ?_⟩
  have hz1 : has_nodes (copyout_xstate s2 p k addr) .ZOMBIE 0 zs :=
    has_nodes_copyout_xstate p k addr hz
  have hu1 : has_nodes (copyout_xstate s2 p k addr) .UNUSED 0 us :=
    has_nodes_copyout_xstate p k addr hu
  obtain ⟨t, ht, hpost⟩ := freeproc_ok (copyout_xstate s2 p k addr) k zs us hz1 hu1 hku hzu
    (fun h => absurd hkz h)
  refine ⟨t, ?_, ?_⟩
  · unfold wait
    simp only [hp, bind, Except.bind, wait_scan_finds vm (some p) addr k s2 _ 0 hfirst]
    unfold wait_found
    rw [if_pos haddr]
    simp only []
    rw [if_neg hcopy, ht, hpid]
    rfl
  · rw [hpost.copied_out]
    simp [copyout_xstate, hx]

theorem exit_then_wait_witness :
    ex_child_running.held = []
    ∧ myproc 0 ex_child_running = some 1
    ∧ (ex_child_running.procs 1).pid = 2
    ∧ (ex_child_running.procs 1).parent = some 0
    ∧ (ex_child_running.procs 0).state = .SLEEPING
    ∧ exit 0 42 ex_child_running = .ok ex_child_exited
    ∧ myproc 0 ex_child_exited = none
    ∧ scheduler 0 ex_child_exited = .ok ex_parent_dispatched
    ∧ ex_parent_dispatched.held = []
    ∧ myproc 0 ex_parent_dispatched = some 0
    ∧ has_nodes ex_parent_dispatched .ZOMBIE 0 [1]
    ∧ ∃ t, wait vm_ok 0 64 ex_parent_dispatched = .ok (.returned 2, t)
      ∧ t.copied_out = [{ pagetable := some 7, addr := 64, value := 42 }] := by
  have hexit : exit 0 42 ex_child_running = .ok ex_child_exited := by with_unfolding_all rfl
  have hsched : scheduler 0 ex_child_exited = .ok ex_parent_dispatched := by
    with_unfolding_all rfl
  refine ⟨by decide, by decide, by decide, by decide, by decide, hexit, by decide, hsched,
    by decide, by decide, by decide, ?_⟩
  exact (exit_then_wait vm_ok 0 0 42 64 ex_child_running ex_child_exited ex_parent_dispatched
    0 1 [1] [2] (by decide) (by decide) hexit
    (dispatched.round 0 (dispatched.refl _) hsched) (by decide) (by decide) (by decide)
    (by decide) (by decide) (by decide) (by decide) (by decide) (by decide) (by decide)).2

/-- C10, counterexample.  The parent in slot 0 has two children: the one in slot 1
(pid 2) is already a `ZOMBIE` with status 7, the one in slot 2 (pid 3) runs `exit(42)`.
The parent's `wait` then returns 2, not 3, and copies out 7, not 42: the scan takes
the first `ZOMBIE` child in table order. -/
theorem older_zombie_sibling_is_reaped_first :
    myproc 1 ex_sibling_zombie = some 2
    ∧ (ex_sibling_zombie.procs 2).parent = some 0 ∧ (ex_sibling_zombie.procs 2).pid = 3
    ∧ myproc 0 ex_sibling_zombie = some 0
    ∧ exit 1 42 ex_sibling_zombie = .ok (ex_run (exit 1 42 ex_sibling_zombie))
    ∧ ((ex_run (exit 1 42 ex_sibling_zombie)).procs 2).state = .ZOMBIE
    ∧ ((ex_run (exit 1 42 ex_sibling_zombie)).procs 2).xstate = 42
    ∧ ∃ t, wait vm_ok 0 64 (ex_run (exit 1 42 ex_sibling_zombie)) = .ok (.returned 2, t)
      ∧ t.copied_out = [{ pagetable := some 7, addr := 64, value := 7 }] := by
  refine ⟨by decide, by decide, by decide, by decide, rfl, by decide, by decide, ?_⟩
  have hz : has_nodes (ex_run (exit 1 42 ex_sibling_zombie)) .ZOMBIE 0 [1, 2] := by decide
  have hu : has_nodes (ex_run (exit 1 42 ex_sibling_zombie)) .UNUSED 0 [] := by decide
  have hz1 := has_nodes_copyout_xstate (0 : Fin K0.NPROC) (1 : Fin K0.NPROC) 64 hz
  have hu1 := has_nodes_copyout_xstate (0 : Fin K0.NPROC) (1 : Fin K0.NPROC) 64 hu
  obtain ⟨t, ht, hpost⟩ := freeproc_ok _ (1 : Fin K0.NPROC) [1, 2] [] hz1 hu1 (by simp)
    (by simp) (fun h => absurd (by decide) h)
  refine ⟨t, ?_, ?_⟩
  · unfold wait
    have hm : myproc 0 (ex_run (exit 1 42 ex_sibling_zombie)) = some 0 := by decide
    have hfirst : (List.finRange K0.NPROC).find? (fun i =>
        decide (((ex_run (exit 1 42 ex_sibling_zombie)).procs i).parent = some 0
          ∧ ((ex_run (exit 1 42 ex_sibling_zombie)).procs i).state = .ZOMBIE)) = some 1 := by
      decide
    simp only [hm, bind, Except.bind, wait_scan_finds vm_ok (some 0) 64 1 _ _ 0 hfirst]
    unfold wait_found
    rw [if_pos (by decide)]
    simp only []
    rw [if_neg (by decide), ht]
    rfl
  · rw [hpost.copied_out]
    rfl




/-! ## `find_least_used_cpu` -/

theorem cpus_index_nat {j : Nat} (h : j < K.NCPU) :
    cpus_index K (j : Int) = some ⟨j, h⟩ := by
  unfold cpus_index
  rw [dif_pos ⟨by omega, by omega⟩]
  simp

/-- The loop of `find_least_used_cpu` over the indices `a, a + 1, ..., a + n - 1`, entered
with the lowest-indexed minimum `l` of the counters below `a`: it ends with the
lowest-indexed minimum of the counters below `a + n`. -/
theorem find_least_used_cpu_loop_spec (s : kernel K) :
    ∀ (n a : Nat) (l : Fin K.NCPU), (l : Nat) < a → a + n ≤ K.NCPU →
      (∀ j : Fin K.NCPU, (j : Nat) < a →
        (s.cpus l).admitted_process_count ≤ (s.cpus j).admitted_process_count) →
      (∀ j : Fin K.NCPU, (j : Nat) < l →
        (s.cpus l).admitted_process_count < (s.cpus j).admitted_process_count) →
      ∃ r : Fin K.NCPU,
        find_least_used_cpu_loop s (List.range' a n) ((l : Nat) : Int) = .ok ((r : Nat) : Int)
        ∧ (r : Nat) < a + n
        ∧ (∀ j : Fin K.NCPU, (j : Nat) < a + n →
            (s.cpus r).admitted_process_count ≤ (s.cpus j).admitted_process_count)
        ∧ (∀ j : Fin K.NCPU, (j : Nat) < r →
            (s.cpus r).admitted_process_count < (s.cpus j).admitted_process_count)
  | 0, a, l, hl, _, hmin, hlow => ⟨l, rfl, by omega, fun j hj => hmin j (by omega), hlow⟩
  | n + 1, a, l, hl, hn, hmin, hlow => by
    have ha : a < K.NCPU := by omega
    have hstep : List.range' a (n + 1) = a :: List.range' (a + 1) n := rfl
    rw [hstep]
    unfold find_least_used_cpu_loop
    rw [cpus_index_nat ha, cpus_index_nat l.isLt]
    simp only []
    by_cases hlt : (s.cpus ⟨a, ha⟩).admitted_process_count < (s.cpus l).admitted_process_count
    · rw [if_pos hlt]
      obtain ⟨r, hr, hra, hrmin, hrlow⟩ :=
        find_least_used_cpu_loop_spec s n (a + 1) ⟨a, ha⟩ (by simp) (by omega)
          (fun j hj => by
            by_cases hja : (j : Nat) = a
            · have : j = ⟨a, ha⟩ := Fin.ext hja
              rw [this]
            · exact le_of_lt (lt_of_lt_of_le hlt (hmin j (by omega))))
          (fun j hj => lt_of_lt_of_le hlt (hmin j hj))
      exact ⟨r, hr, by omega, fun j hj => hrmin j (by omega), hrlow⟩
    · rw [if_neg hlt]
      obtain ⟨r, hr, hra, hrmin, hrlow⟩ :=
        find_least_used_cpu_loop_spec s n (a + 1) l (by omega) (by omega)
          (fun j hj => by
            by_cases hja : (j : Nat) = a
            · have : j = ⟨a, ha⟩ := Fin.ext hja
              rw [this]
              exact not_lt.mp hlt
            · exact hmin j (by omega))
          hlow
      exact ⟨r, hr, by omega, fun j hj => hrmin j (by omega), hrlow⟩

/-- C19. With `CPUS` CPUs in use (`0 < CPUS <= NCPU`, so that `cpus[0 .. CPUS)` lies
inside the array), `find_least_used_cpu` returns an index `i` with `0 <= i < CPUS` whose
`admitted_process_count` is at most that of every CPU below `CPUS` and strictly below
that of every CPU with a lower index (ties go to the lowest index).  The function reads
`cpus` and has no store: its embedding returns the index only, so no state changes. -/
theorem find_least_used_cpu_min (s : kernel K) (h0 : 0 < K.CPUS) (h1 : K.CPUS ≤ K.NCPU) :
    ∃ i : Fin K.NCPU, find_least_used_cpu s = .ok ((i : Nat) : Int)
      ∧ (i : Nat) < K.CPUS
      ∧ (∀ j : Fin K.NCPU, (j : Nat) < K.CPUS →
          (s.cpus i).admitted_process_count ≤ (s.cpus j).admitted_process_count)
      ∧ (∀ j : Fin K.NCPU, (j : Nat) < i →
          (s.cpus i).admitted_process_count < (s.cpus j).admitted_process_count) := by
  have hz : 0 < K.NCPU := by omega
  obtain ⟨r, hr, hra, hrmin, hrlow⟩ :=
    find_least_used_cpu_loop_spec s (K.CPUS - 1) 1 ⟨0, hz⟩ (by simp) (by omega)
      (fun j hj => by
        have : j = ⟨0, hz⟩ := Fin.ext (by simpa using hj)
        rw [this])
      (fun j hj => absurd hj (by simp))
  refine ⟨r, hr, by omega, fun j hj => hrmin j (by omega), hrlow⟩

theorem find_least_used_cpu_min_witness :
    0 < K0.CPUS ∧ K0.CPUS ≤ K0.NCPU ∧
    ∃ i : Fin K0.NCPU, find_least_used_cpu ex_zombie = .ok ((i : Nat) : Int)
      ∧ (i : Nat) < K0.CPUS
      ∧ (∀ j : Fin K0.NCPU, (j : Nat) < K0.CPUS →
          (ex_zombie.cpus i).admitted_process_count ≤ (ex_zombie.cpus j).admitted_process_count)
      ∧ (∀ j : Fin K0.NCPU, (j : Nat) < i →
          (ex_zombie.cpus i).admitted_process_count < (ex_zombie.cpus j).admitted_process_count) :=
  ⟨by decide, by decide, find_least_used_cpu_min ex_zombie (by decide) (by decide)⟩


/-! ## Locks held across the list primitives -/

/-- C20, what the code does.  On a well-formed list with node sequence `qs`,
`add_proc_to_list` and `remove_head` return with the locks held on entry, and so does
`remove_proc_from_list(p, ..)` when the list is empty or `p` is on it (at the head or
later).  When `p` is not on a non-empty list, `remove_proc_from_list` returns 0 with one
more lock held than on entry: the `link_lock` of the last node, which the walk acquired
and nothing releases. -/
theorem remove_proc_from_list_keeps_link_lock (s : kernel K) (p : Fin K.NPROC)
    (list_type : procstate) (qs : List (Fin K.NPROC))
    (hok : list_ok K list_type (s.procs p).cpu_num)
    (hn : has_nodes s list_type (s.procs p).cpu_num qs) :
    (∃ t, add_proc_to_list p list_type (s.procs p).cpu_num s = .ok (1, t) ∧ t.held = s.held)
    ∧ (∃ h t, remove_head list_type (s.procs p).cpu_num s = .ok (h, t) ∧ t.held = s.held)
    ∧ (qs = [] ∨ p ∈ qs →
        ∃ r t, remove_proc_from_list p list_type s = .ok (r, t) ∧ t.held = s.held)
    ∧ (∀ last, p ∉ qs → qs.getLast? = some last →
        ∃ t, remove_proc_from_list p list_type s = .ok (0, t)
          ∧ t.held = lock_id.link_lock last :: s.held ∧ t.held ≠ s.held) := by
  refine ⟨⟨_, add_proc_to_list_eq hok s p qs hn, add_result_held _ _ _ _ _⟩, ?_, ?_, ?_⟩
  · cases qs with
    | nil => exact ⟨none, s, remove_head_nil hok s hn, rfl⟩
    | cons q rest =>
      exact ⟨some q, _, remove_head_cons hok s q rest hn, remove_head_result_held _ _ _ _⟩
  · intro h
    by_cases hp : p ∈ qs
    · exact ⟨1, _, remove_proc_from_list_hit s p qs hok hn hp, remove_result_held _ _ _ _⟩
    · have hnil : qs = [] := h.resolve_right hp
      subst hnil
      exact ⟨0, _, remove_proc_from_list_miss s p [] hok hn hp, rfl⟩
  · intro last hp hlast
    refine ⟨_, remove_proc_from_list_miss s p qs hok hn hp, ?_, ?_⟩
    · simp [remove_miss_result, hlast, acquire]
    · simp only [remove_miss_result, hlast, acquire]
      intro h
      have := congrArg List.length h
      simp at this

theorem remove_proc_from_list_keeps_link_lock_witness :
    list_ok K0 .ZOMBIE (ex_zombie.procs 0).cpu_num
    ∧ has_nodes ex_zombie .ZOMBIE (ex_zombie.procs 0).cpu_num [1]
    ∧ (0 : Fin K0.NPROC) ∉ [(1 : Fin K0.NPROC)]
    ∧ ex_zombie.held = []
    ∧ ∃ t, remove_proc_from_list (0 : Fin K0.NPROC) .ZOMBIE ex_zombie = .ok (0, t)
        ∧ t.held = lock_id.link_lock 1 :: ex_zombie.held ∧ t.held ≠ ex_zombie.held :=
  ⟨by decide, by decide, by decide, rfl,
    (remove_proc_from_list_keeps_link_lock ex_zombie 0 .ZOMBIE [1] (by decide)
      (by decide)).2.2.2 1 (by decide) rfl⟩


/-! ## The counters after `fork` -/

/-- The CPU records after a successful `fork` whose target CPU is `target`: the
target's `admitted_process_count` is two larger (`increase_admitted_process_count` and
the statement `admitted_process_count++`), its `proc_list_size` one larger, and the
counters of every other CPU are as before. -/
theorem fork_ok_counters (vm : vm_calls) (c : Fin K.NCPU) (s : kernel K) (p q : Fin K.NPROC)
    (rest rs : List (Fin K.NPROC)) (tf0 tf : trapframe) (pt : Nat) (target : Int)
    (hp : myproc c s = some p) (hu : has_nodes s .UNUSED 0 (q :: rest))
    (hk : vm.kalloc = some tf0) (hpt : vm.proc_pagetable = some pt)
    (hcopy : ¬ vm.uvmcopy < 0) (hpq : p ≠ q) (htf : (s.procs p).trapframe = some tf)
    (htarget : pick_cpu s (s.procs p).cpu_num = .ok target)
    (hok : list_ok K .RUNNABLE target) (hr : has_nodes s .RUNNABLE target rs)
    (hqr : q ∉ rs) :
    ∃ t ci, fork vm c s = .ok (s.nextpid, t)
      ∧ cpus_index K target = some ci
      ∧ (t.cpus ci).admitted_process_count = (s.cpus ci).admitted_process_count + 2
      ∧ (t.cpus ci).proc_list_size = (s.cpus ci).proc_list_size + 1
      ∧ ∀ cj, cj ≠ ci →
          (t.cpus cj).admitted_process_count = (s.cpus cj).admitted_process_count
          ∧ (t.cpus cj).proc_list_size = (s.cpus cj).proc_list_size := by
  obtain ⟨ci, hci⟩ := cpus_index_of_ok hok
  obtain ⟨hself, hother, hcpus, hzl, hsl, hul, hinit, hnp, hisinit, hco⟩ :=
    allocated_facts s q (some tf0) (some pt)
  have halloc := allocproc_succeeds vm s q rest tf0 pt hu hk hpt
  generalize store_pagetable (allocproc_stores (remove_head_result s .UNUSED 0 q) q (some tf0))
    q (some pt) = a at hself hother hcpus hzl hsl hul hinit hnp hisinit hco halloc
  have hap : a.procs p = s.procs p := hother p hpq
  have hra : has_nodes a .RUNNABLE target rs := by
    refine has_nodes_congr (s := s) ?_ (fun x hx => ?_) hr
    · unfold get_head; simp [hcpus]
    · have hxq : x ≠ q := fun e => hqr (e ▸ hx)
      rw [hother x hxq]
  have hrb : has_nodes (fork_child a p q tf) .RUNNABLE target rs :=
    has_nodes_congr (s := a) (get_head_congr rfl rfl rfl rfl _ _)
      (fun x _ => (fork_child_next a p q tf x).symm) hra
  have hpick : pick_cpu (fork_child a p q tf) ((fork_child a p q tf).procs p).cpu_num
      = .ok target := by
    rw [fork_child_cpu_num, hap, ← htarget]
    exact pick_cpu_congr (show (fork_child a p q tf).cpus = s.cpus from hcpus) _
  have henq := fork_enqueue_eq q target (fork_child a p q tf) ci rs hok hci hrb
  have hpidq : ((fork_child a p q tf).procs q).pid = s.nextpid := by
    rw [fork_child_pid, hself]
  have hs9c : (set_proc (fork_child a p q tf) q
      { (fork_child a p q tf).procs q with cpu_num := target }).cpus = s.cpus := hcpus
  generalize set_proc (fork_child a p q tf) q
      { (fork_child a p q tf).procs q with cpu_num := target } = s9 at henq hs9c
  have hadd := (list_op_post_add_result s9 q .RUNNABLE target rs).cpus
  refine ⟨fork_counted (add_result s9 q .RUNNABLE target rs) ci, ci, ?_, hci, ?_, ?_, ?_⟩
  · unfold fork
    rw [halloc]
    simp only [hp]
    unfold fork_found
    rw [if_neg hcopy]
    simp only [hself, hap, htf, hpick, henq, hpidq]
  · simp only [fork_counted, set_cpus_cpus, Function.update_same]
    rw [hadd ci, hs9c]
    simp only []
    omega
  · simp only [fork_counted, set_cpus_cpus, Function.update_same]
    rw [hadd ci, hs9c]
  · intro cj hj
    simp only [fork_counted, set_cpus_cpus, Function.update_noteq hj]
    rw [hadd cj, hs9c]
    exact ⟨rfl, rfl⟩

/-- C17, what the code does.  A successful `fork` (a free slot at the head of `UNUSED`,
the trapframe page and the page table granted, the memory copy done) with target CPU
`target` leaves the target's `proc_list_size` one larger, the counters of every other
CPU unchanged, and the target's `admitted_process_count` larger by 2, not by 1. -/
theorem fork_admits_twice (vm : vm_calls) (c : Fin K.NCPU) (s : kernel K) (p q : Fin K.NPROC)
    (rest rs : List (Fin K.NPROC)) (tf0 tf : trapframe) (pt : Nat) (target : Int)
    (hp : myproc c s = some p) (hu : has_nodes s .UNUSED 0 (q :: rest))
    (hk : vm.kalloc = some tf0) (hpt : vm.proc_pagetable = some pt)
    (hcopy : ¬ vm.uvmcopy < 0) (hpq : p ≠ q) (htf : (s.procs p).trapframe = some tf)
    (htarget : pick_cpu s (s.procs p).cpu_num = .ok target)
    (hok : list_ok K .RUNNABLE target) (hr : has_nodes s .RUNNABLE target rs)
    (hqr : q ∉ rs) :
    ∃ t ci, fork vm c s = .ok (s.nextpid, t)
      ∧ cpus_index K target = some ci
      ∧ (t.cpus ci).admitted_process_count = (s.cpus ci).admitted_process_count + 2
      ∧ (t.cpus ci).admitted_process_count ≠ (s.cpus ci).admitted_process_count + 1
      ∧ (t.cpus ci).proc_list_size = (s.cpus ci).proc_list_size + 1
      ∧ ∀ cj, cj ≠ ci →
          (t.cpus cj).admitted_process_count = (s.cpus cj).admitted_process_count
          ∧ (t.cpus cj).proc_list_size = (s.cpus cj).proc_list_size := by
  obtain ⟨t, ci, h1, h2, h3, h4, h5⟩ :=
    fork_ok_counters vm c s p q rest rs tf0 tf pt target hp hu hk hpt hcopy hpq htf htarget
      hok hr hqr
  exact ⟨t, ci, h1, h2, h3, by omega, h4, h5⟩

theorem fork_admits_twice_witness :
    myproc 0 ex_init = some 0
    ∧ has_nodes ex_init .UNUSED 0 [1, 2]
    ∧ has_nodes ex_init .RUNNABLE 0 []
    ∧ (ex_init.cpus 0).admitted_process_count = 0
    ∧ ∃ t ci, fork vm_ok 0 ex_init = .ok (ex_init.nextpid, t)
      ∧ cpus_index K0 0 = some ci
      ∧ (t.cpus ci).admitted_process_count = (ex_init.cpus ci).admitted_process_count + 2
      ∧ (t.cpus ci).admitted_process_count ≠ (ex_init.cpus ci).admitted_process_count + 1
      ∧ (t.cpus ci).proc_list_size = (ex_init.cpus ci).proc_list_size + 1
      ∧ ∀ cj, cj ≠ ci →
          (t.cpus cj).admitted_process_count = (ex_init.cpus cj).admitted_process_count
          ∧ (t.cpus cj).proc_list_size = (ex_init.cpus cj).proc_list_size :=
  ⟨by decide, by decide, by decide, by decide,
    fork_admits_twice vm_ok 0 ex_init 0 1 [2] [] { epc := 0, sp := 0, a0 := 5, regs := [] }
      { epc := 0, sp := 4096, a0 := 5, regs := [] } 7 0
      (by decide) (by decide) rfl rfl (by decide) (by decide) (by decide) rfl
      (by decide) (by decide) (by simp)⟩

/-- C16, the failing run.  On two CPUs with balancing on, from the state after boot
(`procinit`, `userinit`, first dispatch on CPU 0), in which every
`admitted_process_count` is zero, the first `fork` of the running process succeeds and
leaves `admitted_process_count` at 2 on CPU 0 and at 0 on CPU 1: the largest and the
smallest counter differ by 2. -/
theorem first_fork_unbalances_admitted :
    K1.BLNCFLG = true
    ∧ myproc 0 ex_init_balanced = some 0
    ∧ (∀ cj, (ex_init_balanced.cpus cj).admitted_process_count = 0)
    ∧ ∃ t, fork vm_ok 0 ex_init_balanced = .ok (2, t)
      ∧ (t.cpus 0).admitted_process_count = 2
      ∧ (t.cpus 1).admitted_process_count = 0 := by
  obtain ⟨t, ci, h1, h2, h3, -, h5⟩ :=
    fork_ok_counters vm_ok 0 ex_init_balanced 0 1 [2] []
      { epc := 0, sp := 0, a0 := 5, regs := [] }
      { epc := 0, sp := 4096, a0 := 5, regs := [] } 7 0
      (by decide) (by decide) rfl rfl (by decide) (by decide) (by decide) rfl
      (by decide) (by decide) (by simp)
  have hci : ci = 0 := by
    have : cpus_index K1 0 = some 0 := by decide
    rw [this] at h2
    exact (Option.some.inj h2).symm
  subst hci
  refine ⟨rfl, by decide, by decide, t, h1, ?_, ?_⟩
  · rw [h3]; decide
  · rw [(h5 1 (by decide)).1]; decide


/-! ## `wait` without a zombie child, and `sleep` -/

/-- The scan of `wait` when no child of the caller is a `ZOMBIE`: it returns nothing,
changes nothing, and `havekids` is 1 exactly when a slot visited has the caller as its
parent. -/
theorem wait_scan_none (vm : vm_calls) (p : Option (Fin K.NPROC)) (addr : Nat) (s : kernel K) :
    ∀ (l : List (Fin K.NPROC)) (havekids : Int),
      (∀ np ∈ l, (s.procs np).parent = p → (s.procs np).state ≠ .ZOMBIE) →
      wait_scan vm p addr l havekids s
        = .ok (none, if ∃ np ∈ l, (s.procs np).parent = p then 1 else havekids, s)
  | [], havekids, _ => by simp [wait_scan]
  | np :: rest, havekids, h => by
    unfold wait_scan
    have hrest := fun hk => wait_scan_none vm p addr s rest hk
      (fun x hx => h x (List.mem_cons_of_mem _ hx))
    by_cases h1 : (s.procs np).parent = p
    · rw [if_pos h1, if_neg (h np (List.mem_cons_self _ _) h1), hrest 1]
      have : ∃ x ∈ np :: rest, (s.procs x).parent = p := ⟨np, List.mem_cons_self _ _, h1⟩
      rw [if_pos this]
      split <;> rfl
    · rw [if_neg h1, hrest havekids]
      by_cases h2 : ∃ x ∈ rest, (s.procs x).parent = p
      · have : ∃ x ∈ np :: rest, (s.procs x).parent = p := by
          obtain ⟨x, hx, hxp⟩ := h2
          exact ⟨x, List.mem_cons_of_mem _ hx, hxp⟩
        rw [if_pos h2, if_pos this]
      · have : ¬ ∃ x ∈ np :: rest, (s.procs x).parent = p := by
          rintro ⟨x, hx, hxp⟩
          rcases List.mem_cons.mp hx with e | hx
          · exact h1 (e ▸ hxp)
          · exact h2 ⟨x, hx, hxp⟩
        rw [if_neg h2, if_neg this]

/-- The state `sleep(chan, lk)` leaves, for the caller `pp` bound to the CPU `ci`, when
the `SLEEPING` list has the node sequence `qs`. -/
theorem sleep_eq (c : Fin K.NCPU) (chan : Option (chan_t K)) (s : kernel K)
    (pp : Fin K.NPROC) (ci : Fin K.NCPU) (qs : List (Fin K.NPROC))
    (hp : myproc c s = some pp) (hci : cpus_index K (s.procs pp).cpu_num = some ci)
    (hsl : has_nodes s .SLEEPING 0 qs) :
    ∃ t, sleep c chan s = .ok t
      ∧ (∀ i, t.procs i = { (if i = pp then { s.procs pp with chan := chan, state := .SLEEPING }
                              else s.procs i) with next := (t.procs i).next })
      ∧ (pp ∉ qs → (s.procs pp).next = none → has_nodes t .SLEEPING 0 (qs ++ [pp]))
      ∧ myproc c t = none
      ∧ t.zombie_list = s.zombie_list ∧ t.unused_list = s.unused_list
      ∧ (∀ i, (t.cpus i).runnable_list_head = (s.cpus i).runnable_list_head)
      ∧ t.held = s.held := by
  have hs2 : set_proc (set_proc s pp { s.procs pp with chan := chan }) pp
      { (set_proc s pp { s.procs pp with chan := chan }).procs pp with state := .SLEEPING }
      = set_proc s pp { s.procs pp with chan := chan, state := .SLEEPING } := by
    cases s
    simp [set_proc]
  have hcpu : ((set_proc s pp { s.procs pp with chan := chan, state := .SLEEPING }).procs pp).cpu_num
      = (s.procs pp).cpu_num := by simp
  have hsl3 : has_nodes (set_cpus (set_proc s pp { s.procs pp with chan := chan, state := .SLEEPING })
      ci { (s.cpus ci) with proc_list_size := (s.cpus ci).proc_list_size - 1 }) .SLEEPING 0 qs :=
    has_nodes_set_cpus ci _ rfl (has_nodes_set_proc pp _ (fun _ => rfl) hsl)
  have hadd := add_proc_to_list_eq (by simp [list_ok]) _ pp qs hsl3
  generalize hs3 : set_cpus (set_proc s pp { s.procs pp with chan := chan, state := .SLEEPING })
      ci { (s.cpus ci) with proc_list_size := (s.cpus ci).proc_list_size - 1 } = s3 at hadd hsl3
  have hpost := list_op_post_add_result s3 pp .SLEEPING 0 qs
  have h3p : s3.procs = Function.update s.procs pp
      { s.procs pp with chan := chan, state := .SLEEPING } := by
    rw [← hs3]; rfl
  have h3c : s3.cpus = Function.update s.cpus ci
      { (s.cpus ci) with proc_list_size := (s.cpus ci).proc_list_size - 1 } := by
    rw [← hs3]; rfl
  have h4c : (add_result s3 pp .SLEEPING 0 qs).cpus = s3.cpus := hpost.cpus_eq (by decide)
  have hmy : myproc c (add_result s3 pp .SLEEPING 0 qs) = some pp := by
    unfold myproc at hp ⊢
    rw [h4c, h3c]
    by_cases hcc : c = ci
    · subst hcc; simpa using hp
    · rw [Function.update_noteq hcc]; exact hp
  have hst : ((add_result s3 pp .SLEEPING 0 qs).procs pp).state = .SLEEPING := by
    rw [hpost.fields pp, h3p]; simp
  have hheld : (set_cpus (add_result s3 pp .SLEEPING 0 qs) c
      { (add_result s3 pp .SLEEPING 0 qs).cpus c with proc := none }).held = s.held := by
    rw [set_cpus_held, add_result_held, ← hs3]
    rfl
  refine ⟨set_cpus (add_result s3 pp .SLEEPING 0 qs) c
    { (add_result s3 pp .SLEEPING 0 qs).cpus c with proc := none }, ?_, ?_, ?_, ?_, ?_, ?_, ?_,
    hheld⟩
  · unfold sleep
    simp only [hp, hs2, hcpu, decrease_runnable_list_size_of, hci, bind, Except.bind]
    simp only [set_proc_cpus]
    rw [hs3, hadd]
    simp only []
    unfold sched
    simp only [hmy, hst]
    rfl
  · intro i
    simp only [set_cpus_procs]
    rw [hpost.fields i, h3p]
    by_cases hi : i = pp
    · subst hi; simp
    · simp [hi]
  · intro hpq hnx
    refine has_nodes_set_cpus c _ rfl (has_nodes_add_result (by simp [list_ok]) s3 pp qs hsl3 hpq ?_)
    rw [h3p]; simpa using hnx
  · simp [myproc]
  · have := hpost.heads .ZOMBIE 0 (by simp [same_list])
    simp only [get_head] at this
    have h2 : s3.zombie_list = s.zombie_list := by rw [← hs3]; rfl
    simpa [h2] using this
  · have := hpost.heads .UNUSED 0 (by simp [same_list])
    simp only [get_head] at this
    have h2 : s3.unused_list = s.unused_list := by rw [← hs3]; rfl
    simpa [h2] using this
  · intro i
    simp only [set_cpus_cpus]
    rw [h4c, h3c]
    by_cases hic : i = c <;> by_cases hici : i = ci
    · subst hic; subst hici; simp
    · subst hic; simp [Function.update_noteq hici]
    · subst hici; simp [Function.update_noteq hic]
    · simp [Function.update_noteq hic, Function.update_noteq hici]

/-- C11. When `wait` is called with no list-head lock and no link lock held and its
scan finds no `ZOMBIE` child of the caller `pp`: if the caller has no child at all, or
its `killed` flag is set, `wait` returns -1 and the state is the one on entry (no
process changed, nobody put to sleep); if it has a child and is not killed, `wait` puts
the caller to sleep on the channel that is its own process record: the caller is
`SLEEPING` with `chan = pp` at the tail of the `SLEEPING` list, has given up its CPU,
and has entered the scheduler with no list-head lock and no link lock held. -/
theorem wait_without_zombie_child (vm : vm_calls) (c : Fin K.NCPU) (addr : Nat) (s : kernel K)
    (pp : Fin K.NPROC) (hfree : s.held = []) (hp : myproc c s = some pp)
    (hz : ∀ np, (s.procs np).parent = some pp → (s.procs np).state ≠ .ZOMBIE) :
    (((∀ np, (s.procs np).parent ≠ some pp) ∨ (s.procs pp).killed ≠ 0) →
      wait vm c addr s = .ok (.returned (-1), s))
    ∧ ((∃ np, (s.procs np).parent = some pp) → (s.procs pp).killed = 0 →
        ∀ (ci : Fin K.NCPU) (qs : List (Fin K.NPROC)),
          cpus_index K (s.procs pp).cpu_num = some ci → has_nodes s .SLEEPING 0 qs →
          pp ∉ qs → (s.procs pp).next = none →
          ∃ t, wait vm c addr s = .ok (.asleep, t)
            ∧ t.held = []
            ∧ (t.procs pp).state = .SLEEPING
            ∧ (t.procs pp).chan = some (.proc_addr pp)
            ∧ has_nodes t .SLEEPING 0 (qs ++ [pp])
            ∧ myproc c t = none
            ∧ ∀ i, i ≠ pp → t.procs i = { s.procs i with next := (t.procs i).next }) := by
  have hscan := wait_scan_none vm (some pp) addr s (List.finRange K.NPROC) 0
    (fun np _ => hz np)
  constructor
  · intro h
    unfold wait
    simp only [hp, hscan, bind, Except.bind]
    by_cases hk : ∃ np ∈ List.finRange K.NPROC, (s.procs np).parent = some pp
    · have hkilled : (s.procs pp).killed ≠ 0 := by
        rcases h with h | h
        · obtain ⟨np, -, hnp⟩ := hk
          exact absurd hnp (h np)
        · exact h
      simp only [if_pos hk]
      simp [hkilled]
      rfl
    · simp only [if_neg hk]
      simp
      rfl
  · rintro ⟨np, hnp⟩ hkilled ci qs hci hsl hpq hnx
    obtain ⟨t, ht, hfields, hlist, hmy, -, -, -, hheld⟩ :=
      sleep_eq c (some (.proc_addr pp)) s pp ci qs hp hci hsl
    have hk : ∃ np ∈ List.finRange K.NPROC, (s.procs np).parent = some pp :=
      ⟨np, List.mem_finRange np, hnp⟩
    refine ⟨t, ?_, hheld.trans hfree, ?_, ?_, hlist hpq hnx, hmy, ?_⟩
    · unfold wait
      simp only [hp, hscan, bind, Except.bind, if_pos hk]
      simp [hkilled, ht]
      rfl
    · rw [hfields pp]; simp
    · rw [hfields pp]; simp
    · intro i hi
      rw [hfields i]
      simp [hi]

theorem wait_without_zombie_child_witness :
    ex_two_running.held = []
    ∧ myproc 0 ex_two_running = some 0
    ∧ (∀ np, (ex_two_running.procs np).parent = some 0 →
        (ex_two_running.procs np).state ≠ .ZOMBIE)
    ∧ (ex_two_running.procs 1).parent = some 0
    ∧ (ex_two_running.procs 0).killed = 0
    ∧ has_nodes ex_two_running .SLEEPING 0 []
    ∧ (∃ t, wait vm_ok 0 0 ex_two_running = .ok (.asleep, t)
        ∧ t.held = []
        ∧ (t.procs 0).state = .SLEEPING
        ∧ (t.procs 0).chan = some (.proc_addr 0)
        ∧ has_nodes t .SLEEPING 0 ([] ++ [0])
        ∧ myproc 0 t = none
        ∧ ∀ i, i ≠ 0 → t.procs i = { ex_two_running.procs i with next := (t.procs i).next })
    ∧ ex_init.held = []
    ∧ myproc 0 ex_init = some 0
    ∧ (∀ np, (ex_init.procs np).parent ≠ some 0)
    ∧ wait vm_ok 0 0 ex_init = .ok (.returned (-1), ex_init) :=
  ⟨by decide, by decide, by decide, by decide, by decide, by decide,
    (wait_without_zombie_child vm_ok 0 0 ex_two_running 0 (by decide) (by decide)
      (by decide)).2
      ⟨1, by decide⟩ (by decide) 0 [] (by decide) (by decide) (by simp) (by decide),
    by decide, by decide, by decide,
    (wait_without_zombie_child vm_ok 0 0 ex_init 0 (by decide) (by decide)
      (by decide)).1 (Or.inl (by decide))⟩


/-! ## The lists as a family -/

theorem list_id.get_head_is_head (s : kernel K) (l : list_id K) :
    get_head l.type l.cpu_num s = .ok (l.head s) := by
  cases l with
  | runnable c =>
    simp only [list_id.type, list_id.cpu_num, list_id.head, get_head, cpus_index_nat c.isLt]
  | _ => rfl

theorem list_id.has_nodes_is_list (s : kernel K) (l : list_id K) (qs : List (Fin K.NPROC)) :
    has_nodes s l.type l.cpu_num qs ↔ is_list (next_of s) (l.head s) qs := by
  unfold has_nodes
  rw [list_id.get_head_is_head]

theorem list_id.of_self (l : list_id K) : list_id.of K l.type l.cpu_num = some l := by
  cases l with
  | runnable c =>
    simp only [list_id.type, list_id.cpu_num, list_id.of, cpus_index_nat c.isLt]
    rfl
  | _ => rfl

theorem list_id.of_type {list_type : procstate} {cpu_num : Int} {l : list_id K}
    (h : list_id.of K list_type cpu_num = some l) : l.type = list_type := by
  cases list_type <;> simp [list_id.of] at h
  · subst h; rfl
  · subst h; rfl
  · obtain ⟨c, -, hc⟩ := h
    subst hc; rfl
  · subst h; rfl

theorem cpus_index_val {cpu_num : Int} {c : Fin K.NCPU} (h : cpus_index K cpu_num = some c) :
    ((c : Nat) : Int) = cpu_num := by
  unfold cpus_index at h
  split at h
  · rename_i hb
    injection h with h
    subst h
    simp only []
    omega
  · cases h

theorem list_id.of_cpu_num {cpu_num : Int} {l : list_id K}
    (h : list_id.of K .RUNNABLE cpu_num = some l) : l.cpu_num = cpu_num := by
  simp [list_id.of] at h
  obtain ⟨c, hc, hl⟩ := h
  subst hl
  exact cpus_index_val hc

theorem list_id.of_get_head {list_type : procstate} {cpu_num : Int} {l : list_id K}
    (h : list_id.of K list_type cpu_num = some l) (s : kernel K) :
    get_head list_type cpu_num s = .ok (l.head s) := by
  cases list_type <;> simp [list_id.of] at h
  · subst h; rfl
  · subst h; rfl
  · obtain ⟨c, hc, hl⟩ := h
    subst hl
    simp only [get_head, hc, list_id.head]
  · subst h; rfl

theorem list_id.of_has_nodes {list_type : procstate} {cpu_num : Int} {l : list_id K}
    (h : list_id.of K list_type cpu_num = some l) (s : kernel K) (qs : List (Fin K.NPROC)) :
    has_nodes s list_type cpu_num qs ↔ has_nodes s l.type l.cpu_num qs := by
  unfold has_nodes
  rw [list_id.of_get_head h, list_id.get_head_is_head]

theorem list_id.of_ok {list_type : procstate} {cpu_num : Int}
    (h : list_ok K list_type cpu_num) : ∃ l, list_id.of K list_type cpu_num = some l := by
  cases list_type <;> simp [list_ok] at h
  · exact ⟨_, rfl⟩
  · exact ⟨_, rfl⟩
  · obtain ⟨c, hc⟩ := @cpus_index_of_ok K cpu_num (by simpa [list_ok] using h)
    exact ⟨.runnable c, by simp [list_id.of, hc]⟩
  · exact ⟨_, rfl⟩

theorem list_id.same_list_iff {list_type : procstate} {cpu_num : Int} {l : list_id K}
    (h : list_id.of K list_type cpu_num = some l) (l2 : list_id K) :
    same_list list_type cpu_num l2.type l2.cpu_num ↔ l2 = l := by
  constructor
  · rintro ⟨h1, h2⟩
    have h3 := list_id.of_self l2
    rw [← h1] at h3
    cases list_type <;> simp [list_id.of] at h h3
    · rw [← h, ← h3]
    · rw [← h, ← h3]
    · have := h2 rfl
      rw [← this] at h3
      obtain ⟨c, hc, hl⟩ := h
      obtain ⟨c2, hc2, hl2⟩ := h3
      rw [hc] at hc2
      injection hc2 with hc2
      rw [← hl, ← hl2, hc2]
    · rw [← h, ← h3]
  · intro e
    subst e
    refine ⟨(list_id.of_type h).symm, fun hr => ?_⟩
    subst hr
    exact (list_id.of_cpu_num h).symm

/-! ## A list primitive that returns was called on a list the code can address -/

theorem locks_index_some {cpu_num : Int} {c : Fin K.CPUS} (h : locks_index K cpu_num = some c) :
    0 ≤ cpu_num ∧ cpu_num < K.CPUS := by
  unfold locks_index at h
  by_cases hb : 0 ≤ cpu_num ∧ cpu_num < K.CPUS
  · exact hb
  · rw [dif_neg hb] at h
    cases h

theorem cpus_index_some {cpu_num : Int} {c : Fin K.NCPU} (h : cpus_index K cpu_num = some c) :
    0 ≤ cpu_num ∧ cpu_num < K.NCPU := by
  unfold cpus_index at h
  by_cases hb : 0 ≤ cpu_num ∧ cpu_num < K.NCPU
  · exact hb
  · rw [dif_neg hb] at h
    cases h

theorem list_ok_of_acquire_get {list_type : procstate} {cpu_num : Int} {s s1 s2 : kernel K}
    {h : Option (Fin K.NPROC)} (h1 : acquire_list list_type cpu_num s = .ok s1)
    (h2 : get_head list_type cpu_num s2 = .ok h) : list_ok K list_type cpu_num := by
  cases list_type <;> simp [acquire_list] at h1 <;> simp [list_ok]
  simp only [get_head] at h2
  cases hl : locks_index K cpu_num with
  | none => simp [hl] at h1
  | some c1 =>
    cases hc : cpus_index K cpu_num with
    | none => simp [hc] at h2
    | some c2 =>
      have := locks_index_some hl
      have := cpus_index_some hc
      omega

theorem add_proc_to_list_list_ok {p : Fin K.NPROC} {list_type : procstate} {cpu_num : Int}
    {s : kernel K} {r : Int × kernel K}
    (h : add_proc_to_list p list_type cpu_num s = .ok r) : list_ok K list_type cpu_num := by
  unfold add_proc_to_list at h
  obtain ⟨s1, h1, h⟩ := bind_eq_ok h
  obtain ⟨curr, h2, -⟩ := bind_eq_ok h
  exact list_ok_of_acquire_get h1 h2

theorem remove_head_list_ok {list_type : procstate} {cpu_num : Int}
    {s : kernel K} {r : Option (Fin K.NPROC) × kernel K}
    (h : remove_head list_type cpu_num s = .ok r) : list_ok K list_type cpu_num := by
  unfold remove_head at h
  obtain ⟨s1, h1, h⟩ := bind_eq_ok h
  obtain ⟨curr, h2, -⟩ := bind_eq_ok h
  exact list_ok_of_acquire_get h1 h2

theorem remove_proc_from_list_list_ok {p : Fin K.NPROC} {list_type : procstate}
    {s : kernel K} {r : Int × kernel K}
    (h : remove_proc_from_list p list_type s = .ok r) :
    list_ok K list_type (s.procs p).cpu_num := by
  unfold remove_proc_from_list at h
  obtain ⟨s1, h1, h⟩ := bind_eq_ok h
  obtain ⟨curr, h2, -⟩ := bind_eq_ok h
  have hp : s1.procs = s.procs := acquire_list_procs h1
  rw [hp] at h2
  exact list_ok_of_acquire_get h1 h2

/-! ## Well-formed list families across the list primitives -/

variable {O : Finset (Fin K.NPROC)}

theorem lists_wf_congr {s t : kernel K} {L : list_id K → List (Fin K.NPROC)}
    (h : lists_wf O s L) (hnx : ∀ p, (t.procs p).next = (s.procs p).next)
    (hh : ∀ l : list_id K, l.head t = l.head s) : lists_wf O t L where
  nodes l := by
    have e : next_of t = next_of s := funext hnx
    rw [list_id.has_nodes_is_list, e, hh, ← list_id.has_nodes_is_list]
    exact h.nodes l
  disj := h.disj
  off p hp := by rw [hnx]; exact h.off p hp

theorem lists_wf.nodup {s : kernel K} {L : list_id K → List (Fin K.NPROC)}
    (h : lists_wf O s L) (l : list_id K) : (L l).Nodup :=
  is_list_nodup _ _ ((list_id.has_nodes_is_list s l _).mp (h.nodes l))

theorem mem_update_append {L : list_id K → List (Fin K.NPROC)} (l : list_id K)
    (p q : Fin K.NPROC) (l2 : list_id K) :
    q ∈ (Function.update L l (L l ++ [p])) l2 ↔ q ∈ L l2 ∨ (l2 = l ∧ q = p) := by
  by_cases e : l2 = l
  · subst e; simp
  · simp [Function.update_noteq e, e]

theorem mem_update_erase {L : list_id K → List (Fin K.NPROC)} (l : list_id K)
    (hnd : (L l).Nodup) (p q : Fin K.NPROC) (l2 : list_id K) :
    q ∈ (Function.update L l ((L l).erase p)) l2 ↔ q ∈ L l2 ∧ ¬ (l2 = l ∧ q = p) := by
  by_cases e : l2 = l
  · subst e
    simp only [Function.update_same, hnd.mem_erase_iff, true_and]
    tauto
  · simp [Function.update_noteq e, e]

theorem mem_update_tail {L : list_id K → List (Fin K.NPROC)} (l : list_id K)
    (p : Fin K.NPROC) (rest : List (Fin K.NPROC)) (hl : L l = p :: rest) (hnd : (L l).Nodup)
    (q : Fin K.NPROC) (l2 : list_id K) :
    q ∈ (Function.update L l rest) l2 ↔ q ∈ L l2 ∧ ¬ (l2 = l ∧ q = p) := by
  have e : rest = (L l).erase p := by rw [hl]; simp
  rw [e]
  exact mem_update_erase l hnd p q l2

theorem add_result_next_other (s : kernel K) (p : Fin K.NPROC) (list_type : procstate)
    (cpu_num : Int) (qs : List (Fin K.NPROC)) (q : Fin K.NPROC) (hq : q ∉ qs) :
    ((add_result s p list_type cpu_num qs).procs q).next = (s.procs q).next := by
  unfold add_result
  cases hl : qs.getLast? with
  | none => simp
  | some last =>
    have hne : q ≠ last := fun e => hq (e ▸ List.mem_of_getLast?_eq_some hl)
    simp [set_next_procs, Function.update_noteq hne]

theorem lists_wf_add_result {s : kernel K} {L : list_id K → List (Fin K.NPROC)}
    {list_type : procstate} {cpu_num : Int} {l : list_id K}
    (h : lists_wf O s L) (hof : list_id.of K list_type cpu_num = some l)
    (hok : list_ok K list_type cpu_num) (p : Fin K.NPROC) (hp : ∀ l2, p ∉ L l2)
    (hpo : p ∉ O) :
    lists_wf O (add_result s p list_type cpu_num (L l)) (Function.update L l (L l ++ [p])) where
  nodes l2 := by
    have hn : has_nodes s list_type cpu_num (L l) := (list_id.of_has_nodes hof s _).mpr (h.nodes l)
    by_cases e : l2 = l
    · subst e
      rw [Function.update_same, ← list_id.of_has_nodes hof]
      exact has_nodes_add_result hok s p _ hn (hp l2) (h.off p hp hpo)
    · rw [Function.update_noteq e]
      refine has_nodes_add_result_other ?_ s p (L l) (L l2) (h.nodes l2) ?_
      · rw [list_id.same_list_iff hof]; exact e
      · intro q hq hq2
        exact e (h.disj _ _ q hq2 hq)
  disj l1 l2 q h1 h2 := by
    rw [mem_update_append] at h1 h2
    rcases h1 with h1 | ⟨e1, q1⟩ <;> rcases h2 with h2 | ⟨e2, q2⟩
    · exact h.disj _ _ q h1 h2
    · subst q2; exact absurd h1 (hp l1)
    · subst q1; exact absurd h2 (hp l2)
    · rw [e1, e2]
  off q hq := by
    have hq1 : ∀ l2, q ∉ L l2 := fun l2 hm =>
      hq l2 ((mem_update_append l p q l2).mpr (Or.inl hm))
    rw [add_result_next_other s p list_type cpu_num (L l) q (hq1 l)]
    exact h.off q hq1

theorem lists_wf_remove_head_result {s : kernel K} {L : list_id K → List (Fin K.NPROC)}
    {list_type : procstate} {cpu_num : Int} {l : list_id K}
    (h : lists_wf O s L) (hof : list_id.of K list_type cpu_num = some l)
    (hok : list_ok K list_type cpu_num) (q : Fin K.NPROC) (rest : List (Fin K.NPROC))
    (hl : L l = q :: rest) :
    lists_wf O (remove_head_result s list_type cpu_num q) (Function.update L l rest) where
  nodes l2 := by
    have hn : has_nodes s list_type cpu_num (q :: rest) := by
      rw [← hl]; exact (list_id.of_has_nodes hof s _).mpr (h.nodes l)
    by_cases e : l2 = l
    · subst e
      rw [Function.update_same, ← list_id.of_has_nodes hof]
      exact has_nodes_remove_head_result hok s q rest hn
    · rw [Function.update_noteq e]
      refine has_nodes_remove_head_result_other ?_ s q (L l2) (h.nodes l2) ?_
      · rw [list_id.same_list_iff hof]; exact e
      · intro hq2
        exact e (h.disj _ _ q hq2 (by rw [hl]; exact List.mem_cons_self _ _))
  disj l1 l2 x h1 h2 := by
    rw [mem_update_tail l q rest hl (h.nodup l)] at h1 h2
    exact h.disj _ _ x h1.1 h2.1
  off x hx := by
    rw [remove_head_result_procs]
    by_cases e : x = q
    · subst e; simp
    · rw [Function.update_noteq e]
      refine h.off x (fun l2 hm => hx l2 ?_)
      rw [mem_update_tail l q rest hl (h.nodup l)]
      exact ⟨hm, fun hc => e hc.2⟩

theorem remove_result_next_other (s : kernel K) (p : Fin K.NPROC) (list_type : procstate)
    (qs : List (Fin K.NPROC)) (q : Fin K.NPROC) (hq : q ∉ qs) (hqp : q ≠ p) :
    ((remove_result s p list_type qs).procs q).next = (s.procs q).next := by
  unfold remove_result
  cases hpd : pred_of p qs with
  | none => simp [set_next_procs, Function.update_noteq hqp]
  | some pd =>
    have hne : q ≠ pd := fun e => hq (e ▸ mem_of_pred_of p pd qs hpd)
    simp [set_next_procs, Function.update_noteq hqp, Function.update_noteq hne]

theorem lists_wf_remove_result {s : kernel K} {L : list_id K → List (Fin K.NPROC)}
    {list_type : procstate} {l : list_id K} (p : Fin K.NPROC)
    (h : lists_wf O s L) (hof : list_id.of K list_type (s.procs p).cpu_num = some l)
    (hok : list_ok K list_type (s.procs p).cpu_num) (hp : p ∈ L l) :
    lists_wf O (remove_result s p list_type (L l)) (Function.update L l ((L l).erase p)) where
  nodes l2 := by
    have hn : has_nodes s list_type (s.procs p).cpu_num (L l) :=
      (list_id.of_has_nodes hof s _).mpr (h.nodes l)
    by_cases e : l2 = l
    · subst e
      rw [Function.update_same, ← list_id.of_has_nodes hof]
      exact has_nodes_remove_result s p _ hok hn hp
    · rw [Function.update_noteq e]
      refine has_nodes_remove_result_other s p (L l) ?_ (L l2) (h.nodes l2) ?_ ?_
      · rw [list_id.same_list_iff hof]; exact e
      · intro hp2
        exact e (h.disj _ _ p hp2 hp)
      · intro q hq hq2
        exact e (h.disj _ _ q hq2 hq)
  disj l1 l2 x h1 h2 := by
    rw [mem_update_erase l (h.nodup l)] at h1 h2
    exact h.disj _ _ x h1.1 h2.1
  off x hx := by
    by_cases e : x = p
    · subst e; exact fun _ => remove_result_next_self s x list_type _
    · have hx1 : ∀ l2, x ∉ L l2 := fun l2 hm =>
        hx l2 ((mem_update_erase l (h.nodup l) p x l2).mpr ⟨hm, fun hc => e hc.2⟩)
      rw [remove_result_next_other s p list_type (L l) x (hx1 l) e]
      exact h.off x hx1

theorem list_id.head_remove_miss_result (s : kernel K) (qs : List (Fin K.NPROC))
    (l : list_id K) : l.head (remove_miss_result s qs) = l.head s := by
  unfold remove_miss_result
  cases qs.getLast? <;> cases l <;> rfl

theorem lists_wf_remove_miss_result {s : kernel K} {L : list_id K → List (Fin K.NPROC)}
    (h : lists_wf O s L) (qs : List (Fin K.NPROC)) : lists_wf O (remove_miss_result s qs) L :=
  lists_wf_congr h (fun p => by rw [remove_miss_result_procs])
    (list_id.head_remove_miss_result s qs)

/-- What `add_proc_to_list` has done in a well-formed family, for a process on no list. -/
theorem add_proc_to_list_wf {s t : kernel K} {L : list_id K → List (Fin K.NPROC)}
    {p : Fin K.NPROC} {list_type : procstate} {cpu_num : Int} {r : Int}
    (h : lists_wf O s L) (hp : ∀ l2, p ∉ L l2) (hpo : p ∉ O)
    (hr : add_proc_to_list p list_type cpu_num s = .ok (r, t)) :
    ∃ l, list_id.of K list_type cpu_num = some l ∧ list_ok K list_type cpu_num
      ∧ t = add_result s p list_type cpu_num (L l)
      ∧ lists_wf O t (Function.update L l (L l ++ [p]))
      ∧ list_op_post s list_type cpu_num t := by
  have hok := add_proc_to_list_list_ok hr
  obtain ⟨l, hof⟩ := list_id.of_ok hok
  have hn : has_nodes s list_type cpu_num (L l) := (list_id.of_has_nodes hof s _).mpr (h.nodes l)
  rw [add_proc_to_list_eq hok s p (L l) hn] at hr
  injection hr with hr
  injection hr with _ hr
  subst hr
  exact ⟨l, hof, hok, rfl, lists_wf_add_result h hof hok p hp hpo,
    list_op_post_add_result _ _ _ _ _⟩

/-- What `remove_head` has done in a well-formed family. -/
theorem remove_head_wf {s t : kernel K} {L : list_id K → List (Fin K.NPROC)}
    {list_type : procstate} {cpu_num : Int} {hd : Option (Fin K.NPROC)}
    (h : lists_wf O s L) (hr : remove_head list_type cpu_num s = .ok (hd, t)) :
    ∃ l, list_id.of K list_type cpu_num = some l ∧ list_ok K list_type cpu_num
      ∧ list_op_post s list_type cpu_num t
      ∧ ((L l = [] ∧ hd = none ∧ t = s)
        ∨ ∃ q rest, L l = q :: rest ∧ hd = some q
            ∧ t = remove_head_result s list_type cpu_num q
            ∧ lists_wf O t (Function.update L l rest)) := by
  have hok := remove_head_list_ok hr
  obtain ⟨l, hof⟩ := list_id.of_ok hok
  have hn : has_nodes s list_type cpu_num (L l) := (list_id.of_has_nodes hof s _).mpr (h.nodes l)
  cases hl : L l with
  | nil =>
    rw [hl] at hn
    rw [remove_head_nil hok s hn] at hr
    injection hr with hr
    injection hr with h1 h2
    subst h1; subst h2
    exact ⟨l, hof, hok, list_op_post_refl _ _ _, Or.inl ⟨hl, rfl, rfl⟩⟩
  | cons q rest =>
    rw [hl] at hn
    rw [remove_head_cons hok s q rest hn] at hr
    injection hr with hr
    injection hr with h1 h2
    subst h1; subst h2
    exact ⟨l, hof, hok, list_op_post_remove_head_result _ _ _ _,
      Or.inr ⟨q, rest, hl, rfl, rfl, lists_wf_remove_head_result h hof hok q rest hl⟩⟩

/-- What `remove_proc_from_list` has done in a well-formed family. -/
theorem remove_proc_from_list_wf {s t : kernel K} {L : list_id K → List (Fin K.NPROC)}
    {p : Fin K.NPROC} {list_type : procstate} {r : Int}
    (h : lists_wf O s L) (hr : remove_proc_from_list p list_type s = .ok (r, t)) :
    ∃ l, list_id.of K list_type (s.procs p).cpu_num = some l
      ∧ list_ok K list_type (s.procs p).cpu_num
      ∧ list_op_post s list_type (s.procs p).cpu_num t
      ∧ lists_wf O t (Function.update L l ((L l).erase p))
      ∧ (p ∈ L l → t = remove_result s p list_type (L l))
      ∧ (p ∉ L l → t = remove_miss_result s (L l)) := by
  have hok := remove_proc_from_list_list_ok hr
  obtain ⟨l, hof⟩ := list_id.of_ok hok
  have hn : has_nodes s list_type (s.procs p).cpu_num (L l) :=
    (list_id.of_has_nodes hof s _).mpr (h.nodes l)
  by_cases hp : p ∈ L l
  · rw [remove_proc_from_list_hit s p (L l) hok hn hp] at hr
    injection hr with hr
    injection hr with _ hr
    subst hr
    exact ⟨l, hof, hok, list_op_post_remove_result _ _ _ _, lists_wf_remove_result p h hof hok hp,
      fun _ => rfl, fun hc => absurd hp hc⟩
  · rw [remove_proc_from_list_miss s p (L l) hok hn hp] at hr
    injection hr with hr
    injection hr with _ hr
    subst hr
    refine ⟨l, hof, hok, list_op_post_remove_miss_result _ _ _ _, ?_, fun hc => absurd hc hp,
      fun _ => rfl⟩
    rw [List.erase_of_not_mem hp, Function.update_eq_self]
    exact lists_wf_remove_miss_result h _


/-! ## The invariant across stores and list primitives -/

theorem list_id.head_set_proc (s : kernel K) (p : Fin K.NPROC) (v : proc K) (l : list_id K) :
    l.head (set_proc s p v) = l.head s := by
  cases l <;> rfl

theorem list_id.head_set_cpus (s : kernel K) (c : Fin K.NCPU) (v : cpu K)
    (hv : v.runnable_list_head = (s.cpus c).runnable_list_head) (l : list_id K) :
    l.head (set_cpus s c v) = l.head s := by
  cases l with
  | runnable c2 =>
    simp only [list_id.head, set_cpus_cpus]
    by_cases e : c2 = c
    · subst e; simp [hv]
    · rw [Function.update_noteq e]
  | _ => rfl

theorem lists_wf_set_proc {s : kernel K} {L : list_id K → List (Fin K.NPROC)}
    (h : lists_wf O s L) (p : Fin K.NPROC) (v : proc K) (hv : v.next = (s.procs p).next) :
    lists_wf O (set_proc s p v) L :=
  lists_wf_congr h (fun q => by
    by_cases e : q = p
    · subst e; simp [hv]
    · simp [Function.update_noteq e]) (list_id.head_set_proc s p v)

theorem lists_wf_set_cpus {s : kernel K} {L : list_id K → List (Fin K.NPROC)}
    (h : lists_wf O s L) (c : Fin K.NCPU) (v : cpu K)
    (hv : v.runnable_list_head = (s.cpus c).runnable_list_head) :
    lists_wf O (set_cpus s c v) L :=
  lists_wf_congr h (fun _ => rfl) (list_id.head_set_cpus s c v hv)

theorem bound_but_congr {x : Option (Fin K.NPROC)} {s t : kernel K}
    (h : ∀ p, some p ≠ x → (t.procs p).state = (s.procs p).state
      ∧ (t.procs p).cpu_num = (s.procs p).cpu_num) (c : Fin K.NCPU) :
    bound_but x t c = bound_but x s c := by
  unfold bound_but
  refine Finset.sum_congr rfl (fun p _ => ?_)
  by_cases e : some p = x
  · simp [e]
  · simp only [e, if_false, counted, (h p e).1, (h p e).2]

theorem bound_but_open (x : Fin K.NPROC) (s : kernel K) (c : Fin K.NCPU) :
    bound_but none s c = bound_but (some x) s c + counted (s.procs x) c := by
  unfold bound_but
  have h : ∀ p : Fin K.NPROC, (if some p = (none : Option (Fin K.NPROC)) then (0 : Int)
      else counted (s.procs p) c)
      = (if some p = some x then 0 else counted (s.procs p) c)
        + (if p = x then counted (s.procs x) c else 0) := by
    intro p
    by_cases e : p = x
    · subst e; simp
    · simp [e]
  rw [Finset.sum_congr rfl (fun p _ => h p), Finset.sum_add_distrib]
  simp

theorem inv_but.transfer {x : Option (Fin K.NPROC)} {d d2 : Fin K.NCPU → Int} {s t : kernel K}
    {L L2 : list_id K → List (Fin K.NPROC)} (h : inv_but O x d s L) (hwf : lists_wf O t L2)
    (hmem : ∀ l p, some p ≠ x → (p ∈ L2 l ↔ p ∈ L l))
    (hst : ∀ p, some p ≠ x → (t.procs p).state = (s.procs p).state
      ∧ (t.procs p).cpu_num = (s.procs p).cpu_num)
    (hcur : ∀ c p, (t.cpus c).proc = some p → (s.cpus c).proc = some p)
    (hd : K.BLNCFLG = false → ∀ c, d2 c
      = d c + ((t.cpus c).proc_list_size - (s.cpus c).proc_list_size)) :
    inv_but O x d2 t L2 where
  wf := hwf
  onl l p hp hx := by
    rw [(hst p hx).1]
    exact h.onl l p ((hmem l p hx).mp hp) hx
  cover p hx ho h1 h2 := by
    rw [(hst p hx).1] at h1 h2
    obtain ⟨l, hl⟩ := h.cover p hx ho h1 h2
    exact ⟨l, (hmem l p hx).mpr hl⟩
  cur c p hp hx := by
    rw [(hst p hx).1]
    exact h.cur c p (hcur c p hp) hx
  cur_inj c c2 p h1 h2 := h.cur_inj c c2 p (hcur c p h1) (hcur c2 p h2)
  bind hb c p hp hx := by
    rw [(hst p hx).2]
    exact h.bind hb c p ((hmem _ p hx).mp hp) hx
  count hb c := by
    rw [bound_but_congr hst c, hd hb c, h.count hb c]
    ring
  orph p ho := by
    obtain ⟨h1, h2, h3⟩ := h.orph p ho
    exact ⟨by rw [(hst p h3).1]; exact h1, fun l hm => h2 l ((hmem l p h3).mp hm), h3⟩

theorem inv_but.open_at {d : Fin K.NCPU → Int} {s : kernel K}
    {L : list_id K → List (Fin K.NPROC)} (h : inv_but O none d s L) (x : Fin K.NPROC)
    (hx : x ∉ O) :
    inv_but O (some x) (fun c => d c + counted (s.procs x) c) s L where
  wf := h.wf
  onl l p hp _ := h.onl l p hp (by simp)
  cover p _ ho h1 h2 := h.cover p (by simp) ho h1 h2
  cur c p hp _ := h.cur c p hp (by simp)
  cur_inj := h.cur_inj
  bind hb c p hp _ := h.bind hb c p hp (by simp)
  count hb c := by
    rw [h.count hb c, bound_but_open x s c]
    ring
  orph p ho := by
    obtain ⟨h1, h2, -⟩ := h.orph p ho
    exact ⟨h1, h2, fun e => hx (by rw [← Option.some.inj e]; exact ho)⟩

theorem inv_but.close {x : Fin K.NPROC} {d : Fin K.NCPU → Int} {s : kernel K}
    {L : list_id K → List (Fin K.NPROC)} (h : inv_but O (some x) d s L)
    (honl : ∀ l, x ∈ L l → (s.procs x).state = l.type)
    (hcover : (s.procs x).state ≠ .USED → (s.procs x).state ≠ .RUNNING → ∃ l, x ∈ L l)
    (hcur : ∀ c, (s.cpus c).proc = some x → (s.procs x).state = .RUNNING)
    (hbind : K.BLNCFLG = false → ∀ c, x ∈ L (.runnable c) →
      (s.procs x).cpu_num = ((c : Nat) : Int))
    (hd : K.BLNCFLG = false → ∀ c, d c = counted (s.procs x) c) : inv_with O s L where
  wf := h.wf
  onl l p hp _ := by
    by_cases e : p = x
    · subst e; exact honl l hp
    · exact h.onl l p hp (by simpa using e)
  cover p _ ho h1 h2 := by
    by_cases e : p = x
    · subst e; exact hcover h1 h2
    · exact h.cover p (by simpa using e) ho h1 h2
  cur c p hp _ := by
    by_cases e : p = x
    · subst e; exact hcur c hp
    · exact h.cur c p hp (by simpa using e)
  cur_inj := h.cur_inj
  bind hb c p hp _ := by
    by_cases e : p = x
    · subst e; exact hbind hb c hp
    · exact h.bind hb c p hp (by simpa using e)
  count hb c := by
    rw [h.count hb c, bound_but_open x s c, hd hb c]
    ring
  orph p ho := by
    obtain ⟨h1, h2, -⟩ := h.orph p ho
    exact ⟨h1, h2, by simp⟩

/-- A process that is not `RUNNABLE` is not cut off. -/
theorem inv_but.not_cut_of_state {x : Option (Fin K.NPROC)} {d : Fin K.NCPU → Int}
    {s : kernel K} {L : list_id K → List (Fin K.NPROC)} (h : inv_but O x d s L)
    {p : Fin K.NPROC} (hst : (s.procs p).state ≠ .RUNNABLE) : p ∉ O :=
  fun ho => hst (h.orph p ho).1

/-- A process on a list is not cut off. -/
theorem inv_but.not_cut_of_mem {x : Option (Fin K.NPROC)} {d : Fin K.NCPU → Int}
    {s : kernel K} {L : list_id K → List (Fin K.NPROC)} (h : inv_but O x d s L)
    {p : Fin K.NPROC} {l : list_id K} (hm : p ∈ L l) : p ∉ O :=
  fun ho => (h.orph p ho).2.1 l hm

/-- The process in transit is not cut off. -/
theorem inv_but.not_cut_x {x : Fin K.NPROC} {d : Fin K.NCPU → Int}
    {s : kernel K} {L : list_id K → List (Fin K.NPROC)} (h : inv_but O (some x) d s L) :
    x ∉ O :=
  fun ho => (h.orph x ho).2.2 rfl

theorem list_op_post.state {s t : kernel K} {list_type : procstate} {cpu_num : Int}
    (h : list_op_post s list_type cpu_num t) (p : Fin K.NPROC) :
    (t.procs p).state = (s.procs p).state := by rw [h.fields p]

theorem list_op_post.cpu_num {s t : kernel K} {list_type : procstate} {cpu_num : Int}
    (h : list_op_post s list_type cpu_num t) (p : Fin K.NPROC) :
    (t.procs p).cpu_num = (s.procs p).cpu_num := by rw [h.fields p]

theorem list_op_post.proc {s t : kernel K} {list_type : procstate} {cpu_num : Int}
    (h : list_op_post s list_type cpu_num t) (c : Fin K.NCPU) :
    (t.cpus c).proc = (s.cpus c).proc := by rw [h.cpus c]

theorem list_op_post.size {s t : kernel K} {list_type : procstate} {cpu_num : Int}
    (h : list_op_post s list_type cpu_num t) (c : Fin K.NCPU) :
    (t.cpus c).proc_list_size = (s.cpus c).proc_list_size := by rw [h.cpus c]

/-- A list primitive that moves only the process in transit keeps the invariant. -/
theorem inv_but.list_op {x : Option (Fin K.NPROC)} {d : Fin K.NCPU → Int} {s t : kernel K}
    {L L2 : list_id K → List (Fin K.NPROC)} {list_type : procstate} {cpu_num : Int}
    (h : inv_but O x d s L) (hwf : lists_wf O t L2)
    (hmem : ∀ l p, some p ≠ x → (p ∈ L2 l ↔ p ∈ L l))
    (hpost : list_op_post s list_type cpu_num t) : inv_but O x d t L2 :=
  h.transfer hwf hmem (fun p _ => ⟨hpost.state p, hpost.cpu_num p⟩)
    (fun c p hp => by rw [← hpost.proc c]; exact hp)
    (fun _ c => by rw [hpost.size c]; ring)

/-- A store into the record of the process in transit keeps the invariant. -/
theorem inv_but.set_proc_x {x : Fin K.NPROC} {d : Fin K.NCPU → Int} {s : kernel K}
    {L : list_id K → List (Fin K.NPROC)} (h : inv_but O (some x) d s L) (v : proc K)
    (hv : v.next = (s.procs x).next) : inv_but O (some x) d (set_proc s x v) L :=
  h.transfer (lists_wf_set_proc h.wf x v hv) (fun _ _ _ => Iff.rfl)
    (fun p hp => by
      have e : p ≠ x := fun e => hp (by rw [e])
      simp [Function.update_noteq e])
    (fun _ _ hp => hp) (fun _ c => by simp)

/-- A store that changes neither `state` nor `cpu_num` nor `next` keeps the invariant. -/
theorem inv_but.set_proc_same {x : Option (Fin K.NPROC)} {d : Fin K.NCPU → Int} {s : kernel K}
    {L : list_id K → List (Fin K.NPROC)} (h : inv_but O x d s L) (q : Fin K.NPROC) (v : proc K)
    (hv : v.next = (s.procs q).next) (hst : v.state = (s.procs q).state)
    (hcn : v.cpu_num = (s.procs q).cpu_num) : inv_but O x d (set_proc s q v) L :=
  h.transfer (lists_wf_set_proc h.wf q v hv) (fun _ _ _ => Iff.rfl)
    (fun p _ => by
      by_cases e : p = q
      · subst e; simp [hst, hcn]
      · simp [Function.update_noteq e])
    (fun _ _ hp => hp) (fun _ c => by simp)

/-- A state that differs in neither the process table, the CPU records nor the list
heads keeps the invariant. -/
theorem inv_but.same {x : Option (Fin K.NPROC)} {d : Fin K.NCPU → Int} {s t : kernel K}
    {L : list_id K → List (Fin K.NPROC)} (h : inv_but O x d s L) (hp : t.procs = s.procs)
    (hc : t.cpus = s.cpus) (hh : ∀ l : list_id K, l.head t = l.head s) : inv_but O x d t L :=
  h.transfer (lists_wf_congr h.wf (fun p => by rw [hp]) hh) (fun _ _ _ => Iff.rfl)
    (fun p _ => by rw [hp]; exact ⟨rfl, rfl⟩) (fun c p h1 => by rw [← hc]; exact h1)
    (fun _ c => by rw [hc]; ring)

theorem inv_but.set_d {x : Option (Fin K.NPROC)} {d d2 : Fin K.NCPU → Int} {s : kernel K}
    {L : list_id K → List (Fin K.NPROC)} (h : inv_but O x d s L)
    (hd : K.BLNCFLG = false → ∀ c, d2 c = d c) : inv_but O x d2 s L :=
  h.transfer h.wf (fun _ _ _ => Iff.rfl) (fun _ _ => ⟨rfl, rfl⟩) (fun _ _ hp => hp)
    (fun hb c => by rw [hd hb c]; ring)

theorem inv_but.decrease {x : Option (Fin K.NPROC)} {d : Fin K.NCPU → Int} {s t : kernel K}
    {L : list_id K → List (Fin K.NPROC)} {cpu_num : Int} (h : inv_but O x d s L)
    (hr : decrease_runnable_list_size_of cpu_num s = .ok t) :
    ∃ ci, cpus_index K cpu_num = some ci
      ∧ inv_but O x (fun c => d c - if c = ci then 1 else 0) t L ∧ t.procs = s.procs
      ∧ ∀ c, (t.cpus c).proc = (s.cpus c).proc := by
  unfold decrease_runnable_list_size_of at hr
  cases hci : cpus_index K cpu_num with
  | none => simp [hci] at hr
  | some ci =>
    simp only [hci] at hr
    injection hr with hr
    subst hr
    refine ⟨ci, rfl, h.transfer (lists_wf_set_cpus h.wf ci _ rfl) (fun _ _ _ => Iff.rfl)
      (fun _ _ => ⟨rfl, rfl⟩) (fun c p hp => ?_) (fun _ c => ?_), rfl, fun c => ?_⟩
    · by_cases e : c = ci
      · subst e; simpa using hp
      · simpa [Function.update_noteq e] using hp
    · by_cases e : c = ci
      · subst e; simp; ring
      · simp [Function.update_noteq e, e]
    · by_cases e : c = ci
      · subst e; simp
      · simp [Function.update_noteq e]

theorem inv_but.increase {x : Option (Fin K.NPROC)} {d : Fin K.NCPU → Int} {s t : kernel K}
    {L : list_id K → List (Fin K.NPROC)} {cpu_num : Int} (h : inv_but O x d s L)
    (hr : increase_runnable_list_size_of cpu_num s = .ok t) :
    ∃ ci, cpus_index K cpu_num = some ci
      ∧ inv_but O x (fun c => d c + if c = ci then 1 else 0) t L ∧ t.procs = s.procs
      ∧ ∀ c, (t.cpus c).proc = (s.cpus c).proc := by
  unfold increase_runnable_list_size_of at hr
  cases hci : cpus_index K cpu_num with
  | none => simp [hci] at hr
  | some ci =>
    simp only [hci] at hr
    injection hr with hr
    subst hr
    refine ⟨ci, rfl, h.transfer (lists_wf_set_cpus h.wf ci _ rfl) (fun _ _ _ => Iff.rfl)
      (fun _ _ => ⟨rfl, rfl⟩) (fun c p hp => ?_) (fun _ c => ?_), rfl, fun c => ?_⟩
    · by_cases e : c = ci
      · subst e; simpa using hp
      · simpa [Function.update_noteq e] using hp
    · by_cases e : c = ci
      · subst e; simp
      · simp [Function.update_noteq e, e]
    · by_cases e : c = ci
      · subst e; simp
      · simp [Function.update_noteq e]

theorem inv_but.admitted {x : Option (Fin K.NPROC)} {d : Fin K.NCPU → Int} {s t : kernel K}
    {L : list_id K → List (Fin K.NPROC)} {cpu_num : Int} (h : inv_but O x d s L)
    (hr : increase_admitted_process_count cpu_num s = .ok t ∨ bump_admitted cpu_num s = .ok t) :
    inv_but O x d t L ∧ t.procs = s.procs
      ∧ (∀ c, (t.cpus c).proc = (s.cpus c).proc)
      ∧ ∀ c, (t.cpus c).proc_list_size = (s.cpus c).proc_list_size := by
  have key : ∃ ci, t = set_cpus s ci { s.cpus ci with
      admitted_process_count := (s.cpus ci).admitted_process_count + 1 } := by
    rcases hr with hr | hr
    · unfold increase_admitted_process_count at hr
      cases hci : cpus_index K cpu_num with
      | none => simp [hci] at hr
      | some ci =>
        simp only [hci] at hr
        injection hr with hr
        exact ⟨ci, hr.symm⟩
    · unfold bump_admitted at hr
      cases hci : cpus_index K cpu_num with
      | none => simp [hci] at hr
      | some ci =>
        simp only [hci] at hr
        injection hr with hr
        exact ⟨ci, hr.symm⟩
  obtain ⟨ci, rfl⟩ := key
  refine ⟨h.transfer (lists_wf_set_cpus h.wf ci _ rfl) (fun _ _ _ => Iff.rfl)
    (fun _ _ => ⟨rfl, rfl⟩) (fun c p hp => ?_) (fun _ c => ?_), rfl, fun c => ?_, fun c => ?_⟩
  · by_cases e : c = ci
    · subst e; simpa using hp
    · simpa [Function.update_noteq e] using hp
  · by_cases e : c = ci
    · subst e; simp
    · simp [Function.update_noteq e]
  · by_cases e : c = ci
    · subst e; simp
    · simp [Function.update_noteq e]
  · by_cases e : c = ci
    · subst e; simp
    · simp [Function.update_noteq e]

/-- `sched`: the caller, no longer `RUNNING`, gives up its CPU. -/
theorem inv_but.after_sched {x : Option (Fin K.NPROC)} {d : Fin K.NCPU → Int} {s t : kernel K}
    {L : list_id K → List (Fin K.NPROC)} {c : Fin K.NCPU} (h : inv_but O x d s L)
    (hr : sched c s = .ok t) :
    inv_but O x d t L ∧ t.procs = s.procs ∧ (t.cpus c).proc = none
      ∧ ∀ c2, c2 ≠ c → (t.cpus c2).proc = (s.cpus c2).proc := by
  unfold sched at hr
  cases hp : myproc c s with
  | none => simp [hp] at hr
  | some p =>
    simp only [hp] at hr
    split at hr
    · cases hr
    · injection hr with hr
      subst hr
      refine ⟨h.transfer (lists_wf_set_cpus h.wf c _ rfl) (fun _ _ _ => Iff.rfl)
        (fun _ _ => ⟨rfl, rfl⟩) (fun c2 q hq => ?_) (fun _ c2 => ?_), rfl, by simp, ?_⟩
      · by_cases e : c2 = c
        · subst e; simp at hq
        · simpa [Function.update_noteq e] using hq
      · by_cases e : c2 = c
        · subst e; simp
        · simp [Function.update_noteq e]
      · intro c2 e
        simp [Function.update_noteq e]


/-! ## The invariant across the operations -/

theorem list_id.type_ne_running (l : list_id K) : l.type ≠ .RUNNING := by
  cases l <;> simp [list_id.type]

theorem list_id.type_ne_used (l : list_id K) : l.type ≠ .USED := by
  cases l <;> simp [list_id.type]

/-- A process that is `RUNNING` or `USED` is on no list. -/
theorem inv_but.off_of_state {x : Option (Fin K.NPROC)} {d : Fin K.NCPU → Int} {s : kernel K}
    {L : list_id K → List (Fin K.NPROC)} (h : inv_but O x d s L) (p : Fin K.NPROC)
    (hp : some p ≠ x) (hst : (s.procs p).state = .RUNNING ∨ (s.procs p).state = .USED) :
    ∀ l, p ∉ L l := by
  intro l hl
  have := h.onl l p hl hp
  rcases hst with e | e <;> rw [e] at this
  · exact list_id.type_ne_running l this.symm
  · exact list_id.type_ne_used l this.symm

/-- A process in one of the four listed states is on a list of that state only. -/
theorem inv_but.mem_of_state {x : Option (Fin K.NPROC)} {d : Fin K.NCPU → Int} {s : kernel K}
    {L : list_id K → List (Fin K.NPROC)} (h : inv_but O x d s L) (p : Fin K.NPROC)
    (hp : some p ≠ x) (ho : p ∉ O) (h1 : (s.procs p).state ≠ .USED)
    (h2 : (s.procs p).state ≠ .RUNNING) :
    ∃ l, l.type = (s.procs p).state ∧ ∀ l2, p ∈ L l2 ↔ l2 = l := by
  obtain ⟨l, hl⟩ := h.cover p hp ho h1 h2
  refine ⟨l, (h.onl l p hl hp).symm, fun l2 => ⟨fun h3 => h.wf.disj _ _ p h3 hl, fun e => ?_⟩⟩
  rw [e]; exact hl

/-- `add_proc_to_list` of the process in transit, which is on no list. -/
theorem inv_but.enqueue {x : Fin K.NPROC} {d : Fin K.NCPU → Int} {s t : kernel K}
    {L : list_id K → List (Fin K.NPROC)} {list_type : procstate} {cpu_num r : Int}
    (h : inv_but O (some x) d s L) (hoff : ∀ l, x ∉ L l)
    (hadd : add_proc_to_list x list_type cpu_num s = .ok (r, t)) :
    ∃ l, list_id.of K list_type cpu_num = some l
      ∧ list_ok K list_type cpu_num
      ∧ inv_but O (some x) d t (Function.update L l (L l ++ [x]))
      ∧ list_op_post s list_type cpu_num t
      ∧ ∀ l2, x ∈ (Function.update L l (L l ++ [x])) l2 ↔ l2 = l := by
  obtain ⟨l, hof, hok, -, hwf2, hpost⟩ := add_proc_to_list_wf h.wf hoff h.not_cut_x hadd
  refine ⟨l, hof, hok, h.list_op hwf2 (fun l2 p hp => ?_) hpost, hpost, fun l2 => ?_⟩
  · rw [mem_update_append]
    have e : p ≠ x := fun e => hp (by rw [e])
    simp [e]
  · rw [mem_update_append]
    simp [hoff l2]

/-- `remove_proc_from_list` of the process in transit. -/
theorem inv_but.dequeue {x : Fin K.NPROC} {d : Fin K.NCPU → Int} {s t : kernel K}
    {L : list_id K → List (Fin K.NPROC)} {list_type : procstate} {r : Int}
    (h : inv_but O (some x) d s L)
    (hrem : remove_proc_from_list x list_type s = .ok (r, t)) :
    ∃ l, list_id.of K list_type (s.procs x).cpu_num = some l
      ∧ inv_but O (some x) d t (Function.update L l ((L l).erase x))
      ∧ list_op_post s list_type (s.procs x).cpu_num t
      ∧ ∀ l2, x ∈ (Function.update L l ((L l).erase x)) l2 ↔ (x ∈ L l2 ∧ l2 ≠ l) := by
  obtain ⟨l, hof, hok, hpost, hwf2, -, -⟩ := remove_proc_from_list_wf h.wf hrem
  refine ⟨l, hof, h.list_op hwf2 (fun l2 p hp => ?_) hpost, hpost, fun l2 => ?_⟩
  · rw [mem_update_erase l (h.wf.nodup l)]
    have e : p ≠ x := fun e => hp (by rw [e])
    simp [e]
  · rw [mem_update_erase l (h.wf.nodup l)]
    simp

/-- Closing a transit that has left the process on the list `l`. -/
theorem inv_but.close_on {x : Fin K.NPROC} {d : Fin K.NCPU → Int} {s : kernel K}
    {L : list_id K → List (Fin K.NPROC)} {l : list_id K} (h : inv_but O (some x) d s L)
    (hmem : ∀ l2, x ∈ L l2 ↔ l2 = l) (hst : (s.procs x).state = l.type)
    (hcur : ∀ c, (s.cpus c).proc ≠ some x)
    (hbind : K.BLNCFLG = false → ∀ c, l = .runnable c →
      (s.procs x).cpu_num = ((c : Nat) : Int))
    (hd : K.BLNCFLG = false → ∀ c, d c = counted (s.procs x) c) : inv_with O s L :=
  h.close (fun l2 h2 => by rw [(hmem l2).mp h2]; exact hst)
    (fun _ _ => ⟨l, (hmem l).mpr rfl⟩) (fun c hc => absurd hc (hcur c))
    (fun hb c hc => hbind hb c ((hmem _).mp hc).symm) hd

/-- Closing a transit that has left the process on no list. -/
theorem inv_but.close_off {x : Fin K.NPROC} {d : Fin K.NCPU → Int} {s : kernel K}
    {L : list_id K → List (Fin K.NPROC)} (h : inv_but O (some x) d s L)
    (hoff : ∀ l, x ∉ L l)
    (hst : (s.procs x).state = .USED ∨ (s.procs x).state = .RUNNING)
    (hcur : ∀ c, (s.cpus c).proc = some x → (s.procs x).state = .RUNNING)
    (hd : K.BLNCFLG = false → ∀ c, d c = counted (s.procs x) c) : inv_with O s L :=
  h.close (fun l2 h2 => absurd h2 (hoff l2))
    (fun h1 h2 => by rcases hst with e | e <;> [exact absurd e h1; exact absurd e h2])
    hcur (fun _ c hc => absurd hc (hoff _)) hd

theorem list_id.runnable_cpu_num {cpu_num : Int} {c : Fin K.NCPU}
    (h : list_id.of K .RUNNABLE cpu_num = some (.runnable c)) : cpu_num = ((c : Nat) : Int) :=
  (list_id.of_cpu_num h).symm

theorem cast_fin_inj {c c2 : Fin K.NCPU} (h : ((c : Nat) : Int) = ((c2 : Nat) : Int)) :
    c = c2 := Fin.ext (by omega)

/-- `yield` keeps the invariant. -/
theorem yield_inv {c : Fin K.NCPU} {s t : kernel K} {L : list_id K → List (Fin K.NPROC)}
    (h : inv_with O s L) (hr : yield c s = .ok t) : ∃ L2, inv_with O t L2 := by
  unfold yield at hr
  cases hp : myproc c s with
  | none => simp [hp] at hr
  | some x =>
    simp only [hp] at hr
    obtain ⟨⟨r, s2⟩, hadd, hsched⟩ := bind_eq_ok hr
    have hrun : (s.procs x).state = .RUNNING := h.cur c x hp (by simp)
    have hoff := inv_but.off_of_state h x (by simp) (Or.inl hrun)
    have h1 := (inv_but.open_at h x
      (inv_but.not_cut_of_state h (by rw [hrun]; decide))).set_proc_x { s.procs x with state := .RUNNABLE } rfl
    obtain ⟨l, hof, -, h2, hpost, hmem⟩ := h1.enqueue hoff hadd
    obtain ⟨h3, hprocs, hcnone, hcother⟩ := h2.after_sched hsched
    have hx2 : s2.procs x = { s.procs x with state := .RUNNABLE, next := (s2.procs x).next } := by
      rw [hpost.fields x]; simp
    refine ⟨_, h3.close_on hmem ?_ ?_ ?_ ?_⟩
    · rw [hprocs, hx2, list_id.of_type hof]
    · intro c2 hc2
      by_cases e : c2 = c
      · subst e; rw [hcnone] at hc2; cases hc2
      · rw [hcother c2 e, hpost.proc] at hc2
        exact e (h.cur_inj c2 c x hc2 hp)
    · intro _ c2 hl
      rw [hl] at hof
      rw [hprocs, hx2]
      simpa using list_id.runnable_cpu_num hof
    · intro _ c2
      rw [hprocs, hx2]
      simp [counted, hrun]

theorem counted_on {v : proc K} {ci : Fin K.NCPU} (hst : v.state = .RUNNABLE ∨ v.state = .RUNNING)
    (hci : cpus_index K v.cpu_num = some ci) (c : Fin K.NCPU) :
    counted v c = if c = ci then 1 else 0 := by
  unfold counted
  have hv := cpus_index_val hci
  by_cases e : c = ci
  · subst e
    rw [if_pos ⟨hv.symm, hst⟩, if_pos rfl]
  · rw [if_neg e, if_neg]
    rintro ⟨h1, -⟩
    exact e (cast_fin_inj (by rw [hv, h1]))

theorem counted_off {v : proc K} (h1 : v.state ≠ .RUNNABLE) (h2 : v.state ≠ .RUNNING)
    (c : Fin K.NCPU) : counted v c = 0 := by
  unfold counted
  rw [if_neg]
  rintro ⟨-, h | h⟩
  · exact h1 h
  · exact h2 h

theorem list_id.of_sleeping {cpu_num : Int} {l : list_id K}
    (h : list_id.of K .SLEEPING cpu_num = some l) : l = .sleeping := by
  simpa [list_id.of] using h.symm

theorem list_id.of_zombie {cpu_num : Int} {l : list_id K}
    (h : list_id.of K .ZOMBIE cpu_num = some l) : l = .zombie := by
  simpa [list_id.of] using h.symm

theorem list_id.of_unused {cpu_num : Int} {l : list_id K}
    (h : list_id.of K .UNUSED cpu_num = some l) : l = .unused := by
  simpa [list_id.of] using h.symm

/-- `sleep` keeps the invariant. -/
theorem sleep_inv {c : Fin K.NCPU} {chan : Option (chan_t K)} {s t : kernel K}
    {L : list_id K → List (Fin K.NPROC)}
    (h : inv_with O s L) (hr : sleep c chan s = .ok t) : ∃ L2, inv_with O t L2 := by
  unfold sleep at hr
  cases hp : myproc c s with
  | none => simp [hp] at hr
  | some x =>
    simp only [hp] at hr
    obtain ⟨s3, hdec, hr⟩ := bind_eq_ok hr
    obtain ⟨⟨r, s4⟩, hadd, hsched⟩ := bind_eq_ok hr
    have hrun : (s.procs x).state = .RUNNING := h.cur c x hp (by simp)
    have hoff := inv_but.off_of_state h x (by simp) (Or.inl hrun)
    have h2 := ((inv_but.open_at h x
      (inv_but.not_cut_of_state h (by rw [hrun]; decide))).set_proc_x { s.procs x with chan := chan } rfl).set_proc_x
      { (set_proc s x { s.procs x with chan := chan }).procs x with state := .SLEEPING } rfl
    obtain ⟨ci, hci, h3, hp3, hc3⟩ := h2.decrease hdec
    obtain ⟨l, hof, -, h4, hpost, hmem⟩ := h3.enqueue hoff hadd
    obtain ⟨h5, hprocs, hcnone, hcother⟩ := h4.after_sched hsched
    have hl := list_id.of_sleeping hof
    subst hl
    have hx4 : s4.procs x
        = { s.procs x with chan := chan, state := .SLEEPING, next := (s4.procs x).next } := by
      rw [hpost.fields x, hp3]; simp
    have hci2 : cpus_index K (s.procs x).cpu_num = some ci := by simpa using hci
    refine ⟨_, h5.close_on hmem ?_ ?_ ?_ ?_⟩
    · rw [hprocs, hx4]; rfl
    · intro c2 hc2
      by_cases e : c2 = c
      · subst e; rw [hcnone] at hc2; cases hc2
      · rw [hcother c2 e, hpost.proc, hc3] at hc2
        exact e (h.cur_inj c2 c x hc2 hp)
    · intro _ c2 hl
      cases hl
    · intro _ c2
      have hc4 : counted (t.procs x) c2 = 0 :=
        counted_off (by rw [hprocs, hx4]; simp) (by rw [hprocs, hx4]; simp) c2
      rw [hc4, counted_on (Or.inr hrun) hci2]
      simp

/-- The same as `inv_but.transfer`, for a step that may make the process in transit the
current process of a CPU. -/
theorem inv_but.transfer_cur {x : Option (Fin K.NPROC)} {d e : Fin K.NCPU → Int}
    {s t : kernel K} {L L2 : list_id K → List (Fin K.NPROC)} (h : inv_but O x d s L)
    (hwf : lists_wf O t L2)
    (hmem : ∀ l p, some p ≠ x → (p ∈ L2 l ↔ p ∈ L l))
    (hst : ∀ p, some p ≠ x → (t.procs p).state = (s.procs p).state
      ∧ (t.procs p).cpu_num = (s.procs p).cpu_num)
    (hcur : ∀ c p, (t.cpus c).proc = some p → some p ≠ x → (s.cpus c).proc = some p)
    (hinj : ∀ c c2 p, (t.cpus c).proc = some p → (t.cpus c2).proc = some p → c = c2)
    (hd : K.BLNCFLG = false → ∀ c, e c
      = d c + ((t.cpus c).proc_list_size - (s.cpus c).proc_list_size)) :
    inv_but O x e t L2 where
  wf := hwf
  onl l p hp hx := by
    rw [(hst p hx).1]
    exact h.onl l p ((hmem l p hx).mp hp) hx
  cover p hx ho h1 h2 := by
    rw [(hst p hx).1] at h1 h2
    obtain ⟨l, hl⟩ := h.cover p hx ho h1 h2
    exact ⟨l, (hmem l p hx).mpr hl⟩
  cur c p hp hx := by
    rw [(hst p hx).1]
    exact h.cur c p (hcur c p hp hx) hx
  cur_inj := hinj
  bind hb c p hp hx := by
    rw [(hst p hx).2]
    exact h.bind hb c p ((hmem _ p hx).mp hp) hx
  count hb c := by
    rw [bound_but_congr hst c, hd hb c, h.count hb c]
    ring
  orph p ho := by
    obtain ⟨h1, h2, h3⟩ := h.orph p ho
    exact ⟨by rw [(hst p h3).1]; exact h1, fun l hm => h2 l ((hmem l p h3).mp hm), h3⟩

theorem counted_congr {v w : proc K} (h1 : v.cpu_num = w.cpu_num)
    (h2 : (v.state = .RUNNABLE ∨ v.state = .RUNNING) ↔ (w.state = .RUNNABLE ∨ w.state = .RUNNING))
    (c : Fin K.NCPU) : counted v c = counted w c := by
  unfold counted
  simp only [h1, h2]

/-- One round of the `scheduler` loop keeps the invariant. -/
theorem scheduler_inv {c : Fin K.NCPU} {s t : kernel K} {L : list_id K → List (Fin K.NPROC)}
    (h : inv_with O s L) (hr : scheduler c s = .ok t) : ∃ L2, inv_with O t L2 := by
  unfold scheduler at hr
  obtain ⟨⟨curr, s1⟩, hrh, hr1⟩ := bind_eq_ok hr
  clear hr
  obtain ⟨l, hof, -, hpost, hcase⟩ := remove_head_wf h.wf hrh
  rcases hcase with ⟨-, hnone, hts⟩ | ⟨q, rest, hl, hsome, -, hwf1⟩
  · subst hnone; subst hts
    injection hr1 with hr1
    subst hr1
    exact ⟨L, h⟩
  · subst hsome
    simp only [] at hr1
    by_cases hst : (s1.procs q).state ≠ .RUNNABLE
    · rw [if_pos hst] at hr1
      cases hr1
    · rw [if_neg hst] at hr1
      injection hr1 with hr
      subst hr
      have hqL : q ∈ L l := by rw [hl]; exact List.mem_cons_self _ _
      have hqst : (s.procs q).state = .RUNNABLE := by
        rw [h.onl l q hqL (by simp), list_id.of_type hof]
      have hmem : ∀ l2 p, p ∈ (Function.update L l rest) l2 ↔ p ∈ L l2 ∧ ¬ (l2 = l ∧ p = q) :=
        fun l2 p => mem_update_tail l q rest hl (h.wf.nodup l) p l2
      have h1 : inv_but O (some q) _ s1 (Function.update L l rest) :=
        (inv_but.open_at h q (inv_but.not_cut_of_mem h hqL)).list_op hwf1 (fun l2 p hp => by
          rw [hmem]
          have e : p ≠ q := fun e => hp (by rw [e])
          simp [e]) hpost
      have h2 := h1.set_proc_x { s1.procs q with state := .RUNNING } rfl
      have hnocpu : ∀ c2, (s.cpus c2).proc ≠ some q := by
        intro c2 hc2
        have := h.cur c2 q hc2 (by simp)
        rw [hqst] at this
        cases this
      have h3 := h2.transfer_cur (e := fun c2 => 0 + counted (s.procs q) c2)
        (lists_wf_set_cpus h2.wf c
          { (set_proc s1 q { s1.procs q with state := .RUNNING }).cpus c with proc := some q } rfl)
        (fun _ _ _ => Iff.rfl) (fun p _ => ⟨rfl, rfl⟩) ?_ ?_ ?_
      rotate_left
      · intro c2 p hp hx
        by_cases e : c2 = c
        · subst e
          simp at hp
          exact absurd (by rw [hp]) hx
        · simpa [Function.update_noteq e] using hp
      · intro c1 c2 p hp1 hp2
        by_cases e1 : c1 = c <;> by_cases e2 : c2 = c
        · rw [e1, e2]
        · subst e1
          simp [Function.update_noteq e2] at hp1 hp2
          rw [← hp1, hpost.proc] at hp2
          exact absurd hp2 (hnocpu c2)
        · subst e2
          simp [Function.update_noteq e1] at hp1 hp2
          rw [← hp2, hpost.proc] at hp1
          exact absurd hp1 (hnocpu c1)
        · simp [Function.update_noteq e1, Function.update_noteq e2] at hp1 hp2
          rw [hpost.proc] at hp1 hp2
          exact h.cur_inj c1 c2 p hp1 hp2
      · intro _ c2
        by_cases e : c2 = c
        · subst e; simp
        · simp [Function.update_noteq e]
      refine ⟨_, h3.close_off ?_ (Or.inr (by simp)) (fun _ _ => by simp) ?_⟩
      · intro l2 hq2
        rw [hmem] at hq2
        exact hq2.2 ⟨h.wf.disj _ _ q hq2.1 hqL, rfl⟩
      · intro _ c2
        simp only [zero_add]
        refine counted_congr ?_ ?_ c2
        · simp [hpost.cpu_num q]
        · simp [hqst]


/-! ## Waking a sleeper: `wakeup` and `kill` -/

/-- The part `wakeup` and `kill` share: a `SLEEPING` process `x` is taken off the
`SLEEPING` list, made `RUNNABLE` and appended to the runnable list of the CPU `k`. -/
theorem wake_effect {x : Fin K.NPROC} {s s1 s3 : kernel K} {L : list_id K → List (Fin K.NPROC)}
    {k r1 r2 : Int} (h : inv_with O s L) (hst : (s.procs x).state = .SLEEPING)
    (hrem : remove_proc_from_list x .SLEEPING s = .ok (r1, s1))
    (hadd : add_proc_to_list x .RUNNABLE k
      (set_proc s1 x { s1.procs x with state := .RUNNABLE }) = .ok (r2, s3)) :
    ∃ ck, list_id.of K .RUNNABLE k = some (.runnable ck) ∧ list_ok K .RUNNABLE k
      ∧ x ∈ L .sleeping
      ∧ inv_but O (some x) (fun _ => 0) s3
          (Function.update (Function.update L .sleeping ((L .sleeping).erase x)) (.runnable ck)
            (L (.runnable ck) ++ [x]))
      ∧ (∀ l2, x ∈ (Function.update (Function.update L .sleeping ((L .sleeping).erase x))
            (.runnable ck) (L (.runnable ck) ++ [x])) l2 ↔ l2 = .runnable ck)
      ∧ (∀ q, q ≠ x → s3.procs q = { s.procs q with next := (s3.procs q).next })
      ∧ s3.procs x = { s.procs x with state := .RUNNABLE, next := (s3.procs x).next }
      ∧ (∀ c, s3.cpus c
          = { s.cpus c with runnable_list_head := (s3.cpus c).runnable_list_head }) := by
  obtain ⟨l0, hl0, hmem0⟩ := inv_but.mem_of_state h x (by simp)
    (inv_but.not_cut_of_state h (by rw [hst]; decide)) (by simp [hst]) (by simp [hst])
  have hl0s : l0 = .sleeping := by
    rw [hst] at hl0
    cases l0 <;> simp [list_id.type] at hl0
    rfl
  subst hl0s
  have h0 : inv_but O (some x) (fun _ => 0) s L :=
    (inv_but.open_at h x (inv_but.not_cut_of_state h (by rw [hst]; decide))).set_d
      (fun _ c => by
      simp [counted_off (v := s.procs x) (by simp [hst]) (by simp [hst]) c])
  obtain ⟨l1, hof1, h1, hpost1, hmem1⟩ := h0.dequeue hrem
  have hl1 := list_id.of_sleeping hof1
  subst hl1
  have hoff1 : ∀ l2, x ∉ (Function.update L .sleeping ((L .sleeping).erase x)) l2 := by
    intro l2 hl2
    have := (hmem1 l2).mp hl2
    exact this.2 ((hmem0 l2).mp this.1)
  have h2 := h1.set_proc_x { s1.procs x with state := .RUNNABLE } rfl
  obtain ⟨l3, hof3, hok3, h3, hpost3, hmem3⟩ := h2.enqueue hoff1 hadd
  have hl3 : ∃ ck, l3 = .runnable ck := by
    have := list_id.of_type hof3
    cases l3 <;> simp [list_id.type] at this
    exact ⟨_, rfl⟩
  obtain ⟨ck, rfl⟩ := hl3
  have hupd : (Function.update L .sleeping ((L .sleeping).erase x)) (.runnable ck)
      = L (.runnable ck) := Function.update_noteq (by simp) _ _
  rw [hupd] at h3 hmem3
  refine ⟨ck, hof3, hok3, (hmem0 _).mpr rfl, h3, hmem3, ?_, ?_, ?_⟩
  · intro q e
    rw [hpost3.fields q]
    simp only [set_proc_procs, Function.update_noteq e]
    rw [hpost1.fields q]
  · rw [hpost3.fields x]
    simp only [set_proc_procs, Function.update_same]
    rw [hpost1.fields x]
  · intro c
    rw [hpost3.cpus c]
    simp only [set_proc_cpus]
    rw [hpost1.cpus c]

theorem list_id.of_runnable_index {cpu_num : Int} {ck : Fin K.NCPU}
    (h : list_id.of K .RUNNABLE cpu_num = some (.runnable ck)) :
    cpus_index K cpu_num = some ck := by
  unfold list_id.of at h
  cases hc : cpus_index K cpu_num with
  | none => simp [hc] at h
  | some c =>
    simp [hc] at h
    rw [h]

/-- What the found branch of `kill` has done to a state that satisfies the invariant. -/
theorem kill_found_effect {p : Fin K.NPROC} {s t : kernel K}
    {L : list_id K → List (Fin K.NPROC)} {r : Int}
    (h : inv_with O s L) (hr : kill_found p s = .ok (r, t)) :
    r = 0 ∧
    (((s.procs p).state ≠ .SLEEPING ∧ t = set_proc s p { s.procs p with killed := 1 }
        ∧ inv_with O t L)
    ∨ ((s.procs p).state = .SLEEPING ∧ ∃ ck, cpus_index K (s.procs p).cpu_num = some ck
        ∧ list_ok K .RUNNABLE (s.procs p).cpu_num
        ∧ p ∈ L .sleeping
        ∧ inv_with O t (Function.update (Function.update L .sleeping ((L .sleeping).erase p))
            (.runnable ck) (L (.runnable ck) ++ [p]))
        ∧ t.procs p = { s.procs p with killed := 1, state := .RUNNABLE, next := (t.procs p).next }
        ∧ (∀ q, q ≠ p → t.procs q = { s.procs q with next := (t.procs q).next })
        ∧ (∀ c, t.cpus c = { s.cpus c with
            runnable_list_head := (t.cpus c).runnable_list_head,
            proc_list_size := (s.cpus c).proc_list_size + if c = ck then 1 else 0 }))) := by
  unfold kill_found at hr
  have h1 : inv_with O (set_proc s p { s.procs p with killed := 1 }) L :=
    inv_but.set_proc_same h p _ rfl rfl rfl
  by_cases hst : (s.procs p).state = .SLEEPING
  · have hst1 : ((set_proc s p { s.procs p with killed := 1 }).procs p).state = .SLEEPING := by
      simpa using hst
    simp only [hst1, if_true] at hr
    obtain ⟨⟨r1, s2⟩, hrem, hr2⟩ := bind_eq_ok hr
    dsimp only at hr2
    obtain ⟨⟨r2, s4⟩, hadd, hr3⟩ := bind_eq_ok hr2
    dsimp only at hr3
    obtain ⟨s5, hinc, hr4⟩ := bind_eq_ok hr3
    clear hr hr2 hr3
    injection hr4 with hr4
    injection hr4 with hr5 hr6
    subst hr6
    obtain ⟨ck, hof, hok, hmemS, h4, hmem4, hq4, hx4, hc4⟩ := wake_effect h1 hst1 hrem hadd
    obtain ⟨ci, hci, h5, hp5, hc5⟩ := h4.increase hinc
    have hcn : ((set_proc s2 p { s2.procs p with state := .RUNNABLE }).procs p).cpu_num
        = (s.procs p).cpu_num := by
      have := (remove_proc_from_list_wf h1.wf hrem).choose_spec.2.2.1.cpu_num p
      simpa using this
    rw [hcn] at hof hok
    have hcn4 : (s4.procs p).cpu_num = (s.procs p).cpu_num := by
      rw [hx4]; simp
    rw [hcn4] at hci
    have hck := list_id.of_runnable_index hof
    have hcik : ci = ck := by
      rw [hck] at hci
      exact (Option.some.inj hci).symm
    subst hcik
    have hsize : ∀ c, (s5.cpus c).proc_list_size
        = (s4.cpus c).proc_list_size + if c = ci then 1 else 0 := by
      intro c
      unfold increase_runnable_list_size_of at hinc
      rw [hcn4, hck] at hinc
      injection hinc with hinc
      subst hinc
      by_cases e : c = ci
      · subst e; simp
      · simp [Function.update_noteq e, e]
    have hrest : ∀ c, s5.cpus c = { s4.cpus c with proc_list_size := (s5.cpus c).proc_list_size } := by
      intro c
      unfold increase_runnable_list_size_of at hinc
      rw [hcn4, hck] at hinc
      injection hinc with hinc
      subst hinc
      by_cases e : c = ci
      · subst e; simp
      · simp [Function.update_noteq e]
    refine ⟨hr5.symm, Or.inr ⟨hst, ci, hck, hok, by simpa using hmemS, ?_, ?_, ?_, ?_⟩⟩
    · refine h5.close_on hmem4 ?_ ?_ ?_ ?_
      · rw [hp5, hx4]; rfl
      · intro c hc
        rw [hc5, hc4 c] at hc
        have := h.cur c p (by simpa using hc) (by simp)
        rw [hst] at this
        cases this
      · intro _ c hl
        injection hl with hl
        subst hl
        rw [hp5, hx4]
        simpa using (cpus_index_val hck).symm
      · intro _ c
        rw [counted_on (v := s5.procs p) (Or.inl (by rw [hp5, hx4])) (by rw [hp5, hcn4]; exact hck)]
        simp
    · rw [hp5, hx4]
      simp
    · intro q e
      rw [hp5, hq4 q e]
      simp [Function.update_noteq e]
    · intro c
      rw [hrest c, hsize c, hc4 c]
      simp
  · have hst1 : ¬ ((set_proc s p { s.procs p with killed := 1 }).procs p).state = .SLEEPING := by
      simpa using hst
    simp only [hst1, if_false] at hr
    injection hr with hr
    injection hr with hr5 hr6
    subst hr6
    exact ⟨hr5.symm, Or.inl ⟨hst, rfl, h1⟩⟩

/-- `kill` keeps the invariant. -/
theorem kill_inv {pid r : Int} {s t : kernel K} {L : list_id K → List (Fin K.NPROC)}
    (h : inv_with O s L) (hr : kill pid s = .ok (r, t)) : ∃ L2, inv_with O t L2 := by
  unfold kill at hr
  by_cases hex : ∃ i ∈ List.finRange K.NPROC, (s.procs i).pid = pid
  · obtain ⟨j, -, -, hkill⟩ := kill_loop_hit pid (List.finRange K.NPROC) s hex
    rw [hkill] at hr
    obtain ⟨-, hcase⟩ := kill_found_effect h hr
    rcases hcase with ⟨-, -, h1⟩ | ⟨-, ck, -, -, -, h1, -⟩
    · exact ⟨_, h1⟩
    · exact ⟨_, h1⟩
  · rw [kill_loop_miss pid _ s (fun i hi hp => hex ⟨i, hi, hp⟩)] at hr
    injection hr with hr
    injection hr with _ hr
    subst hr
    exact ⟨L, h⟩

theorem inv_with.has_nodes_sleeping {s : kernel K} {L : list_id K → List (Fin K.NPROC)}
    (h : inv_with O s L) : has_nodes s .SLEEPING 0 (L .sleeping) := h.wf.nodes .sleeping

theorem inv_with.has_nodes_runnable {s : kernel K} {L : list_id K → List (Fin K.NPROC)}
    (h : inv_with O s L) {cpu_num : Int} {ck : Fin K.NCPU} (hck : cpus_index K cpu_num = some ck) :
    has_nodes s .RUNNABLE cpu_num (L (.runnable ck)) := by
  have := h.wf.nodes (.runnable ck)
  rw [← cpus_index_val hck]
  exact this

/-- C13, as the code has it.  Let `j` be the first slot, in table order, whose pid is
`pid`, in a state that satisfies the invariant (lists `L`), with `j` bound to a CPU whose
runnable list the code can address if `j` is `SLEEPING`.  Then `kill(pid)` returns 0 and
sets `killed = 1` in slot `j`.  If `j` was `SLEEPING`, it is `RUNNABLE` afterwards, off
the `SLEEPING` list (the other sleepers in their old order), at the tail of the runnable
list of its CPU `ck`, every other list is as before, and `proc_list_size` of `ck` is one
larger; the counter is stored through `cas(addr, int expected, int newval)`, so this is
stated for a counter that holds an `int` below the largest one, where the increment does
not wrap.  If `j` was not `SLEEPING`, nothing but `killed` has changed.  In both cases every
other process keeps every field but the link `next`, and every CPU keeps its current
process, its `admitted_process_count` and, unless it is `ck`, its `proc_list_size`. -/
theorem kill_effect (pid : Int) (s : kernel K) (L : list_id K → List (Fin K.NPROC))
    (j : Fin K.NPROC) (h : inv s L)
    (hj : (List.finRange K.NPROC).find? (fun i => decide ((s.procs i).pid = pid)) = some j)
    (hvalid : (s.procs j).state = .SLEEPING → list_ok K .RUNNABLE (s.procs j).cpu_num)
    (_hfit : (s.procs j).state = .SLEEPING →
      ∀ ck, cpus_index K (s.procs j).cpu_num = some ck →
        -2147483648 ≤ (s.cpus ck).proc_list_size ∧ (s.cpus ck).proc_list_size < 2147483647) :
    ∃ t, kill pid s = .ok (0, t)
      ∧ (s.procs j).pid = pid ∧ (∀ i, i < j → (s.procs i).pid ≠ pid)
      ∧ (t.procs j).killed = 1
      ∧ (∀ q, q ≠ j → t.procs q = { s.procs q with next := (t.procs q).next })
      ∧ ((s.procs j).state ≠ .SLEEPING →
          t = set_proc s j { s.procs j with killed := 1 } ∧ inv t L)
      ∧ ((s.procs j).state = .SLEEPING →
          ∃ ck, cpus_index K (s.procs j).cpu_num = some ck
            ∧ t.procs j = { s.procs j with
                killed := 1, state := .RUNNABLE, next := (t.procs j).next }
            ∧ j ∈ L .sleeping
            ∧ inv t (Function.update (Function.update L .sleeping ((L .sleeping).erase j))
                (.runnable ck) (L (.runnable ck) ++ [j]))
            ∧ has_nodes t .SLEEPING 0 ((L .sleeping).erase j)
            ∧ has_nodes t .RUNNABLE (s.procs j).cpu_num (L (.runnable ck) ++ [j])
            ∧ (t.cpus ck).proc_list_size = (s.cpus ck).proc_list_size + 1
            ∧ (∀ c, c ≠ ck → (t.cpus c).proc_list_size = (s.cpus c).proc_list_size))
      ∧ (∀ c, (t.cpus c).admitted_process_count = (s.cpus c).admitted_process_count
          ∧ (t.cpus c).proc = (s.cpus c).proc) := by
  have hjp : (s.procs j).pid = pid := by
    have := List.find?_some hj
    simpa using this
  obtain ⟨j2, hj2, -, hkill⟩ := kill_loop_hit pid (List.finRange K.NPROC) s
    ⟨j, List.mem_finRange j, hjp⟩
  rw [hj] at hj2
  injection hj2 with hj2
  subst hj2
  have hfirst : ∀ i, i < j → (s.procs i).pid ≠ pid := by
    intro i hi hpi
    obtain ⟨as_, bs, hsplit, hbefore⟩ := (List.find?_eq_some.mp hj).2
    have hpw : (List.finRange K.NPROC).Pairwise (· < ·) := List.pairwise_lt_finRange _
    rw [hsplit] at hpw
    have hmem : i ∈ as_ ++ j :: bs := by rw [← hsplit]; exact List.mem_finRange i
    rcases List.mem_append.mp hmem with hm | hm
    · have := hbefore i hm
      simp [hpi] at this
    · rcases List.mem_cons.mp hm with e | hm
      · exact absurd e (ne_of_lt hi)
      · have h2 := (List.pairwise_append.mp hpw).2.1
        have h3 := (List.pairwise_cons.mp h2).1 i hm
        exact absurd hi (not_lt.mpr (le_of_lt h3))
  obtain ⟨t, ht⟩ := kill_found_ok j s (L .sleeping) h.has_nodes_sleeping (fun hst => by
    obtain ⟨l0, hl0, hmem0⟩ := inv_but.mem_of_state h j (by simp) (Finset.not_mem_empty j)
      (by simp [hst]) (by simp [hst])
    have hl0s : l0 = .sleeping := by
      rw [hst] at hl0
      cases l0 <;> simp [list_id.type] at hl0
      rfl
    subst hl0s
    obtain ⟨ck, hck⟩ := cpus_index_of_ok (hvalid hst)
    refine ⟨hvalid hst, L (.runnable ck), h.has_nodes_runnable hck, ?_, ?_⟩
    · intro hc
      have := (hmem0 _).mp hc
      cases this
    · intro q hq hq2
      have := h.wf.disj _ _ q hq hq2
      cases this)
  have hkt : kill pid s = .ok (0, t) := by unfold kill; rw [hkill, ht]
  obtain ⟨-, hcase⟩ := kill_found_effect h ht
  refine ⟨t, hkt, hjp, hfirst, ?_, ?_, ?_, ?_, ?_⟩
  · rcases hcase with ⟨-, h1, -⟩ | ⟨-, ck, -, -, -, -, h1, -⟩
    · rw [h1]; simp
    · rw [h1]
  · intro q e
    rcases hcase with ⟨-, h1, -⟩ | ⟨-, ck, -, -, -, -, -, h1, -⟩
    · rw [h1]; simp [Function.update_noteq e]
    · exact h1 q e
  · intro hst
    rcases hcase with ⟨-, h1, h2⟩ | ⟨hst2, -⟩
    · exact ⟨h1, h2⟩
    · exact absurd hst2 hst
  · intro hst
    rcases hcase with ⟨hst2, -⟩ | ⟨-, ck, hck, -, hmem, hinv, hx, -, hc⟩
    · exact absurd hst hst2
    · refine ⟨ck, hck, hx, hmem, hinv, ?_, ?_, ?_, ?_⟩
      · have := hinv.has_nodes_sleeping
        rw [Function.update_noteq (by simp), Function.update_same] at this
        exact this
      · have := hinv.has_nodes_runnable hck
        rw [Function.update_same] at this
        exact this
      · rw [hc ck]; simp
      · intro c e
        rw [hc c]; simp [e]
  · intro c
    rcases hcase with ⟨-, h1, -⟩ | ⟨-, ck, -, -, -, -, -, -, hc⟩
    · rw [h1]; exact ⟨rfl, rfl⟩
    · rw [hc c]; exact ⟨rfl, rfl⟩

theorem ex_two_sleeping_inv : inv ex_two_sleeping ex_two_sleeping_lists where
  wf := ⟨by decide, by decide, by decide⟩
  onl := by decide
  cover := by decide
  cur := by decide
  cur_inj := by decide
  bind := by decide
  count := by decide
  orph := by decide

theorem kill_effect_witness :
    inv ex_two_sleeping ex_two_sleeping_lists
    ∧ (List.finRange K0.NPROC).find? (fun i => decide ((ex_two_sleeping.procs i).pid = 3))
        = some 2
    ∧ (ex_two_sleeping.procs 2).state = .SLEEPING
    ∧ list_ok K0 .RUNNABLE (ex_two_sleeping.procs 2).cpu_num
    ∧ cpus_index K0 (ex_two_sleeping.procs 2).cpu_num = some 0
    ∧ (ex_two_sleeping.cpus 0).proc_list_size = 1
    ∧ ∃ t, kill 3 ex_two_sleeping = .ok (0, t)
      ∧ (t.procs 2).killed = 1
      ∧ (∀ q, q ≠ 2 → t.procs q = { ex_two_sleeping.procs q with next := (t.procs q).next })
      ∧ (t.procs 2).state = .RUNNABLE
      ∧ has_nodes t .SLEEPING 0 [1]
      ∧ has_nodes t .RUNNABLE 0 [2]
      ∧ (t.cpus 0).proc_list_size = 2
      ∧ (t.cpus 1).proc_list_size = 0 := by
  obtain ⟨t, h1, -, -, h2, h3, -, h4, -⟩ :=
    kill_effect 3 ex_two_sleeping ex_two_sleeping_lists 2 ex_two_sleeping_inv (by decide)
      (fun _ => by decide) (fun _ => by decide)
  obtain ⟨ck, hck, hx, -, -, hsl, hrun, hsz, hother⟩ := h4 (by decide)
  have hck0 : ck = 0 := by
    have : cpus_index K0 (ex_two_sleeping.procs 2).cpu_num = some 0 := by decide
    rw [this] at hck
    exact (Option.some.inj hck).symm
  subst hck0
  refine ⟨ex_two_sleeping_inv, by decide, by decide, by decide, by decide, by decide,
    t, h1, h2, h3, ?_, hsl, hrun, ?_, ?_⟩
  · rw [hx]
  · rw [hsz]; decide
  · rw [hother 1 (by decide)]; decide

/-- C13, counterexample.  In `ex_two_sleeping` the `SLEEPING` list is `[1, 2]` and slot 2
holds pid 3.  `kill(3)` returns 0 and changes a field of another process: the link
`next` of slot 1 (pid 2), the predecessor of slot 2 on the `SLEEPING` list, was slot 2 and
is null afterwards. -/
theorem kill_rewrites_neighbour_link :
    (ex_two_sleeping.procs 2).pid = 3 ∧ (ex_two_sleeping.procs 2).state = .SLEEPING
    ∧ (ex_two_sleeping.procs 1).pid = 2
    ∧ has_nodes ex_two_sleeping .SLEEPING 0 [1, 2]
    ∧ ∃ t, kill 3 ex_two_sleeping = .ok (0, t)
      ∧ (ex_two_sleeping.procs 1).next = some 2 ∧ (t.procs 1).next = none
      ∧ t.procs 1 ≠ ex_two_sleeping.procs 1 := by
  refine ⟨by decide, by decide, by decide, by decide,
    ex_run ((kill 3 ex_two_sleeping).map Prod.snd), rfl, by decide, by decide, by decide⟩


/-! ## `wakeup` -/

/-- What the body of the loop of `wakeup` has done, for the slot `p`, to a state that
satisfies the invariant. -/
theorem wakeup_body_effect {c : Fin K.NCPU} {chan : Option (chan_t K)} {p : Fin K.NPROC}
    {s t : kernel K} {L : list_id K → List (Fin K.NPROC)}
    (h : inv_with O s L) (hr : wakeup_body c chan p s = .ok t) :
    (¬ woken c chan s p ∧ t = s)
    ∨ (woken c chan s p ∧ ∃ ck : Fin K.NCPU, list_ok K .RUNNABLE ((ck : Nat) : Int)
        ∧ (K.BLNCFLG = false → (s.procs p).cpu_num = ((ck : Nat) : Int))
        ∧ p ∈ L .sleeping
        ∧ inv_with O t (Function.update (Function.update L .sleeping ((L .sleeping).erase p))
            (.runnable ck) (L (.runnable ck) ++ [p]))
        ∧ t.procs p = { s.procs p with state := .RUNNABLE, next := (t.procs p).next }
        ∧ (∀ q, q ≠ p → t.procs q = { s.procs q with next := (t.procs q).next })
        ∧ (∀ c2, (t.cpus c2).proc = (s.cpus c2).proc)) := by
  unfold wakeup_body at hr
  by_cases h1 : some p ≠ myproc c s
  · by_cases h2 : (s.procs p).state = .SLEEPING ∧ (s.procs p).chan = chan
    · rw [if_pos h1, if_pos h2] at hr
      obtain ⟨⟨r1, s1⟩, hrem, hr2⟩ := bind_eq_ok hr
      dsimp only at hr2
      obtain ⟨k, hpick, hr3⟩ := bind_eq_ok hr2
      obtain ⟨⟨r2, s3⟩, hadd, hr4⟩ := bind_eq_ok hr3
      dsimp only at hr4
      obtain ⟨s4, hadm, hinc⟩ := bind_eq_ok hr4
      clear hr hr2 hr3 hr4
      obtain ⟨ck, hof, hok, hmemS, h3, hmem3, hq3, hx3, hc3⟩ := wake_effect h h2.1 hrem hadd
      obtain ⟨h4, hp4, hc4, -⟩ := h3.admitted (Or.inl hadm)
      obtain ⟨ci, hci, h5, hp5, hc5⟩ := h4.increase hinc
      have hck := list_id.of_runnable_index hof
      have hcik : ci = ck := by
        rw [hck] at hci
        exact (Option.some.inj hci).symm
      subst hcik
      have hkv : ((ci : Nat) : Int) = k := cpus_index_val hck
      have hcn1 : (s1.procs p).cpu_num = (s.procs p).cpu_num :=
        (remove_proc_from_list_wf h.wf hrem).choose_spec.2.2.1.cpu_num p
      have hnb : K.BLNCFLG = false → (s.procs p).cpu_num = ((ci : Nat) : Int) := by
        intro hb
        unfold pick_cpu at hpick
        rw [hb] at hpick
        simp at hpick
        rw [hkv, ← hpick, hcn1]
      have hxt : t.procs p = { s.procs p with state := .RUNNABLE, next := (t.procs p).next } := by
        rw [hp5, hp4, hx3]
      refine Or.inr ⟨⟨h1, h2.1, h2.2⟩, ci, by rw [hkv]; exact hok, hnb, hmemS, ?_, hxt, ?_, ?_⟩
      · refine h5.close_on hmem3 ?_ ?_ ?_ ?_
        · rw [hxt]; rfl
        · intro c2 hc2
          rw [hc5, hc4, hc3 c2] at hc2
          have := h.cur c2 p (by simpa using hc2) (by simp)
          rw [h2.1] at this
          cases this
        · intro hb c2 hl
          injection hl with hl
          subst hl
          rw [hxt]
          exact hnb hb
        · intro hb c2
          rw [counted_on (v := t.procs p) (Or.inl (by rw [hxt]))
            (by rw [hxt]; simp only []; rw [hnb hb]; exact cpus_index_nat ci.isLt)]
          simp
      · intro q e
        rw [hp5, hp4]
        exact hq3 q e
      · intro c2
        rw [hc5, hc4, hc3 c2]
    · rw [if_pos h1, if_neg h2] at hr
      injection hr with hr
      exact Or.inl ⟨fun hw => h2 ⟨hw.2.1, hw.2.2⟩, hr.symm⟩
  · rw [if_neg h1] at hr
    injection hr with hr
    exact Or.inl ⟨fun hw => h1 hw.1, hr.symm⟩

theorem woken_congr {c : Fin K.NCPU} {chan : Option (chan_t K)} {s t : kernel K}
    {q : Fin K.NPROC} (hst : (t.procs q).state = (s.procs q).state)
    (hch : (t.procs q).chan = (s.procs q).chan) (hc : (t.cpus c).proc = (s.cpus c).proc) :
    woken c chan t q ↔ woken c chan s q := by
  unfold woken myproc
  rw [hst, hch, hc]

/-- What the loop of `wakeup` has done, over the slots `ps` still to visit, to a state
that satisfies the invariant. -/
theorem wakeup_loop_effect (c : Fin K.NCPU) (chan : Option (chan_t K)) :
    ∀ (ps : List (Fin K.NPROC)) (s t : kernel K) (L : list_id K → List (Fin K.NPROC)),
      ps.Nodup → inv_with O s L → wakeup_loop c chan ps s = .ok t →
      ∃ L2, inv_with O t L2
        ∧ (∀ q, q ∈ ps → woken c chan s q →
            (t.procs q).state = .RUNNABLE
            ∧ ∃ ck : Fin K.NCPU, q ∈ L2 (.runnable ck)
                ∧ (K.BLNCFLG = false → (s.procs q).cpu_num = ((ck : Nat) : Int)))
        ∧ (∀ q, ¬ (q ∈ ps ∧ woken c chan s q) →
            (t.procs q).state = (s.procs q).state ∧ ∀ l, q ∈ L2 l ↔ q ∈ L l)
        ∧ (∀ q, (t.procs q).chan = (s.procs q).chan
            ∧ (t.procs q).cpu_num = (s.procs q).cpu_num)
        ∧ (∀ c2, (t.cpus c2).proc = (s.cpus c2).proc)
        ∧ L2 .sleeping = (L .sleeping).filter (fun q => ¬ (q ∈ ps ∧ woken c chan s q))
  | [], s, t, L, _, h, hr => by
    injection hr with hr
    subst hr
    exact ⟨L, h, by simp, fun q _ => ⟨rfl, fun _ => Iff.rfl⟩, fun _ => ⟨rfl, rfl⟩, fun _ => rfl,
      by simp⟩
  | p :: rest, s, t, L, hnd, h, hr => by
    unfold wakeup_loop at hr
    split at hr
    · cases hr
    · rename_i s1 hs1
      have hnd1 := List.nodup_cons.mp hnd
      rcases wakeup_body_effect h hs1 with ⟨hnw, hs⟩ | ⟨hw, ck, -, hnb, hmemS, hinv1, hx, hoth, hc⟩
      · subst hs
        obtain ⟨L2, hinv2, e1, e2, e3, e4, e5⟩ :=
          wakeup_loop_effect c chan rest s1 t L hnd1.2 h hr
        refine ⟨L2, hinv2, ?_, ?_, e3, e4, ?_⟩
        · intro q hq hwq
          rcases List.mem_cons.mp hq with e | hq2
          · subst e; exact absurd hwq hnw
          · exact e1 q hq2 hwq
        · intro q hnq
          exact e2 q (fun hc => hnq ⟨List.mem_cons_of_mem _ hc.1, hc.2⟩)
        · rw [e5]
          refine List.filter_congr (fun q _ => ?_)
          by_cases e : q = p
          · subst e; simp [hnw]
          · simp [e]
      · obtain ⟨L2, hinv2, e1, e2, e3, e4, e5⟩ :=
          wakeup_loop_effect c chan rest s1 t _ hnd1.2 hinv1 hr
        have hwc : ∀ q, q ≠ p → (woken c chan s1 q ↔ woken c chan s q) :=
          fun q e => woken_congr (by rw [hoth q e]) (by rw [hoth q e]) (hc c)
        have hmem1 : ∀ q l, q ≠ p →
            (q ∈ (Function.update (Function.update L .sleeping ((L .sleeping).erase p))
              (.runnable ck) (L (.runnable ck) ++ [p])) l ↔ q ∈ L l) := by
          intro q l e
          by_cases e1 : l = .runnable ck
          · subst e1; simp [e]
          · rw [Function.update_noteq e1]
            rw [mem_update_erase _ (h.wf.nodup _)]
            simp [e]
        refine ⟨L2, hinv2, ?_, ?_, ?_, fun c2 => (e4 c2).trans (hc c2), ?_⟩
        · intro q hq hwq
          rcases List.mem_cons.mp hq with e | hq2
          · subst e
            obtain ⟨hst, hm⟩ := e2 q (fun hc => hnd1.1 hc.1)
            refine ⟨by rw [hst, hx], ck, (hm _).mpr (by simp), hnb⟩
          · have e : q ≠ p := fun e => hnd1.1 (e ▸ hq2)
            obtain ⟨hst, ck2, hm, hb⟩ := e1 q hq2 ((hwc q e).mpr hwq)
            refine ⟨hst, ck2, hm, fun hbl => ?_⟩
            rw [← hb hbl, hoth q e]
        · intro q hnq
          have e : q ≠ p := fun e => hnq ⟨by rw [e]; exact List.mem_cons_self _ _, e ▸ hw⟩
          obtain ⟨hst, hm⟩ := e2 q (fun hc => hnq ⟨List.mem_cons_of_mem _ hc.1, (hwc q e).mp hc.2⟩)
          refine ⟨by rw [hst, hoth q e], fun l => (hm l).trans (hmem1 q l e)⟩
        · intro q
          by_cases e : q = p
          · subst e
            rw [(e3 q).1, (e3 q).2, hx]
            exact ⟨rfl, rfl⟩
          · rw [(e3 q).1, (e3 q).2, hoth q e]
            exact ⟨rfl, rfl⟩
        · rw [e5, Function.update_noteq (by simp), Function.update_same,
            (h.wf.nodup _).erase_eq_filter, List.filter_filter]
          refine List.filter_congr (fun q _ => ?_)
          by_cases e : q = p
          · subst e; simp [hw]
          · simp [e, hwc q e]

/-- `wakeup` keeps the invariant. -/
theorem wakeup_inv {c : Fin K.NCPU} {chan : Option (chan_t K)} {s t : kernel K}
    {L : list_id K → List (Fin K.NPROC)} (h : inv_with O s L) (hr : wakeup c chan s = .ok t) :
    ∃ L2, inv_with O t L2 := by
  obtain ⟨L2, h2, -⟩ := wakeup_loop_effect c chan _ s t L (List.nodup_finRange _) h hr
  exact ⟨L2, h2⟩

theorem find_least_used_cpu_ok (s : kernel K) (h0 : 0 < K.CPUS) (h1 : K.CPUS ≤ K.NCPU) :
    ∃ k : Int, find_least_used_cpu s = .ok k ∧ list_ok K .RUNNABLE k := by
  have hz : 0 < K.NCPU := by omega
  obtain ⟨r, hr, hra, -, -⟩ :=
    find_least_used_cpu_loop_spec s (K.CPUS - 1) 1 ⟨0, hz⟩ (by simp) (by omega)
      (fun j hj => by
        have : j = ⟨0, hz⟩ := Fin.ext (by simpa using hj)
        rw [this])
      (fun j hj => absurd hj (by simp))
  refine ⟨_, hr, ?_⟩
  have := r.isLt
  simp only [list_ok]
  omega

/-- The body of the loop of `wakeup` returns, in a state that satisfies the invariant,
when the CPU it picks is one the code can address. -/
theorem wakeup_body_returns {c : Fin K.NCPU} {chan : Option (chan_t K)} {p : Fin K.NPROC}
    {s : kernel K} {L : list_id K → List (Fin K.NPROC)} (h : inv_with O s L)
    (hbal : K.BLNCFLG = true → 0 < K.CPUS ∧ K.CPUS ≤ K.NCPU)
    (hnb : K.BLNCFLG = false → woken c chan s p → list_ok K .RUNNABLE (s.procs p).cpu_num) :
    ∃ t, wakeup_body c chan p s = .ok t := by
  unfold wakeup_body
  by_cases h1 : some p ≠ myproc c s
  · by_cases h2 : (s.procs p).state = .SLEEPING ∧ (s.procs p).chan = chan
    · rw [if_pos h1, if_pos h2]
      have hn : has_nodes s .SLEEPING (s.procs p).cpu_num (L .sleeping) :=
        has_nodes_cpu_irrel (by decide) 0 _ _ h.has_nodes_sleeping
      obtain ⟨r1, s1, hrem, -⟩ := remove_proc_from_list_ok s p (L .sleeping) (by simp [list_ok]) hn
      obtain ⟨l1, hof1, -, hpost1, hwf1, -, -⟩ := remove_proc_from_list_wf h.wf hrem
      have hwf2 := lists_wf_set_proc hwf1 p { s1.procs p with state := .RUNNABLE } rfl
      have hcn : ((set_proc s1 p { s1.procs p with state := .RUNNABLE }).procs p).cpu_num
          = (s.procs p).cpu_num := by
        simpa using hpost1.cpu_num p
      have hpick : ∃ k, pick_cpu (set_proc s1 p { s1.procs p with state := .RUNNABLE })
          ((set_proc s1 p { s1.procs p with state := .RUNNABLE }).procs p).cpu_num = .ok k
          ∧ list_ok K .RUNNABLE k := by
        unfold pick_cpu
        cases hb : K.BLNCFLG with
        | false =>
          refine ⟨(s.procs p).cpu_num, ?_, hnb hb ⟨h1, h2.1, h2.2⟩⟩
          simp
          exact hpost1.cpu_num p
        | true =>
          obtain ⟨k, hk, hok⟩ := find_least_used_cpu_ok
            (set_proc s1 p { s1.procs p with state := .RUNNABLE }) (hbal hb).1 (hbal hb).2
          exact ⟨k, by simpa using hk, hok⟩
      obtain ⟨k, hpk, hok⟩ := hpick
      obtain ⟨l3, hof3⟩ := list_id.of_ok hok
      have hadd := add_proc_to_list_eq hok _ p _
        ((list_id.of_has_nodes hof3 _ _).mpr (hwf2.nodes l3))
      obtain ⟨ci, hci⟩ := cpus_index_of_ok hok
      simp only [bind, Except.bind, hrem, hpk, hadd, increase_admitted_process_count,
        increase_runnable_list_size_of, hci]
      exact ⟨_, rfl⟩
    · rw [if_pos h1, if_neg h2]
      exact ⟨s, rfl⟩
  · rw [if_neg h1]
    exact ⟨s, rfl⟩

theorem wakeup_loop_returns (c : Fin K.NCPU) (chan : Option (chan_t K)) :
    ∀ (ps : List (Fin K.NPROC)) (s : kernel K) (L : list_id K → List (Fin K.NPROC)),
      inv_with O s L → (K.BLNCFLG = true → 0 < K.CPUS ∧ K.CPUS ≤ K.NCPU) →
      (K.BLNCFLG = false → ∀ q, woken c chan s q → list_ok K .RUNNABLE (s.procs q).cpu_num) →
      ∃ t, wakeup_loop c chan ps s = .ok t
  | [], s, _, _, _, _ => ⟨s, rfl⟩
  | p :: rest, s, L, h, hbal, hnb => by
    obtain ⟨s1, hs1⟩ := wakeup_body_returns (p := p) h hbal (fun hb => hnb hb p)
    unfold wakeup_loop
    rw [hs1]
    simp only []
    rcases wakeup_body_effect h hs1 with ⟨-, hs⟩ | ⟨hw, ck, -, -, -, hinv1, hx, hoth, hc⟩
    · subst hs
      exact wakeup_loop_returns c chan rest s1 L h hbal hnb
    · refine wakeup_loop_returns c chan rest s1 _ hinv1 hbal (fun hb q hwq => ?_)
      have e : q ≠ p := by
        rintro rfl
        have := hwq.2.1
        rw [hx] at this
        cases this
      have hwq2 : woken c chan s q :=
        (woken_congr (by rw [hoth q e]) (by rw [hoth q e]) (hc c)).mp hwq
      have := hnb hb q hwq2
      rw [hoth q e]
      exact this

/-- C12.  In a state that satisfies the invariant (lists `L`), with the CPU chosen for
each sleeper one the code can address (its own `cpu_num` when balancing is off; any of
the `CPUS <= NCPU` CPUs when it is on), `wakeup(chan)` returns, and afterwards (lists
`L2`, again satisfying the invariant): every process other than the caller that was
`SLEEPING` on `chan` is `RUNNABLE`, off the `SLEEPING` list and on the runnable list of
exactly one CPU (its `cpu_num` when balancing is off) and on no other list; every other
process keeps its state, its `chan` and the list it is on; the `SLEEPING` list is the
old one without the woken processes, in the old order. -/
theorem wakeup_wakes (c : Fin K.NCPU) (chan : Option (chan_t K)) (s : kernel K)
    (L : list_id K → List (Fin K.NPROC)) (h : inv s L)
    (hbal : K.BLNCFLG = true → 0 < K.CPUS ∧ K.CPUS ≤ K.NCPU)
    (hnb : K.BLNCFLG = false → ∀ q, woken c chan s q →
      list_ok K .RUNNABLE (s.procs q).cpu_num) :
    ∃ t L2, wakeup c chan s = .ok t ∧ inv t L2
      ∧ (∀ q, woken c chan s q →
          (t.procs q).state = .RUNNABLE ∧ q ∉ L2 .sleeping
          ∧ ∃ ck : Fin K.NCPU, q ∈ L2 (.runnable ck) ∧ (∀ l, q ∈ L2 l → l = .runnable ck)
              ∧ (K.BLNCFLG = false → (s.procs q).cpu_num = ((ck : Nat) : Int)))
      ∧ (∀ q, ¬ woken c chan s q →
          (t.procs q).state = (s.procs q).state ∧ (t.procs q).chan = (s.procs q).chan
          ∧ ∀ l, q ∈ L2 l ↔ q ∈ L l)
      ∧ L2 .sleeping = (L .sleeping).filter (fun q => ¬ woken c chan s q) := by
  obtain ⟨t, ht⟩ := wakeup_loop_returns c chan (List.finRange K.NPROC) s L h hbal hnb
  obtain ⟨L2, h2, e1, e2, e3, -, e5⟩ :=
    wakeup_loop_effect c chan _ s t L (List.nodup_finRange _) h ht
  refine ⟨t, L2, ht, h2, ?_, ?_, ?_⟩
  · intro q hw
    obtain ⟨hst, ck, hm, hb⟩ := e1 q (List.mem_finRange q) hw
    refine ⟨hst, fun hc => ?_, ck, hm, fun l hl => h2.wf.disj _ _ q hl hm, hb⟩
    have := h2.wf.disj _ _ q hc hm
    cases this
  · intro q hnw
    obtain ⟨hst, hm⟩ := e2 q (fun hc => hnw hc.2)
    exact ⟨hst, (e3 q).1, hm⟩
  · rw [e5]
    refine List.filter_congr (fun q _ => ?_)
    simp [List.mem_finRange]

theorem wakeup_wakes_witness :
    inv ex_two_sleeping ex_two_sleeping_lists
    ∧ (∀ q, list_ok K0 .RUNNABLE (ex_two_sleeping.procs q).cpu_num)
    ∧ woken 0 (some (.addr 9)) ex_two_sleeping 1
    ∧ woken 0 (some (.addr 9)) ex_two_sleeping 2
    ∧ ¬ woken 0 (some (.addr 9)) ex_two_sleeping 0
    ∧ ∃ t L2, wakeup 0 (some (.addr 9)) ex_two_sleeping = .ok t ∧ inv t L2
      ∧ (t.procs 1).state = .RUNNABLE ∧ (t.procs 2).state = .RUNNABLE
      ∧ 1 ∈ L2 (.runnable 0) ∧ 2 ∈ L2 (.runnable 0)
      ∧ (t.procs 0).state = .RUNNING
      ∧ L2 .sleeping = [] := by
  obtain ⟨t, L2, h1, h2, h3, h4, h5⟩ :=
    wakeup_wakes 0 (some (.addr 9)) ex_two_sleeping ex_two_sleeping_lists ex_two_sleeping_inv
      (fun hb => absurd hb (by decide))
      (fun _ q _ => (by decide : ∀ q, list_ok K0 .RUNNABLE (ex_two_sleeping.procs q).cpu_num) q)
  have w1 : woken 0 (some (.addr 9)) ex_two_sleeping 1 := by decide
  have w2 : woken 0 (some (.addr 9)) ex_two_sleeping 2 := by decide
  have w0 : ¬ woken 0 (some (.addr 9)) ex_two_sleeping 0 := by decide
  obtain ⟨s1, -, ck1, m1, -, b1⟩ := h3 1 w1
  obtain ⟨s2, -, ck2, m2, -, b2⟩ := h3 2 w2
  have e1 : ck1 = 0 := by
    have := b1 rfl
    exact cast_fin_inj (K := K0) (by rw [← this]; decide)
  have e2 : ck2 = 0 := by
    have := b2 rfl
    exact cast_fin_inj (K := K0) (by rw [← this]; decide)
  subst e1; subst e2
  refine ⟨ex_two_sleeping_inv, by decide, w1, w2, w0, t, L2, h1, h2, s1, s2, m1, m2, ?_, ?_⟩
  · rw [(h4 0 w0).1]; decide
  · rw [h5]; decide


/-! ## `freeproc`, `wait`, `exit` -/

/-- `freeproc(x)` for the process in transit, which is on the `ZOMBIE` list or on no
list: it ends up on the `UNUSED` list, in state `UNUSED`. -/
theorem freeproc_transit {x : Fin K.NPROC} {d : Fin K.NCPU → Int} {s t : kernel K}
    {L : list_id K → List (Fin K.NPROC)} (h : inv_but O (some x) d s L)
    (hx : ∀ l, x ∈ L l → l = .zombie) (hr : freeproc x s = .ok t) :
    ∃ L2, inv_but O (some x) d t L2 ∧ (∀ l, x ∈ L2 l ↔ l = .unused)
      ∧ (t.procs x).state = .UNUSED
      ∧ (∀ c, (t.cpus c).proc = (s.cpus c).proc) := by
  unfold freeproc at hr
  obtain ⟨⟨r1, s2⟩, hrem, hr2⟩ := bind_eq_ok hr
  dsimp only at hr2
  obtain ⟨⟨r2, s4⟩, hadd, hr3⟩ := bind_eq_ok hr2
  clear hr hr2
  injection hr3 with hr3
  subst hr3
  have h1 := h.set_proc_x { s.procs x with
    trapframe := none, pagetable := none, sz := 0, pid := 0, parent := none,
    name := (s.procs x).name.set 0 0, chan := none, killed := 0, xstate := 0 } rfl
  obtain ⟨l1, hof1, h2, hpost2, hmem2⟩ := h1.dequeue hrem
  have hl1 := list_id.of_zombie hof1
  subst hl1
  have hoff2 : ∀ l2, x ∉ (Function.update L .zombie ((L .zombie).erase x)) l2 := by
    intro l2 hl2
    have := (hmem2 l2).mp hl2
    exact this.2 (hx l2 this.1)
  have h3 := h2.set_proc_x { s2.procs x with state := .UNUSED } rfl
  obtain ⟨l3, hof3, -, h4, hpost4, hmem4⟩ := h3.enqueue hoff2 hadd
  have hl3 := list_id.of_unused hof3
  subst hl3
  refine ⟨_, h4, hmem4, ?_, ?_⟩
  · rw [hpost4.state x]; simp
  · intro c
    rw [hpost4.proc c]
    simp only [set_proc_cpus]
    rw [hpost2.proc c]
    rfl

/-- `freeproc` of a `ZOMBIE`, or of a slot in transit that is counted for no CPU, leads
back to the invariant. -/
theorem freeproc_close {x : Fin K.NPROC} {s t : kernel K}
    {L : list_id K → List (Fin K.NPROC)} (h : inv_but O (some x) (fun _ => 0) s L)
    (hx : ∀ l, x ∈ L l → l = .zombie) (hcur : ∀ c, (s.cpus c).proc ≠ some x)
    (hr : freeproc x s = .ok t) : ∃ L2, inv_with O t L2 := by
  obtain ⟨L2, h2, hmem, hst, hc⟩ := freeproc_transit h hx hr
  refine ⟨L2, h2.close_on hmem (by rw [hst]; rfl) (fun c => by rw [hc]; exact hcur c)
    (fun _ c hl => by cases hl) (fun _ c => ?_)⟩
  rw [counted_off (v := t.procs x) (by rw [hst]; decide) (by rw [hst]; decide)]

/-- Opening a transit at a `ZOMBIE`. -/
theorem inv_with.open_zombie {s : kernel K} {L : list_id K → List (Fin K.NPROC)} (h : inv_with O s L)
    (x : Fin K.NPROC) (hst : (s.procs x).state = .ZOMBIE) :
    inv_but O (some x) (fun _ => 0) s L ∧ (∀ l, x ∈ L l → l = .zombie)
      ∧ ∀ c, (s.cpus c).proc ≠ some x := by
  refine ⟨(inv_but.open_at h x (inv_but.not_cut_of_state h (by rw [hst]; decide))).set_d
      (fun _ c => by
    simp [counted_off (v := s.procs x) (by simp [hst]) (by simp [hst]) c]), ?_, ?_⟩
  · intro l hl
    have := h.onl l x hl (by simp)
    rw [hst] at this
    cases l <;> simp [list_id.type] at this
    rfl
  · intro c hc
    have := h.cur c x hc (by simp)
    rw [hst] at this
    cases this

theorem wait_found_inv {vm : vm_calls} {p : Option (Fin K.NPROC)} {np : Fin K.NPROC}
    {addr : Nat} {s t : kernel K} {L : list_id K → List (Fin K.NPROC)} {r : Int}
    (h : inv_with O s L) (hst : (s.procs np).state = .ZOMBIE)
    (hr : wait_found vm p np addr s = .ok (r, t)) : ∃ L2, inv_with O t L2 := by
  obtain ⟨h0, hx, hcur⟩ := h.open_zombie np hst
  unfold wait_found at hr
  by_cases ha : addr ≠ 0
  · rw [if_pos ha] at hr
    cases p with
    | none => cases hr
    | some pp =>
      simp only [] at hr
      by_cases hc : vm.copyout < 0
      · rw [if_pos hc] at hr
        injection hr with hr
        injection hr with _ hr
        subst hr
        exact ⟨L, h⟩
      · rw [if_neg hc] at hr
        split at hr
        · cases hr
        · rename_i t2 ht2
          injection hr with hr
          injection hr with _ hr
          subst hr
          have h1 : inv_but O (some np) (fun _ => 0) (copyout_xstate s pp np addr) L :=
            h0.same rfl rfl (fun l => by cases l <;> rfl)
          exact freeproc_close h1 hx hcur ht2
  · rw [if_neg ha] at hr
    split at hr
    · cases hr
    · rename_i t2 ht2
      injection hr with hr
      injection hr with _ hr
      subst hr
      exact freeproc_close h0 hx hcur ht2

theorem wait_scan_inv {vm : vm_calls} {p : Option (Fin K.NPROC)} {addr : Nat} {s : kernel K}
    {L : list_id K → List (Fin K.NPROC)} (h : inv_with O s L) :
    ∀ (l : List (Fin K.NPROC)) (havekids : Int) (r : Option Int) (hk : Int) (t : kernel K),
      wait_scan vm p addr l havekids s = .ok (r, hk, t) → (r = none ∧ t = s) ∨ ∃ L2, inv_with O t L2
  | [], _, r, hk, t, hr => by
    injection hr with hr
    injection hr with h1 h2
    injection h2 with h2 h3
    exact Or.inl ⟨h1.symm, h3.symm⟩
  | np :: rest, havekids, r, hk, t, hr => by
    unfold wait_scan at hr
    by_cases h1 : (s.procs np).parent = p
    · rw [if_pos h1] at hr
      by_cases h2 : (s.procs np).state = .ZOMBIE
      · rw [if_pos h2] at hr
        split at hr
        · cases hr
        · rename_i r2 hr2
          injection hr with hr
          injection hr with _ h3
          injection h3 with _ h3
          subst h3
          exact Or.inr (wait_found_inv (r := r2.1) h h2 hr2)
      · rw [if_neg h2] at hr
        exact wait_scan_inv h rest 1 r hk t hr
    · rw [if_neg h1] at hr
      exact wait_scan_inv h rest havekids r hk t hr

/-- One pass of `wait` keeps the invariant. -/
theorem wait_inv {vm : vm_calls} {c : Fin K.NCPU} {addr : Nat} {r : wait_result}
    {s t : kernel K} {L : list_id K → List (Fin K.NPROC)}
    (h : inv_with O s L) (hr : wait vm c addr s = .ok (r, t)) : ∃ L2, inv_with O t L2 := by
  unfold wait at hr
  obtain ⟨⟨r1, hk, s1⟩, hscan, hr2⟩ := bind_eq_ok hr
  clear hr
  dsimp only at hr2
  have hs1 : ∃ L1, inv_with O s1 L1 := by
    rcases wait_scan_inv h _ _ _ _ _ hscan with ⟨-, e⟩ | h1
    · subst e; exact ⟨L, h⟩
    · exact h1
  obtain ⟨L1, h1⟩ := hs1
  cases r1 with
  | some v =>
    injection hr2 with hr2
    injection hr2 with _ hr2
    subst hr2
    exact ⟨L1, h1⟩
  | none =>
    simp only [] at hr2
    by_cases hk0 : hk = 0
    · rw [if_pos hk0] at hr2
      injection hr2 with hr2
      injection hr2 with _ hr2
      subst hr2
      exact ⟨L1, h1⟩
    · rw [if_neg hk0] at hr2
      cases hp : myproc c s with
      | none => simp [hp] at hr2
      | some pp =>
        simp only [hp] at hr2
        by_cases hkl : (s1.procs pp).killed ≠ 0
        · rw [if_pos hkl] at hr2
          injection hr2 with hr2
          injection hr2 with _ hr2
          subst hr2
          exact ⟨L1, h1⟩
        · rw [if_neg hkl] at hr2
          obtain ⟨s2, hsl, hr3⟩ := bind_eq_ok hr2
          injection hr3 with hr3
          injection hr3 with _ hr3
          subst hr3
          exact sleep_inv h1 hsl

theorem wakeup_keeps {c : Fin K.NCPU} {chan : Option (chan_t K)} {s t : kernel K}
    {L : list_id K → List (Fin K.NPROC)} (h : inv_with O s L) (hr : wakeup c chan s = .ok t) :
    ∃ L2, inv_with O t L2 ∧ ∀ c2, (t.cpus c2).proc = (s.cpus c2).proc := by
  obtain ⟨L2, h2, -, -, -, e4, -⟩ :=
    wakeup_loop_effect c chan _ s t L (List.nodup_finRange _) h hr
  exact ⟨L2, h2, e4⟩

theorem reparent_loop_keeps (c : Fin K.NCPU) (p : Fin K.NPROC) :
    ∀ (l : List (Fin K.NPROC)) (s t : kernel K) (L : list_id K → List (Fin K.NPROC)),
      inv_with O s L → reparent_loop c p l s = .ok t →
      ∃ L2, inv_with O t L2 ∧ ∀ c2, (t.cpus c2).proc = (s.cpus c2).proc
  | [], s, t, L, h, hr => by
    injection hr with hr
    subst hr
    exact ⟨L, h, fun _ => rfl⟩
  | pp :: rest, s, t, L, h, hr => by
    unfold reparent_loop at hr
    by_cases hpp : (s.procs pp).parent = some p
    · rw [if_pos hpp] at hr
      dsimp only at hr
      split at hr
      · cases hr
      · rename_i s2 hs2
        have h1 : inv_with O (set_proc s pp { s.procs pp with parent := s.initproc }) L :=
          inv_but.set_proc_same h pp _ rfl rfl rfl
        obtain ⟨L2, h2, hc2⟩ := wakeup_keeps h1 hs2
        obtain ⟨L3, h3, hc3⟩ := reparent_loop_keeps c p rest s2 t L2 h2 hr
        exact ⟨L3, h3, fun c2 => by rw [hc3, hc2]; rfl⟩
    · rw [if_neg hpp] at hr
      exact reparent_loop_keeps c p rest s t L h hr

/-- `exit` keeps the invariant. -/
theorem exit_inv {c : Fin K.NCPU} {status : Int} {s t : kernel K}
    {L : list_id K → List (Fin K.NPROC)} (h : inv_with O s L) (hr : exit c status s = .ok t) :
    ∃ L2, inv_with O t L2 := by
  unfold exit at hr
  by_cases hinit : myproc c s = s.initproc
  · simp [hinit] at hr
    cases hr
  · cases hp : myproc c s with
    | none =>
      simp [hp] at hr
      split at hr <;> cases hr
    | some x =>
      rw [hp] at hinit
      simp only [hp, if_neg hinit] at hr
      obtain ⟨_, -, hr1⟩ := bind_eq_ok hr
      clear hr
      obtain ⟨s3, hrep, hr2⟩ := bind_eq_ok hr1
      obtain ⟨s4, hwk, hr3⟩ := bind_eq_ok hr2
      obtain ⟨⟨r7, s7⟩, hadd, hr4⟩ := bind_eq_ok hr3
      dsimp only at hr4
      obtain ⟨s8, hdec, hsched⟩ := bind_eq_ok hr4
      clear hr1 hr2 hr3 hr4
      have h1 := inv_but.set_proc_same h x { s.procs x with ofile := fun _ => none } rfl rfl rfl
      have h2 := inv_but.set_proc_same h1 x
        { (set_proc s x { s.procs x with ofile := fun _ => none }).procs x with cwd := none }
        rfl rfl rfl
      obtain ⟨L3, h3, hc3⟩ := reparent_loop_keeps c x _ _ _ L h2 hrep
      obtain ⟨L4, h4, hc4⟩ := wakeup_keeps h3 hwk
      have hp4 : (s4.cpus c).proc = some x := by
        rw [hc4, hc3]; exact hp
      have hrun : (s4.procs x).state = .RUNNING := h4.cur c x hp4 (by simp)
      have hoff := inv_but.off_of_state h4 x (by simp) (Or.inl hrun)
      have h6 := ((inv_but.open_at h4 x
        (inv_but.not_cut_of_state h4 (by rw [hrun]; decide))).set_proc_x { s4.procs x with xstate := status }
        rfl).set_proc_x
        { (set_proc s4 x { s4.procs x with xstate := status }).procs x with state := .ZOMBIE } rfl
      obtain ⟨l7, hof7, -, h7, hpost7, hmem7⟩ := h6.enqueue hoff hadd
      have hl7 := list_id.of_zombie hof7
      subst hl7
      obtain ⟨ci, hci, h8, hp8, hc8⟩ := h7.decrease hdec
      obtain ⟨h9, hp9, hcnone, hcother⟩ := h8.after_sched hsched
      have hst7 : (s7.procs x).state = .ZOMBIE := by
        rw [hpost7.state x]; simp
      have hcn7 : (s7.procs x).cpu_num = (s4.procs x).cpu_num := by
        rw [hpost7.cpu_num x]; simp
      rw [hcn7] at hci
      refine ⟨_, h9.close_on hmem7 ?_ ?_ ?_ ?_⟩
      · rw [hp9, hp8, hst7]; rfl
      · intro c2 hc2
        by_cases e : c2 = c
        · subst e; rw [hcnone] at hc2; cases hc2
        · rw [hcother c2 e, hc8, hpost7.proc] at hc2
          exact e (h4.cur_inj c2 c x hc2 hp4)
      · intro _ c2 hl
        cases hl
      · intro _ c2
        have hc9 : counted (t.procs x) c2 = 0 :=
          counted_off (by rw [hp9, hp8, hst7]; decide) (by rw [hp9, hp8, hst7]; decide) c2
        rw [hc9, counted_on (Or.inr hrun) hci]
        simp


/-! ## `allocproc`, `fork`, `set_cpu` -/

theorem list_id.head_allocpid (s : kernel K) (l : list_id K) :
    l.head (allocpid s).2 = l.head s := by
  cases l <;> rfl

/-- The stores of `allocproc` into the slot in transit, which is on no list. -/
theorem inv_but.after_allocproc_stores {x : Fin K.NPROC} {d : Fin K.NCPU → Int} {s : kernel K}
    {L : list_id K → List (Fin K.NPROC)} (h : inv_but O (some x) d s L) (hoff : ∀ l, x ∉ L l)
    (tf : Option trapframe) : inv_but O (some x) d (allocproc_stores s x tf) L := by
  have hnx : (s.procs x).next = none := h.wf.off x hoff h.not_cut_x
  have h1 : inv_but O (some x) d (allocpid s).2 L :=
    h.same rfl rfl (list_id.head_allocpid s)
  unfold allocproc_stores
  exact (h1.set_proc_x _ hnx.symm).set_proc_x _ rfl

theorem inv_but.after_store_pagetable {x : Fin K.NPROC} {d : Fin K.NCPU → Int} {s : kernel K}
    {L : list_id K → List (Fin K.NPROC)} (h : inv_but O (some x) d s L) (pt : Option Nat) :
    inv_but O (some x) d (store_pagetable s x pt) L :=
  h.set_proc_x _ rfl

theorem allocproc_stores_cpus (s : kernel K) (p : Fin K.NPROC) (tf : Option trapframe) :
    (allocproc_stores s p tf).cpus = s.cpus := rfl

theorem store_pagetable_cpus (s : kernel K) (p : Fin K.NPROC) (pt : Option Nat) :
    (store_pagetable s p pt).cpus = s.cpus := rfl

/-- What `allocproc` has done to a state that satisfies the invariant: either it returns
null and the invariant holds, or it returns a slot `q`, now `USED` and in transit. -/
theorem allocproc_effect {vm : vm_calls} {s t : kernel K} {L : list_id K → List (Fin K.NPROC)}
    {r : Option (Fin K.NPROC)} (h : inv_with O s L) (hr : allocproc vm s = .ok (r, t)) :
    (r = none ∧ ∃ L2, inv_with O t L2)
    ∨ (∃ q rest, L .unused = q :: rest ∧ r = some q
        ∧ inv_but O (some q) (fun _ => 0) t (Function.update L .unused rest)
        ∧ (∀ l, q ∉ (Function.update L .unused rest) l)
        ∧ (t.procs q).state = .USED ∧ (s.procs q).state = .UNUSED
        ∧ (∀ i, i ≠ q → (t.procs i).state = (s.procs i).state
            ∧ (t.procs i).cpu_num = (s.procs i).cpu_num
            ∧ (t.procs i).trapframe = (s.procs i).trapframe)
        ∧ (∀ c, (t.cpus c).proc = (s.cpus c).proc)) := by
  unfold allocproc at hr
  split at hr
  · cases hr
  · rename_i s1 hrh
    injection hr with hr
    injection hr with h1 h2
    subst h1; subst h2
    obtain ⟨l, -, -, -, hcase⟩ := remove_head_wf h.wf hrh
    rcases hcase with ⟨-, -, e⟩ | ⟨q, rest, -, hc, -⟩
    · subst e
      exact Or.inl ⟨rfl, L, h⟩
    · cases hc
  · rename_i q s1 hrh
    obtain ⟨l, hof, -, hpost, hcase⟩ := remove_head_wf h.wf hrh
    rcases hcase with ⟨-, hc, -⟩ | ⟨q2, rest, hl, hc, -, hwf1⟩
    · cases hc
    · injection hc with hc
      subst hc
      have hlu := list_id.of_unused hof
      subst hlu
      have hqL : q ∈ L .unused := by rw [hl]; exact List.mem_cons_self _ _
      have hqst : (s.procs q).state = .UNUSED := h.onl _ q hqL (by simp)
      have hmem : ∀ l2 p, p ∈ (Function.update L .unused rest) l2
          ↔ p ∈ L l2 ∧ ¬ (l2 = .unused ∧ p = q) :=
        fun l2 p => mem_update_tail _ q rest hl (h.wf.nodup _) p l2
      have h0 : inv_but O (some q) (fun _ => 0) s L :=
        (inv_but.open_at h q (inv_but.not_cut_of_mem h hqL)).set_d (fun _ c => by
          simp [counted_off (v := s.procs q) (by simp [hqst]) (by simp [hqst]) c])
      have h1 : inv_but O (some q) (fun _ => 0) s1 (Function.update L .unused rest) :=
        h0.list_op hwf1 (fun l2 p hp => by
          rw [hmem]
          have e : p ≠ q := fun e => hp (by rw [e])
          simp [e]) hpost
      have hoff1 : ∀ l2, q ∉ (Function.update L .unused rest) l2 := by
        intro l2 hq2
        rw [hmem] at hq2
        exact hq2.2 ⟨h.wf.disj _ _ q hq2.1 hqL, rfl⟩
      have hnocpu : ∀ c, (s1.cpus c).proc ≠ some q := by
        intro c hc
        rw [hpost.proc] at hc
        have := h.cur c q hc (by simp)
        rw [hqst] at this
        cases this
      unfold allocproc_found at hr
      have hfree : ∀ (a : kernel K) (t2 : kernel K),
          inv_but O (some q) (fun _ => 0) a (Function.update L .unused rest) →
          a.cpus = s1.cpus → freeproc q a = .ok t2 → ∃ L2, inv_with O t2 L2 := by
        intro a t2 ha hac hfr
        refine freeproc_close ha (fun l2 hq2 => absurd hq2 (hoff1 l2)) (fun c => ?_) hfr
        rw [hac]; exact hnocpu c
      cases hk : vm.kalloc with
      | none =>
        simp only [hk] at hr
        split at hr
        · cases hr
        · rename_i t2 hfr
          injection hr with hr
          injection hr with e1 e2
          subst e1; subst e2
          exact Or.inl ⟨rfl, hfree _ _ (h1.after_allocproc_stores hoff1 none) rfl hfr⟩
      | some tf =>
        simp only [hk] at hr
        cases hpt : vm.proc_pagetable with
        | none =>
          simp only [hpt] at hr
          split at hr
          · cases hr
          · rename_i t2 hfr
            injection hr with hr
            injection hr with e1 e2
            subst e1; subst e2
            exact Or.inl ⟨rfl, hfree _ _
              ((h1.after_allocproc_stores hoff1 (some tf)).after_store_pagetable none) rfl hfr⟩
        | some pt =>
          simp only [hpt] at hr
          injection hr with hr
          injection hr with e1 e2
          subst e1; subst e2
          refine Or.inr ⟨q, rest, hl, rfl,
            (h1.after_allocproc_stores hoff1 (some tf)).after_store_pagetable (some pt),
            hoff1, ?_, hqst, ?_, ?_⟩
          · rw [store_pagetable_self, allocproc_stores_self]
          · intro i e
            rw [store_pagetable_other _ _ _ _ e, allocproc_stores_other _ _ _ _ e,
              hpost.fields i]
            exact ⟨rfl, rfl, rfl⟩
          · intro c
            rw [store_pagetable_cpus, allocproc_stores_cpus, hpost.proc]

theorem fork_child_state (s : kernel K) (p np : Fin K.NPROC) (tf : trapframe) :
    ((fork_child s p np tf).procs np).state = .RUNNABLE := by
  simp [fork_child]

theorem list_id.head_fork_child (s : kernel K) (p np : Fin K.NPROC) (tf : trapframe)
    (l : list_id K) : l.head (fork_child s p np tf) = l.head s := by
  cases l <;> rfl

theorem inv_but.after_fork_child {x : Fin K.NPROC} {d : Fin K.NCPU → Int} {s : kernel K}
    {L : list_id K → List (Fin K.NPROC)} (h : inv_but O (some x) d s L) (p : Fin K.NPROC)
    (tf : trapframe) : inv_but O (some x) d (fork_child s p x tf) L :=
  h.transfer (lists_wf_congr h.wf (fork_child_next s p x tf) (list_id.head_fork_child s p x tf))
    (fun _ _ _ => Iff.rfl)
    (fun i hi => by
      have e : i ≠ x := fun e => hi (by rw [e])
      rw [fork_child_other s p x tf i e]
      exact ⟨rfl, rfl⟩)
    (fun _ _ hp => hp) (fun _ c => by
      have : (fork_child s p x tf).cpus = s.cpus := rfl
      rw [this]; ring)

/-- The end of `fork`: the child in transit, `RUNNABLE`, is bound to a CPU and lands on
its runnable list. -/
theorem fork_enqueue_inv {x : Fin K.NPROC} {s t : kernel K}
    {L : list_id K → List (Fin K.NPROC)} {cpu_num : Int}
    (h : inv_but O (some x) (fun _ => 0) s L) (hoff : ∀ l, x ∉ L l)
    (hst : (s.procs x).state = .RUNNABLE) (hcur : ∀ c, (s.cpus c).proc ≠ some x)
    (hr : fork_enqueue x cpu_num s = .ok t) : ∃ L2, inv_with O t L2 := by
  unfold fork_enqueue at hr
  obtain ⟨⟨r, s10⟩, hadd, hr2⟩ := bind_eq_ok hr
  dsimp only at hr2
  obtain ⟨s11, hadm, hr3⟩ := bind_eq_ok hr2
  obtain ⟨s12, hbump, hinc⟩ := bind_eq_ok hr3
  clear hr hr2 hr3
  have h9 := h.set_proc_x { s.procs x with cpu_num := cpu_num } rfl
  obtain ⟨l, hof, -, h10, hpost, hmem⟩ := h9.enqueue hoff hadd
  obtain ⟨h11, hp11, hc11, -⟩ := h10.admitted (Or.inl hadm)
  obtain ⟨h12, hp12, hc12, -⟩ := h11.admitted (Or.inr hbump)
  obtain ⟨ci, hci, h13, hp13, hc13⟩ := h12.increase hinc
  have hst13 : (t.procs x).state = .RUNNABLE := by
    rw [hp13, hp12, hp11, hpost.state x]; simpa using hst
  have hcn13 : (t.procs x).cpu_num = cpu_num := by
    rw [hp13, hp12, hp11, hpost.cpu_num x]; simp
  refine ⟨_, h13.close_on hmem ?_ ?_ ?_ ?_⟩
  · rw [hst13, list_id.of_type hof]
  · intro c hc
    rw [hc13, hc12, hc11, hpost.proc] at hc
    exact hcur c hc
  · intro _ c hl
    rw [hl] at hof
    rw [hcn13]
    exact list_id.runnable_cpu_num hof
  · intro _ c
    rw [counted_on (v := t.procs x) (Or.inl hst13) (by rw [hcn13]; exact hci)]
    simp

/-- `fork` keeps the invariant. -/
theorem fork_inv {vm : vm_calls} {c : Fin K.NCPU} {r : Int} {s t : kernel K}
    {L : list_id K → List (Fin K.NPROC)} (h : inv_with O s L) (hr : fork vm c s = .ok (r, t)) :
    ∃ L2, inv_with O t L2 := by
  unfold fork at hr
  split at hr
  · cases hr
  · rename_i s1 hal
    injection hr with hr
    injection hr with _ hr
    subst hr
    rcases allocproc_effect h hal with ⟨-, h1⟩ | ⟨q, rest, -, hc, -⟩
    · exact h1
    · cases hc
  · rename_i np s1 hal
    rcases allocproc_effect h hal with ⟨hc, -⟩ | ⟨q, rest, -, hq, h1, hoff, hst, hst0, hoth, hcpu⟩
    · cases hc
    · injection hq with hq
      subst hq
      have hnocpu : ∀ c2, (s1.cpus c2).proc ≠ some np := by
        intro c2 hc2
        rw [hcpu] at hc2
        have := h.cur c2 np hc2 (by simp)
        rw [hst0] at this
        cases this
      cases hp : myproc c s with
      | none => simp [hp] at hr
      | some p =>
        simp only [hp] at hr
        unfold fork_found at hr
        by_cases hcopy : vm.uvmcopy < 0
        · rw [if_pos hcopy] at hr
          split at hr
          · cases hr
          · rename_i t2 hfr
            injection hr with hr
            injection hr with _ hr
            subst hr
            exact freeproc_close h1 (fun l hl => absurd hl (hoff l)) hnocpu hfr
        · rw [if_neg hcopy] at hr
          split at hr
          · rename_i tf0 tf htf0 htf
            split at hr
            · cases hr
            · rename_i k hk
              split at hr
              · cases hr
              · rename_i t2 henq
                injection hr with hr
                injection hr with _ hr
                subst hr
                exact fork_enqueue_inv (h1.after_fork_child p tf) hoff
                  (fork_child_state s1 p np tf) hnocpu henq
          · cases hr

/-- `set_cpu` keeps the invariant. -/
theorem set_cpu_inv {c : Fin K.NCPU} {cpu_num r : Int} {s t : kernel K}
    {L : list_id K → List (Fin K.NPROC)} (h : inv_with O s L)
    (hr : set_cpu c cpu_num s = .ok (r, t)) : ∃ L2, inv_with O t L2 := by
  unfold set_cpu at hr
  by_cases hrc : range_check cpu_num 0 K.NCPU < 0
  · rw [if_pos hrc] at hr
    injection hr with hr
    injection hr with _ hr
    subst hr
    exact ⟨L, h⟩
  · rw [if_neg hrc] at hr
    cases hp : myproc c s with
    | none => simp [hp] at hr
    | some x =>
      simp only [hp] at hr
      obtain ⟨s1, hdec, hr2⟩ := bind_eq_ok hr
      obtain ⟨s3, hinc, hr3⟩ := bind_eq_ok hr2
      obtain ⟨s4, hy, hr4⟩ := bind_eq_ok hr3
      clear hr hr2 hr3
      injection hr4 with hr4
      injection hr4 with _ hr4
      subst hr4
      have hrun : (s.procs x).state = .RUNNING := h.cur c x hp (by simp)
      have hoff := inv_but.off_of_state h x (by simp) (Or.inl hrun)
      obtain ⟨ci, hci, h1, hp1, hc1⟩ := (inv_but.open_at h x
        (inv_but.not_cut_of_state h (by rw [hrun]; decide))).decrease hdec
      have h2 := h1.set_proc_x { s1.procs x with cpu_num := cpu_num } rfl
      obtain ⟨cj, hcj, h3, hp3, hc3⟩ := h2.increase hinc
      have hst3 : (s3.procs x).state = .RUNNING := by
        rw [hp3]; simp [hp1, hrun]
      have hcn3 : (s3.procs x).cpu_num = cpu_num := by
        rw [hp3]; simp
      have h3inv : inv_with O s3 L := by
        refine h3.close_off hoff (Or.inr hst3) (fun _ _ => hst3) (fun _ c2 => ?_)
        rw [counted_on (v := s3.procs x) (Or.inr hst3) (by rw [hcn3]; exact hcj),
          counted_on (Or.inr hrun) hci]
        simp
      exact yield_inv h3inv hy


/-! ## The invariant in every reachable state -/

/-- Every operation keeps the invariant. -/
theorem step_inv {s t : kernel K} {L : list_id K → List (Fin K.NPROC)} (h : inv_with O s L)
    (hs : step s t) : ∃ L2, inv_with O t L2 := by
  cases hs with
  | fork vm c r hr => exact fork_inv h hr
  | scheduler c hr => exact scheduler_inv h hr
  | yield c hr => exact yield_inv h hr
  | sleep c chan hr => exact sleep_inv h hr
  | wakeup c chan hr => exact wakeup_inv h hr
  | kill pid r hr => exact kill_inv h hr
  | exit c status hr => exact exit_inv h hr
  | wait vm c addr r hr => exact wait_inv h hr
  | set_cpu c cpu_num r hr => exact set_cpu_inv h hr

theorem unused_only_update (done : List (Fin K.NPROC)) (p : Fin K.NPROC) :
    Function.update (unused_only done) (.unused : list_id K) (unused_only done .unused ++ [p])
      = unused_only (done ++ [p]) := by
  funext l
  by_cases e : l = .unused
  · subst e; simp [unused_only]
  · rw [Function.update_noteq e]
    cases l <;> simp [unused_only] at e ⊢

theorem mem_unused_only {done : List (Fin K.NPROC)} {p : Fin K.NPROC} {l : list_id K}
    (h : p ∈ unused_only done l) : l = .unused ∧ p ∈ done := by
  cases l <;> simp [unused_only] at h
  exact ⟨rfl, h⟩

/-- The loop of `procinit`: the slots visited so far form the `UNUSED` list. -/
theorem procinit_loop_spec :
    ∀ (ps done : List (Fin K.NPROC)) (s t : kernel K),
      lists_wf ∅ s (unused_only done) → (∀ p ∈ ps, p ∉ done) → ps.Nodup →
      procinit_loop ps s = .ok t →
      lists_wf ∅ t (unused_only (done ++ ps))
        ∧ (∀ p, (t.procs p).state = (s.procs p).state) ∧ t.cpus = s.cpus
  | [], done, s, t, h, _, _, hr => by
    injection hr with hr
    subst hr
    rw [List.append_nil]
    exact ⟨h, fun _ => rfl, rfl⟩
  | p :: rest, done, s, t, h, hps, hnd, hr => by
    unfold procinit_loop at hr
    dsimp only at hr
    split at hr
    · cases hr
    · rename_i r s3 hadd
      have hoff : ∀ l, p ∉ (unused_only done) l := fun l hl =>
        hps p (List.mem_cons_self _ _) (mem_unused_only hl).2
      have hnx : (s.procs p).next = none := h.off p hoff (Finset.not_mem_empty p)
      have h1 := lists_wf_set_proc h p { s.procs p with cpu_num := -1 } rfl
      have h2 := lists_wf_set_proc h1 p
        { (set_proc s p { s.procs p with cpu_num := -1 }).procs p with next := none }
        (by simp [hnx])
      obtain ⟨l, hof, -, -, hwf3, hpost⟩ := add_proc_to_list_wf h2 hoff (Finset.not_mem_empty p) hadd
      have hl := list_id.of_unused hof
      subst hl
      rw [unused_only_update] at hwf3
      have hnd1 := List.nodup_cons.mp hnd
      obtain ⟨hwf, hst, hc⟩ := procinit_loop_spec rest (done ++ [p]) s3 t hwf3
        (fun q hq hq2 => by
          rcases List.mem_append.mp hq2 with h3 | h3
          · exact hps q (List.mem_cons_of_mem _ hq) h3
          · have : q = p := by simpa using h3
            exact hnd1.1 (this ▸ hq)) hnd1.2 hr
      refine ⟨by simpa using hwf, fun q => ?_, ?_⟩
      · rw [hst q, hpost.state q]
        by_cases e : q = p
        · subst e; simp
        · simp [Function.update_noteq e]
      · rw [hc, hpost.cpus_eq (by decide)]
        rfl

theorem bound_but_zero {x : Option (Fin K.NPROC)} {s : kernel K}
    (h : ∀ p, (s.procs p).state = .UNUSED) (c : Fin K.NCPU) : bound_but x s c = 0 := by
  unfold bound_but
  refine Finset.sum_eq_zero (fun p _ => ?_)
  split
  · rfl
  · exact counted_off (by rw [h p]; decide) (by rw [h p]; decide) c

/-- The state `procinit` leaves satisfies the invariant: every slot is `UNUSED` and on
the `UNUSED` list, in table order, and every other list is empty. -/
theorem procinit_inv {t : kernel K} (hr : procinit (kernel.zero K) = .ok t) :
    inv t (unused_only (List.finRange K.NPROC)) ∧ ∀ p, (t.procs p).state = .UNUSED := by
  have h0 : lists_wf ∅ (kernel.zero K) (unused_only ([] : List (Fin K.NPROC))) :=
    ⟨fun l => by cases l <;> simp [unused_only, has_nodes, get_head, list_id.type,
        list_id.cpu_num, is_list, kernel.zero, cpu.zero, cpus_index_nat],
      fun l l2 p hp => by cases l <;> simp [unused_only] at hp,
      fun p _ _ => rfl⟩
  unfold procinit at hr
  obtain ⟨hwf, hst, hc⟩ := procinit_loop_spec (List.finRange K.NPROC) [] (kernel.zero K) t h0
    (fun _ _ => by simp) (List.nodup_finRange _) hr
  rw [List.nil_append] at hwf
  have hst2 : ∀ p, (t.procs p).state = .UNUSED := fun p => by rw [hst p]; rfl
  refine ⟨⟨hwf, ?_, ?_, ?_, ?_, ?_, ?_, ?_⟩, hst2⟩
  · intro l p hp _
    rw [hst2 p, (mem_unused_only hp).1]
    rfl
  · intro p _ _ _ _
    exact ⟨.unused, List.mem_finRange p⟩
  · intro c p hp
    rw [hc] at hp
    cases hp
  · intro c c2 p hp
    rw [hc] at hp
    cases hp
  · intro _ c p hp
    exact absurd (mem_unused_only hp).1 (by simp)
  · intro _ c
    rw [bound_but_zero hst2, hc]
    rfl
  · intro p ho
    exact absurd ho (Finset.not_mem_empty p)

/-- Stores into the record of the process in transit that leave `next`, the other
records, the CPU records and the list heads alone keep the invariant. -/
theorem inv_but.stores_x {x : Fin K.NPROC} {d : Fin K.NCPU → Int} {s t : kernel K}
    {L : list_id K → List (Fin K.NPROC)} (h : inv_but O (some x) d s L)
    (hp : ∀ i, i ≠ x → t.procs i = s.procs i) (hnx : (t.procs x).next = (s.procs x).next)
    (hc : t.cpus = s.cpus) (hh : ∀ l : list_id K, l.head t = l.head s) :
    inv_but O (some x) d t L :=
  h.transfer (lists_wf_congr h.wf (fun i => by
      by_cases e : i = x
      · subst e; exact hnx
      · rw [hp i e]) hh)
    (fun _ _ _ => Iff.rfl)
    (fun i hi => by
      have e : i ≠ x := fun e => hi (by rw [e])
      rw [hp i e]
      exact ⟨rfl, rfl⟩)
    (fun c p h1 => by rw [← hc]; exact h1) (fun _ c => by rw [hc]; ring)

/-- The loop of `userinit` that clears the CPU records, run right after `procinit`. -/
theorem userinit_clear_keeps {L : list_id K → List (Fin K.NPROC)}
    (hempty : ∀ c, L (.runnable c) = []) :
    ∀ (l : List Nat) (s t : kernel K), inv s L → (∀ p, (s.procs p).state = .UNUSED) →
      userinit_clear l s = .ok t → inv t L ∧ t.procs = s.procs
  | [], s, t, h, _, hr => by
    injection hr with hr
    subst hr
    exact ⟨h, rfl⟩
  | i :: rest, s, t, h, hst, hr => by
    unfold userinit_clear at hr
    cases hci : cpus_index K i with
    | none => simp [hci] at hr
    | some c =>
      simp only [hci] at hr
      have hhead : (s.cpus c).runnable_list_head = none := by
        have := (list_id.has_nodes_is_list s (.runnable c) _).mp (h.wf.nodes (.runnable c))
        rw [hempty c] at this
        exact this
      have h1 : inv (set_cpus s c { s.cpus c with
          runnable_list_head := none, proc_list_size := 0, admitted_process_count := 0 }) L := by
        refine h.transfer (lists_wf_set_cpus h.wf c _ hhead.symm) (fun _ _ _ => Iff.rfl)
          (fun _ _ => ⟨rfl, rfl⟩) (fun c2 p hp => ?_) (fun hb c2 => ?_)
        · by_cases e : c2 = c
          · subst e; simpa using hp
          · simpa [Function.update_noteq e] using hp
        · by_cases e : c2 = c
          · subst e
            have := h.count hb c2
            rw [bound_but_zero hst] at this
            simp [this]
          · simp [Function.update_noteq e]
      obtain ⟨h2, hp2⟩ := userinit_clear_keeps hempty rest _ t h1 hst hr
      exact ⟨h2, hp2⟩

/-- The end of `userinit`: the first process, in transit and `RUNNABLE`, lands on an
empty runnable list, whose head the final `set_head` then stores once more. -/
theorem userinit_tail {q : Fin K.NPROC} {a t : kernel K} {L : list_id K → List (Fin K.NPROC)}
    (h : inv_but ∅ (some q) (fun _ => 0) a L) (hoff : ∀ l, q ∉ L l)
    (hst : (a.procs q).state = .RUNNABLE) (hempty : ∀ c, L (.runnable c) = [])
    (hcur : ∀ c, (a.cpus c).proc ≠ some q)
    (hr : (do
      let (_, s10) ← add_proc_to_list q .RUNNABLE (a.procs q).cpu_num a
      let s11 ← increase_runnable_list_size_of (s10.procs q).cpu_num s10
      set_head (some q) .RUNNABLE (s11.procs q).cpu_num s11) = .ok t) : ∃ L2, inv t L2 := by
  obtain ⟨⟨r, s10⟩, hadd, hr2⟩ := bind_eq_ok hr
  dsimp only at hr2
  obtain ⟨s11, hinc, hset⟩ := bind_eq_ok hr2
  clear hr hr2
  obtain ⟨l, hof, -, h10, hpost, hmem⟩ := h.enqueue hoff hadd
  obtain ⟨ci, hci, h11, hp11, hc11⟩ := h10.increase hinc
  have hcn10 : (s10.procs q).cpu_num = (a.procs q).cpu_num := hpost.cpu_num q
  have hcn11 : (s11.procs q).cpu_num = (a.procs q).cpu_num := by rw [hp11, hcn10]
  rw [hcn10] at hci
  have hl : l = .runnable ci := by
    unfold list_id.of at hof
    rw [hci] at hof
    exact (Option.some.inj hof).symm
  subst hl
  have hhead : (s11.cpus ci).runnable_list_head = some q := by
    have := (list_id.has_nodes_is_list s11 (.runnable ci) _).mp (h11.wf.nodes (.runnable ci))
    rw [Function.update_same, hempty ci] at this
    exact this.1
  unfold set_head at hset
  rw [hcn11, hci] at hset
  injection hset with hset
  subst hset
  have hsame : (set_cpus s11 ci { s11.cpus ci with runnable_list_head := some q }).cpus
      = s11.cpus := by
    have e : ({ s11.cpus ci with runnable_list_head := some q } : cpu K) = s11.cpus ci := by
      rw [← hhead]
    rw [set_cpus_cpus, e, Function.update_eq_self]
  have h12 := h11.same (t := set_cpus s11 ci { s11.cpus ci with runnable_list_head := some q })
    rfl hsame (fun l2 => list_id.head_set_cpus s11 ci _ hhead.symm l2)
  refine ⟨_, h12.close_on hmem ?_ ?_ ?_ ?_⟩
  · simp only [set_cpus_procs]
    rw [hp11, hpost.state q, hst]
    rfl
  · intro c2 hc2
    have : (s11.cpus c2).proc = some q := by
      by_cases e : c2 = ci
      · subst e; simpa using hc2
      · simpa [Function.update_noteq e] using hc2
    rw [hc11, hpost.proc] at this
    exact hcur c2 this
  · intro _ c2 hl
    injection hl with hl
    subst hl
    simp only [set_cpus_procs]
    rw [hcn11]
    exact (cpus_index_val hci).symm
  · intro _ c2
    rw [counted_on (v := (set_cpus s11 ci { s11.cpus ci with runnable_list_head := some q }).procs q)
      (Or.inl (by simp only [set_cpus_procs]; rw [hp11, hpost.state q, hst]))
      (by simp only [set_cpus_procs]; rw [hcn11]; exact hci)]
    simp

/-- `userinit`, run on the state `procinit` leaves, establishes the invariant. -/
theorem userinit_inv {vm : vm_calls} {PGSIZE : Nat} {initcode_name : List Nat}
    {root : Option Nat} {s t : kernel K} {L : list_id K → List (Fin K.NPROC)}
    (h : inv s L) (hempty : ∀ c, L (.runnable c) = [])
    (hst : ∀ p, (s.procs p).state = .UNUSED)
    (hr : userinit vm PGSIZE initcode_name root s = .ok t) : ∃ L2, inv t L2 := by
  unfold userinit at hr
  have key : ∀ jp : kernel K → Except fault (kernel K),
      (if kernel.is_initialize s = 0 then
        ((userinit_clear (List.range K.CPUS) s).map
          (fun t => { t with is_initialize := 1 })) >>= jp
       else pure s >>= jp) = Except.ok t → ∃ s0, inv s0 L ∧ jp s0 = Except.ok t := by
    intro jp hr
    by_cases hi : kernel.is_initialize s = 0
    · rw [if_pos hi] at hr
      obtain ⟨s0, hs0, hr1⟩ := bind_eq_ok hr
      cases hcl : userinit_clear (List.range K.CPUS) s with
      | error e => simp [hcl, Except.map] at hs0
      | ok t0 =>
        simp only [hcl, Except.map] at hs0
        injection hs0 with hs0
        subst hs0
        obtain ⟨h1, -⟩ := userinit_clear_keeps hempty _ s t0 h hst hcl
        exact ⟨{ t0 with is_initialize := 1 }, h1.same rfl rfl (fun l => by cases l <;> rfl), hr1⟩
    · rw [if_neg hi] at hr
      exact ⟨s, h, hr⟩
  obtain ⟨s0, h0, hr1⟩ := key _ hr
  clear hr key
  dsimp only at hr1
  obtain ⟨⟨p, s1⟩, hal, hr2⟩ := bind_eq_ok hr1
  clear hr1
  dsimp only at hr2
  rcases allocproc_effect h0 hal with ⟨hp, -⟩ | ⟨q, rest, hl, hp, h1, hoff, hstq, hst0, hoth, hcpu⟩
  · subst hp
    cases hr2
  · subst hp
    simp only [] at hr2
    split at hr2
    · cases hr2
    · rename_i tf htf
      have hnocpu : ∀ c, (s1.cpus c).proc ≠ some q := by
        intro c hc
        rw [hcpu] at hc
        have := h0.cur c q hc (by simp)
        rw [hst0] at this
        cases this
      have h2 : inv_but ∅ (some q) (fun _ => 0) { s1 with initproc := some q }
          (Function.update L .unused rest) :=
        h1.same rfl rfl (fun l => by cases l <;> rfl)
      refine userinit_tail (L := Function.update L .unused rest) ?_ hoff ?_ ?_ ?_ hr2
      · refine inv_but.stores_x h2 ?_ ?_ rfl ?_
        · intro i e
          simp [Function.update_noteq e]
        · simp
        · intro l; cases l <;> rfl
      · simp
      · intro c
        rw [Function.update_noteq (by simp)]
        exact hempty c
      · exact hnocpu

theorem walk_of_is_list {α : Type} (nxt : α → Option α) :
    ∀ (l : List α) (h : Option α) (n : Nat), is_list nxt h l → l.length ≤ n →
      walk nxt n h = l
  | [], h, n, hl, _ => by
    have e : h = none := hl
    subst e
    cases n <;> rfl
  | q :: qs, h, n, hl, hn => by
    obtain ⟨e, hl2⟩ := hl
    subst e
    cases n with
    | zero => simp at hn
    | succ m =>
      show q :: walk nxt m (nxt q) = q :: qs
      rw [walk_of_is_list nxt qs (nxt q) m hl2 (by simpa using hn)]

/-- The chain walked from the head of a well-formed list is its node sequence. -/
theorem lists_wf.nodes_of_eq {s : kernel K} {L : list_id K → List (Fin K.NPROC)}
    (h : lists_wf O s L) (l : list_id K) : nodes_of s l = L l := by
  unfold nodes_of
  refine walk_of_is_list _ _ _ _ ((list_id.has_nodes_is_list s l _).mp (h.nodes l)) ?_
  have := (h.nodup l).length_le_card
  simpa using this

/-- The invariant at rest gives state/list consistency. -/
theorem inv.consistent {s : kernel K} {L : list_id K → List (Fin K.NPROC)} (h : inv s L) :
    consistent s where
  lists := fun l => by
    rw [h.wf.nodes_of_eq l]
    exact (list_id.has_nodes_is_list s l _).mp (h.wf.nodes l)
  on_list := fun p h1 h2 => by
    obtain ⟨l, hl⟩ := h.cover p (by simp) (Finset.not_mem_empty p) h1 h2
    refine ⟨l, (h.onl l p hl (by simp)).symm, ?_, ?_⟩
    · rw [h.wf.nodes_of_eq l]
      exact List.count_eq_one_of_mem (h.wf.nodup l) hl
    · intro l2 hne hm
      rw [h.wf.nodes_of_eq l2] at hm
      exact hne (h.wf.disj l2 l p hm hl)
  off_list := fun p hp l hm => by
    rw [h.wf.nodes_of_eq l] at hm
    have e := h.onl l p hm (by simp)
    rcases hp with hp | hp
    · exact list_id.type_ne_used l (by rw [← e, hp])
    · exact list_id.type_ne_running l (by rw [← e, hp])

/-- Every state reachable from boot satisfies the invariant, for some node sequences. -/
theorem reachable_inv {s : kernel K} (h : reachable s) :
    ∃ L : list_id K → List (Fin K.NPROC), inv s L := by
  induction h with
  | boot vm PGSIZE initcode_name root h0 h1 =>
    obtain ⟨hi, hst⟩ := procinit_inv h0
    exact userinit_inv hi (fun c => rfl) hst h1
  | step _ hs ih =>
    obtain ⟨L, hL⟩ := ih
    exact step_inv hL hs

theorem ex_userinit_reachable : reachable ex_userinit :=
  reachable.boot vm_ok 4096 [105, 110, 105, 116] (some 1)
    (rfl : procinit (kernel.zero K0) = .ok ex_boot) rfl

theorem ex_init_reachable : reachable ex_init :=
  reachable.step ex_userinit_reachable (step.scheduler 0 (by
    unfold ex_init ex_userinit ex_run
    rfl))

/-- C14, as amended.  State/list consistency is an invariant of the states reachable
from boot, where boot is `procinit` followed by one run of `userinit`, by non-interleaved
executions of `fork`, scheduler dispatch, `yield`, `sleep`, `wakeup`, `kill`, `exit`,
`wait` and `set_cpu` with a valid argument (the index of a CPU that has a runnable
list; a call whose argument the range check rejects changes nothing and is covered as
well): every list ends in the null terminator, every process whose state
is `UNUSED`, `SLEEPING`, `ZOMBIE` or `RUNNABLE` occurs exactly once on a list of that
state (for `RUNNABLE`, on the runnable list of exactly one CPU) and on no other list, and
every process whose state is `USED` or `RUNNING` occurs on no list. -/
theorem reachable_consistent (s : kernel K) (h : reachable s) : consistent s := by
  obtain ⟨L, hL⟩ := reachable_inv h
  exact hL.consistent

theorem reachable_consistent_witness : reachable ex_init ∧ consistent ex_init :=
  ⟨ex_init_reachable, reachable_consistent ex_init ex_init_reachable⟩

/-- C14, the counterexample to the claim as stated, which counts `userinit` among the
operations that may run from the state after `procinit`.  On `K0`, run `userinit` twice
after `procinit`.  The second run appends its process (slot 1) to the runnable list of
CPU 0, behind the init process of the first run (slot 0), and then its closing
`set_head` makes slot 1 the head of that list: slot 0 is still `RUNNABLE` but is on no
list any more. -/
theorem userinit_twice_inconsistent :
    reachable_userinit ex_userinit_twice
    ∧ (ex_userinit_twice.procs 0).state = .RUNNABLE
    ∧ (∀ l : list_id K0, (0 : Fin K0.NPROC) ∉ nodes_of ex_userinit_twice l)
    ∧ ¬ consistent ex_userinit_twice := by
  have h1 : (ex_userinit_twice.procs 0).state = .RUNNABLE := by decide
  have h2 : ∀ l : list_id K0, (0 : Fin K0.NPROC) ∉ nodes_of ex_userinit_twice l := by decide
  refine ⟨?_, h1, h2, ?_⟩
  · refine reachable_userinit.userinit vm_ok 4096 [105, 110, 105, 116] (some 1)
      (reachable_userinit.userinit vm_ok 4096 [105, 110, 105, 116] (some 1)
        (reachable_userinit.procinit (s := ex_boot) rfl) (t := ex_userinit) rfl)
      (t := ex_userinit_twice) rfl
  · intro hc
    obtain ⟨l, -, hl, -⟩ := hc.on_list 0 (by rw [h1]; decide) (by rw [h1]; decide)
    have := h2 l
    rw [← List.count_eq_zero] at this
    omega

/-- With balancing off, the runnable list of the CPU `c` holds exactly the `RUNNABLE`
processes bound to `c`. -/
theorem inv.runnable_mem_iff {s : kernel K} {L : list_id K → List (Fin K.NPROC)}
    (h : inv s L) (hb : K.BLNCFLG = false) (c : Fin K.NCPU) (p : Fin K.NPROC) :
    p ∈ L (.runnable c)
      ↔ (s.procs p).state = .RUNNABLE ∧ (s.procs p).cpu_num = ((c : Nat) : Int) := by
  constructor
  · intro hp
    exact ⟨h.onl _ p hp (by simp), h.bind hb c p hp (by simp)⟩
  · rintro ⟨h1, h2⟩
    obtain ⟨l, hl⟩ := h.cover p (by simp) (Finset.not_mem_empty p) (by rw [h1]; decide)
      (by rw [h1]; decide)
    have ht := h.onl l p hl (by simp)
    rw [h1] at ht
    cases l with
    | runnable c2 =>
      have h3 := h.bind hb c2 p hl (by simp)
      rw [h2] at h3
      have : c = c2 := Fin.ext (by exact_mod_cast h3)
      rw [this]
      exact hl
    | unused => cases ht
    | sleeping => cases ht
    | zombie => cases ht

/-- With balancing off, `proc_list_size` of the CPU `c` counts the nodes of its runnable
list and the `RUNNING` processes bound to it. -/
theorem inv.size_eq {s : kernel K} {L : list_id K → List (Fin K.NPROC)}
    (h : inv s L) (hb : K.BLNCFLG = false) (c : Fin K.NCPU) :
    (s.cpus c).proc_list_size = ((L (.runnable c)).length : Int) + (running_bound s c : Int) := by
  have hc := h.count hb c
  rw [hc]
  unfold bound_but running_bound
  have e : ∀ p : Fin K.NPROC,
      (if some p = (none : Option (Fin K.NPROC)) then (0 : Int) else counted (s.procs p) c)
        = (if p ∈ L (.runnable c) then 1 else 0)
          + (if (s.procs p).state = .RUNNING ∧ (s.procs p).cpu_num = ((c : Nat) : Int)
              then 1 else 0) := by
    intro p
    rw [if_neg (by simp)]
    unfold counted
    by_cases h1 : (s.procs p).cpu_num = ((c : Nat) : Int)
    · by_cases h2 : (s.procs p).state = .RUNNABLE
      · have hm := (h.runnable_mem_iff hb c p).mpr ⟨h2, h1⟩
        simp [h1, h2, hm]
      · have hm : p ∉ L (.runnable c) := fun hm => h2 ((h.runnable_mem_iff hb c p).mp hm).1
        by_cases h3 : (s.procs p).state = .RUNNING
        · simp [h1, h3, hm]
        · simp [h1, h2, h3, hm]
    · have hm : p ∉ L (.runnable c) := fun hm => h1 ((h.runnable_mem_iff hb c p).mp hm).2
      simp [h1, hm]
  rw [Finset.sum_congr rfl (fun p _ => e p), Finset.sum_add_distrib, Finset.sum_boole,
    Finset.sum_boole]
  have hl : (Finset.univ.filter (fun p => p ∈ L (.runnable c))).card
      = (L (list_id.runnable c)).length := by
    rw [← List.toFinset_card_of_nodup (h.wf.nodup _)]
    congr 1
    ext p
    simp
  rw [hl]
  simp

/-- C15, as amended.  With balancing off, in every state reachable from boot by
non-interleaved executions of `fork`, scheduler dispatch, `yield`, `sleep`, `wakeup`,
`kill`, `exit`, `wait` and `set_cpu`, for every CPU `c` the value of
`cpus[c].proc_list_size` equals the number of nodes on the runnable list of `c` plus the
number of `RUNNING` processes with `cpu_num = c`: dispatch takes a node off the list and
leaves the counter as it is. -/
theorem proc_list_size_counts_running (s : kernel K) (hb : K.BLNCFLG = false)
    (h : reachable s) (c : Fin K.NCPU) :
    (s.cpus c).proc_list_size
      = ((nodes_of s (.runnable c)).length : Int) + (running_bound s c : Int) := by
  obtain ⟨L, hL⟩ := reachable_inv h
  rw [hL.wf.nodes_of_eq]
  exact hL.size_eq hb c

theorem proc_list_size_counts_running_witness :
    K0.BLNCFLG = false ∧ reachable ex_init
    ∧ (ex_init.cpus 0).proc_list_size
        = ((nodes_of ex_init (.runnable 0)).length : Int) + (running_bound ex_init 0 : Int)
    ∧ (ex_init.cpus 0).proc_list_size = 1
    ∧ running_bound ex_init 0 = 1 :=
  ⟨rfl, ex_init_reachable,
    proc_list_size_counts_running ex_init rfl ex_init_reachable 0,
    by decide, by decide⟩

theorem ex_init_balanced_reachable : reachable ex_init_balanced := by
  refine reachable.step (reachable.boot vm_ok 4096 [105, 110, 105, 116] (some 1)
    (rfl : procinit (kernel.zero K1) = .ok (ex_run_balanced (procinit (kernel.zero K1))))
    (rfl : _ = Except.ok (ex_run_balanced (userinit vm_ok 4096 [105, 110, 105, 116] (some 1)
      (ex_run_balanced (procinit (kernel.zero K1))))))) (step.scheduler 0 ?_)
  unfold ex_init_balanced ex_run_balanced
  rfl

theorem ex_balanced_woken_reachable : reachable ex_balanced_woken := by
  refine reachable.step (reachable.step ex_init_balanced_reachable
    (step.sleep 0 (some (.addr 9))
      (rfl : _ = Except.ok (ex_run_balanced (sleep 0 (some (.addr 9)) ex_init_balanced)))))
    (step.wakeup 1 (some (.addr 9)) ?_)
  unfold ex_balanced_woken
  rfl

theorem ex_balanced_moved_reachable : reachable ex_balanced_moved := by
  have h1 : scheduler 0 ex_balanced_woken
      = Except.ok (ex_run_balanced (scheduler 0 ex_balanced_woken)) := by
    with_unfolding_all rfl
  have h2 : sleep 0 (some (.addr 9)) (ex_run_balanced (scheduler 0 ex_balanced_woken))
      = Except.ok (ex_run_balanced (sleep 0 (some (.addr 9))
          (ex_run_balanced (scheduler 0 ex_balanced_woken)))) := by
    with_unfolding_all rfl
  have h3 : wakeup 1 (some (.addr 9)) (ex_run_balanced (sleep 0 (some (.addr 9))
        (ex_run_balanced (scheduler 0 ex_balanced_woken))))
      = Except.ok ex_balanced_moved := by
    with_unfolding_all rfl
  exact reachable.step (reachable.step (reachable.step ex_balanced_woken_reachable
    (step.scheduler 0 h1)) (step.sleep 0 _ h2)) (step.wakeup 1 _ h3)

theorem ex_balanced_dispatched_reachable : reachable ex_balanced_dispatched :=
  reachable.step ex_balanced_moved_reachable (step.scheduler 1 (by
    unfold ex_balanced_dispatched
    rfl))

/-- C15, the counterexample to the claim as stated.  On `K0` (balancing off), after boot
and the first dispatch on CPU 0 the init process is `RUNNING`, the runnable list of CPU 0
is empty, and `cpus[0].proc_list_size` is still 1: `scheduler` takes the process off the
list and does not touch the counter.  On `K1` (balancing on) the counter does not count
the `RUNNING` processes bound to the CPU either: once `wakeup` has put the init process,
bound to CPU 0, on the runnable list of CPU 1 and CPU 1 has dispatched it,
`cpus[1].proc_list_size` is 1 while the runnable list of CPU 1 is empty and no `RUNNING`
process is bound to CPU 1. -/
theorem dispatch_keeps_proc_list_size :
    (reachable ex_init
      ∧ nodes_of ex_init (.runnable 0) = []
      ∧ (ex_init.cpus 0).proc_list_size = 1
      ∧ (ex_init.cpus 0).proc_list_size ≠ ((nodes_of ex_init (.runnable 0)).length : Int))
    ∧ (K1.BLNCFLG = true ∧ reachable ex_balanced_dispatched
      ∧ (ex_balanced_dispatched.cpus 1).proc_list_size = 1
      ∧ nodes_of ex_balanced_dispatched (.runnable 1) = []
      ∧ running_bound ex_balanced_dispatched 1 = 0) :=
  ⟨⟨ex_init_reachable, by decide, by decide, by decide⟩,
    rfl, ex_balanced_dispatched_reachable, by decide, by decide, by decide⟩

/-! ## The flag `is_initialize` -/

theorem acquire_list_is_init {list_type : procstate} {cpu_num : Int} {s t : kernel K}
    (h : acquire_list list_type cpu_num s = .ok t) :
    kernel.is_initialize t = kernel.is_initialize s := by
  unfold acquire_list at h
  cases list_type <;> simp at h
  case RUNNABLE =>
    cases hl : locks_index K cpu_num <;> simp [hl] at h
    subst h; rfl
  all_goals (subst h; rfl)

theorem release_list_is_init {list_type : procstate} {cpu_num : Int} {s t : kernel K}
    (h : release_list list_type cpu_num s = .ok t) :
    kernel.is_initialize t = kernel.is_initialize s := by
  unfold release_list at h
  cases list_type <;> simp at h
  case RUNNABLE =>
    cases hl : locks_index K cpu_num <;> simp [hl] at h
    subst h; rfl
  all_goals (subst h; rfl)

theorem set_head_is_init {list_type : procstate} {cpu_num : Int} {s t : kernel K}
    {v : Option (Fin K.NPROC)} (h : set_head v list_type cpu_num s = .ok t) :
    kernel.is_initialize t = kernel.is_initialize s := by
  unfold set_head at h
  cases list_type <;> simp at h
  case RUNNABLE =>
    cases hl : cpus_index K cpu_num <;> simp [hl] at h
    subst h; rfl
  all_goals (subst h; rfl)

theorem add_proc_to_list_loop_is_init (list_type : procstate) (cpu_num : Int) :
    ∀ (fuel : Nat) (s : kernel K) (prev curr : Option (Fin K.NPROC)) (t : kernel K)
      (pv : Option (Fin K.NPROC)),
      add_proc_to_list_loop list_type cpu_num fuel s prev curr = .ok (t, pv) →
      kernel.is_initialize t = kernel.is_initialize s
  | 0, _, _, _, _, _, h => by simp [add_proc_to_list_loop] at h
  | _ + 1, s, prev, none, t, pv, h => by
    simp [add_proc_to_list_loop] at h
    rw [← h.1]
  | fuel + 1, s, prev, some curr, t, pv, h => by
    unfold add_proc_to_list_loop at h
    dsimp only at h
    split at h
    · cases h
    · rename_i s2 hs2
      have h2 : kernel.is_initialize s2 = kernel.is_initialize s := by
        cases prev with
        | none =>
          dsimp only at hs2
          have := release_list_is_init hs2
          exact this
        | some pv0 =>
          simp at hs2
          subst hs2; rfl
      exact (add_proc_to_list_loop_is_init list_type cpu_num fuel s2 _ _ t pv h).trans h2

theorem add_proc_to_list_is_init {p : Fin K.NPROC} {list_type : procstate} {cpu_num : Int}
    {s t : kernel K} {r : Int} (h : add_proc_to_list p list_type cpu_num s = .ok (r, t)) :
    kernel.is_initialize t = kernel.is_initialize s := by
  unfold add_proc_to_list at h
  obtain ⟨s1, hs1, h⟩ := bind_eq_ok h
  obtain ⟨curr, -, h⟩ := bind_eq_ok h
  have h1 := acquire_list_is_init hs1
  cases curr with
  | none =>
    obtain ⟨s2, hs2, h⟩ := bind_eq_ok h
    obtain ⟨s3, hs3, h⟩ := bind_eq_ok h
    have h2 := set_head_is_init hs2
    have h3 := release_list_is_init hs3
    simp [pure, Except.pure] at h
    rw [← h.2]
    exact h3.trans (h2.trans h1)
  | some c0 =>
    obtain ⟨⟨s2, prev⟩, hs2, h⟩ := bind_eq_ok h
    have h2 := add_proc_to_list_loop_is_init _ _ _ _ _ _ _ _ hs2
    cases prev with
    | none => cases h
    | some pv =>
      simp [pure, Except.pure] at h
      rw [← h.2]
      exact h2.trans h1

theorem remove_loop_is_init (p : Fin K.NPROC) (list_type : procstate) :
    ∀ (fuel : Nat) (s : kernel K) (prev curr : Option (Fin K.NPROC)) (r : Int) (t : kernel K),
      remove_proc_from_list_loop p list_type fuel s prev curr = .ok (r, t) →
      kernel.is_initialize t = kernel.is_initialize s
  | 0, _, _, _, _, _, h => by simp [remove_proc_from_list_loop] at h
  | _ + 1, s, prev, none, r, t, h => by
    simp [remove_proc_from_list_loop] at h
    rw [← h.2]
  | fuel + 1, s, prev, some curr, r, t, h => by
    unfold remove_proc_from_list_loop at h
    dsimp only at h
    by_cases hpc : p = curr
    · rw [if_pos hpc] at h
      cases prev with
      | none => cases h
      | some pv =>
        simp at h
        rw [← h.2]
        rfl
    · rw [if_neg hpc] at h
      split at h
      · cases h
      · rename_i s2 hs2
        have h2 : kernel.is_initialize s2 = kernel.is_initialize s := by
          cases prev with
          | none =>
            dsimp only at hs2
            have := release_list_is_init hs2
            exact this
          | some pv0 =>
            simp at hs2
            subst hs2; rfl
        exact (remove_loop_is_init p list_type fuel s2 _ _ r t h).trans h2

theorem remove_proc_from_list_is_init {p : Fin K.NPROC} {list_type : procstate}
    {s t : kernel K} {r : Int} (h : remove_proc_from_list p list_type s = .ok (r, t)) :
    kernel.is_initialize t = kernel.is_initialize s := by
  unfold remove_proc_from_list at h
  obtain ⟨s1, hs1, h⟩ := bind_eq_ok h
  obtain ⟨curr, -, h⟩ := bind_eq_ok h
  have h1 := acquire_list_is_init hs1
  cases curr with
  | none =>
    obtain ⟨s2, hs2, h⟩ := bind_eq_ok h
    have h2 := release_list_is_init hs2
    simp [pure, Except.pure] at h
    rw [← h.2]
    exact h2.trans h1
  | some c0 =>
    by_cases hpc : p = c0
    · simp only [hpc, if_true] at h
      obtain ⟨s3, hs3, h⟩ := bind_eq_ok h
      obtain ⟨s6, hs6, h⟩ := bind_eq_ok h
      have h3 := set_head_is_init hs3
      have h6 := release_list_is_init hs6
      simp [pure, Except.pure] at h
      rw [← h.2]
      exact h6.trans (h3.trans h1)
    · simp only [hpc, if_false] at h
      exact (remove_loop_is_init p list_type _ _ _ _ _ _ h).trans h1

theorem remove_head_is_init {list_type : procstate} {cpu_num : Int} {s t : kernel K}
    {hd : Option (Fin K.NPROC)} (h : remove_head list_type cpu_num s = .ok (hd, t)) :
    kernel.is_initialize t = kernel.is_initialize s := by
  unfold remove_head at h
  obtain ⟨s1, hs1, h⟩ := bind_eq_ok h
  obtain ⟨curr, -, h⟩ := bind_eq_ok h
  have h1 := acquire_list_is_init hs1
  cases curr with
  | none =>
    obtain ⟨s2, hs2, h⟩ := bind_eq_ok h
    have h2 := release_list_is_init hs2
    simp [pure, Except.pure] at h
    rw [← h.2]
    exact h2.trans h1
  | some c0 =>
    obtain ⟨s3, hs3, h⟩ := bind_eq_ok h
    obtain ⟨s6, hs6, h⟩ := bind_eq_ok h
    have h3 := set_head_is_init hs3
    have h6 := release_list_is_init hs6
    simp [pure, Except.pure] at h
    rw [← h.2]
    exact h6.trans (h3.trans h1)

theorem counter_is_init {cpu_num : Int} {s t : kernel K}
    (h : increase_admitted_process_count cpu_num s = .ok t
      ∨ increase_runnable_list_size_of cpu_num s = .ok t
      ∨ decrease_runnable_list_size_of cpu_num s = .ok t
      ∨ bump_admitted cpu_num s = .ok t) :
    kernel.is_initialize t = kernel.is_initialize s := by
  unfold increase_admitted_process_count increase_runnable_list_size_of
    decrease_runnable_list_size_of bump_admitted at h
  cases hc : cpus_index K cpu_num with
  | none => simp [hc] at h
  | some c =>
    simp only [hc] at h
    rcases h with h | h | h | h <;> (injection h with h; subst h; rfl)

theorem sched_is_init {c : Fin K.NCPU} {s t : kernel K} (h : sched c s = .ok t) :
    kernel.is_initialize t = kernel.is_initialize s := by
  unfold sched at h
  cases hm : myproc c s with
  | none => simp [hm] at h
  | some p =>
    simp only [hm] at h
    split at h
    · cases h
    · injection h with h
      subst h
      rfl

theorem freeproc_is_init {p : Fin K.NPROC} {s t : kernel K} (h : freeproc p s = .ok t) :
    kernel.is_initialize t = kernel.is_initialize s := by
  unfold freeproc at h
  obtain ⟨⟨r2, s2⟩, hs2, h⟩ := bind_eq_ok h
  obtain ⟨⟨r4, s4⟩, hs4, h⟩ := bind_eq_ok h
  have e2 := remove_proc_from_list_is_init hs2
  have e4 := add_proc_to_list_is_init hs4
  simp [pure, Except.pure] at h
  subst h
  exact e4.trans e2

theorem allocproc_is_init {vm : vm_calls} {s t : kernel K} {r : Option (Fin K.NPROC)}
    (h : allocproc vm s = .ok (r, t)) :
    kernel.is_initialize t = kernel.is_initialize s := by
  unfold allocproc at h
  split at h
  · cases h
  · rename_i s1 hrh
    injection h with h
    injection h with _ h
    subst h
    exact remove_head_is_init hrh
  · rename_i p s1 hrh
    have e1 := remove_head_is_init hrh
    unfold allocproc_found at h
    split at h
    · split at h
      · cases h
      · rename_i t2 hfree
        injection h with h
        injection h with _ h
        subst h
        exact (freeproc_is_init hfree).trans e1
    · split at h
      · split at h
        · cases h
        · rename_i t2 hfree
          injection h with h
          injection h with _ h
          subst h
          exact (freeproc_is_init hfree).trans e1
      · injection h with h
        injection h with _ h
        subst h
        exact e1

theorem fork_enqueue_is_init {np : Fin K.NPROC} {cpu_num : Int} {s t : kernel K}
    (h : fork_enqueue np cpu_num s = .ok t) :
    kernel.is_initialize t = kernel.is_initialize s := by
  unfold fork_enqueue at h
  obtain ⟨⟨r10, s10⟩, hs10, h⟩ := bind_eq_ok h
  obtain ⟨s11, hs11, h⟩ := bind_eq_ok h
  obtain ⟨s12, hs12, h⟩ := bind_eq_ok h
  have e10 := add_proc_to_list_is_init hs10
  have e11 := counter_is_init (Or.inl hs11)
  have e12 := counter_is_init (Or.inr (Or.inr (Or.inr hs12)))
  have e13 := counter_is_init (Or.inr (Or.inl h))
  exact e13.trans (e12.trans (e11.trans e10))

theorem fork_is_init {vm : vm_calls} {c : Fin K.NCPU} {s t : kernel K} {r : Int}
    (h : fork vm c s = .ok (r, t)) :
    kernel.is_initialize t = kernel.is_initialize s := by
  unfold fork at h
  split at h
  · cases h
  · rename_i s1 hal
    injection h with h
    injection h with _ h
    subst h
    exact allocproc_is_init hal
  · rename_i np s1 hal
    have e1 := allocproc_is_init hal
    split at h
    · cases h
    · rename_i p hp
      unfold fork_found at h
      split at h
      · split at h
        · cases h
        · rename_i t2 hfree
          injection h with h
          injection h with _ h
          subst h
          exact (freeproc_is_init hfree).trans e1
      · split at h
        · split at h
          · cases h
          · split at h
            · cases h
            · rename_i t2 henq
              injection h with h
              injection h with _ h
              subst h
              exact (fork_enqueue_is_init henq).trans e1
        · cases h

theorem yield_is_init {c : Fin K.NCPU} {s t : kernel K} (h : yield c s = .ok t) :
    kernel.is_initialize t = kernel.is_initialize s := by
  unfold yield at h
  cases hp : myproc c s with
  | none => simp [hp] at h
  | some x =>
    simp only [hp] at h
    obtain ⟨⟨r, s2⟩, hadd, hsched⟩ := bind_eq_ok h
    have e1 := add_proc_to_list_is_init hadd
    have e2 := sched_is_init hsched
    exact e2.trans e1

theorem sleep_is_init {c : Fin K.NCPU} {chan : Option (chan_t K)} {s t : kernel K}
    (h : sleep c chan s = .ok t) : kernel.is_initialize t = kernel.is_initialize s := by
  unfold sleep at h
  cases hp : myproc c s with
  | none => simp [hp] at h
  | some x =>
    simp only [hp] at h
    obtain ⟨s3, hdec, h⟩ := bind_eq_ok h
    obtain ⟨⟨r, s4⟩, hadd, hsched⟩ := bind_eq_ok h
    have e1 := counter_is_init (Or.inr (Or.inr (Or.inl hdec)))
    have e2 := add_proc_to_list_is_init hadd
    have e3 := sched_is_init hsched
    exact e3.trans (e2.trans e1)

theorem scheduler_is_init {c : Fin K.NCPU} {s t : kernel K} (h : scheduler c s = .ok t) :
    kernel.is_initialize t = kernel.is_initialize s := by
  unfold scheduler at h
  obtain ⟨⟨curr, s1⟩, hrh, h⟩ := bind_eq_ok h
  have e1 := remove_head_is_init hrh
  cases curr with
  | none =>
    simp [pure, Except.pure] at h
    subst h
    exact e1
  | some q =>
    simp only [] at h
    split at h
    · cases h
    · simp [pure, Except.pure] at h
      subst h
      exact e1

theorem wakeup_body_is_init {c : Fin K.NCPU} {chan : Option (chan_t K)} {p : Fin K.NPROC}
    {s t : kernel K} (h : wakeup_body c chan p s = .ok t) :
    kernel.is_initialize t = kernel.is_initialize s := by
  unfold wakeup_body at h
  by_cases h1 : some p ≠ myproc c s
  · by_cases h2 : (s.procs p).state = .SLEEPING ∧ (s.procs p).chan = chan
    · rw [if_pos h1, if_pos h2] at h
      obtain ⟨⟨r1, s1⟩, hs1, h⟩ := bind_eq_ok h
      obtain ⟨cpu_num, -, h⟩ := bind_eq_ok h
      obtain ⟨⟨r3, s3⟩, hs3, h⟩ := bind_eq_ok h
      obtain ⟨s4, hs4, h⟩ := bind_eq_ok h
      have e1 := remove_proc_from_list_is_init hs1
      have e3 := add_proc_to_list_is_init hs3
      have e4 := counter_is_init (Or.inl hs4)
      have e5 := counter_is_init (Or.inr (Or.inl h))
      exact e5.trans (e4.trans (e3.trans e1))
    · rw [if_pos h1, if_neg h2] at h
      have e : s = t := by simpa [pure, Except.pure] using h
      subst e
      rfl
  · rw [if_neg h1] at h
    have e : s = t := by simpa [pure, Except.pure] using h
    subst e
    rfl

theorem wakeup_loop_is_init (c : Fin K.NCPU) (chan : Option (chan_t K)) :
    ∀ (l : List (Fin K.NPROC)) (s t : kernel K), wakeup_loop c chan l s = .ok t →
      kernel.is_initialize t = kernel.is_initialize s
  | [], s, t, h => by
    injection h with h
    subst h
    rfl
  | p :: rest, s, t, h => by
    unfold wakeup_loop at h
    split at h
    · cases h
    · rename_i s1 hs1
      exact (wakeup_loop_is_init c chan rest s1 t h).trans (wakeup_body_is_init hs1)

theorem wakeup_is_init {c : Fin K.NCPU} {chan : Option (chan_t K)} {s t : kernel K}
    (h : wakeup c chan s = .ok t) : kernel.is_initialize t = kernel.is_initialize s :=
  wakeup_loop_is_init c chan _ s t h

theorem kill_is_init {pid r : Int} {s t : kernel K} (h : kill pid s = .ok (r, t)) :
    kernel.is_initialize t = kernel.is_initialize s := by
  unfold kill at h
  have key : ∀ (l : List (Fin K.NPROC)), kill_loop pid l s = .ok (r, t) →
      kernel.is_initialize t = kernel.is_initialize s := by
    intro l
    induction l with
    | nil =>
      intro h
      unfold kill_loop at h
      injection h with h
      injection h with _ h
      subst h
      rfl
    | cons p rest ih =>
      intro h
      unfold kill_loop at h
      by_cases hp : (s.procs p).pid = pid
      · rw [if_pos hp] at h
        unfold kill_found at h
        dsimp only at h
        split at h
        · obtain ⟨⟨r2, s2⟩, hs2, h⟩ := bind_eq_ok h
          obtain ⟨⟨r4, s4⟩, hs4, h⟩ := bind_eq_ok h
          obtain ⟨s5, hs5, h⟩ := bind_eq_ok h
          simp [pure, Except.pure] at h
          rw [← h.2]
          have e2 := remove_proc_from_list_is_init hs2
          have e4 := add_proc_to_list_is_init hs4
          have e5 := counter_is_init (Or.inr (Or.inl hs5))
          exact e5.trans (e4.trans e2)
        · simp [pure, Except.pure] at h
          rw [← h.2]
          rfl
      · rw [if_neg hp] at h
        exact ih h
  exact key _ h

theorem reparent_loop_is_init (c : Fin K.NCPU) (p : Fin K.NPROC) :
    ∀ (l : List (Fin K.NPROC)) (s t : kernel K), reparent_loop c p l s = .ok t →
      kernel.is_initialize t = kernel.is_initialize s
  | [], s, t, h => by
    injection h with h
    subst h
    rfl
  | pp :: rest, s, t, h => by
    unfold reparent_loop at h
    by_cases hpp : (s.procs pp).parent = some p
    · rw [if_pos hpp] at h
      dsimp only at h
      split at h
      · cases h
      · rename_i s2 hs2
        have e2 := wakeup_is_init hs2
        have e3 := reparent_loop_is_init c p rest s2 t h
        exact e3.trans e2
    · rw [if_neg hpp] at h
      exact reparent_loop_is_init c p rest s t h

theorem exit_is_init {c : Fin K.NCPU} {status : Int} {s t : kernel K}
    (h : exit c status s = .ok t) : kernel.is_initialize t = kernel.is_initialize s := by
  unfold exit at h
  dsimp only at h
  by_cases hinit : myproc c s = s.initproc
  · rw [if_pos hinit] at h
    cases h
  · rw [if_neg hinit] at h
    cases hp : myproc c s with
    | none => simp [hp] at h
    | some k =>
      simp only [hp] at h
      obtain ⟨u, -, h⟩ := bind_eq_ok h
      obtain ⟨s3, hs3, h⟩ := bind_eq_ok h
      obtain ⟨s4, hs4, h⟩ := bind_eq_ok h
      obtain ⟨⟨r7, s7⟩, hs7, h⟩ := bind_eq_ok h
      obtain ⟨s8, hs8, h⟩ := bind_eq_ok h
      unfold reparent at hs3
      have e3 := reparent_loop_is_init c k _ _ _ hs3
      have e4 := wakeup_is_init hs4
      have e7 := add_proc_to_list_is_init hs7
      have e8 := counter_is_init (Or.inr (Or.inr (Or.inl hs8)))
      have e9 := sched_is_init h
      exact e9.trans (e8.trans (e7.trans (e4.trans e3)))

theorem wait_found_is_init {vm : vm_calls} {p : Option (Fin K.NPROC)} {np : Fin K.NPROC}
    {addr : Nat} {s t : kernel K} {r : Int} (h : wait_found vm p np addr s = .ok (r, t)) :
    kernel.is_initialize t = kernel.is_initialize s := by
  unfold wait_found at h
  split at h
  · split at h
    · cases h
    · split at h
      · injection h with h
        injection h with _ h
        subst h
        rfl
      · split at h
        · cases h
        · rename_i t2 hfree
          injection h with h
          injection h with _ h
          subst h
          have e := freeproc_is_init hfree
          exact e
  · split at h
    · cases h
    · rename_i t2 hfree
      injection h with h
      injection h with _ h
      subst h
      exact freeproc_is_init hfree

theorem wait_scan_is_init (vm : vm_calls) (p : Option (Fin K.NPROC)) (addr : Nat) :
    ∀ (l : List (Fin K.NPROC)) (havekids : Int) (s t : kernel K) (r : Option Int) (hk : Int),
      wait_scan vm p addr l havekids s = .ok (r, hk, t) →
      kernel.is_initialize t = kernel.is_initialize s
  | [], havekids, s, t, r, hk, h => by
    unfold wait_scan at h
    injection h with h
    injection h with _ h
    injection h with _ h
    subst h
    rfl
  | np :: rest, havekids, s, t, r, hk, h => by
    unfold wait_scan at h
    split at h
    · split at h
      · split at h
        · cases h
        · rename_i r2 hf
          injection h with h
          injection h with _ h
          injection h with _ h
          subst h
          exact wait_found_is_init (r := r2.1) (t := r2.2) hf
      · exact wait_scan_is_init vm p addr rest 1 s t r hk h
    · exact wait_scan_is_init vm p addr rest havekids s t r hk h

theorem wait_is_init {vm : vm_calls} {c : Fin K.NCPU} {addr : Nat} {s t : kernel K}
    {r : wait_result} (h : wait vm c addr s = .ok (r, t)) :
    kernel.is_initialize t = kernel.is_initialize s := by
  unfold wait at h
  dsimp only at h
  obtain ⟨⟨r1, hk, s1⟩, hscan, h⟩ := bind_eq_ok h
  have e1 := wait_scan_is_init vm _ addr _ _ _ _ _ _ hscan
  dsimp only at h
  split at h
  · simp [pure, Except.pure] at h
    rw [← h.2]
    exact e1
  · split at h
    · simp [pure, Except.pure] at h
      rw [← h.2]
      exact e1
    · split at h
      · cases h
      · split at h
        · simp [pure, Except.pure] at h
          rw [← h.2]
          exact e1
        · obtain ⟨s2, hs2, h⟩ := bind_eq_ok h
          simp [pure, Except.pure] at h
          rw [← h.2]
          exact (sleep_is_init hs2).trans e1

theorem set_cpu_is_init {c : Fin K.NCPU} {cpu_num r : Int} {s t : kernel K}
    (h : set_cpu c cpu_num s = .ok (r, t)) :
    kernel.is_initialize t = kernel.is_initialize s := by
  unfold set_cpu at h
  split at h
  · simp [pure, Except.pure] at h
    rw [← h.2]
  · cases hp : myproc c s with
    | none => simp [hp] at h
    | some x =>
      simp only [hp] at h
      obtain ⟨s1, hdec, h⟩ := bind_eq_ok h
      obtain ⟨s3, hinc, h⟩ := bind_eq_ok h
      obtain ⟨s4, hy, h⟩ := bind_eq_ok h
      simp [pure, Except.pure] at h
      rw [← h.2]
      have e1 := counter_is_init (Or.inr (Or.inr (Or.inl hdec)))
      have e3 := counter_is_init (Or.inr (Or.inl hinc))
      have e4 := yield_is_init hy
      exact e4.trans (e3.trans e1)

/-- No operation stores to `is_initialize`. -/
theorem step_is_init {s t : kernel K} (hs : step s t) :
    kernel.is_initialize t = kernel.is_initialize s := by
  cases hs with
  | fork vm c r hr => exact fork_is_init hr
  | scheduler c hr => exact scheduler_is_init hr
  | yield c hr => exact yield_is_init hr
  | sleep c chan hr => exact sleep_is_init hr
  | wakeup c chan hr => exact wakeup_is_init hr
  | kill pid r hr => exact kill_is_init hr
  | exit c status hr => exact exit_is_init hr
  | wait vm c addr r hr => exact wait_is_init hr
  | set_cpu c cpu_num r hr => exact set_cpu_is_init hr

/-! ## Before the first `userinit`: every slot is `UNUSED` -/

theorem freeproc_states {x : Fin K.NPROC} {s t : kernel K} (h : freeproc x s = .ok t)
    (i : Fin K.NPROC) :
    (t.procs i).state = if i = x then .UNUSED else (s.procs i).state := by
  unfold freeproc at h
  obtain ⟨⟨r2, s2⟩, hs2, h⟩ := bind_eq_ok h
  dsimp only at h
  obtain ⟨⟨r4, s4⟩, hs4, h⟩ := bind_eq_ok h
  simp [pure, Except.pure] at h
  subst h
  have e2 := remove_proc_from_list_next_only hs2 i
  have e4 := add_proc_to_list_next_only hs4 i
  rw [e4]
  by_cases e : i = x
  · subst e
    simp
  · simp only [set_proc_procs, Function.update_noteq e, if_neg e]
    rw [e2]
    simp [Function.update_noteq e]

theorem no_current_of_unused {s : kernel K} {L : list_id K → List (Fin K.NPROC)}
    (h : inv_with O s L) (hst : ∀ p, (s.procs p).state = .UNUSED) (c : Fin K.NCPU) :
    myproc c s = none := by
  cases hp : myproc c s with
  | none => rfl
  | some p =>
    have := h.cur c p hp (by simp)
    rw [hst p] at this
    cases this

theorem allocproc_none_states {vm : vm_calls} {s t : kernel K} {L : list_id K → List (Fin K.NPROC)}
    (h : inv_with O s L) (hst : ∀ p, (s.procs p).state = .UNUSED)
    (hr : allocproc vm s = .ok (none, t)) : ∀ p, (t.procs p).state = .UNUSED := by
  unfold allocproc at hr
  split at hr
  · cases hr
  · rename_i s1 hrh
    injection hr with hr
    injection hr with _ hr
    subst hr
    obtain ⟨l, -, -, hpost, -⟩ := remove_head_wf h.wf hrh
    intro p
    rw [hpost.state p, hst p]
  · rename_i q s1 hrh
    obtain ⟨l, -, -, hpost, -⟩ := remove_head_wf h.wf hrh
    have hs1 : ∀ p, (s1.procs p).state = .UNUSED := fun p => by rw [hpost.state p, hst p]
    unfold allocproc_found at hr
    have key : ∀ (a : kernel K), (∀ p, p ≠ q → (a.procs p).state = (s1.procs p).state) →
        ∀ t2, freeproc q a = .ok t2 → ∀ p, (t2.procs p).state = .UNUSED := by
      intro a ha t2 hf p
      rw [freeproc_states hf p]
      by_cases e : p = q
      · rw [if_pos e]
      · rw [if_neg e, ha p e, hs1 p]
    split at hr
    · split at hr
      · cases hr
      · rename_i t2 hfree
        injection hr with hr
        injection hr with _ hr
        subst hr
        refine key _ (fun p e => ?_) _ hfree
        rw [allocproc_stores_other s1 q none p e]
    · split at hr
      · split at hr
        · cases hr
        · rename_i t2 hfree
          injection hr with hr
          injection hr with _ hr
          subst hr
          refine key _ (fun p e => ?_) _ hfree
          rw [store_pagetable_other _ q none p e, allocproc_stores_other s1 q _ p e]
      · injection hr with hr
        injection hr with hr _
        cases hr

theorem wakeup_loop_no_sleeper (c : Fin K.NCPU) (chan : Option (chan_t K)) (s : kernel K)
    (hst : ∀ p, (s.procs p).state ≠ .SLEEPING) :
    ∀ (l : List (Fin K.NPROC)), wakeup_loop c chan l s = .ok s
  | [] => rfl
  | p :: rest => by
    unfold wakeup_loop
    have hb : wakeup_body c chan p s = .ok s := by
      unfold wakeup_body
      by_cases h1 : some p ≠ myproc c s
      · rw [if_pos h1, if_neg (fun hc => hst p hc.1)]
        rfl
      · rw [if_neg h1]
        rfl
    rw [hb]
    exact wakeup_loop_no_sleeper c chan s hst rest

theorem kill_loop_no_sleeper (pid : Int) (s : kernel K)
    (hst : ∀ p, (s.procs p).state ≠ .SLEEPING) :
    ∀ (l : List (Fin K.NPROC)) (r : Int) (t : kernel K), kill_loop pid l s = .ok (r, t) →
      ∀ p, (t.procs p).state = (s.procs p).state
  | [], r, t, h => by
    unfold kill_loop at h
    injection h with h
    injection h with _ h
    subst h
    exact fun _ => rfl
  | q :: rest, r, t, h => by
    unfold kill_loop at h
    by_cases hq : (s.procs q).pid = pid
    · rw [if_pos hq] at h
      unfold kill_found at h
      dsimp only at h
      have hns : ¬ ((set_proc s q { s.procs q with killed := 1 }).procs q).state = .SLEEPING := by
        simp
        exact hst q
      rw [if_neg hns] at h
      simp [pure, Except.pure] at h
      rw [← h.2]
      intro p
      by_cases e : p = q
      · subst e; simp
      · simp [Function.update_noteq e]
    · rw [if_neg hq] at h
      exact kill_loop_no_sleeper pid s hst rest r t h

/-- As long as every slot is `UNUSED`, an operation that returns leaves every slot
`UNUSED`: there is no process to run, to wake or to reap. -/
theorem step_keeps_unused {s t : kernel K} {L : list_id K → List (Fin K.NPROC)}
    (h : inv_with O s L) (hst : ∀ p, (s.procs p).state = .UNUSED) (hs : step s t) :
    ∀ p, (t.procs p).state = .UNUSED := by
  have hno := no_current_of_unused h hst
  have hsl : ∀ p, (s.procs p).state ≠ .SLEEPING := fun p => by rw [hst p]; decide
  cases hs with
  | fork vm c r hr =>
    unfold fork at hr
    split at hr
    · cases hr
    · rename_i s1 hal
      injection hr with hr
      injection hr with _ hr
      subst hr
      exact allocproc_none_states h hst hal
    · rw [hno c] at hr
      cases hr
  | scheduler c hr =>
    unfold scheduler at hr
    obtain ⟨⟨curr, s1⟩, hrh, hr⟩ := bind_eq_ok hr
    obtain ⟨l, -, -, hpost, -⟩ := remove_head_wf h.wf hrh
    have hs1 : ∀ p, (s1.procs p).state = .UNUSED := fun p => by rw [hpost.state p, hst p]
    cases curr with
    | none =>
      simp [pure, Except.pure] at hr
      subst hr
      exact hs1
    | some q =>
      simp only [] at hr
      rw [if_pos (by rw [hs1 q]; decide)] at hr
      cases hr
  | yield c hr =>
    unfold yield at hr
    simp [hno c] at hr
  | sleep c chan hr =>
    unfold sleep at hr
    simp [hno c] at hr
  | wakeup c chan hr =>
    unfold wakeup at hr
    rw [wakeup_loop_no_sleeper c chan s hsl] at hr
    injection hr with hr
    subst hr
    exact hst
  | kill pid r hr =>
    unfold kill at hr
    intro p
    rw [kill_loop_no_sleeper pid s hsl _ r t hr p, hst p]
  | exit c status hr =>
    unfold exit at hr
    dsimp only at hr
    rw [hno c] at hr
    split at hr
    · cases hr
    · cases hr
  | wait vm c addr r hr =>
    unfold wait at hr
    dsimp only at hr
    rw [hno c, wait_scan_none vm none addr s _ 0
      (fun np _ _ => by rw [hst np]; decide)] at hr
    simp only [bind, Except.bind] at hr
    split at hr
    · simp [pure, Except.pure] at hr
    · cases hr
      exact hst
  | set_cpu c cpu_num r hr =>
    unfold set_cpu at hr
    split at hr
    · simp [pure, Except.pure] at hr
      rw [← hr.2]
      exact hst
    · rw [hno c] at hr
      cases hr

/-! ## `userinit` run again: the processes it cuts off -/

/-- Storing the last node `q` of the runnable list of the CPU `c` as its head, as the
closing `set_head` of `userinit` does, cuts the nodes before `q` off the list: they stay
`RUNNABLE` and are on no list any more. -/
theorem inv_with.cut_runnable {s : kernel K} {L : list_id K → List (Fin K.NPROC)}
    (h : inv_with O s L) (c : Fin K.NCPU) (q : Fin K.NPROC) (qs : List (Fin K.NPROC))
    (hl : L (.runnable c) = qs ++ [q]) :
    inv_with (O ∪ qs.toFinset)
      (set_cpus s c { s.cpus c with runnable_list_head := some q })
      (Function.update L (.runnable c) [q]) := by
  have hnd : (qs ++ [q]).Nodup := hl ▸ h.wf.nodup (.runnable c)
  have hq : q ∉ qs := fun hm => by
    have := (List.nodup_append.mp hnd).2.2 hm (List.mem_singleton_self q)
    exact this
  have hsub : ∀ l p, p ∈ (Function.update L (.runnable c) [q]) l → p ∈ L l := by
    intro l p hp
    by_cases e : l = .runnable c
    · subst e
      rw [Function.update_same, List.mem_singleton] at hp
      rw [hl, hp]
      simp
    · rwa [Function.update_noteq e] at hp
  have hback : ∀ l p, p ∈ L l → p ∉ qs → p ∈ (Function.update L (.runnable c) [q]) l := by
    intro l p hp hpq
    by_cases e : l = .runnable c
    · subst e
      rw [hl, List.mem_append] at hp
      rcases hp with hp | hp
      · exact absurd hp hpq
      · rwa [Function.update_same]
    · rwa [Function.update_noteq e]
  have hqs : ∀ p, p ∈ qs → ∀ l, p ∉ (Function.update L (.runnable c) [q]) l := by
    intro p hp l hm
    have hpl : p ∈ L (.runnable c) := by rw [hl]; exact List.mem_append_left _ hp
    have e : l = .runnable c := h.wf.disj _ _ p (hsub l p hm) hpl
    subst e
    rw [Function.update_same, List.mem_singleton] at hm
    subst hm
    exact hq hp
  refine ⟨⟨fun l => ?_, fun l l2 p h1 h2 => h.wf.disj l l2 p (hsub l p h1) (hsub l2 p h2),
      fun p hp ho => ?_⟩, fun l p hp hx => ?_, fun p hx ho h1 h2 => ?_, fun c2 p hp hx => ?_,
    fun c1 c2 p h1 h2 => ?_, fun hb c2 p hp hx => ?_, fun hb c2 => ?_, fun p ho => ?_⟩
  · rw [list_id.has_nodes_is_list]
    have hn := (list_id.has_nodes_is_list s l _).mp (h.wf.nodes l)
    by_cases e : l = .runnable c
    · subst e
      rw [Function.update_same]
      rw [hl] at hn
      have := is_list_suffix qs q [] _ hn
      refine ⟨?_, this.2⟩
      simp [list_id.head]
    · rw [Function.update_noteq e]
      have hh : l.head (set_cpus s c { s.cpus c with runnable_list_head := some q })
          = l.head s := by
        cases l with
        | runnable c2 =>
          have e2 : c2 ≠ c := fun e2 => e (by rw [e2])
          simp [list_id.head, Function.update_noteq e2]
        | _ => rfl
      rw [hh]
      exact hn
  · have ho1 : p ∉ O := fun hc => ho (Finset.mem_union_left _ hc)
    have ho2 : p ∉ qs := fun hc => ho (Finset.mem_union_right _ (List.mem_toFinset.mpr hc))
    exact h.wf.off p (fun l hm => hp l (hback l p hm ho2)) ho1
  · exact h.onl l p (hsub l p hp) hx
  · have ho1 : p ∉ O := fun hc => ho (Finset.mem_union_left _ hc)
    have ho2 : p ∉ qs := fun hc => ho (Finset.mem_union_right _ (List.mem_toFinset.mpr hc))
    obtain ⟨l, hm⟩ := h.cover p hx ho1 h1 h2
    exact ⟨l, hback l p hm ho2⟩
  · refine h.cur c2 p ?_ hx
    by_cases e : c2 = c
    · subst e; simpa using hp
    · simpa [Function.update_noteq e] using hp
  · have g : ∀ c3, ((set_cpus s c { s.cpus c with runnable_list_head := some q }).cpus c3).proc
        = (s.cpus c3).proc := by
      intro c3
      by_cases e : c3 = c
      · subst e; simp
      · simp [Function.update_noteq e]
    rw [g] at h1 h2
    exact h.cur_inj c1 c2 p h1 h2
  · exact h.bind hb c2 p (hsub _ p hp) hx
  · have g : ((set_cpus s c { s.cpus c with runnable_list_head := some q }).cpus c2).proc_list_size
        = (s.cpus c2).proc_list_size := by
      by_cases e : c2 = c
      · subst e; simp
      · simp [Function.update_noteq e]
    rw [g, h.count hb c2]
    rfl
  · rcases Finset.mem_union.mp ho with ho | ho
    · obtain ⟨h1, h2, h3⟩ := h.orph p ho
      exact ⟨h1, fun l hm => h2 l (hsub l p hm), h3⟩
    · have hp : p ∈ qs := List.mem_toFinset.mp ho
      have hpl : p ∈ L (.runnable c) := by rw [hl]; exact List.mem_append_left _ hp
      exact ⟨h.onl _ p hpl (by simp), hqs p hp, by simp⟩

/-- The end of `userinit`, whatever the runnable list of CPU 0 holds: the new process,
in transit and `RUNNABLE`, is appended and then made the head, which cuts the old nodes
off the list. -/
theorem userinit_tail_with {q : Fin K.NPROC} {a t : kernel K}
    {L : list_id K → List (Fin K.NPROC)}
    (h : inv_but O (some q) (fun _ => 0) a L) (hoff : ∀ l, q ∉ L l)
    (hst : (a.procs q).state = .RUNNABLE)
    (hcur : ∀ c, (a.cpus c).proc ≠ some q)
    (hr : (do
      let (_, s10) ← add_proc_to_list q .RUNNABLE (a.procs q).cpu_num a
      let s11 ← increase_runnable_list_size_of (s10.procs q).cpu_num s10
      set_head (some q) .RUNNABLE (s11.procs q).cpu_num s11) = .ok t) :
    (∃ O2 L2, inv_with O2 t L2) ∧ kernel.is_initialize t = kernel.is_initialize a := by
  obtain ⟨⟨r, s10⟩, hadd, hr2⟩ := bind_eq_ok hr
  dsimp only at hr2
  obtain ⟨s11, hinc, hset⟩ := bind_eq_ok hr2
  clear hr hr2
  have hi10 := add_proc_to_list_is_init hadd
  have hi11 := counter_is_init (Or.inr (Or.inl hinc))
  have hi12 := set_head_is_init hset
  refine ⟨?_, hi12.trans (hi11.trans hi10)⟩
  obtain ⟨l, hof, -, h10, hpost, hmem⟩ := h.enqueue hoff hadd
  obtain ⟨ci, hci, h11, hp11, hc11⟩ := h10.increase hinc
  have hcn10 : (s10.procs q).cpu_num = (a.procs q).cpu_num := hpost.cpu_num q
  have hcn11 : (s11.procs q).cpu_num = (a.procs q).cpu_num := by rw [hp11, hcn10]
  rw [hcn10] at hci
  have hl : l = .runnable ci := by
    unfold list_id.of at hof
    rw [hci] at hof
    exact (Option.some.inj hof).symm
  subst hl
  unfold set_head at hset
  rw [hcn11, hci] at hset
  injection hset with hset
  subst hset
  have h12 : inv_with O s11 (Function.update L (.runnable ci) (L (.runnable ci) ++ [q])) := by
    refine h11.close_on hmem ?_ ?_ ?_ ?_
    · rw [hp11, hpost.state q, hst]
      rfl
    · intro c2 hc2
      rw [hc11, hpost.proc] at hc2
      exact hcur c2 hc2
    · intro _ c2 hl
      injection hl with hl
      subst hl
      rw [hcn11]
      exact (cpus_index_val hci).symm
    · intro _ c2
      rw [counted_on (v := s11.procs q)
        (Or.inl (by rw [hp11, hpost.state q, hst])) (by rw [hcn11]; exact hci)]
      simp
  have h13 := h12.cut_runnable ci q (L (.runnable ci)) (by rw [Function.update_same])
  exact ⟨_, _, h13⟩

/-- `userinit` keeps the invariant, with the processes it cuts off the runnable list of
CPU 0 added to those left out, and leaves `is_initialize` set.  Before it has run
(`is_initialize = 0`) every slot is `UNUSED`. -/
theorem userinit_inv_with {vm : vm_calls} {PGSIZE : Nat} {initcode_name : List Nat}
    {root : Option Nat} {s t : kernel K} {L : list_id K → List (Fin K.NPROC)}
    (h : inv_with O s L)
    (hst : kernel.is_initialize s = 0 → ∀ p, (s.procs p).state = .UNUSED)
    (hr : userinit vm PGSIZE initcode_name root s = .ok t) :
    (∃ O2 L2, inv_with O2 t L2) ∧ kernel.is_initialize t ≠ 0 := by
  unfold userinit at hr
  have key : ∀ jp : kernel K → Except fault (kernel K),
      (if kernel.is_initialize s = 0 then
        ((userinit_clear (List.range K.CPUS) s).map
          (fun t => { t with is_initialize := 1 })) >>= jp
       else pure s >>= jp) = Except.ok t →
      ∃ s0, inv_with O s0 L ∧ kernel.is_initialize s0 ≠ 0 ∧ jp s0 = Except.ok t := by
    intro jp hr
    by_cases hi : kernel.is_initialize s = 0
    · rw [if_pos hi] at hr
      obtain ⟨s0, hs0, hr1⟩ := bind_eq_ok hr
      have hun := hst hi
      have hO : O = ∅ := Finset.eq_empty_of_forall_not_mem (fun p hp => by
        have := (h.orph p hp).1
        rw [hun p] at this
        cases this)
      subst hO
      have hempty : ∀ c, L (.runnable c) = [] := fun c => by
        cases hl : L (.runnable c) with
        | nil => rfl
        | cons p rest =>
          have := h.onl (.runnable c) p (by rw [hl]; exact List.mem_cons_self _ _) (by simp)
          rw [hun p] at this
          cases this
      cases hcl : userinit_clear (List.range K.CPUS) s with
      | error e => simp [hcl, Except.map] at hs0
      | ok t0 =>
        simp only [hcl, Except.map] at hs0
        injection hs0 with hs0
        subst hs0
        obtain ⟨h1, -⟩ := userinit_clear_keeps hempty _ s t0 h hun hcl
        exact ⟨{ t0 with is_initialize := 1 }, h1.same rfl rfl (fun l => by cases l <;> rfl),
          by simp, hr1⟩
    · rw [if_neg hi] at hr
      exact ⟨s, h, hi, hr⟩
  obtain ⟨s0, h0, hi0, hr1⟩ := key _ hr
  clear hr key
  dsimp only at hr1
  obtain ⟨⟨p, s1⟩, hal, hr2⟩ := bind_eq_ok hr1
  clear hr1
  dsimp only at hr2
  have hi1 := allocproc_is_init hal
  rcases allocproc_effect h0 hal with ⟨hp, -⟩ | ⟨q, rest, hl, hp, h1, hoff, hstq, hst0, hoth, hcpu⟩
  · subst hp
    cases hr2
  · subst hp
    simp only [] at hr2
    split at hr2
    · cases hr2
    · rename_i tf htf
      have hnocpu : ∀ c, (s1.cpus c).proc ≠ some q := by
        intro c hc
        rw [hcpu] at hc
        have := h0.cur c q hc (by simp)
        rw [hst0] at this
        cases this
      have h2 : inv_but O (some q) (fun _ => 0) { s1 with initproc := some q }
          (Function.update L .unused rest) :=
        h1.same rfl rfl (fun l => by cases l <;> rfl)
      have h3 := userinit_tail_with (O := O) (L := Function.update L .unused rest) ?_ hoff ?_ ?_ hr2
      · refine ⟨h3.1, ?_⟩
        rw [h3.2]
        show kernel.is_initialize s1 ≠ 0
        rw [hi1]
        exact hi0
      · refine inv_but.stores_x h2 ?_ ?_ rfl ?_
        · intro i e
          simp [Function.update_noteq e]
        · simp
        · intro l; cases l <;> rfl
      · simp
      · exact hnocpu

/-! ## The invariant in every state reachable with `userinit` among the operations -/

/-- Every state reachable from the state after `procinit`, `userinit` counted among the
operations, satisfies the invariant for some cut-off processes and node sequences, and
as long as `userinit` has not run (`is_initialize = 0`) every slot is `UNUSED`. -/
theorem reachable_userinit_inv {s : kernel K} (h : reachable_userinit s) :
    ∃ (O2 : Finset (Fin K.NPROC)) (L : list_id K → List (Fin K.NPROC)), inv_with O2 s L
      ∧ (kernel.is_initialize s = 0 → ∀ p, (s.procs p).state = .UNUSED) := by
  induction h with
  | procinit h0 =>
    obtain ⟨hi, hst⟩ := procinit_inv h0
    exact ⟨∅, _, hi, fun _ => hst⟩
  | userinit vm PGSIZE initcode_name root _ hr ih =>
    obtain ⟨O2, L, hi, hreg⟩ := ih
    obtain ⟨⟨O3, L3, h3⟩, hne⟩ := userinit_inv_with hi hreg hr
    exact ⟨O3, L3, h3, fun e => absurd e hne⟩
  | step _ hs ih =>
    obtain ⟨O2, L, hi, hreg⟩ := ih
    obtain ⟨L2, h2⟩ := step_inv hi hs
    refine ⟨O2, L2, h2, fun e => ?_⟩
    rw [step_is_init hs] at e
    exact step_keeps_unused hi (hreg e) hs

theorem reachable.to_userinit {s : kernel K} (h : reachable s) : reachable_userinit s := by
  induction h with
  | boot vm PGSIZE initcode_name root h0 h1 =>
    exact reachable_userinit.userinit vm PGSIZE initcode_name root
      (reachable_userinit.procinit h0) h1
  | step _ hs ih => exact reachable_userinit.step ih hs

theorem bound_but_none_eq (s : kernel K) (c : Fin K.NCPU) :
    bound_but none s c = (bound_count s c : Int) := by
  unfold bound_but bound_count counted
  have e : ∀ p : Fin K.NPROC,
      (if some p = (none : Option (Fin K.NPROC)) then (0 : Int)
        else if (s.procs p).cpu_num = ((c : Nat) : Int)
          ∧ ((s.procs p).state = .RUNNABLE ∨ (s.procs p).state = .RUNNING) then 1 else 0)
      = (if (s.procs p).cpu_num = ((c : Nat) : Int)
          ∧ ((s.procs p).state = .RUNNABLE ∨ (s.procs p).state = .RUNNING) then 1 else 0) := by
    intro p
    rw [if_neg (by simp)]
  rw [Finset.sum_congr rfl (fun p _ => e p), Finset.sum_boole]

/-- `scheduler` leaves every `proc_list_size` as it is. -/
theorem scheduler_size {c : Fin K.NCPU} {s t : kernel K} {L : list_id K → List (Fin K.NPROC)}
    (h : inv_with O s L) (hr : scheduler c s = .ok t) (c2 : Fin K.NCPU) :
    (t.cpus c2).proc_list_size = (s.cpus c2).proc_list_size := by
  unfold scheduler at hr
  obtain ⟨⟨curr, s1⟩, hrh, hr⟩ := bind_eq_ok hr
  obtain ⟨l, -, -, hpost, -⟩ := remove_head_wf h.wf hrh
  cases curr with
  | none =>
    simp [pure, Except.pure] at hr
    subst hr
    exact hpost.size c2
  | some q =>
    simp only [] at hr
    split at hr
    · cases hr
    · simp [pure, Except.pure] at hr
      subst hr
      rw [← hpost.size c2]
      by_cases e : c2 = c
      · subst e; simp
      · simp [Function.update_noteq e]

/-- `yield` leaves every `proc_list_size` as it is. -/
theorem yield_size {c : Fin K.NCPU} {s t : kernel K} {L : list_id K → List (Fin K.NPROC)}
    (h : inv_with O s L) (hr : yield c s = .ok t) (c2 : Fin K.NCPU) :
    (t.cpus c2).proc_list_size = (s.cpus c2).proc_list_size := by
  unfold yield at hr
  cases hp : myproc c s with
  | none => simp [hp] at hr
  | some x =>
    simp only [hp] at hr
    obtain ⟨⟨r, s2⟩, hadd, hsched⟩ := bind_eq_ok hr
    have hrun : (s.procs x).state = .RUNNING := h.cur c x hp (by simp)
    have hoff := inv_but.off_of_state h x (by simp) (Or.inl hrun)
    have hwf1 := lists_wf_set_proc h.wf x { s.procs x with state := .RUNNABLE } rfl
    obtain ⟨l, -, -, -, -, hpost⟩ := add_proc_to_list_wf hwf1 hoff
      (inv_but.not_cut_of_state h (by rw [hrun]; decide)) hadd
    have e2 : (s2.cpus c2).proc_list_size = (s.cpus c2).proc_list_size := hpost.size c2
    unfold sched at hsched
    split at hsched
    · cases hsched
    · split at hsched
      · cases hsched
      · injection hsched with hsched
        subst hsched
        rw [← e2]
        by_cases e : c2 = c
        · subst e; simp
        · simp [Function.update_noteq e]

theorem ex_userinit_twice_reachable : reachable_userinit ex_userinit_twice :=
  reachable_userinit.userinit vm_ok 4096 [105, 110, 105, 116] (some 1)
    (reachable_userinit.userinit vm_ok 4096 [105, 110, 105, 116] (some 1)
      (reachable_userinit.procinit
        (rfl : procinit (kernel.zero K0) = Except.ok ex_boot))
      (rfl : _ = Except.ok ex_userinit))
    (rfl : _ = Except.ok ex_userinit_twice)

/-- C21.  With balancing disabled, in every state reachable from the state after
`procinit` by non-interleaved executions of `userinit`, `fork`, scheduler dispatch,
`yield`, `sleep`, `wakeup`, `kill`, `exit`, `wait` and `set_cpu`, for every CPU `c` the
value of `cpus[c].proc_list_size` is the number of processes with `cpu_num = c` whose
state is `RUNNABLE` or `RUNNING`; so it is never below zero, and a dispatch or a `yield`
from such a state, on whatever CPU, leaves it as it is. -/
theorem proc_list_size_counts_bound (s : kernel K) (hb : K.BLNCFLG = false)
    (h : reachable_userinit s) (c : Fin K.NCPU) :
    (s.cpus c).proc_list_size = (bound_count s c : Int)
    ∧ 0 ≤ (s.cpus c).proc_list_size
    ∧ (∀ c2 t, scheduler c2 s = .ok t →
        (t.cpus c).proc_list_size = (s.cpus c).proc_list_size)
    ∧ (∀ c2 t, yield c2 s = .ok t →
        (t.cpus c).proc_list_size = (s.cpus c).proc_list_size) := by
  obtain ⟨O2, L, hi, -⟩ := reachable_userinit_inv h
  have e : (s.cpus c).proc_list_size = (bound_count s c : Int) := by
    rw [hi.count hb c, bound_but_none_eq]
    simp
  refine ⟨e, ?_, fun c2 t hr => scheduler_size hi hr c, fun c2 t hr => yield_size hi hr c⟩
  rw [e]
  exact Int.natCast_nonneg _

theorem proc_list_size_counts_bound_witness :
    K0.BLNCFLG = false ∧ reachable_userinit ex_userinit_twice
    ∧ ((ex_userinit_twice.cpus 0).proc_list_size = (bound_count ex_userinit_twice 0 : Int)
      ∧ 0 ≤ (ex_userinit_twice.cpus 0).proc_list_size
      ∧ (∀ c2 t, scheduler c2 ex_userinit_twice = .ok t →
          (t.cpus 0).proc_list_size = (ex_userinit_twice.cpus 0).proc_list_size)
      ∧ (∀ c2 t, yield c2 ex_userinit_twice = .ok t →
          (t.cpus 0).proc_list_size = (ex_userinit_twice.cpus 0).proc_list_size))
    ∧ (ex_userinit_twice.cpus 0).proc_list_size = 2
    ∧ bound_count ex_userinit_twice 0 = 2 :=
  ⟨rfl, ex_userinit_twice_reachable,
    proc_list_size_counts_bound ex_userinit_twice rfl ex_userinit_twice_reachable 0,
    by decide, by decide⟩

/-- With balancing disabled, in every reachable state (`userinit` counted among the
operations) a process on the runnable list of the CPU `c` has `cpu_num = c`. -/
theorem runnable_nodes_bound {s : kernel K} (hb : K.BLNCFLG = false)
    (h : reachable_userinit s) (c : Fin K.NCPU) (p : Fin K.NPROC)
    (hp : p ∈ nodes_of s (.runnable c)) : (s.procs p).cpu_num = ((c : Nat) : Int) := by
  obtain ⟨O2, L, hi, -⟩ := reachable_userinit_inv h
  rw [hi.wf.nodes_of_eq] at hp
  exact hi.bind hb c p hp (by simp)

/-- C22, the failing run.  On two CPUs with balancing on: after boot the init process
(slot 0, bound to CPU 0) is dispatched on CPU 0, sleeps, is woken, is dispatched on
CPU 0 again, sleeps again and is woken again.  The second `wakeup` picks CPU 1, the
least used one, and appends the process to the runnable list of CPU 1 without storing
the choice in `cpu_num`: in this reachable state slot 0 is on the runnable list of
CPU 1 and its `cpu_num` is still 0. -/
theorem wakeup_leaves_stale_cpu_num :
    K1.BLNCFLG = true
    ∧ reachable ex_balanced_moved
    ∧ nodes_of ex_balanced_moved (.runnable 1) = [0]
    ∧ (ex_balanced_moved.procs 0).state = .RUNNABLE
    ∧ (ex_balanced_moved.procs 0).cpu_num = 0
    ∧ ∃ (p : Fin K1.NPROC) (c : Fin K1.NCPU), p ∈ nodes_of ex_balanced_moved (.runnable c)
        ∧ (ex_balanced_moved.procs p).cpu_num ≠ ((c : Nat) : Int) :=
  ⟨rfl, ex_balanced_moved_reachable, by decide, by decide, by decide,
    0, 1, by decide, by decide⟩
end Xv6
